import Mathlib

/-! # ecglib T-wave delineator: shallow embedding and verified properties

Source files embedded here: under
`ecglib/src/delineators/twave/ecglib/delineator/twave/` the files
`generalstructure.hpp`, `processing.cpp`, `delineateFinder.cpp`, `delineate.cpp`
and `twaveDelineator.cpp`; under `ecglib/src/core/ecglib/` the annotation
classes and globalizers of `ecglib.hpp`, `annotation.hpp`, `annotation.cpp` and
`beat.hpp`.

Modelling conventions.

* C++ `double` values are exact rationals (`ℚ`); `int`, `std::size_t` and
  `arma::uword` values are unbounded integers (`ℤ`) or naturals. Two places
  carry the limits of a `double` explicitly: `linearRegressionDouble` rounds
  every operation of the regression with `roundDouble` (53 significant bits,
  to nearest, ties to even), and `strtod` reports the range error `ERANGE` on
  which `std::stod` throws.
* `arma::rowvec`, `arma::uvec` and `std::vector` are `List`s.
* A function that can throw (Armadillo bounds checks, `std::vector::at`) or
  that steps outside the defined behaviour of C++ (an unchecked read outside a
  vector, `std::vector::erase` at a position that is not an element) returns
  `Option`; `none` stands for "does not return normally".
* The C math library functions `atan`, `tan` and `sqrt` are parameters
  (structure `Libm`): the general theorems hold for every choice of them; the
  evaluations on concrete inputs use the placeholder `libm0`, on inputs whose
  stated result does not depend on these functions.
-/

namespace Ecglib

/-! ## Numeric helpers -/

/-- C `std::trunc` followed by a conversion to an integer: rounding toward zero. -/
def ctrunc (q : ℚ) : ℤ := if 0 ≤ q then ⌊q⌋ else ⌈q⌉

/-- C `std::round`: nearest integer, halves rounded away from zero. -/
def cround (q : ℚ) : ℤ := if 0 ≤ q then ⌊q + 1 / 2⌋ else ⌈q - 1 / 2⌉

/-- C `std::ceil`. -/
def cceil (q : ℚ) : ℤ := ⌈q⌉

/-- C `std::floor`. -/
def cfloor (q : ℚ) : ℤ := ⌊q⌋

/-- The functions of the C math library the delineator calls; they are not part
of the repository and are kept abstract. -/
structure Libm where
  atan : ℚ → ℚ
  tan : ℚ → ℚ
  sqrt : ℚ → ℚ

/-! ## Vector helpers (Armadillo and `std::vector`) -/

/-- Checked element read `v(i)` / `v.at(i)`, also used for the unchecked
`v[i]`: outside `0 .. n-1` the read does not return normally. -/
def vecAt {α : Type} (v : List α) (i : ℤ) : Option α :=
  if 0 ≤ i then v.get? i.toNat else none

/-- Sub-vector `v(arma::span(a, b))`; Armadillo throws unless `a ≤ b < n`
(a negative bound is a huge unsigned one). -/
def span {α : Type} (v : List α) (a b : ℤ) : Option (List α) :=
  if 0 ≤ a ∧ a ≤ b ∧ b < v.length then some ((v.drop a.toNat).take (b - a + 1).toNat) else none

/-- Indices (counted from `i`) of the elements satisfying `p`: the loop
`for i: if (p(v[i])) out.push_back(i)` and `arma::find`. -/
def indicesFrom {α : Type} (p : α → Bool) : ℕ → List α → List ℤ
  | _, [] => []
  | i, a :: as => if p a then (i : ℤ) :: indicesFrom p (i + 1) as else indicesFrom p (i + 1) as

/-- Indices of the elements satisfying `p`, ascending. -/
def indicesWhere {α : Type} (p : α → Bool) (v : List α) : List ℤ := indicesFrom p 0 v

/-- `arma::min` / `.min()` of a vector; throws on an empty one. -/
def vecMin : List ℚ → Option ℚ
  | [] => none
  | a :: as => some (as.foldl min a)

/-- `arma::max` / `.max()` of a vector; throws on an empty one. -/
def vecMax : List ℚ → Option ℚ
  | [] => none
  | a :: as => some (as.foldl max a)

/-- `arma::accu`. -/
def accu (v : List ℚ) : ℚ := v.foldl (fun s a => s + a) 0

/-- `std::vector::erase(begin() + pos)`: defined only when `pos` is the
position of an element. -/
def vecErase {α : Type} (v : List α) (pos : ℤ) : Option (List α) :=
  if 0 ≤ pos ∧ pos < v.length then some (v.eraseIdx pos.toNat) else none

/-- A loop that applies a fallible body to every element in order and collects
the results; it fails as soon as one body fails. -/
def mapOpt {α β : Type} (f : α → Option β) : List α → Option (List β)
  | [] => some []
  | a :: as =>
    match f a with
    | some b =>
      match mapOpt f as with
      | some bs => some (b :: bs)
      | none => none
    | none => none

/-- Scan of `std::max_element` after its first element: `l`/`li` is the largest
element so far and its index, `i` the index of the next element. -/
def max_elementFrom {α : Type} (cmp : α → α → Bool) : List α → ℕ → α → ℕ → ℕ
  | [], _, _, li => li
  | a :: as, i, l, li =>
    if cmp l a then max_elementFrom cmp as (i + 1) a i else max_elementFrom cmp as (i + 1) l li

/-- `std::max_element(first, last, cmp)` as a distance from `first`: the first
of the largest elements; `0` (that is `last`) for an empty range. -/
def max_element {α : Type} (cmp : α → α → Bool) : List α → ℕ
  | [] => 0
  | a :: as => max_elementFrom cmp as 1 a 0

/-! ## Data model (`generalstructure.hpp`) -/

/-- `enum candidateLabel`. -/
inductive candidateLabel where
  | slurUnrelated
  | slurRising
  | slurFalling
  | peak
  | peakUnrelated
  | sluredPeak
  | sluredPeakUnrelated
  deriving DecidableEq

/-- The integer value of an enumerator. -/
def candidateLabel.toInt : candidateLabel → ℤ
  | .slurUnrelated => 0
  | .slurRising => 1
  | .slurFalling => -1
  | .peak => 2
  | .peakUnrelated => -2
  | .sluredPeak => 3
  | .sluredPeakUnrelated => -3

/-- `struct candidate`. The two range arrays are split into their two cells;
the constructor of the source leaves them uninitialised, here they start at 0
(every candidate the delineator builds has all four cells written before they
are read). -/
structure candidate where
  label : candidateLabel := candidateLabel.slurUnrelated
  a0 : ℚ := 0
  b0 : ℚ := 0
  a1 : ℚ := 0
  b1 : ℚ := 0
  y : ℚ := 0
  x : ℤ := 0
  yOrigin : ℚ := 0
  xOrigin : ℤ := 0
  flatnessSamples : ℚ := 0
  skewness : ℚ := 0
  distortion : ℚ := 0
  risingRangeInfo0 : ℤ := 0
  risingRangeInfo1 : ℤ := 0
  candidateRangeInfo0 : ℤ := 0
  candidateRangeInfo1 : ℤ := 0
  featureSet : List ℚ := []
  deriving DecidableEq

/-- `candidate::get_risingRangeInfo(index)`: cell 1 for every `index >= 1`. -/
def candidate.get_risingRangeInfo (c : candidate) (index : ℤ) : ℤ :=
  if index ≥ 1 then c.risingRangeInfo1 else c.risingRangeInfo0

/-- `candidate::get_candidateRangeInfo(index)`: cell 1 for every `index >= 1`. -/
def candidate.get_candidateRangeInfo (c : candidate) (index : ℤ) : ℤ :=
  if index ≥ 1 then c.candidateRangeInfo1 else c.candidateRangeInfo0

/-- `candidate::set_risingRangeInfo(val, index)`. -/
def candidate.set_risingRangeInfo (c : candidate) (val index : ℤ) : candidate :=
  if index ≥ 1 then { c with risingRangeInfo1 := val } else { c with risingRangeInfo0 := val }

/-- `candidate::set_candidateRangeInfo(val, index)`. -/
def candidate.set_candidateRangeInfo (c : candidate) (val index : ℤ) : candidate :=
  if index ≥ 1 then { c with candidateRangeInfo1 := val } else { c with candidateRangeInfo0 := val }

/-- `candidate::set_label`. -/
def candidate.set_label (c : candidate) (val : candidateLabel) : candidate :=
  { c with label := val }

/-- `struct annotation`: the output of one delineation. The field `on` of the
source is `on_` here (`on` is a reserved word). `rulesHit` is the
`unordered_map` of counters, kept as an association list (last write first);
`lastCandidate` is left uninitialised by the source's constructor and starts
at 0 here. -/
structure annotation where
  on_ : ℚ := -1
  peak : List ℚ := []
  off : ℚ := -1
  lastCandidate : ℚ := 0
  flatness : List ℚ := []
  distortion : List ℚ := []
  skewness : List ℚ := []
  rulesHit : List (String × ℕ) := []
  deriving DecidableEq

/-- `rulesHit[name]` read: the counter last written under `name`, 0 if none. -/
def rulesHitAt (hits : List (String × ℕ)) (name : String) : ℕ :=
  match hits.find? (fun e => e.1 == name) with
  | some e => e.2
  | none => 0

/-! ## `delineate::cleanUpCandidates` (`delineate.cpp`) -/

/-- The `while` loop of `cleanUpCandidates`: `i` counts the candidates erased
so far, the head of the index list is `indexCandidates.at(0)`. -/
def cleanUpLoop : List ℤ → ℕ → List candidate → Option (List candidate)
  | [], _, candids => some candids
  | idx :: rest, i, candids =>
    match vecErase candids (idx - (i : ℤ)) with
    | some candids1 => cleanUpLoop rest (i + 1) candids1
    | none => none

/-- `delineate::cleanUpCandidates(candids, indexCandidates)`: both arguments are
in/out; the index list comes back empty. -/
def cleanUpCandidates (candids : List candidate) (indexCandidates : List ℤ) :
    Option (List candidate × List ℤ) :=
  match cleanUpLoop indexCandidates 0 candids with
  | some candids1 => some (candids1, [])
  | none => none

/-! ## Candidate selectors and peak ranking (`processing.cpp`) -/

/-- `postProcessingRules::typeCandidates`: indices of the candidates whose label
has the integer value `type`. -/
def typeCandidates (candids : List candidate) (type : ℤ) : List ℤ :=
  indicesWhere (fun c => decide (c.label.toInt = type)) candids

/-- `postProcessingRules::peakCandidates`. -/
def peakCandidates (candids : List candidate) : List ℤ := typeCandidates candids 2

/-- `postProcessingRules::risingSlurCandidates`. -/
def risingSlurCandidates (candids : List candidate) : List ℤ := typeCandidates candids 1

/-- `postProcessingRules::fallingSlurCandidates`. -/
def fallingSlurCandidates (candids : List candidate) : List ℤ := typeCandidates candids (-1)

/-- `postProcessingRules::slurCandidates`. -/
def slurCandidates (candids : List candidate) : List ℤ := typeCandidates candids 0

/-- `postProcessingRules::risingFallingslurCandidates`: rising slurs first,
then falling slurs. -/
def risingFallingslurCandidates (candids : List candidate) : List ℤ :=
  risingSlurCandidates candids ++ fallingSlurCandidates candids

/-- The comparison `cmp` of `processing.cpp`: `lhs.get_y() < rhs.get_y()`. -/
def cmp (lhs rhs : candidate) : Bool := decide (lhs.y < rhs.y)

/-- The copy loop `candidsTMP.push_back(candids[index[i]])`. -/
def pickCandidates (candids : List candidate) (index : List ℤ) : Option (List candidate) :=
  mapOpt (fun i => vecAt candids i) index

/-- `postProcessingRules::candidateMax(candids, amp, index)`; `amp` and `index`
are in/out and keep their value on an empty list. -/
def candidateMax (candids : List candidate) (amp : ℚ) (index : ℤ) : Option (ℚ × ℤ) :=
  if candids.length > 0 then do
    let max_it := max_element cmp candids
    let c ← vecAt candids max_it
    some (c.y, (max_it : ℤ))
  else some (amp, index)

/-- `postProcessingRules::candidateSecondMax(candids, amp, index)`. An iterator
is dereferenced only in the branch that the source evaluates. -/
def candidateSecondMax (candids : List candidate) (amp : ℚ) (index : ℤ) : Option (ℚ × ℤ) :=
  if candids.length > 0 then do
    let max_index : ℤ := max_element cmp candids
    let max_index_part1 : ℤ := max_element cmp (candids.take max_index.toNat)
    let max_index_part2 : ℤ := max_index + 1 + max_element cmp (candids.drop (max_index.toNat + 1))
    let index1 ←
      if max_index ≠ 0 then
        if max_index < (candids.length : ℤ) - 1 then do
          let p1 ← vecAt candids max_index_part1
          let p2 ← vecAt candids max_index_part2
          some (if p1.y > p2.y then max_index_part1 else max_index_part2)
        else some max_index_part1
      else
        if max_index < (candids.length : ℤ) - 1 then some max_index_part2 else some (-1)
    let amp1 ←
      if index1 ≠ -1 then
        if index1 ≠ max_index_part1 then do
          let p2 ← vecAt candids max_index_part2
          some p2.y
        else do
          let p1 ← vecAt candids max_index_part1
          some p1.y
      else some 0
    some (amp1, index1)
  else some (amp, index)

/-- `postProcessingRules::mainPeak(candids, indexPeakCandidates, maxPeakIndex,
maxPeakAmplitude)`: returns `(maxPeakAmplitude, maxPeakIndex)`. -/
def mainPeak (candids : List candidate) (indexPeakCandidates : List ℤ)
    (maxPeakIndex : ℤ) (maxPeakAmplitude : ℚ) : Option (ℚ × ℤ) := do
  let candidsTMP ← pickCandidates candids indexPeakCandidates
  candidateMax candidsTMP maxPeakAmplitude maxPeakIndex

/-! ## Filtering rules (`processing.cpp`) -/

/-- `preProcessingRules::fewPointsCandidates`. -/
def fewPointsCandidates (candids : List candidate) (minPoints : ℚ) : List ℤ :=
  indicesWhere
    (fun c => decide (((c.get_risingRangeInfo 1 - c.get_risingRangeInfo 0 : ℤ) : ℚ) < minPoints))
    candids

/-- `postProcessingRules::lowAmplitudeMainPeak`. -/
def lowAmplitudeMainPeak (candids : List candidate) (minValidAmplitudeMainPeak
    percentMainePeak : ℚ) : Option (List ℤ) := do
  let indexPeakCandidates := peakCandidates candids
  let (mainPeakAmplitude, _) ← mainPeak candids indexPeakCandidates (-1) 0
  if mainPeakAmplitude < minValidAmplitudeMainPeak then
    some (indicesWhere (fun c => decide (c.y < mainPeakAmplitude * percentMainePeak)) candids)
  else some []

/-- The test of the loop body of `lowAmplitudePeaks` on the peak candidate `c`. -/
def peakMostlySlur (mainPeakAmplitude minValidAmplitude percentPeak : ℚ) (c : candidate) : ℚ :=
  if mainPeakAmplitude > minValidAmplitude then
    (mainPeakAmplitude - minValidAmplitude) * percentPeak - (c.y - minValidAmplitude)
  else mainPeakAmplitude * (1 - percentPeak) - c.y

/-- The loop `for i: if (test(candids[index[i]])) out.push_back(index[i])` of
the rules that walk the peak indices. -/
def filterIndices (candids : List candidate) (p : candidate → Bool) :
    List ℤ → Option (List ℤ)
  | [] => some []
  | i :: rest => do
    let c ← vecAt candids i
    let out ← filterIndices candids p rest
    some (if p c then i :: out else out)

/-- `postProcessingRules::lowAmplitudePeaks`. -/
def lowAmplitudePeaks (candids : List candidate) (minValidAmplitude percentPeak : ℚ) :
    Option (List ℤ) := do
  let indexPeakCandidates := peakCandidates candids
  let (mainPeakAmplitude, _) ← mainPeak candids indexPeakCandidates (-1) 0
  filterIndices candids
    (fun c => decide (peakMostlySlur mainPeakAmplitude minValidAmplitude percentPeak c > 5 / 1000))
    indexPeakCandidates

/-- `postProcessingRules::inconsistentPeaks`. -/
def inconsistentPeaks (candids : List candidate) (maxDelatAplitudeNotches : ℚ) :
    Option (List ℤ) := do
  let indexPeakCandidates := peakCandidates candids
  let (mainPeakAmplitude, _) ← mainPeak candids indexPeakCandidates (-1) 0
  filterIndices candids (fun c => decide (mainPeakAmplitude - c.y > maxDelatAplitudeNotches))
    indexPeakCandidates

/-- `postProcessingRules::unrelatedSlure`. -/
def unrelatedSlure (candids : List candidate) : List ℤ := slurCandidates candids

/-- `postProcessingRules::keepJustTwoPeaks`. The first `erase` is executed
whatever `mainPeakIndex` is, also when it is still `-1`. -/
def keepJustTwoPeaks (candids : List candidate) : Option (List ℤ) := do
  let indexPeakCandidates := peakCandidates candids
  let candidsTMP ← pickCandidates candids indexPeakCandidates
  let (_, mainPeakIndex) ← candidateMax candidsTMP 0 (-1)
  let (_, secondPeakIndex) ← candidateSecondMax candidsTMP 0 (-1)
  let index1 ← vecErase indexPeakCandidates mainPeakIndex
  if secondPeakIndex ≠ -1 then
    if secondPeakIndex > mainPeakIndex then vecErase index1 (secondPeakIndex - 1)
    else vecErase index1 secondPeakIndex
  else some index1

/-- `postProcessingRules::intersectionTwoCandidates`, returning `xIntersect`.
The replacement value of the last `if` is `std::ceil` of an integer division of
a comparison result (0 or 1) by 2. -/
def intersectionTwoCandidates (candids1 candids2 : candidate) : ℤ :=
  let db : ℚ := if candids2.x > candids1.x then candids1.b1 - candids2.b0
    else candids2.b1 - candids1.b0
  let ac : ℚ := if candids2.x > candids1.x then candids2.a0 - candids1.a1
    else candids1.a0 - candids2.a1
  let xIntersect : ℤ := if ac > 1 / 10000000000 then cceil |db / ac| else -1
  if xIntersect < candids1.get_risingRangeInfo 2 ∨ xIntersect > candids2.get_risingRangeInfo 1 then
    cceil ((Int.tdiv
      (if candids1.get_risingRangeInfo 2 + xIntersect > candids2.get_risingRangeInfo 1 then 1 else 0)
      2 : ℤ) : ℚ)
  else xIntersect

/-- One iteration of the loop of `convertPeakToSlur` on the peak index `idx`:
whether `idx` is pushed. -/
def convertPeakToSlurTest (wave : List ℚ) (candids : List candidate)
    (minValidAmplitudePeak : ℚ) (idx : ℤ) : Option Bool := do
  let c ← vecAt candids idx
  let before ←
    if idx > 0 then do
      let l ← vecAt candids (idx - 1)
      let w ← vecAt wave (intersectionTwoCandidates l c)
      some (decide (c.y - w < minValidAmplitudePeak))
    else some false
  if before then some true
  else if idx < (candids.length : ℤ) - 1 then do
    let r ← vecAt candids (idx + 1)
    let w ← vecAt wave (intersectionTwoCandidates c r)
    some (decide (c.y - w < minValidAmplitudePeak))
  else some false

/-- The loop of `convertPeakToSlur` over the peak indices left. -/
def convertPeakToSlurLoop (wave : List ℚ) (candids : List candidate)
    (minValidAmplitudePeak : ℚ) : List ℤ → Option (List ℤ)
  | [] => some []
  | idx :: rest => do
    let hit ← convertPeakToSlurTest wave candids minValidAmplitudePeak idx
    let out ← convertPeakToSlurLoop wave candids minValidAmplitudePeak rest
    some (if hit then idx :: out else out)

/-- `postProcessingRules::convertPeakToSlur`. -/
def convertPeakToSlur (wave : List ℚ) (candids : List candidate)
    (minValidAmplitudePeak : ℚ) : Option (List ℤ) := do
  let indexPeakCandidates := peakCandidates candids
  let (_, mainPeakIndex) ← mainPeak candids indexPeakCandidates (-1) 0
  let index1 ←
    if indexPeakCandidates.length > 0 then vecErase indexPeakCandidates mainPeakIndex
    else some indexPeakCandidates
  convertPeakToSlurLoop wave candids minValidAmplitudePeak index1

/-- `postProcessingRules::nonMeasurableSignal`. -/
def nonMeasurableSignal (candids : List candidate) (nonMeasurableVoltage : ℚ) : Option Bool := do
  let indexPeakCandidates := peakCandidates candids
  let (mainPeakAmplitude, _) ← mainPeak candids indexPeakCandidates (-1) 0
  some (decide (mainPeakAmplitude < nonMeasurableVoltage))

/-! ## Geometry (`delineateFinder.cpp`) -/

/-- `arma::linspace(a, b, b - a + 1)` for integer bounds: `a, a+1, .., b`. -/
def linspace (a b : ℤ) : List ℚ :=
  (List.range (b - a + 1).toNat).map (fun k => ((a + (k : ℤ) : ℤ) : ℚ))

/-- Element-wise product `x % y`; Armadillo throws on vectors of different
lengths. -/
def schur (x y : List ℚ) : Option (List ℚ) :=
  if x.length = y.length then some (List.zipWith (fun a b => a * b) x y) else none

/-- `delineateFinder::linearRegression(y, leftBoundX, rightBoundX, a, b)`,
returning `(a, b)`, in exact arithmetic; `linearRegressionDouble` is the same
computation with the rounding of `double` arithmetic. -/
def linearRegression (y : List ℚ) (leftBoundX rightBoundX : ℤ) : Option (ℚ × ℚ) := do
  let n : ℚ := (y.length : ℚ)
  let x := linspace leftBoundX rightBoundX
  let x2 := x.map (fun v => v ^ 2)
  let divisor : ℚ := n * accu x2 - (accu x) ^ 2
  if |divisor| > 1 / 10000 then do
    let xy ← schur x y
    some ((n * accu xy - accu x * accu y) / divisor,
      (accu x2 * accu y - accu x * accu xy) / divisor)
  else some (0, 0)

/-- `delineateFinder::intersectionLine(a0, b0, a1, b1, a, b, angle)`, returning
`(a, b, angle)`. -/
def intersectionLine (m : Libm) (a0 b0 a1 b1 : ℚ) : ℚ × ℚ × ℚ :=
  let d_b : ℚ := b1 - b0
  let a_c : ℚ := a0 - a1
  let x : ℚ := if a_c ≠ 0 then d_b / a_c else 0
  let y : ℚ := a0 * x + b0
  let pi : ℚ := 31416 / 10000
  let at0 : ℚ := m.atan a0 * 180 / pi
  let at1 : ℚ := m.atan a1 * 180 / pi
  let bisector0 : ℚ := 90 + (at0 + at1) / 2
  let bisector : ℚ := if bisector0 = 90 then m.atan 100 * 180 / pi else bisector0
  let angle : ℚ := 895 / 10 - bisector
  let a : ℚ := m.tan (bisector * pi / 180)
  (a, y - a * x, angle)

/-- `delineateFinder::peakOriginFinder(wave, shift, a0, b0, a1, b1, x, y,
bisectAngle)`, returning `(x, y, bisectAngle)`. -/
def peakOriginFinder (m : Libm) (wave : List ℚ) (shift : ℤ) (a0 b0 a1 b1 : ℚ) :
    Option (ℤ × ℚ × ℚ) := do
  let (aBisect, bBisect, bisectAngle) := intersectionLine m a0 b0 a1 b1
  let rangeX := linspace 1 wave.length
  let rangeY := rangeX.map (fun v => aBisect * (v + (shift : ℚ)) + bBisect)
  let diff ← if rangeY.length = wave.length then
    some (List.zipWith (fun a b => a - b) rangeY wave) else none
  let deltaError := diff.map (fun v => v ^ 2)
  let dmin ← vecMin deltaError
  let xIntersectionIndex := (indicesWhere (fun v => decide (v = dmin)) deltaError).take 1
  let i ← vecAt xIntersectionIndex 0
  let rx ← vecAt rangeX i
  let x : ℤ := ctrunc (min rx ((wave.length : ℚ) - 1))
  let y ← vecAt wave x
  some (x + shift, y, bisectAngle)

/-- `delineateFinder::peakFinder(wave, deltaAmplitude, x, y, flatness)`,
returning `(x, y, flatness)`. -/
def peakFinder (wave : List ℚ) (deltaAmplitude : ℚ) : Option (ℤ × ℚ × ℤ) := do
  let wmax ← vecMax wave
  let indexPeaks := indicesWhere (fun v => decide (v ≥ wmax - deltaAmplitude)) wave
  let indexPeakMid : ℤ := cround ((indexPeaks.length : ℚ) / 2)
  let x ← vecAt indexPeaks (max 0 (indexPeakMid - 1))
  let y ← vecAt wave x
  some (x, y, (indexPeaks.length : ℤ))

/-- The first index where `v` equals `val`, as `arma::find(v == val, 1)`
followed by the checked read of its element 0. -/
def findFirstEq (v : List ℚ) (val : ℚ) : Option ℤ :=
  vecAt ((indicesWhere (fun w => decide (w = val)) v).take 1) 0

/-- The fit of one edge in `delineatorsInfo`: the regression of the window of
5 samples on each side of `slopeIndex`, clipped to the candidate. -/
def edgeFit (waveCandidate : List ℚ) (slopeIndex : ℤ) : Option (ℚ × ℚ) := do
  let window : ℤ := 5
  let windowLowerBound : ℤ := max 0 (slopeIndex - window)
  let windowUpperBound : ℤ := min ((waveCandidate.length : ℤ) - 1) (slopeIndex + window)
  let y ← span waveCandidate windowLowerBound windowUpperBound
  linearRegression y windowLowerBound windowUpperBound

/-- Step 01 of `delineatorsInfo`: `maxSlopeIndex(0)` and `minSlopeIndex(0)`. -/
def slopeIndices (derivativeCandidate : List ℚ) (risingRangeEnd : ℤ) : Option (ℤ × ℤ) := do
  let dRise ← span derivativeCandidate 0 risingRangeEnd
  let dRiseMax ← vecMax dRise
  let maxSlopeIndex ← findFirstEq dRise dRiseMax
  let dFall ← span derivativeCandidate risingRangeEnd ((derivativeCandidate.length : ℤ) - 1)
  let dFallMin ← vecMin dFall
  let minSlopeRel ← findFirstEq dFall dFallMin
  some (maxSlopeIndex, risingRangeEnd + minSlopeRel)

/-- Step 04 of `delineatorsInfo`: the setters. -/
def setDelineators (m : Libm) (candid : candidate) (waveStart : ℤ) (a0 b0 a1 b1 : ℚ)
    (x : ℤ) (y : ℚ) (xIntersect : ℤ) (yIntersect : ℚ) (flatness : ℤ) (angleIntersect : ℚ) :
    candidate :=
  let xc : ℤ := x + waveStart
  let xOrigin : ℤ := xIntersect + waveStart
  let peakDistX : ℚ := ((xc - xOrigin : ℤ) : ℚ) ^ 2
  let peakDistY : ℚ := (y - yIntersect) ^ 2
  { candid with
    a0 := a0, b0 := b0 - a0 * (waveStart : ℚ), a1 := a1, b1 := b1 - a1 * (waveStart : ℚ),
    x := xc, y := y, xOrigin := xOrigin, yOrigin := yIntersect,
    flatnessSamples := (flatness : ℚ), skewness := angleIntersect,
    distortion := m.sqrt (peakDistX + peakDistY) }

/-- `delineateFinder::delineatorsInfo(wave, derivative, candid, deltaAmplitude)`,
returning the updated candidate. -/
def delineatorsInfo (m : Libm) (wave derivative : List ℚ) (candid : candidate)
    (deltaAmplitude : ℚ) : Option candidate := do
  let waveStart := candid.get_candidateRangeInfo 0
  let waveEnd := candid.get_candidateRangeInfo 1
  let risingRangeStart := candid.get_risingRangeInfo 0 - waveStart
  let risingRangeEnd := candid.get_risingRangeInfo 1 - waveStart
  let waveCandidate ← span wave waveStart waveEnd
  let derivativeCandidate ← span derivative waveStart (waveEnd - 1)
  let slopes ← slopeIndices derivativeCandidate risingRangeEnd
  let fit0 ← edgeFit waveCandidate slopes.1
  let fit1 ← edgeFit waveCandidate slopes.2
  let wOrigin ← span waveCandidate slopes.1 slopes.2
  let origin ← peakOriginFinder m wOrigin slopes.1 fit0.1 fit0.2 fit1.1 fit1.2
  let wPeak ← span waveCandidate risingRangeStart risingRangeEnd
  let pk ← peakFinder wPeak deltaAmplitude
  some (setDelineators m candid waveStart fit0.1 fit0.2 fit1.1 fit1.2
    (pk.1 + risingRangeStart) pk.2.1 origin.1 origin.2.1 pk.2.2 origin.2.2)

/-! ## Merge rule and slur classifier (`processing.cpp`) -/

/-- The two nested label tests and the amplitude test of the loop body of
`meargingCandidates` on the pair `left = candids[i-1]`, `right = candids[i]`:
whether the pair is merged. `wave[xIntersect]` is read as soon as the label
tests pass. -/
def meargingTest (wave : List ℚ) (minAmplitudeFlatness : ℚ) (left right : candidate) :
    Option Bool :=
  if right.label.toInt ≠ 0 ∧ left.label.toInt ≠ 0 then
    if |right.label.toInt| ≠ 1 ∨ |left.label.toInt| ≠ 1 then do
      let xIntersect := intersectionTwoCandidates left right
      let w ← vecAt wave xIntersect
      some (decide (max left.y right.y - w < minAmplitudeFlatness ∧
        |left.y - right.y| < minAmplitudeFlatness))
    else some false
  else some false

/-- The `mergedCandidate` built in the loop body of `meargingCandidates` from
`left = candids[i-1]` and `right = candids[i]`. -/
def mergedCandidate (m : Libm) (wave : List ℚ) (left right : candidate) : Option candidate := do
  let x : ℤ := Int.tdiv (left.x + right.x) 2
  let y ← vecAt wave x
  let flatness : ℤ := ctrunc (((right.x - left.x + 1 : ℤ) : ℚ) +
    ((cround ((right.flatnessSamples + left.flatnessSamples) / 2) : ℤ) : ℚ))
  let c0 : candidate := {}
  let c1 := (c0.set_candidateRangeInfo (left.get_candidateRangeInfo 0) 0).set_candidateRangeInfo
    (right.get_candidateRangeInfo 1) 1
  let c2 := (c1.set_risingRangeInfo (left.get_risingRangeInfo 0) 0).set_risingRangeInfo
    (right.get_risingRangeInfo 1) 1
  let w ← span wave (c2.get_candidateRangeInfo 0) (c2.get_candidateRangeInfo 1)
  let (xIntersect, yIntersect, angleIntersect) ←
    peakOriginFinder m w (c2.get_candidateRangeInfo 0) left.a0 left.b0 right.a1 right.b1
  let peakDistX : ℚ := ((x - xIntersect : ℤ) : ℚ) ^ 2
  let peakDistY : ℚ := (y - yIntersect) ^ 2
  some { c2 with
    a0 := left.a0, b0 := left.b0, a1 := right.a1, b1 := right.b1,
    x := x, y := y, flatnessSamples := (flatness : ℚ),
    xOrigin := xIntersect, yOrigin := yIntersect, skewness := angleIntersect,
    distortion := m.sqrt (peakDistX + peakDistY),
    label := candidateLabel.peak }

/-- The `while` loop of `meargingCandidates`; the state is the loop index `i`,
the candidate vector (mutated by `insert`) and `indexMargedCandidates`. Every
iteration brings `i` closer to `candids.size()`, the first argument bounds the
number of iterations. -/
def meargingLoop (m : Libm) (wave : List ℚ) (minAmplitudeFlatness : ℚ) :
    ℕ → ℕ → List candidate → List ℤ → Option (List candidate × List ℤ)
  | 0, i, candids, acc => if i < candids.length then none else some (candids, acc)
  | fuel + 1, i, candids, acc =>
    if i < candids.length then
      match vecAt candids ((i : ℤ) - 1), vecAt candids (i : ℤ) with
      | some left, some right =>
        match meargingTest wave minAmplitudeFlatness left right with
        | some true =>
          match mergedCandidate m wave left right with
          | some mc =>
            meargingLoop m wave minAmplitudeFlatness fuel (i + 2) (candids.insertIdx (i + 1) mc)
              (acc ++ [(i : ℤ) - 1, (i : ℤ)])
          | none => none
        | some false => meargingLoop m wave minAmplitudeFlatness fuel (i + 1) candids acc
        | none => none
      | _, _ => none
    else some (candids, acc)

/-- `postProcessingRules::meargingCandidates(wave, candids, minAmplitudeFlatness)`:
returns the mutated candidate vector and the indices to remove. -/
def meargingCandidates (m : Libm) (wave : List ℚ) (candids : List candidate)
    (minAmplitudeFlatness : ℚ) : Option (List candidate × List ℤ) :=
  meargingLoop m wave minAmplitudeFlatness candids.length 1 candids []

/-- Read `featursThreshold[i][j]`. -/
def thresholdAt (featursThreshold : List (List ℚ)) (i j : ℤ) : Option ℚ := do
  let row ← vecAt featursThreshold i
  vecAt row j

/-- The loop body of `slurClassifier` for the slur index `s`: whether `s` is a
bad slur (pushed to `notValidSlur`). -/
def slurClassifierTest (m : Libm) (candids : List candidate) (featursThreshold : List (List ℚ))
    (s : ℤ) : Option Bool := do
  let cs ← vecAt candids s
  let p : ℤ := if cs.label.toInt = 1 then s + 1 else if cs.label.toInt = -1 then s - 1 else s
  let dpi : ℚ := 180 / (31415 / 10000)
  let at2_1 : ℚ := m.atan cs.a0 * dpi
  let at2_2 : ℚ := m.atan cs.a1 * dpi
  let cp ← vecAt candids p
  let at1_1 : ℚ := m.atan cp.a0 * dpi
  let at1_2 : ℚ := m.atan cp.a1 * dpi
  let featureSet : List ℚ := [|at2_1 - at2_2|] ++
    (if cs.label.toInt = 1 then [|at1_1 - at2_1|]
     else if cs.label.toInt = -1 then [|at1_2 - at2_2|] else []) ++
    [cp.y / cs.yOrigin]
  let f0 ← vecAt featureSet 0
  let t00 ← thresholdAt featursThreshold 0 0
  if f0 < t00 then do
    let t10 ← thresholdAt featursThreshold 1 0
    if f0 > t10 then do
      let f1 ← vecAt featureSet 1
      let t11 ← thresholdAt featursThreshold 1 1
      if f1 > t11 then do
        let f2 ← vecAt featureSet 2
        let t12 ← thresholdAt featursThreshold 1 2
        some (!(decide (f2 < t12)))
      else some true
    else some true
  else do
    let f2 ← vecAt featureSet 2
    let t22 ← thresholdAt featursThreshold 2 2
    some (decide (f2 > t22))

/-- The loop of `slurClassifier` over the slur indices. -/
def slurClassifierLoop (m : Libm) (candids : List candidate) (featursThreshold : List (List ℚ)) :
    List ℤ → Option (List ℤ)
  | [] => some []
  | s :: rest => do
    let bad ← slurClassifierTest m candids featursThreshold s
    let out ← slurClassifierLoop m candids featursThreshold rest
    some (if bad then s :: out else out)

/-- `postProcessingRules::slurClassifier`. -/
def slurClassifier (m : Libm) (candids : List candidate) (featursThreshold : List (List ℚ)) :
    Option (List ℤ) :=
  slurClassifierLoop m candids featursThreshold (risingFallingslurCandidates candids)

/-! ## Candidate discovery, mode 1 (`delineate::candidateFinder`) -/

/-- The sign classification `(d > 0) ? 1 : ((d < 0) ? -1 : 0)`. -/
def sign3 (d : ℤ) : ℤ := if d > 0 then 1 else if d < 0 then -1 else 0

/-- Row update `row(find(row(span(0, upto)) == 2)) = val`: every temporary flat
marker (value 2) at a column `k ≤ upto` becomes `val`. The source skips the
search when `upto < 0`, where no column qualifies. -/
def remarkFlat (val : ℚ) : List ℚ → ℕ → ℤ → List ℚ
  | [], _, _ => []
  | v :: vs, k, upto =>
    (if (k : ℤ) ≤ upto ∧ v = 2 then val else v) :: remarkFlat val vs (k + 1) upto

/-- Row update `peak(find(row(span(0, upto)) == 2)) = 1` on the peak row, the
flat markers being read from `row`. -/
def markPeakFlat : List ℚ → List ℚ → ℕ → ℤ → List ℚ
  | r :: rs, p :: ps, k, upto =>
    (if (k : ℤ) ≤ upto ∧ r = 2 then 1 else p) :: markPeakFlat rs ps (k + 1) upto
  | _, ps, _, _ => ps

/-- State of the sweep of one threshold row: row `j` of
`movedZeroCrossingPage`, the row of `peakCandidates` this threshold writes to
(untouched when `jz = -1`), and `signFlag`. -/
structure SweepState where
  row : List ℚ
  peakRow : List ℚ
  signFlag : Bool
  deriving DecidableEq

/-- The body of the inner loop of `candidateFinder` at column `i`, with
`cur = derivative(i)` and `prev = derivative(i-1)`. -/
def sweepStep (movingOriginZeroSlope deltaStepSlope : ℚ) (jz : ℤ) (i : ℕ) (prev cur : ℚ)
    (st : SweepState) : SweepState :=
  let signDeltaSlope := sign3 (ctrunc ((cur - movingOriginZeroSlope) * deltaStepSlope))
  let signDeltaSlopePrevious := sign3 (ctrunc ((prev - movingOriginZeroSlope) * deltaStepSlope))
  let upto : ℤ := ((i : ℤ) - 1) - 1
  if signDeltaSlope = 1 then
    { st with signFlag := true, row := remarkFlat 0 st.row 0 upto }
  else if signDeltaSlope = 0 then
    if signDeltaSlopePrevious = 1 then { st with row := st.row.set (i - 1) 2 }
    else if signDeltaSlopePrevious = 0 then
      if st.signFlag = true then { st with row := st.row.set (i - 1) 2 }
      else { st with signFlag := false }
    else if signDeltaSlopePrevious = -1 then { st with signFlag := false }
    else st
  else if signDeltaSlope = -1 then
    let st1 : SweepState :=
      if signDeltaSlopePrevious = 1 then
        { st with
          row := st.row.set (i - 1) 1,
          peakRow := if jz ≠ -1 then st.peakRow.set (i - 1) 1 else st.peakRow }
      else if signDeltaSlopePrevious = 0 then
        if st.signFlag = true then
          let row1 := st.row.set (i - 1) 1
          { st with
            row := remarkFlat 1 row1 0 upto,
            peakRow := if jz ≠ -1 then markPeakFlat row1 (st.peakRow.set (i - 1) 1) 0 upto
              else st.peakRow }
        else { st with row := remarkFlat 0 st.row 0 upto }
      else st
    { st1 with signFlag := false, row := remarkFlat 0 st1.row 0 upto }
  else st

/-- The inner loop `for (i = 1; i < derivative.n_elem; ++i)` walking the
derivative: the list holds `derivative(i), derivative(i+1), ..`. -/
def sweepLoop (movingOriginZeroSlope deltaStepSlope : ℚ) (jz : ℤ) :
    List ℚ → ℚ → ℕ → SweepState → SweepState
  | [], _, _, st => st
  | cur :: rest, prev, i, st =>
    sweepLoop movingOriginZeroSlope deltaStepSlope jz rest cur (i + 1)
      (sweepStep movingOriginZeroSlope deltaStepSlope jz i prev cur st)

/-- One iteration `j` of the outer loop of `candidateFinder`: the finished row
`j` of `movedZeroCrossingPage` (flat markers reset) and the row of
`peakCandidates` written by this threshold (all zero when `jz = -1`). -/
def sweepRow (derivative : List ℚ) (startingSlope deltaStepSlope : ℚ) (zeroSlopeIndex : ℤ)
    (j : ℕ) : List ℚ × List ℚ :=
  let movingOriginZeroSlope : ℚ := startingSlope + (j : ℚ) * (-1 / deltaStepSlope)
  let jz : ℤ := if (j : ℤ) = zeroSlopeIndex - 1 then 0 else if (j : ℤ) = zeroSlopeIndex then 1
    else if (j : ℤ) = zeroSlopeIndex + 1 then 2 else -1
  let zeros : List ℚ := List.replicate (derivative.length - 1) 0
  let st0 : SweepState := { row := zeros, peakRow := zeros, signFlag := true }
  let st :=
    match derivative with
    | [] => st0
    | d0 :: rest => sweepLoop movingOriginZeroSlope deltaStepSlope jz rest d0 1 st0
  (remarkFlat 0 st.row 0 (st.row.length : ℤ), st.peakRow)

/-- Column-wise maximum `arma::max(M, 0)` of the rows `rows` on top of the row
`base`. The matrices of the candidate finders hold only the values 0, 1 and 2,
so a `base` row of zeros leaves the maximum of at least one row unchanged. -/
def columnMax (base : List ℚ) (rows : List (List ℚ)) : List ℚ :=
  rows.foldl (fun acc r => List.zipWith max acc r) base

/-- `delineate::candidateFinder(wave, derivative, movedZeroCrossingAmplitutedMax,
candidatePeaksPosition, deltaStepSlope)`, returning the two output vectors.
Row `j` of `movedZeroCrossingPage` is only touched by iteration `j`, and a row
of `peakCandidates` only by the iteration whose `jz` selects it, so the rows
are computed one by one. The conversions of `deltaStepSlope = 0` (a NaN) and a
matrix with no row make the source fail. -/
def candidateFinder (wave derivative : List ℚ) (deltaStepSlope : ℚ) :
    Option (List ℚ × List ℤ) := do
  let dmax ← vecMax derivative
  let dmin ← vecMin derivative
  let startingSlope : ℚ := (ctrunc (dmax * deltaStepSlope) : ℚ) / deltaStepSlope
  let endingSlope : ℚ := (ctrunc (dmin * deltaStepSlope) : ℚ) / deltaStepSlope
  let numberSlope : ℤ := ctrunc ((startingSlope - endingSlope) * deltaStepSlope + 1)
  let zeroSlopeIndex : ℤ := ctrunc (startingSlope * deltaStepSlope)
  if deltaStepSlope = 0 ∨ numberSlope ≤ 0 then none
  else do
    let rows := (List.range numberSlope.toNat).map
      (fun j => sweepRow derivative startingSlope deltaStepSlope zeroSlopeIndex j)
    let zeros : List ℚ := List.replicate (derivative.length - 1) 0
    let pageMax := columnMax zeros (rows.map (fun r => r.1))
    let w ← span wave 1 ((wave.length : ℤ) - 2)
    let movedZeroCrossingAmplitutedMax ← schur pageMax w
    let peakCandidatesMax := columnMax zeros (rows.map (fun r => r.2))
    some (movedZeroCrossingAmplitutedMax, indicesWhere (fun v => decide (v > 0)) peakCandidatesMax)

/-! ## Candidate discovery, mode 2 (`delineate::candidateFinder2DerivativeBased`) -/

/-- State of the walk of one precision row: row `j` of `walkOnDerivative`, row
`j` of `peakCandidates`, `signFlag` and `signFlagZero`. -/
structure WalkState where
  walk : List ℚ
  peakRow : List ℚ
  signFlag : Bool
  signFlagZero : Bool
  deriving DecidableEq

/-- Whether `find(row == 2)` is non-empty. -/
def hasFlat (row : List ℚ) : Bool := row.any (fun v => decide (v = 2))

/-- The body of the inner loop of `candidateFinder2DerivativeBased` at column
`i`. The two assignments of a matrix with no row (`zeros(0, n)`, `ones(0, n)`)
to a non-empty selection do not have the size of the selection: Armadillo
throws. -/
def walkStep (precision deltaStepSlope : ℚ) (i : ℕ) (prev cur : ℚ) (st : WalkState) :
    Option WalkState := do
  let deltaSlopeCurrent := ctrunc ((cur - precision) * deltaStepSlope)
  let signDeltaSlopeCurrent := sign3 deltaSlopeCurrent
  let deltaSlopePrevious := ctrunc ((prev - precision) * deltaStepSlope)
  let signDeltaSlopePrevious := sign3 deltaSlopePrevious
  let signDeltaSlope := sign3 (deltaSlopeCurrent - deltaSlopePrevious)
  let all : ℤ := (st.peakRow.length : ℤ)
  let st1 : WalkState ←
    if signDeltaSlopeCurrent = 1 then
      if hasFlat st.peakRow then none else some { st with signFlagZero := true }
    else if signDeltaSlopeCurrent = 0 then
      if st.signFlagZero = true then some { st with peakRow := st.peakRow.set (i - 1) 2 }
      else some st
    else if signDeltaSlopeCurrent = -1 then do
      let st2 : WalkState ←
        if signDeltaSlopePrevious = 1 then
          let row1 := st.peakRow.set (i - 1) 1
          if hasFlat row1 then none else some { st with peakRow := row1 }
        else if signDeltaSlopePrevious = 0 then
          if st.signFlagZero = true then
            some { st with peakRow := remarkFlat 1 (st.peakRow.set (i - 1) 1) 0 all }
          else some st
        else some st
      some { st2 with signFlagZero := false, peakRow := remarkFlat 0 st2.peakRow 0 all }
    else some st
  if signDeltaSlope = 1 then some { st1 with signFlag := true }
  else if signDeltaSlope = 0 then
    if st1.signFlag = false then some { st1 with walk := st1.walk.set (i - 1) 1 } else some st1
  else if signDeltaSlope = -1 then
    some { st1 with
      walk := if st1.signFlag = false then st1.walk.set (i - 1) 1 else st1.walk,
      signFlag := false }
  else some st1

/-- The inner loop of `candidateFinder2DerivativeBased`. -/
def walkLoop (precision deltaStepSlope : ℚ) : List ℚ → ℚ → ℕ → WalkState → Option WalkState
  | [], _, _, st => some st
  | cur :: rest, prev, i, st =>
    match walkStep precision deltaStepSlope i prev cur st with
    | some st1 => walkLoop precision deltaStepSlope rest cur (i + 1) st1
    | none => none

/-- One iteration `j` of the outer loop of `candidateFinder2DerivativeBased`. -/
def walkRow (derivative : List ℚ) (precision : ℚ) : Option (List ℚ × List ℚ) := do
  let zeros : List ℚ := List.replicate (derivative.length - 1) 0
  let st0 : WalkState := { walk := zeros, peakRow := zeros, signFlag := true, signFlagZero := true }
  let st ←
    match derivative with
    | [] => some st0
    | d0 :: rest => walkLoop precision 100 rest d0 1 st0
  some (remarkFlat 0 st.walk 0 (st.walk.length : ℤ), remarkFlat 0 st.peakRow 0 (st.peakRow.length : ℤ))

/-- `delineate::candidateFinder2DerivativeBased(wave, derivative,
candidateRangeBasedOnDerivative, candidatePeaksPosition)`. -/
def candidateFinder2DerivativeBased (wave derivative : List ℚ) : Option (List ℚ × List ℤ) :=
  if derivative.length = 0 then none
  else do
    let rows ← mapOpt (fun precision => walkRow derivative precision) [(0 : ℚ), 1 / 10, 2 / 10]
    let zeros : List ℚ := List.replicate (derivative.length - 1) 0
    let walkMax := columnMax zeros (rows.map (fun r => r.1))
    let w ← span wave 1 ((wave.length : ℤ) - 2)
    let candidateRangeBasedOnDerivative ← schur walkMax w
    let peakCandidatesMax := columnMax zeros (rows.map (fun r => r.2))
    some (candidateRangeBasedOnDerivative, indicesWhere (fun v => decide (v > 0)) peakCandidatesMax)

/-! ## Candidate ranges and labels (`delineate.cpp`) -/

/-- The last index where `v` equals its minimum: `index(index.n_elem-1)` for
`index = arma::find(v == arma::min(v))`. -/
def lastIndexOfMin (v : List ℚ) : Option ℤ := do
  let vmin ← vecMin v
  let index := indicesWhere (fun w => decide (w = vmin)) v
  vecAt index ((index.length : ℤ) - 1)

/-- The `for` loop of `candidateRangeInfoFinder` looking for the first gap of
the window: `fraction`. The reads `candidateIndexesRange(j)` are checked. -/
def findFraction (candidateIndexesRange : List ℤ) (looseWindow : ℤ) : ℕ → ℕ → Option ℤ
  | 0, _ => some 0
  | fuel + 1, j =>
    if (j : ℤ) < looseWindow then
      match vecAt candidateIndexesRange (j : ℤ), vecAt candidateIndexesRange ((j : ℤ) + 1) with
      | some rj, some rj1 =>
        if rj + 1 ≠ rj1 then some (j : ℤ) else findFraction candidateIndexesRange looseWindow fuel (j + 1)
      | _, _ => none
    else some 0

/-- Write the end of the last candidate: `candids[candids.size()-1]` gets
`candidateRangeInfo[1] = cr1` and `risingRangeInfo[1] = rr1`. -/
def closeLast (candids : List candidate) (cr1 rr1 : ℤ) : Option (List candidate) := do
  let k : ℤ := (candids.length : ℤ) - 1
  let c ← vecAt candids k
  some (candids.set k.toNat ((c.set_candidateRangeInfo cr1 1).set_risingRangeInfo rr1 1))

/-- The `while` loop of `candidateRangeInfoFinder`; the state is `i`, the
candidate vector and `candidTmp`; it returns the final `i` and the vector. -/
def rangeLoop (derivative : List ℚ) (candidatesPoints : List ℤ) (looseWindow : ℤ) :
    ℕ → ℤ → List candidate → candidate → Option (ℤ × List candidate)
  | 0, i, candids, _ => if i < candidatesPoints.length then none else some (i, candids)
  | fuel + 1, i, candids, candidTmp =>
    if i < (candidatesPoints.length : ℤ) then do
      let wndowUpperBound : ℤ := min ((candidatesPoints.length : ℤ) - 1) (i + looseWindow)
      let window ← span candidatesPoints i wndowUpperBound
      let pi ← vecAt candidatesPoints i
      let candidateIndexesRange := window.map (fun v => v - pi)
      if candidateIndexesRange.foldl (fun s a => s + a) 0 > Int.tdiv (looseWindow * (looseWindow + 1)) 2 then do
        let fraction ← findFraction candidateIndexesRange looseWindow looseWindow.toNat 0
        let i1 : ℤ := i + fraction
        let p ← vecAt candidatesPoints i1
        let pnext ← vecAt candidatesPoints (i1 + 1)
        let d ← span derivative (p + 1) (pnext - 1)
        let indexMinSlope ← lastIndexOfMin d
        let candids1 ← closeLast candids (indexMinSlope + p + 1) p
        let last ← vecAt candids1 ((candids1.length : ℤ) - 1)
        let candidTmp1 := (candidTmp.set_candidateRangeInfo (last.get_candidateRangeInfo 1) 0).set_risingRangeInfo pnext 0
        rangeLoop derivative candidatesPoints looseWindow fuel (i1 + 1) (candids1 ++ [candidTmp1]) candidTmp1
      else rangeLoop derivative candidatesPoints looseWindow fuel (i + 1) candids candidTmp
    else some (i, candids)

/-- `delineate::candidateRangeInfoFinder(derivative,
movedZeroCrossingAmplitutedMax, candids, looseWindow)`, returning `candids`. -/
def candidateRangeInfoFinder (derivative movedZeroCrossingAmplitutedMax : List ℚ)
    (candids : List candidate) (looseWindow : ℤ) : Option (List candidate) := do
  let candidatesPoints := indicesWhere (fun v => decide (v ≠ 0)) movedZeroCrossingAmplitutedMax
  if candidatesPoints.length = 0 then some candids
  else do
    let p0 ← vecAt candidatesPoints 0
    let d0 ← span derivative 0 p0
    let index ← lastIndexOfMin d0
    let candidTmp : candidate :=
      ((({} : candidate).set_candidateRangeInfo index 0).set_candidateRangeInfo p0 1).set_risingRangeInfo p0 0
    let (i, candids1) ← rangeLoop derivative candidatesPoints looseWindow candidatesPoints.length 1
      (candids ++ [candidTmp]) candidTmp
    let plast ← vecAt candidatesPoints (i - 1)
    let dlast ← span derivative plast ((derivative.length : ℤ) - 1)
    let indexLast ← lastIndexOfMin dlast
    closeLast candids1 (indexLast + plast) plast

/-- `delineate::labellingPeaks(candids, candidatePeaksPosition)`. -/
def labellingPeaks (candids : List candidate) (candidatePeaksPosition : List ℤ) : List candidate :=
  let deltaSample : ℤ := 3
  candids.map (fun candid =>
    if candidatePeaksPosition.any (fun position =>
        decide (position ≥ candid.get_risingRangeInfo 0 - deltaSample ∧
          position ≤ candid.get_risingRangeInfo 1 + deltaSample))
    then candid.set_label candidateLabel.peak else candid)

/-- The loop body of `reLabellingSlurs` at index `i`. -/
def reLabellingStep (candids : List candidate) (i : ℕ) : Option (List candidate) := do
  let ci ← vecAt candids (i : ℤ)
  let cprev ← vecAt candids (max 0 ((i : ℤ) - 1))
  if ci.label.toInt = 0 ∧ cprev.label.toInt = 2 then
    if ci.a0 ≤ 0 ∧ ci.a1 ≤ 0 then some (candids.set i (ci.set_label candidateLabel.slurFalling))
    else some candids
  else if ci.label.toInt = 2 ∧ cprev.label.toInt = 0 then do
    let c1 ← vecAt candids ((i : ℤ) - 1)
    if c1.a0 ≥ 0 ∧ c1.a1 ≥ 0 then some (candids.set (i - 1) (c1.set_label candidateLabel.slurRising))
    else some candids
  else some candids

/-- The loop of `reLabellingSlurs` from index `i`, `k` iterations left. -/
def reLabellingLoop : ℕ → ℕ → List candidate → Option (List candidate)
  | 0, _, candids => some candids
  | k + 1, i, candids =>
    match reLabellingStep candids i with
    | some candids1 => reLabellingLoop k (i + 1) candids1
    | none => none

/-- `delineate::reLabellingSlurs(candids)`. -/
def reLabellingSlurs (candids : List candidate) : Option (List candidate) :=
  reLabellingLoop candids.length 0 candids

/-! ## Offset refinement (`delineate::readjustToff`, `delineate::newToffFunc`) -/

/-- First difference `v(span(1, n-1)) - v(span(0, n-2))`; both spans throw on a
vector with fewer than two elements. -/
def firstDifference (v : List ℚ) : Option (List ℚ) := do
  let hi ← span v 1 ((v.length : ℤ) - 1)
  let lo ← span v 0 ((v.length : ℤ) - 2)
  some (List.zipWith (fun a b => a - b) hi lo)

/-- The loop of `smoothWaveFunc` from index `i`, `k` iterations left. -/
def smoothLoop (wave : List ℚ) (windowSize : ℤ) : ℕ → ℕ → Option (List ℚ)
  | 0, _ => some []
  | k + 1, i => do
    let sampleSize : ℤ := (wave.length : ℤ)
    let windowLowerBound : ℤ := max 0 ((i : ℤ) - windowSize)
    let windowUpperBound : ℤ := min (sampleSize - 1) ((i : ℤ) + windowSize)
    let w ← span wave windowLowerBound windowUpperBound
    let rest ← smoothLoop wave windowSize k (i + 1)
    some (accu w / (w.length : ℚ) :: rest)

/-- `delineate::smoothWaveFunc(wave, windowSize)`, returning the new `wave`. -/
def smoothWaveFunc (wave : List ℚ) (windowSize : ℤ) : Option (List ℚ) :=
  smoothLoop wave windowSize wave.length 0

/-- State of the energy loop of `newToffFunc`: the energy computed so far (in
order), and `indexlocalMinimaEnergy`, `flagmaxima`. -/
structure EnergyState where
  energy : List ℚ
  last : ℚ
  indexlocalMinimaEnergy : List ℤ
  flagmaxima : Bool
  deriving DecidableEq

/-- The body of the energy loop at index `i`, with `d = derivative(i)` and
`s = lastCandidToff_segment(i)`; `energy(i-1)` is `st.last`. -/
def energyStep (i : ℕ) (d s : ℚ) (st : EnergyState) : EnergyState :=
  if d < 0 then
    let e := st.last - s
    let idx := if st.flagmaxima = true then st.indexlocalMinimaEnergy ++ [(i : ℤ)]
      else st.indexlocalMinimaEnergy
    { energy := st.energy ++ [e], last := e,
      indexlocalMinimaEnergy := idx.set (idx.length - 1) (i : ℤ), flagmaxima := false }
  else if d > 0 then
    let e := st.last + s
    { st with energy := st.energy ++ [e], last := e, flagmaxima := true }
  else { st with energy := st.energy ++ [st.last] }

/-- The energy loop of `newToffFunc` over `derivative(i), derivative(i+1), ..`
and the matching samples of the segment. -/
def energyLoop : List ℚ → List ℚ → ℕ → EnergyState → EnergyState
  | d :: ds, s :: ss, i, st => energyLoop ds ss (i + 1) (energyStep i d s st)
  | _, _, _, st => st

/-- The search of `startEnergy`: the first `i` with `energyNormal(i) >
energyNormal(i+1)`, 0 when there is none. -/
def startEnergyFrom : List ℚ → ℕ → ℤ
  | a :: b :: rest, i => if a > b then (i : ℤ) else startEnergyFrom (b :: rest) (i + 1)
  | _, _ => 0

/-- The loop over `k` of `newToffFunc` looking for the local maxima of
`derivativeEnergyCandidate`; the list holds the entries from `k` on and `prev`
is entry `k-1`. Returns `indexToffCandidate`. -/
def toffCandidateLoop (derivativeEnergyCandidate : List ℚ) :
    List ℚ → ℚ → ℕ → Bool → ℤ → Option ℤ
  | [], _, _, _, indexToffCandidate => some indexToffCandidate
  | cur :: rest, prev, k, falingFlag, indexToffCandidate => do
    let falingFlag1 : Bool := if prev - cur < -1 / 1000 then false else falingFlag
    if prev - cur > -1 / 1000 then
      if falingFlag1 = false then do
        let best ← vecAt derivativeEnergyCandidate indexToffCandidate
        toffCandidateLoop derivativeEnergyCandidate rest cur (k + 1) true
          (if cur > best then (k : ℤ) else indexToffCandidate)
      else toffCandidateLoop derivativeEnergyCandidate rest cur (k + 1) falingFlag1 indexToffCandidate
    else toffCandidateLoop derivativeEnergyCandidate rest cur (k + 1) falingFlag1 indexToffCandidate

/-- The body of the step-04 loop of `newToffFunc` for the candidate
`toff_index2 = indexlocalMinimaEnergy[i]` and the running `j`: the entry of
`indexNewToffCandidates`. -/
def newToffCandidate (derivative derivativeEnergy : List ℚ) (j toff_index2 : ℤ) : Option ℤ := do
  let d ← span derivative j toff_index2
  let dmin ← vecMin d
  let indexMin ← findFirstEq d dmin
  let t1 : ℤ := j + indexMin
  let toff_index1a : ℤ := if t1 > toff_index2 then toff_index2 else t1
  let toff_index2a : ℤ := if t1 > toff_index2 then t1 else toff_index2
  let toff_index1b : ℤ := if toff_index1a = toff_index2a then toff_index1a - 1 else toff_index1a
  let dec0 ← span derivativeEnergy toff_index1b (toff_index2a - 1)
  let dec1 ← smoothWaveFunc dec0 (Int.tdiv (dec0.length : ℤ) 10 + 1)
  let dec := dec1.map (fun v => ((cfloor (v * 10000) : ℤ) : ℚ) / 10000)
  let indexToffCandidate ←
    match dec with
    | [] => some 1
    | d0 :: rest => toffCandidateLoop dec rest d0 1 false 1
  let indexToffCandidate1 : ℤ :=
    if indexToffCandidate = 1 then (dec.length : ℤ) - 1 else indexToffCandidate
  some (toff_index1b + indexToffCandidate1)

/-- The step-04 loop of `newToffFunc` over `indexlocalMinimaEnergy`. -/
def newToffCandidates (derivative derivativeEnergy : List ℚ) : List ℤ → ℤ → Option (List ℤ)
  | [], _ => some []
  | toff_index2 :: rest, j => do
    let c ← newToffCandidate derivative derivativeEnergy j toff_index2
    let cs ← newToffCandidates derivative derivativeEnergy rest (toff_index2 + 1)
    some (c :: cs)

/-- Step 05 of `newToffFunc`: the candidate minimising the cost function, as
`lastCandid + indexNewToffCandidates[indexCandid(0)]`. When `rr - a = 0` the
source divides by zero: a cost is infinite for a candidate index above 0 and a
NaN for the index 0, and the first infinite cost is the one selected. -/
def selectToff (energyNormal : List ℚ) (indexNewToffCandidates : List ℤ)
    (rr rpeak lastCandid : ℚ) : Option ℚ := do
  let a : ℚ := lastCandid - rpeak
  let y : ℚ := rr - a
  let E ← mapOpt (fun k => (vecAt energyNormal k).map (fun e => e / 100)) indexNewToffCandidates
  let D := indexNewToffCandidates.map (fun c => ((lastCandid + (c : ℚ) - rpeak) - a) / y)
  let costFunc := List.zipWith (fun e d => e + d) E D
  let indexCandid ←
    if y = 0 then
      vecAt ((indicesWhere (fun c => decide (c > 0)) indexNewToffCandidates).take 1) 0
    else
      match vecMin costFunc with
      | some cmin => findFirstEq costFunc cmin
      | none => none
  let c ← vecAt indexNewToffCandidates indexCandid
  some (lastCandid + (c : ℚ))

/-- Steps 02 to 05 of `newToffFunc` on the smoothed derivative. When
`energy.max() = energy.min()` every normalised energy of the source is a NaN,
so that (if nothing throws before) no cost equals the minimum and the read
`indexCandid(0)` throws. -/
def newToffEnergy (lastCandidToff_segment derivative : List ℚ) (rr rpeak lastCandid : ℚ) :
    Option ℚ := do
  let s0 ← vecAt lastCandidToff_segment 0
  let st := energyLoop (derivative.drop 1) (lastCandidToff_segment.drop 1) 1
    { energy := [s0], last := s0, indexlocalMinimaEnergy := [], flagmaxima := true }
  let emin ← vecMin st.energy
  let emax ← vecMax st.energy
  if emax = emin then none
  else do
    let energyNormal := st.energy.map (fun e => 100 * (e - emin) / (emax - emin))
    let startEnergy := startEnergyFrom energyNormal 0
    let derivativeEnergy ← firstDifference energyNormal
    let indexNewToffCandidates ←
      newToffCandidates derivative derivativeEnergy st.indexlocalMinimaEnergy startEnergy
    selectToff energyNormal indexNewToffCandidates rr rpeak lastCandid

/-- `delineate::newToffFunc(lastCandidToff_segment, rr, rpeak, lastCandid)`. -/
def newToffFunc (lastCandidToff_segment : List ℚ) (rr rpeak lastCandid : ℚ) : Option ℚ :=
  if lastCandidToff_segment.length < 2 then some 0
  else do
    let derivative0 ← firstDifference lastCandidToff_segment
    let derivative ← smoothWaveFunc derivative0 (ctrunc (min 5 (derivative0.length : ℚ)))
    newToffEnergy lastCandidToff_segment derivative rr rpeak lastCandid

/-- The part of `readjustToff` after the tests on the peaks. A `double` used
as an index is truncated toward zero. -/
def readjustTail (wave : List ℚ) (rr rpeak toff tpeakAmp lastCandidate : ℚ) : Option ℚ := do
  let lowerBound : ℚ := lastCandidate + (ctrunc ((toff - lastCandidate) / 2) : ℚ)
  let w ← span wave (ctrunc lowerBound) (ctrunc toff)
  let highAmpIndex := (indicesWhere (fun v => decide (v > tpeakAmp)) w).take 1
  let adjusted_toff : ℚ :=
    match highAmpIndex with
    | k :: _ => lowerBound + (k : ℚ)
    | [] => toff
  let lastCandidToff_segment ← span wave (ctrunc lastCandidate) (ctrunc adjusted_toff)
  let toff_new ← newToffFunc lastCandidToff_segment rr rpeak lastCandidate
  some (if toff_new > 0 then toff_new else adjusted_toff)

/-- `delineate::readjustToff(wave, anns, rr, rpeak)`. -/
def readjustToff (wave : List ℚ) (anns : annotation) (rr rpeak : ℚ) : Option ℚ :=
  match anns.peak with
  | [] => some (-1)
  | peak0 :: morePeaks =>
    if peak0 > anns.off then some (-1)
    else if peak0 < rpeak then some (-1)
    else do
      let toff : ℚ := if anns.off > (wave.length : ℚ) - 1 then (wave.length : ℚ) - 1 else anns.off
      let tpeakAmp0 ← vecAt wave (ctrunc peak0)
      let lastCandidate := anns.lastCandidate
      match morePeaks with
      | peak1 :: _ =>
        if peak1 > anns.off then some (-1)
        else do
          let w1 ← vecAt wave (ctrunc peak1)
          let tpeakAmp := if w1 > tpeakAmp0 then w1 else tpeakAmp0
          readjustTail wave rr rpeak toff tpeakAmp lastCandidate
      | [] => readjustTail wave rr rpeak toff tpeakAmp0 lastCandidate

/-! ## The delineation pipeline (`delineate::delineator`) -/

/-- The parameters of `delineate::delineator` after the wave, with the default
values of its declaration in `delineate.hpp`. -/
structure Params where
  pointStart : ℤ := 0
  featursThreshold : List (List ℚ) := [[20, 0, 0], [10, 10, 3 / 2], [0, 0, 17 / 10]]
  candidateFinderFlag : ℤ := 1
  deltaStepSlope : ℚ := 10
  looseWindow : ℤ := 10
  minPoints : ℤ := 10
  deltaAmplitude : ℚ := 5
  minVoltageMainPeak : ℚ := 150
  percentMainePeak : ℚ := 8 / 10
  minVoltage : ℚ := 100
  percentPeak : ℚ := 3 / 10
  maxDelatAplitudeNotches : ℚ := 50
  minAmplitudeFlatness : ℚ := 7
  minValidAmplitudePeak : ℚ := 7
  measurableVoltage : ℚ := 100

/-- The working state of `delineator`: `candids` and `anns.rulesHit`. -/
abbrev Work := List candidate × List (String × ℕ)

/-- A removal step of `delineator`: `anns.rulesHit[name] = badCandidates.size();
cleanUpCandidates(candids, badCandidates)`. -/
def removalStep (name : String) (badCandidates : List ℤ) (w : Work) : Option Work :=
  match cleanUpCandidates w.1 badCandidates with
  | some (candids1, _) => some (candids1, (name, badCandidates.length) :: w.2)
  | none => none

/-- The relabel loop `for i: candids[badCandidates[i]].set_label(label)`;
`guarded` adds the test `candids.size() > 0` of step 13 to the loop condition. -/
def relabelLoop (label : candidateLabel) (guarded : Bool) :
    List ℤ → List candidate → Option (List candidate)
  | [], candids => some candids
  | idx :: rest, candids =>
    if guarded = true ∧ candids.length = 0 then some candids
    else
      match vecAt candids idx with
      | some c => relabelLoop label guarded rest (candids.set idx.toNat (c.set_label label))
      | none => none

/-- Step 03: the rule `fewPointsCandidates`. -/
def step03 (P : Params) (w : Work) : Option Work :=
  removalStep "fewPointsCandidates" (fewPointsCandidates w.1 (P.minPoints : ℚ)) w

/-- Step 06: the rule `lowAmplitudeMainPeak`. -/
def step06 (P : Params) (w : Work) : Option Work := do
  let badCandidates ← lowAmplitudeMainPeak w.1 P.minVoltageMainPeak P.percentMainePeak
  removalStep "lowAmplitudeMainPeak" badCandidates w

/-- Step 07: the rule `lowAmplitudePeaks`. -/
def step07 (P : Params) (w : Work) : Option Work := do
  let badCandidates ← lowAmplitudePeaks w.1 P.minVoltage P.percentPeak
  removalStep "lowAmplitudePeaks" badCandidates w

/-- Step 08: the rule `inconsistentPeaks`. -/
def step08 (P : Params) (w : Work) : Option Work := do
  let badCandidates ← inconsistentPeaks w.1 P.maxDelatAplitudeNotches
  removalStep "inconsistentPeaks" badCandidates w

/-- Step 10: the rule `unrelatedSlure`. -/
def step10 (w : Work) : Option Work :=
  removalStep "unrelatedSlure" (unrelatedSlure w.1) w

/-- Step 11: the rule `meargingCandidates`; the counter is
`badCandidates.size() / 2`. -/
def step11 (m : Libm) (twave : List ℚ) (P : Params) (w : Work) : Option Work := do
  let (candids1, badCandidates) ← meargingCandidates m twave w.1 P.minAmplitudeFlatness
  let (candids2, _) ← cleanUpCandidates candids1 badCandidates
  some (candids2, ("meargingCandidates", badCandidates.length / 2) :: w.2)

/-- Step 12: the rule `slurClassifier`. -/
def step12 (m : Libm) (P : Params) (w : Work) : Option Work := do
  let badCandidates ← slurClassifier m w.1 P.featursThreshold
  removalStep "slurClassifier" badCandidates w

/-- Step 13: the rule `keepJustTwoPeaks`, relabelling to `peakUnrelated`. -/
def step13 (w : Work) : Option Work := do
  let badCandidates ← keepJustTwoPeaks w.1
  let candids1 ← relabelLoop candidateLabel.peakUnrelated true badCandidates w.1
  some (candids1, ("keepJustTwoPeaks", badCandidates.length) :: w.2)

/-- Step 14: the rule `convertPeakToSlur`, relabelling to `sluredPeak`. -/
def step14 (twave : List ℚ) (P : Params) (w : Work) : Option Work := do
  let badCandidates ← convertPeakToSlur twave w.1 P.minValidAmplitudePeak
  let candids1 ← relabelLoop candidateLabel.sluredPeak false badCandidates w.1
  some (candids1, ("convertPeakToSlur", badCandidates.length) :: w.2)

/-- Step 15: the flag `nonMeasurableSignal`. -/
def step15 (P : Params) (w : Work) : Option Work := do
  let nonMeasurable ← nonMeasurableSignal w.1 P.measurableVoltage
  some (w.1, ("non-measurable", if nonMeasurable then 1 else 0) :: w.2)

/-- Step 01: the candidate finder selected by `candidateFinderFlag`, returning
`movedZeroCrossingAmplitutedPage` and `candidatePeaksPosition`. -/
def findCandidates (twave derivative : List ℚ) (P : Params) : Option (List ℚ × List ℤ) :=
  if P.candidateFinderFlag ≠ 2 then candidateFinder twave derivative P.deltaStepSlope
  else candidateFinder2DerivativeBased twave derivative

/-- Steps 01 to 05 of `delineator`: candidate discovery, ranges, the rule
`fewPointsCandidates`, peak labels and the geometry of every candidate. -/
def discovery (m : Libm) (twave : List ℚ) (P : Params) : Option Work := do
  let derivative ← firstDifference twave
  let found ← findCandidates twave derivative P
  let candids ← candidateRangeInfoFinder derivative found.1 [] P.looseWindow
  let w3 ← step03 P (candids, [])
  let candids4 := labellingPeaks w3.1 found.2
  let candids5 ← mapOpt (fun candid => delineatorsInfo m twave derivative candid P.deltaAmplitude)
    candids4
  some (candids5, w3.2)

/-- Steps 06 to 15 of `delineator`: the post-processing rules. -/
def postProcessing (m : Libm) (twave : List ℚ) (P : Params) (w : Work) : Option Work := do
  let w6 ← step06 P w
  let w7 ← step07 P w6
  let w8 ← step08 P w7
  let candids9 ← reLabellingSlurs w8.1
  let w10 ← step10 (candids9, w8.2)
  let w11 ← step11 m twave P w10
  let w12 ← step12 m P w11
  let w13 ← step13 w12
  let w14 ← step14 twave P w13
  step15 P w14

/-- Steps 01 to 15 of `delineator`: the candidates that survive all rules and
the counters. -/
def survivors (m : Libm) (twave : List ℚ) (P : Params) : Option Work := do
  let w ← discovery m twave P
  postProcessing m twave P w

/-- Step 16 of `delineator`: output preparation. With a zero slope the source
divides by zero and stores an infinity or a NaN; the rational quotient is 0
there. -/
def outputPreparation (pointStart : ℤ) (w : Work) : Option annotation := do
  let candids := w.1
  let anns : annotation := { rulesHit := w.2 }
  let indexPeakCandidates := peakCandidates candids
  if indexPeakCandidates.length > 0 then do
    let first ← vecAt candids 0
    let last ← vecAt candids ((candids.length : ℤ) - 1)
    let peaks ← pickCandidates candids indexPeakCandidates
    some { anns with
      on_ := (cround ((pointStart : ℚ) - first.b0 / first.a0) : ℚ),
      off := (cround ((pointStart : ℚ) - last.b1 / last.a1) : ℚ),
      lastCandidate := ((pointStart + last.x : ℤ) : ℚ),
      peak := peaks.map (fun c => ((pointStart + c.x : ℤ) : ℚ)),
      flatness := peaks.map (fun c => c.flatnessSamples),
      distortion := peaks.map (fun c => c.distortion),
      skewness := peaks.map (fun c => c.skewness) }
  else some anns

/-- `delineate::delineator(twave, pointStart, featursThreshold, ..)`. -/
def delineator (m : Libm) (twave : List ℚ) (P : Params) : Option annotation := do
  let w ← survivors m twave P
  outputPreparation P.pointStart w

/-! ## Predicates used in the statements -/

/-- An index list is removable from a vector of `n` elements after `i` removals:
strictly ascending, and every index is in `i .. n + i - 1`. -/
def Removable (idx : List ℤ) (i n : ℕ) : Prop :=
  idx.Pairwise (fun a b => a < b) ∧ ∀ k ∈ idx, (i : ℤ) ≤ k ∧ k < (n : ℤ) + i

/-- A placeholder for the C math library, for evaluating the pipeline on
concrete waves whose result does not depend on `atan`, `tan` or `sqrt`. -/
def libm0 : Libm := { atan := fun _ => 0, tan := fun _ => 0, sqrt := fun _ => 0 }

/-- A synthetic symmetric bell-shaped wave of 37 samples with its single
maximum 13 at sample 18: convex tails, concave top. -/
def bellWave : List ℚ :=
  [0, 3 / 20, 7 / 10, 7 / 4, 16 / 5, 91 / 20, 29 / 5, 139 / 20, 8, 179 / 20, 49 / 5, 211 / 20,
   56 / 5, 47 / 4, 61 / 5, 251 / 20, 64 / 5, 259 / 20, 13, 259 / 20, 64 / 5, 251 / 20, 61 / 5,
   47 / 4, 56 / 5, 211 / 20, 49 / 5, 179 / 20, 8, 139 / 20, 29 / 5, 91 / 20, 16 / 5, 7 / 4,
   7 / 10, 3 / 20, 0]

/-- The counters `delineator` records on `bellWave`. -/
def bellHits : List (String × ℕ) :=
  [("non-measurable", 1), ("convertPeakToSlur", 0), ("keepJustTwoPeaks", 0),
   ("slurClassifier", 0), ("meargingCandidates", 0), ("unrelatedSlure", 0),
   ("inconsistentPeaks", 0), ("lowAmplitudePeaks", 0), ("lowAmplitudeMainPeak", 0),
   ("fewPointsCandidates", 0)]

/-- The candidate of `bellWave` that survives all rules (with the placeholder
`libm0`, which fixes `skewness` and `distortion`). -/
def bellCandidate : candidate :=
  { label := candidateLabel.peak, a0 := 109 / 100, b0 := -407 / 450, a1 := -11 / 10,
    b1 := 773 / 20, y := 13, x := 18, yOrigin := 259 / 20, xOrigin := 19, flatnessSamples := 21,
    skewness := 179 / 2, distortion := 0, risingRangeInfo0 := 3, risingRangeInfo1 := 31,
    candidateRangeInfo0 := 0, candidateRangeInfo1 := 32 }

/-- The result of `delineator` on `bellWave` with the default parameters. -/
def bellResult : annotation :=
  { on_ := 1, peak := [18], off := 35, lastCandidate := 18, flatness := [21], distortion := [0],
    skewness := [179 / 2], rulesHit := bellHits }

/-- A symmetric bell-shaped wave of 9 samples with its single maximum at
sample 4. -/
def shortBell : List ℚ := [0, 1, 3, 6, 8, 6, 3, 1, 0]

/-- The index list `p, p+1` for every `p` of a list of left positions. -/
def pairIndices : List ℤ → List ℤ
  | [] => []
  | p :: ps => p :: (p + 1) :: pairIndices ps

/-- The fields a merged candidate takes from the pair it replaces. -/
def MergedFrom (left right mc : candidate) : Prop :=
  mc.candidateRangeInfo0 = left.candidateRangeInfo0 ∧
  mc.candidateRangeInfo1 = right.candidateRangeInfo1 ∧
  mc.risingRangeInfo0 = left.risingRangeInfo0 ∧
  mc.risingRangeInfo1 = right.risingRangeInfo1 ∧
  mc.a0 = left.a0 ∧ mc.b0 = left.b0 ∧ mc.a1 = right.a1 ∧ mc.b1 = right.b1 ∧
  mc.label = candidateLabel.peak

/-- In `candids`, positions `p`, `p+1` hold a pair the merge rule accepted and
position `p+2` holds the candidate built from it. -/
def MergeTriple (m : Libm) (wave : List ℚ) (minAmplitudeFlatness : ℚ) (candids : List candidate)
    (p : ℤ) : Prop :=
  ∃ left right mc, vecAt candids p = some left ∧ vecAt candids (p + 1) = some right ∧
    vecAt candids (p + 2) = some mc ∧
    meargingTest wave minAmplitudeFlatness left right = some true ∧
    mergedCandidate m wave left right = some mc

/-- The lowest sample of `wave` between the positions `x1` and `x2`: the valley
between two peaks. -/
def valley (wave : List ℚ) (x1 x2 : ℤ) : Option ℚ :=
  match span wave x1 x2 with
  | some w => vecMin w
  | none => none

/-- A wave of 85 samples with two humps (maxima 184/25 at sample 18 and 161/20
at sample 66) and the valley 69/100 at sample 48 between them; the first hump
falls steeply and then slowly. -/
def notchWave : List ℚ :=
  [0, 69 / 800, 161 / 400, 759 / 800, 69 / 40, 2001 / 800, 161 / 50, 621 / 160, 897 / 200,
   161 / 32, 138 / 25, 4761 / 800, 253 / 40, 5313 / 800, 69 / 10, 5681 / 800, 1449 / 200,
   1173 / 160, 184 / 25, 1173 / 160, 1449 / 200, 5681 / 800, 69 / 10, 5313 / 800, 253 / 40,
   4761 / 800, 138 / 25, 161 / 32, 943 / 200, 3611 / 800, 69 / 16, 3289 / 800, 391 / 100,
   2967 / 800, 1403 / 400, 529 / 160, 621 / 200, 2323 / 800, 1081 / 400, 2001 / 800, 23 / 10,
   1679 / 800, 759 / 400, 1357 / 800, 299 / 200, 207 / 160, 437 / 400, 713 / 800, 69 / 100,
   621 / 800, 437 / 400, 1311 / 800, 483 / 200, 2553 / 800, 391 / 100, 3657 / 800, 207 / 40,
   4577 / 800, 621 / 100, 5313 / 800, 1403 / 200, 1173 / 160, 759 / 100, 6233 / 800,
   1587 / 200, 6417 / 800, 161 / 20, 6417 / 800, 1587 / 200, 6233 / 800, 759 / 100, 1173 / 160,
   1403 / 200, 5313 / 800, 621 / 100, 4577 / 800, 207 / 40, 3657 / 800, 391 / 100, 2553 / 800,
   483 / 200, 1311 / 800, 437 / 400, 621 / 800, 69 / 100]

/-- The candidate steps 01 to 05 of `delineator` build for the first hump of
`notchWave` (default parameters, placeholder `libm0`). -/
def notchA : candidate :=
  { label := candidateLabel.peak, a0 := 2921 / 4800, b0 := -207 / 400, a1 := -23 / 80,
    b1 := 10511 / 800, y := 69 / 10, x := 14, yOrigin := 1173 / 160, xOrigin := 19,
    flatnessSamples := 20, skewness := 179 / 2, distortion := 0, risingRangeInfo0 := 5,
    risingRangeInfo1 := 24, candidateRangeInfo0 := 0, candidateRangeInfo1 := 26 }

/-- The candidate steps 01 to 05 of `delineator` build for the second hump of
`notchWave`. -/
def notchB : candidate :=
  { label := candidateLabel.peak, a0 := 10189 / 22000, b0 := -937503 / 44000, a1 := -253 / 400,
    b1 := 42527 / 800, y := 6417 / 800, x := 65, yOrigin := 6417 / 800, xOrigin := 67,
    flatnessSamples := 25, skewness := 179 / 2, distortion := 0, risingRangeInfo0 := 53,
    risingRangeInfo1 := 77, candidateRangeInfo0 := 26, candidateRangeInfo1 := 80 }

/-- The candidate `meargingCandidates` builds from `notchA` and `notchB`. -/
def notchMerged : candidate :=
  { label := candidateLabel.peak, a0 := 2921 / 4800, b0 := -207 / 400, a1 := -253 / 400,
    b1 := 42527 / 800, y := 2001 / 800, x := 39, yOrigin := 6417 / 800, xOrigin := 67,
    flatnessSamples := 75, skewness := 179 / 2, distortion := 0, risingRangeInfo0 := 5,
    risingRangeInfo1 := 77, candidateRangeInfo0 := 0, candidateRangeInfo1 := 80 }

/-- A short wave with three close maxima. -/
def chainWave : List ℚ := [0, 8, 10, 9, 10, 9, 10, 8, 0, 0]

/-- A peak candidate for the first maximum of `chainWave`. -/
def chainA : candidate :=
  { label := candidateLabel.peak, a0 := 2, b0 := 6, a1 := -1, b1 := 12, y := 10, x := 2,
    yOrigin := 10, xOrigin := 2, flatnessSamples := 1, risingRangeInfo0 := 1,
    risingRangeInfo1 := 2, candidateRangeInfo0 := 0, candidateRangeInfo1 := 3 }

/-- A peak candidate for the second maximum of `chainWave`. -/
def chainB : candidate :=
  { label := candidateLabel.peak, a0 := 1, b0 := 6, a1 := -1, b1 := 14, y := 10, x := 4,
    yOrigin := 10, xOrigin := 4, flatnessSamples := 1, risingRangeInfo0 := 3,
    risingRangeInfo1 := 4, candidateRangeInfo0 := 3, candidateRangeInfo1 := 5 }

/-- A peak candidate for the third maximum of `chainWave`. -/
def chainC : candidate :=
  { label := candidateLabel.peak, a0 := 1, b0 := 4, a1 := -2, b1 := 22, y := 10, x := 6,
    yOrigin := 10, xOrigin := 6, flatnessSamples := 1, risingRangeInfo0 := 5,
    risingRangeInfo1 := 6, candidateRangeInfo0 := 5, candidateRangeInfo1 := 8 }

/-- The candidate merged from `chainA` and `chainB`. -/
def chainM1 : candidate :=
  { label := candidateLabel.peak, a0 := 2, b0 := 6, a1 := -1, b1 := 14, y := 9, x := 3,
    yOrigin := 9, xOrigin := 3, flatnessSamples := 4, skewness := 179 / 2, distortion := 0,
    risingRangeInfo0 := 1, risingRangeInfo1 := 4, candidateRangeInfo0 := 0,
    candidateRangeInfo1 := 5 }

/-- The candidate merged from `chainM1` and `chainC`. -/
def chainM2 : candidate :=
  { label := candidateLabel.peak, a0 := 2, b0 := 6, a1 := -2, b1 := 22, y := 10, x := 4,
    yOrigin := 9, xOrigin := 3, flatnessSamples := 7, skewness := 179 / 2, distortion := 0,
    risingRangeInfo0 := 1, risingRangeInfo1 := 6, candidateRangeInfo0 := 0,
    candidateRangeInfo1 := 8 }

/-- A wave of 8 samples with its maximum at sample 2 and a smaller bump at
sample 6, for evaluating `readjustToff`. -/
def tailWave : List ℚ := [0, 2, 5, 3, 1, 0, 2, 0]

/-- An annotation of `tailWave`: one peak at sample 2, offset at sample 7. -/
def tailResult : annotation :=
  { on_ := 0, peak := [2], off := 7, lastCandidate := 2, flatness := [], distortion := [],
    skewness := [], rulesHit := [] }

/-- The inequalities between the cells of the two ranges of a candidate:
`candidateRange[0] <= risingRange[0] <= risingRange[1] <= candidateRange[1]`. -/
def RangeOrdered (c : candidate) : Prop :=
  c.candidateRangeInfo0 ≤ c.risingRangeInfo0 ∧ c.risingRangeInfo0 ≤ c.risingRangeInfo1 ∧
    c.risingRangeInfo1 ≤ c.candidateRangeInfo1

/-- The index `b` lies strictly between `lo` and `hi` and `derivative(b)` is the
minimum of `derivative` over the open interval. -/
def MinBetween (derivative : List ℚ) (b lo hi : ℤ) : Prop :=
  lo < b ∧ b < hi ∧ ∃ v, vecAt derivative b = some v ∧
    ∀ j u, lo < j → j < hi → vecAt derivative j = some u → v ≤ u

/-- The boundary between a candidate `a` and its successor `b`: `b` starts
where `a` ends, the rising range of `a` ends at a crossing point and the one of
`b` starts at the next crossing point, and the shared boundary is a minimum of
the derivative strictly between these two points. -/
def Boundary (derivative : List ℚ) (points : List ℤ) (a b : candidate) : Prop :=
  b.candidateRangeInfo0 = a.candidateRangeInfo1 ∧
    (∃ k : ℤ, vecAt points k = some a.risingRangeInfo1 ∧
      vecAt points (k + 1) = some b.risingRangeInfo0) ∧
    MinBetween derivative a.candidateRangeInfo1 a.risingRangeInfo1 b.risingRangeInfo0

/-- The crossing points at the positions `j` and `j+1` are contiguous sample
indices. -/
def ContiguousAt (points : List ℤ) (j : ℤ) : Prop :=
  ∃ p, vecAt points j = some p ∧ vecAt points (j + 1) = some (p + 1)

/-- A derivative of 8 samples for evaluating `candidateRangeInfoFinder`. -/
def rangeDerivative : List ℚ := [1, 2, 1, -1, -2, 1, 2, -1]

/-- A crossing-amplitude vector with the crossing points 1, 2, 5 and 6. -/
def rangePage : List ℚ := [0, 1, 1, 0, 0, 1, 1, 0]

/-- The two candidates `candidateRangeInfoFinder` builds from `rangeDerivative`
and `rangePage` with `looseWindow = 2`. -/
def rangeResult : List candidate :=
  [{ candidateRangeInfo0 := 0, risingRangeInfo0 := 1, risingRangeInfo1 := 2, candidateRangeInfo1 := 4 },
   { candidateRangeInfo0 := 4, risingRangeInfo0 := 5, risingRangeInfo1 := 6, candidateRangeInfo1 := 7 }]

/-- The candidate `candidateRangeInfoFinder` opens first on `rangePage`. -/
def rangeFirst : candidate :=
  { candidateRangeInfo0 := 0, candidateRangeInfo1 := 1, risingRangeInfo0 := 1 }

/-- Three peaks of amplitudes 5, 9 and 7 around a slur. -/
def threePeaks : List candidate :=
  [{ label := candidateLabel.peak, y := 5 }, { label := candidateLabel.peak, y := 9 }, { y := 1 },
   { label := candidateLabel.peak, y := 7 }]

/-- The angle in degrees of a slope, as `slurClassifier` computes it:
`atan(a) * (180 / 3.1415)`. -/
def slopeAngle (m : Libm) (a : ℚ) : ℚ := m.atan a * (180 / (31415 / 10000))

/-- The features `F0, F1, F2` of a slur `cs` and its adjacent candidate `cp`:
the angle between the two slopes of the slur, the angle between the matching
edges of the peak and of the slur (the rising edges for a rising slur, the
falling edges for a falling slur), and the ratio `y_p / yOrigin_s`. -/
def slurFeatures (m : Libm) (cs cp : candidate) : ℚ × ℚ × ℚ :=
  (|slopeAngle m cs.a0 - slopeAngle m cs.a1|,
   if cs.label = candidateLabel.slurRising then |slopeAngle m cp.a0 - slopeAngle m cs.a0|
   else |slopeAngle m cp.a1 - slopeAngle m cs.a1|,
   cp.y / cs.yOrigin)

/-- The decision rule on the features: the slur is a bad slur. -/
def badSlurRule (t00 t10 t11 t12 t22 : ℚ) (F : ℚ × ℚ × ℚ) : Prop :=
  (F.1 < t00 ∧ ¬ (F.1 > t10 ∧ F.2.1 > t11 ∧ F.2.2 < t12)) ∨ (F.1 ≥ t00 ∧ F.2.2 > t22)

instance badSlurRule.decidable (t00 t10 t11 t12 t22 : ℚ) (F : ℚ × ℚ × ℚ) :
    Decidable (badSlurRule t00 t10 t11 t12 t22 F) := by
  unfold badSlurRule
  infer_instance

/-- A falling slur and a rising slur between two peaks, all with slopes 0 (so
that every angle is `atan 0 = 0`). -/
def slursBetweenPeaks : List candidate :=
  [{ label := candidateLabel.peak, y := 10, yOrigin := 10 },
   { label := candidateLabel.slurFalling, y := 1, yOrigin := 1 },
   { label := candidateLabel.slurRising, y := 2, yOrigin := 2 },
   { label := candidateLabel.peak, y := 20, yOrigin := 20 }]

/-- The amplitude of the candidate at `idx` minus the wave value at its
intersection with the left neighbour, or failing that with the right
neighbour, is below `minValidAmplitudePeak`. -/
def lowDrop (wave : List ℚ) (candids : List candidate) (minValidAmplitudePeak : ℚ) (idx : ℤ) :
    Prop :=
  ∃ c, vecAt candids idx = some c ∧
    ((0 < idx ∧ ∃ l w, vecAt candids (idx - 1) = some l ∧
        vecAt wave (intersectionTwoCandidates l c) = some w ∧ c.y - w < minValidAmplitudePeak) ∨
     (idx < (candids.length : ℤ) - 1 ∧ ∃ r w, vecAt candids (idx + 1) = some r ∧
        vecAt wave (intersectionTwoCandidates c r) = some w ∧ c.y - w < minValidAmplitudePeak))

/-- The label of the candidate `c` at index `k` of `orig` once the loop of
`reLabellingSlurs` has run its iteration `k`: `slurFalling` when `c` was
`slurUnrelated`, follows a peak and has both slopes `<= 0`. -/
def labelAfterFalling (orig : List candidate) (k : ℕ) (c : candidate) : candidateLabel :=
  if c.label = candidateLabel.slurUnrelated ∧ 1 ≤ k ∧
      (orig[k - 1]?).map (fun q => q.label) = some candidateLabel.peak ∧ c.a0 ≤ 0 ∧ c.a1 ≤ 0
  then candidateLabel.slurFalling else c.label

/-- The label of the candidate `c` at index `k` of `orig` once the loop of
`reLabellingSlurs` has run its iteration `k + 1`: `slurRising` when `c` is still
`slurUnrelated`, precedes a peak and has both slopes `>= 0`. -/
def labelAfterRising (orig : List candidate) (k : ℕ) (c : candidate) : candidateLabel :=
  if labelAfterFalling orig k c = candidateLabel.slurUnrelated ∧
      (orig[k + 1]?).map (fun q => q.label) = some candidateLabel.peak ∧ c.a0 ≥ 0 ∧ c.a1 ≥ 0
  then candidateLabel.slurRising else labelAfterFalling orig k c

/-- The label of the candidate at index `k` before iteration `i` of the loop. -/
def labelAt (orig : List candidate) (i k : ℕ) (c : candidate) : candidateLabel :=
  if k + 1 < i then labelAfterRising orig k c
  else if k + 1 = i then labelAfterFalling orig k c
  else c.label

/-- The candidate vector before iteration `i` of the loop of `reLabellingSlurs`
started on `orig`. -/
def relabelledUpTo (orig : List candidate) (i : ℕ) : List candidate :=
  orig.mapIdx (fun k c => c.set_label (labelAt orig i k c))

/-- A candidate list with a flat slur (both slopes 0) between two peaks. -/
def flatSlurCandidates : List candidate :=
  [{ label := candidateLabel.peak }, { a0 := 0, a1 := 0 }, { label := candidateLabel.peak }]

/-- The fields of a candidate that order it along the wave: the start of its
rising range, the position of its peak, the end of its rising range. -/
def rangeKey (c : candidate) : ℤ × ℤ × ℤ := (c.risingRangeInfo0, c.x, c.risingRangeInfo1)

/-- The candidates follow each other along the wave (every rising range ends
before the next one starts) and every peak position lies in its rising range. -/
def Ordered (l : List candidate) : Prop :=
  (l.map rangeKey).Pairwise (fun a b => a.2.2 < b.1) ∧
    ∀ k ∈ l.map rangeKey, k.1 ≤ k.2.1 ∧ k.2.1 ≤ k.2.2

/-- The elements of a vector whose position, counted from `k`, is not in the
index list `idx`, in their original order. -/
def dropIndices {α : Type} (idx : List ℤ) : ℕ → List α → List α
  | _, [] => []
  | k, a :: as => if (k : ℤ) ∈ idx then dropIndices idx (k + 1) as else a :: dropIndices idx (k + 1) as

/-- The sum of the squared residuals `Σ (y_i - a x_i - b)²` of the line
`y = a x + b` on the samples `y` at the abscissae `leftBoundX .. rightBoundX`,
for a slope and an intercept in any field `K` containing the rationals. -/
def squaredError {K : Type} [DivisionRing K] (y : List ℚ) (leftBoundX rightBoundX : ℤ)
    (a b : K) : K :=
  (List.zipWith (fun (x yi : ℚ) => ((yi : K) - a * (x : K) - b) ^ 2)
    (linspace leftBoundX rightBoundX) y).sum

/-- Values of the C math library at the arguments met when both fitted lines are
flat: `atan 0 = 0`, `atan 100 ≈ 1.5608` and `tan (atan 100) = 100`. -/
def libmFlat : Libm :=
  { atan := fun a => if a = 100 then 15608 / 10000 else 0,
    tan := fun t => if t = 15608 / 10000 then 100 else 0,
    sqrt := fun _ => 0 }

/-- The squared vertical error `deltaError(j)` that `peakOriginFinder` computes
for sample `j` of value `w`: the bisector `y = a x + b` is evaluated at
`rangeX(j) + shift = j + 1 + shift`. -/
def deltaErrorAt (a b : ℚ) (shift : ℤ) (j : ℕ) (w : ℚ) : ℚ :=
  (a * (((j : ℚ) + 1) + (shift : ℚ)) + b - w) ^ 2

/-! ## The entry point and the threshold table (`twaveDelineator.cpp`) -/

/-- `ecglib::twaveDelineators(e, pmin, cfg)` seen from its first statement: the
check of the sampling frequency `e.fs()`, which throws the `std::logic_error`
"frequency should be 1000Hz". `body` is the rest of the function (steps 01 to
06), reached only when the check passes; it reads the ECG, the annotations and
the configuration. -/
def twaveDelineators {α : Type} (fs : ℚ) (body : Except String α) : Except String α :=
  if fs ≠ 1000 then Except.error "frequency should be 1000Hz" else body

/-- `boost::split(out, s, boost::is_any_of(sep))` for a single separator, with
the default `token_compress_off`: the pieces between the separators, empty
pieces included; an empty string gives one empty piece. -/
def split (sep : Char) : List Char → List (List Char)
  | [] => [[]]
  | c :: cs =>
    if c = sep then [] :: split sep cs
    else
      match split sep cs with
      | [] => [[c]]
      | p :: ps => (c :: p) :: ps

/-- `isspace` of the C locale. -/
def isspace (c : Char) : Bool := decide (c.toNat = 32 ∨ (9 ≤ c.toNat ∧ c.toNat ≤ 13))

/-- `isdigit`. -/
def isdigit (c : Char) : Bool := decide (48 ≤ c.toNat ∧ c.toNat ≤ 57)

/-- The value of a string of decimal digits. -/
def digitsValue (ds : List Char) : ℕ := ds.foldl (fun n c => 10 * n + (c.toNat - 48)) 0

/-- The head of a decimal number as `strtod` reads it: leading white space, an
optional sign, digits and an optional decimal point with more digits. Returns
whether the sign is `-`, the digits before and after the point, and the rest of
the string. -/
def numberHead (str : List Char) : Bool × List Char × List Char × List Char :=
  let s1 := str.dropWhile isspace
  let s2 := if s1.head? = some '-' ∨ s1.head? = some '+' then s1.tail else s1
  let s3 := s2.dropWhile isdigit
  (decide (s1.head? = some '-'), s2.takeWhile isdigit,
    if s3.head? = some '.' then s3.tail.takeWhile isdigit else [],
    if s3.head? = some '.' then s3.tail.dropWhile isdigit else s3)

/-- The optional exponent of a decimal number (`e` or `E`, an optional sign,
digits) applied to the value read so far; without digits nothing is consumed.
Returns the value and the unparsed rest. -/
def exponentTail (value : ℚ) (s4 : List Char) : ℚ × List Char :=
  let e1 := s4.tail
  let e2 := if e1.head? = some '-' ∨ e1.head? = some '+' then e1.tail else e1
  let expDigits := e2.takeWhile isdigit
  if (s4.head? = some 'e' ∨ s4.head? = some 'E') ∧ expDigits ≠ [] then
    let exponent : ℤ :=
      if e1.head? = some '-' then -(digitsValue expDigits : ℤ) else (digitsValue expDigits : ℤ)
    (value * 10 ^ exponent, e2.dropWhile isdigit)
  else (value, s4)

/-- Whether `strtod` sets `errno` to `ERANGE` after reading the exact value
`v`, as the GNU C library does. Overflow: `v` rounds to an infinity, that is
`|v| >= 2^1024 - 2^970`, half a unit in the last place above the largest
`double`. Underflow: `v` is not zero, stays below the smallest normal `double`
`2^-1022` when rounded to 53 bits (`|v| < 2^-1022 - 2^-1076`), and is no
multiple of the smallest subnormal `2^-1074`, so that the tiny result is
inexact. -/
def erange (v : ℚ) : Bool :=
  decide (2 ^ 1024 - 2 ^ 970 ≤ |v|) ||
    (decide (v ≠ 0) && decide (|v| < 1 / 2 ^ 1022 - 1 / 2 ^ 1076) &&
      decide ((v * 2 ^ 1074).den ≠ 1))

/-- `strtod(str, &end)` on decimal notation, returning the value, the unparsed
rest and whether `errno` is set to `ERANGE`, or nothing when no conversion can
be performed (no digit). The value is the exact rational of the digits: the
rounding to a `double` is not part of the embedding, and under `ERANGE` the C
function returns `HUGE_VAL` or a tiny value in its place. The notations of the
C library that are no decimal number (hexadecimal floats, `inf`, `nan`) are
not part of the embedding. -/
def strtod (str : List Char) : Option (ℚ × List Char × Bool) :=
  let h := numberHead str
  if h.2.1 = [] ∧ h.2.2.1 = [] then none
  else
    let mantissa : ℚ := (digitsValue (h.2.1 ++ h.2.2.1) : ℚ) / 10 ^ h.2.2.1.length
    let r := exponentTail (if h.1 then -mantissa else mantissa) h.2.2.2
    some (r.1, r.2, erange r.1)

/-- `std::stod(str)`: the value `strtod` converts at the head of the string,
whatever follows it; `std::invalid_argument` when there is no conversion and
`std::out_of_range` when `strtod` reports `ERANGE`. -/
def stod (str : List Char) : Option ℚ :=
  match strtod str with
  | none => none
  | some (value, _, range) => if range then none else some value

/-- `ecglib::featursThresholdPreparation(thresholds)`: the string is split at
`_` into rules, every rule at `,` into fields, and every field is converted by
`std::stod`. -/
def featursThresholdPreparation (thresholds : String) : Option (List (List ℚ)) :=
  mapOpt (fun rule => mapOpt stod (split ',' rule)) (split '_' thresholds.toList)

/-- Fields joined by the separator `sep`. -/
def joinWith (sep : Char) : List (List Char) → List Char
  | [] => []
  | [f] => f
  | f :: g :: rest => f ++ sep :: joinWith sep (g :: rest)

/-- A field begins with a decimal number: after white space and an optional
sign comes a digit, or a point followed by a digit. -/
def leadingNumber (str : List Char) : Bool :=
  let s1 := str.dropWhile isspace
  let s2 := if s1.head? = some '-' ∨ s1.head? = some '+' then s1.tail else s1
  match s2 with
  | [] => false
  | c :: r =>
    isdigit c || (decide (c = '.') &&
      (match r with
       | [] => false
       | d :: _ => isdigit d))

/-- A field starts, after white space and an optional sign, with one of the
notations of `strtod` that are no decimal number: `inf`, `nan` (in any case) or
the hexadecimal prefix `0x`. -/
def nonDecimal (str : List Char) : Bool :=
  let s1 := str.dropWhile isspace
  let s2 := if s1.head? = some '-' ∨ s1.head? = some '+' then s1.tail else s1
  decide ((s2.take 3).map Char.toLower = ['i', 'n', 'f'] ∨
    (s2.take 3).map Char.toLower = ['n', 'a', 'n'] ∨ (s2.take 2).map Char.toLower = ['0', 'x'])

/-- The number at the head of a field is outside the range of a `double`:
`strtod` converts it and reports `ERANGE`. -/
def outOfRange (str : List Char) : Bool :=
  match strtod str with
  | none => false
  | some (_, _, range) => range

/-- The rows computed by the outer loop of `candidateFinder` from the extreme
slopes `dmax` and `dmin`: for every threshold `j` the finished row of
`movedZeroCrossingPage` and the row of `peakCandidates` it wrote. -/
def sweepRows (derivative : List ℚ) (dmax dmin deltaStepSlope : ℚ) : List (List ℚ × List ℚ) :=
  let startingSlope : ℚ := (ctrunc (dmax * deltaStepSlope) : ℚ) / deltaStepSlope
  let endingSlope : ℚ := (ctrunc (dmin * deltaStepSlope) : ℚ) / deltaStepSlope
  let numberSlope : ℤ := ctrunc ((startingSlope - endingSlope) * deltaStepSlope + 1)
  let zeroSlopeIndex : ℤ := ctrunc (startingSlope * deltaStepSlope)
  (List.range numberSlope.toNat).map
    (fun j => sweepRow derivative startingSlope deltaStepSlope zeroSlopeIndex j)

/-- Column `k` lies at a crossing of the threshold `t` within one step
`1/deltaStepSlope`: `derivative[k] > t - 1/δ` and `derivative[k+1] < t + 1/δ`. -/
def NearCrossing (derivative : List ℚ) (t deltaStepSlope : ℚ) (k : ℕ) : Prop :=
  ∃ a b, derivative[k]? = some a ∧ derivative[k + 1]? = some b ∧
    t - 1 / deltaStepSlope < a ∧ b < t + 1 / deltaStepSlope

/-- Invariant of a row of `movedZeroCrossingPage` during the sweep: its length,
its values (0, 1 or the flat marker 2), and every flat marker is at a crossing
within one step. -/
def RowInv (derivative : List ℚ) (t deltaStepSlope : ℚ) (row : List ℚ) : Prop :=
  row.length = derivative.length - 1 ∧
  (∀ (k : ℕ) (v : ℚ), row[k]? = some v → v = 0 ∨ v = 1 ∨ v = 2) ∧
  (∀ k : ℕ, row[k]? = some 2 → NearCrossing derivative t deltaStepSlope k)

/-- Invariant of a row of `peakCandidates` during the sweep: its length, and
every flagged column belongs to one of the three middle thresholds and is at a
crossing within one step. -/
def PeakInv (derivative : List ℚ) (t deltaStepSlope : ℚ) (jz : ℤ) (peak : List ℚ) : Prop :=
  peak.length = derivative.length - 1 ∧
  (∀ (k : ℕ) (v : ℚ), peak[k]? = some v → v = 0 ∨ v = 1) ∧
  (∀ (k : ℕ) (v : ℚ), peak[k]? = some v → v ≠ 0 →
    jz ≠ -1 ∧ NearCrossing derivative t deltaStepSlope k)

/-! ## Annotations, pointmaps and globalizers of the core library (`core/ecglib`) -/

/-- The enumeration `domain` of `ecglib::annotation_type` (`ecglib.hpp`). -/
inductive annotation_type
  | PON | PPEAK | POFF | QON | QPEAK | RPEAK | RPPEAK | SPEAK | QOFF | TON | TPEAK | TPPEAK
  | TOFF | UON | UPEAK | UOFF | UNKNOWN
  deriving DecidableEq

/-- `ecglib::GLOBAL_LEAD`. -/
def GLOBAL_LEAD : ℤ := -1

/-- The class `ecglib::annotation` of the core library (`annotation.hpp`): a point
in time (`timems`, unsigned) with a type, a subtype (`NONE` = 1) and a lead. The
delineator's result type of the same name is a different class. -/
structure annotationPoint where
  location : ℕ
  type : annotation_type
  subtype : ℤ := 1
  lead : ℤ := -1
  deriving DecidableEq

/-- `ecglib::annotationset`: a `std::map<timems, annotation>`, as the list of its
entries in iteration order (ascending keys). -/
abbrev annotationset := List (ℕ × annotationPoint)

/-- `ecglib::pointmap`: a `std::map<leadnumber, annotationset>`, as the list of
its entries in iteration order. -/
abbrev pointmap := List (ℤ × annotationset)

/-- `std::map::find`: the value stored under `k`. -/
def mapGet {κ ν : Type} [DecidableEq κ] (m : List (κ × ν)) (k : κ) : Option ν :=
  (m.find? (fun e => decide (e.1 = k))).map Prod.snd

/-- The assignment `m[k] = v` on a `std::map`: overwrite the entry of `k`, or
insert it at its place in the key order. -/
def mapSet {κ ν : Type} [LinearOrder κ] (k : κ) (v : ν) : List (κ × ν) → List (κ × ν)
  | [] => [(k, v)]
  | e :: rest =>
    if k < e.1 then (k, v) :: e :: rest
    else if k = e.1 then (k, v) :: rest
    else e :: mapSet k v rest

/-- The assignment `pm[l][location] = a`; `pm[l]` inserts an empty
annotationset when the lead is new. -/
def pointmapSet (pm : pointmap) (l : ℤ) (location : ℕ) (a : annotationPoint) : pointmap :=
  mapSet l (mapSet location a ((mapGet pm l).getD [])) pm

/-- `ecglib::get_annotations(annotationset, typ, out)`: appends the annotations
of type `typ` to `out`. -/
def get_annotations_set (pm : annotationset) (typ : annotation_type)
    (out : List annotationPoint) : List annotationPoint :=
  out ++ (pm.filter (fun e => decide (e.2.type = typ))).map Prod.snd

/-- `ecglib::get_annotations(pointmap, typ, out)`: the annotations of type `typ`
of every lead of the pointmap, the global lead included. -/
def get_annotations (pm : pointmap) (typ : annotation_type) (out : List annotationPoint) :
    List annotationPoint :=
  pm.foldl (fun acc e => get_annotations_set e.2 typ acc) out

/-- `ecglib::get_annotations(pointmap, l, typ, anns)`: the annotations of type
`typ` of lead `l`; nothing when the pointmap has no such lead. -/
def get_annotations_lead (pm : pointmap) (l : ℤ) (typ : annotation_type)
    (anns : List annotationPoint) : List annotationPoint :=
  match mapGet pm l with
  | some s => get_annotations_set s typ anns
  | none => anns

/-- `ecglib::mglobalizer(direction, perc)` applied to `vals` (`annotation.hpp`):
the entry of the ascending sort at index `round(perc * n)`, with `perc`
replaced by `1 - perc` for the direction -1 and the index `n` replaced by
`n - 1`. The read `svals[idx]` is unchecked. -/
def mglobalizer (direction : ℤ) (perc : ℚ) (vals : List ℕ) : Option ℕ :=
  let svals := vals.insertionSort (fun a b => a ≤ b)
  let perc1 : ℚ := if direction = -1 then 1 - perc else perc
  let idx0 : ℤ := cround (perc1 * (svals.length : ℚ))
  let idx1 : ℤ := if idx0 = (svals.length : ℤ) then idx0 - 1 else idx0
  let idx2 : ℤ := if idx1 < 0 then 0 else idx1
  vecAt svals idx2

/-- The inner loop of `make_global` over the annotations of one lead: `vals` is
the filled part `vals[0 .. cnt-1]` of the vector, `pmo` the output pointmap.
Throws "Too many points" when an annotation of the type arrives with
`cnt >= nleads`. -/
def make_globalSet (nleads : ℕ) (anntyp : annotation_type) (lead : ℤ) :
    annotationset → List ℕ × pointmap → Option (List ℕ × pointmap)
  | [], st => some st
  | e :: rest, st =>
    if e.2.type = anntyp then
      if st.1.length ≥ nleads then none
      else make_globalSet nleads anntyp lead rest
        (st.1 ++ [e.1], pointmapSet st.2 lead e.1 e.2)
    else make_globalSet nleads anntyp lead rest (st.1, pointmapSet st.2 lead e.1 e.2)

/-- The outer loop of `make_global` over the leads; the lead `GLOBAL_LEAD` is
skipped. -/
def make_globalLeads (nleads : ℕ) (anntyp : annotation_type) :
    pointmap → List ℕ × pointmap → Option (List ℕ × pointmap)
  | [], st => some st
  | e :: rest, st =>
    if e.1 = GLOBAL_LEAD then make_globalLeads nleads anntyp rest st
    else
      match make_globalSet nleads anntyp e.1 e.2 st with
      | some st1 => make_globalLeads nleads anntyp rest st1
      | none => none

/-- `ecglib::make_global(pm, nleads, anntyp, f)` (`beat.hpp`). With more than one
collected location the globalizer `f` is applied to `vals.subvec(0, cnt-2)`,
the first `cnt - 1` of them. The `int nleads` sizes the vector `vals` and is
taken non-negative. -/
def make_global (pm : pointmap) (nleads : ℕ) (anntyp : annotation_type)
    (f : List ℕ → Option ℕ) : Option pointmap :=
  match make_globalLeads nleads anntyp pm ([], []) with
  | some (vals, pmo) =>
    if vals.length > 1 then
      match f (vals.take (vals.length - 1)) with
      | some newloc =>
        some (pointmapSet pmo GLOBAL_LEAD newloc
          { location := newloc, type := anntyp, lead := GLOBAL_LEAD })
      | none => none
    else some pmo
  | none => none

/-- The locations `make_global` collects: those of the annotations of type
`anntyp` in the leads other than `GLOBAL_LEAD`, in iteration order. -/
def typedLocations (pm : pointmap) (anntyp : annotation_type) : List ℕ :=
  (pm.filter (fun e => decide (e.1 ≠ GLOBAL_LEAD))).flatMap
    (fun e => (e.2.filter (fun p => decide (p.2.type = anntyp))).map Prod.fst)

/-- The R-peak position `twaveDelineators` passes to `readjustToff`
(`twaveDelineator.cpp`, step 02): the location of the global RPEAK annotation
when there is exactly one; otherwise the mean over all RPEAK annotations is
computed and then overwritten by `nsamples - precut` when the ECG has the
property "precut", by 250 when not. `mean` of an empty vector throws. -/
def twaveDelineators_rpeak (pmin : pointmap) (nsamples : ℕ) (precut : Option ℚ) : Option ℤ :=
  let locs := get_annotations_lead pmin GLOBAL_LEAD annotation_type.RPEAK []
  let rpeak : ℤ := match locs with
    | [a] => (a.location : ℤ)
    | _ => -1
  if rpeak = -1 then
    let locs1 := get_annotations pmin annotation_type.RPEAK []
    let peaks : List ℚ := locs1.map (fun a => (a.location : ℚ))
    if peaks.length = 0 then none
    else
      let _rpeak1 : ℤ := ctrunc (accu peaks / (peaks.length : ℚ))
      match precut with
      | some p => some (ctrunc ((nsamples : ℚ) - p))
      | none => some 250
  else some rpeak

/-- The seed point `seedoff` of `twaveDelineators` (`twaveDelineator.cpp`, step
02): the location of the global QOFF annotation when there is exactly one,
otherwise the mean over all QOFF annotations. -/
def twaveDelineators_seedoff (pmin : pointmap) : Option ℤ :=
  let locs := get_annotations_lead pmin GLOBAL_LEAD annotation_type.QOFF []
  let seedoff : ℤ := match locs with
    | [a] => (a.location : ℤ)
    | _ => -1
  if seedoff = -1 then
    let locs1 := get_annotations pmin annotation_type.QOFF []
    let offs : List ℚ := locs1.map (fun a => (a.location : ℚ))
    if offs.length = 0 then none
    else some (ctrunc (accu offs / (offs.length : ℚ)))
  else some seedoff

/-- A pointmap with one annotation of type `typ` in each of the leads 0 and 1,
at 300 ms and 310 ms, and no global annotation. -/
def twoLeads (typ : annotation_type) : pointmap :=
  [(0, [(300, { location := 300, type := typ, lead := 0 })]),
   (1, [(310, { location := 310, type := typ, lead := 1 })])]

/-- The intersection `intersectionTwoCandidates` computes before its range
check: `ceil|db/ac|`, or the sentinel `-1` when `ac <= 1e-10`. -/
def slopeIntersection (candids1 candids2 : candidate) : ℤ :=
  let db : ℚ := if candids2.x > candids1.x then candids1.b1 - candids2.b0
    else candids2.b1 - candids1.b0
  let ac : ℚ := if candids2.x > candids1.x then candids2.a0 - candids1.a1
    else candids1.a0 - candids2.a1
  if ac > 1 / 10000000000 then cceil |db / ac| else -1

/-- The highest amplitude among the candidates labelled peak is `M`: some peak
has it and no peak exceeds it. -/
def TopPeak (candids : List candidate) (M : ℚ) : Prop :=
  (∃ c ∈ candids, c.label = candidateLabel.peak ∧ c.y = M) ∧
  ∀ c ∈ candids, c.label = candidateLabel.peak → c.y ≤ M

/-- A list with two peaks (amplitudes 120 and 200) and a slur. -/
def twoPeaks : List candidate :=
  [{ label := candidateLabel.peak, y := 120 }, { y := 30 }, { label := candidateLabel.peak, y := 200 }]

/-- A wave of 27 samples with two equal humps (maxima 809/4 at the samples 6 and
20) and the valley 3195/16 at sample 13 between them. -/
def humpsWave : List ℚ :=
  [200, 3211 / 16, 805 / 4, 3227 / 16, 202, 3235 / 16, 809 / 4, 3235 / 16, 202, 3227 / 16,
   805 / 4, 3211 / 16, 200, 3195 / 16, 200, 3211 / 16, 805 / 4, 3227 / 16, 202, 3235 / 16,
   809 / 4, 3235 / 16, 202, 3227 / 16, 805 / 4, 3211 / 16, 200]

/-- The candidate steps 01 to 05 of `delineator` build for the first hump of
`humpsWave` (default parameters, placeholder `libm0`). -/
def humpA : candidate :=
  { label := candidateLabel.peak, a0 := 7 / 16, b0 := 4805 / 24, a1 := -1 / 4, b1 := 815 / 4,
    y := 3235 / 16, x := 5, yOrigin := 3235 / 16, xOrigin := 7, flatnessSamples := 11,
    skewness := 179 / 2, distortion := 0, risingRangeInfo0 := 0, risingRangeInfo1 := 10,
    candidateRangeInfo0 := 0, candidateRangeInfo1 := 11 }

/-- The candidate steps 01 to 05 of `delineator` build for the second hump of
`humpsWave`. -/
def humpB : candidate :=
  { label := candidateLabel.peak, a0 := 23 / 80, b0 := 14155 / 72, a1 := -1 / 4,
    b1 := 829 / 4, y := 3235 / 16, x := 19, yOrigin := 3235 / 16, xOrigin := 21,
    flatnessSamples := 11, skewness := 179 / 2, distortion := 0, risingRangeInfo0 := 14,
    risingRangeInfo1 := 24, candidateRangeInfo0 := 11, candidateRangeInfo1 := 25 }

/-- The candidate `meargingCandidates` builds from `humpA` and `humpB`. -/
def humpMerged : candidate :=
  { label := candidateLabel.peak, a0 := 7 / 16, b0 := 4805 / 24, a1 := -1 / 4, b1 := 829 / 4,
    y := 200, x := 12, yOrigin := 3235 / 16, xOrigin := 7, flatnessSamples := 26,
    skewness := 179 / 2, distortion := 0, risingRangeInfo0 := 0, risingRangeInfo1 := 24,
    candidateRangeInfo0 := 0, candidateRangeInfo1 := 25 }

/-- The two slur stages in the order of `delineator`: step 09 `reLabellingSlurs`,
then step 10, the removal of the candidates still labelled `slurUnrelated`. -/
def slurStagesRelabelFirst (w : Work) : Option Work := do
  let candids9 ← reLabellingSlurs w.1
  step10 (candids9, w.2)

/-- The two slur stages in the order the specification lists them: the removal
of the `slurUnrelated` candidates first, `reLabellingSlurs` afterwards. -/
def slurStagesRemoveFirst (w : Work) : Option Work := do
  let w10 ← step10 w
  let candids9 ← reLabellingSlurs w10.1
  some (candids9, w10.2)

/-- The stages of the specification after candidate discovery, in the listed
order, with the two slur stages given by `slurStages`. -/
def stagesWith (slurStages : Work → Option Work) (m : Libm) (twave : List ℚ) (P : Params)
    (w5 : Work) : Option annotation := do
  let w6 ← step06 P w5
  let w7 ← step07 P w6
  let w8 ← step08 P w7
  let w10 ← slurStages w8
  let w11 ← step11 m twave P w10
  let w12 ← step12 m P w11
  let w13 ← step13 w12
  let w14 ← step14 twave P w13
  let w15 ← step15 P w14
  outputPreparation P.pointStart w15

/-- The pipeline of the specification: candidate discovery, then the stages in
the listed order, with the two slur stages given by `slurStages`. -/
def pipelineWith (slurStages : Work → Option Work) (m : Libm) (twave : List ℚ) (P : Params) :
    Option annotation := do
  let w5 ← discovery m twave P
  stagesWith slurStages m twave P w5

/-- A wave of 33 samples that rises from 200 with a shoulder at samples 11 to 14
to its single maximum 3569/16 at sample 27. -/
def slurWave : List ℚ :=
  [200, 3225 / 16, 203, 3269 / 16, 411 / 2, 3305 / 16, 415 / 2, 3333 / 16, 209, 3353 / 16, 210,
   3365 / 16, 421 / 2, 3377 / 16, 425 / 2, 3425 / 16, 431 / 2, 3469 / 16, 218, 3505 / 16, 220,
   3533 / 16, 443 / 2, 3553 / 16, 445 / 2, 3565 / 16, 223, 3569 / 16, 223, 3565 / 16, 445 / 2,
   3553 / 16, 443 / 2]

/-- The candidate steps 01 to 05 of `delineator` build for the shoulder of
`slurWave` (default parameters, placeholder `libm0`). -/
def slurShoulder : candidate :=
  { label := candidateLabel.slurUnrelated, a0 := 21 / 16, b0 := 4805 / 24, a1 := 5 / 8,
    b1 := 815 / 4, y := 3333 / 16, x := 7, yOrigin := 415 / 2, xOrigin := 6,
    flatnessSamples := 7, skewness := 179 / 2, distortion := 0, risingRangeInfo0 := 0,
    risingRangeInfo1 := 10, candidateRangeInfo0 := 0, candidateRangeInfo1 := 11 }

/-- The candidate steps 01 to 05 of `delineator` build for the maximum of
`slurWave`. -/
def slurPeak : candidate :=
  { label := candidateLabel.peak, a0 := 6 / 5, b0 := 28253 / 144, a1 := -1 / 8,
    b1 := 905 / 4, y := 445 / 2, x := 24, yOrigin := 223, xOrigin := 28,
    flatnessSamples := 12, skewness := 179 / 2, distortion := 0, risingRangeInfo0 := 14,
    risingRangeInfo1 := 30, candidateRangeInfo0 := 11, candidateRangeInfo1 := 31 }

/-- A wave of 27 samples that falls from 200 to a valley 787/4 at sample 8, rises
to its maximum 797/4 at sample 16 and falls to 193. -/
def valleyWave : List ℚ :=
  [200, 1595 / 8, 199, 1589 / 8, 793 / 4, 1583 / 8, 395 / 2, 1577 / 8, 787 / 4, 1577 / 8,
   395 / 2, 1583 / 8, 793 / 4, 1589 / 8, 199, 1593 / 8, 797 / 4, 1593 / 8, 199, 1589 / 8,
   793 / 4, 1581 / 8, 197, 1569 / 8, 781 / 4, 1553 / 8, 193]

/-- The candidate steps 01 to 05 of `delineator` build for `valleyWave` (default
parameters, placeholder `libm0`): the rising edge is fitted over the valley and
its slope is 0. -/
def valleyCandidate : candidate :=
  { label := candidateLabel.peak, a0 := 0, b0 := 4351 / 22, a1 := -3 / 4, b1 := 2985 / 14,
    y := 199, x := 18, yOrigin := 793 / 4, xOrigin := 12, flatnessSamples := 11,
    skewness := 179 / 2, distortion := 0, risingRangeInfo0 := 13, risingRangeInfo1 := 23,
    candidateRangeInfo0 := 0, candidateRangeInfo1 := 25 }

/-- The derivative takes a strictly smaller value at some index after `k`. -/
def Descends (derivative : List ℚ) (k : ℕ) : Prop :=
  ∃ (q : ℕ) (a b : ℚ), k < q ∧ derivative[k]? = some a ∧ derivative[q]? = some b ∧ b < a

/-- Invariant of a row of `movedZeroCrossingPage` during the sweep: the
derivative descends after every column marked 1. -/
def DescInv (derivative : List ℚ) (row : List ℚ) : Prop :=
  ∀ k : ℕ, row[k]? = some 1 → Descends derivative k

/-- A derivative and wave for evaluating the candidate ranges: one crossing at
the columns 0 and 1. -/
def dipWave : List ℚ := [0, 1 / 2, 7 / 20, 0]

/-- The candidate `candidateRangeInfoFinder` builds for `dipWave`. -/
def dipCandidate : candidate :=
  { risingRangeInfo0 := 0, risingRangeInfo1 := 1, candidateRangeInfo0 := 0,
    candidateRangeInfo1 := 2 }

/-- The integer part of the binary logarithm of `n >= 1`, by repeated
halving; the first argument bounds the number of steps. -/
def log2Fuel : ℕ → ℕ → ℕ
  | 0, _ => 0
  | fuel + 1, n => if 2 ≤ n then log2Fuel fuel (n / 2) + 1 else 0

/-- The binary exponent of a rational `q` other than zero: the integer `e`
with `2^e <= |q| < 2^(e+1)`. -/
def binaryExponent (q : ℚ) : ℤ :=
  let e0 : ℤ := (log2Fuel q.num.natAbs q.num.natAbs : ℤ) - (log2Fuel q.den q.den : ℤ)
  if (2 : ℚ) ^ e0 ≤ |q| then e0 else e0 - 1

/-- The nearest integer, a tie going to the even neighbour. -/
def roundHalfEven (q : ℚ) : ℤ :=
  if q - ⌊q⌋ < 1 / 2 then ⌊q⌋
  else if 1 / 2 < q - ⌊q⌋ then ⌊q⌋ + 1
  else if ⌊q⌋ % 2 = 0 then ⌊q⌋ else ⌊q⌋ + 1

/-- The `double` that an arithmetic operation with the exact result `q`
returns: `q` rounded to 53 significant bits, to nearest, ties to even (the
default rounding of IEEE 754 binary64). Results beyond the largest `double`
and subnormal results are not distinguished. -/
def roundDouble (q : ℚ) : ℚ :=
  if q = 0 then 0
  else (roundHalfEven (q / 2 ^ (binaryExponent q - 52)) : ℚ) * 2 ^ (binaryExponent q - 52)

/-- The loop of `arma::accu` in `double` arithmetic: Armadillo adds the
elements alternately to two partial sums and adds these at the end; every sum
is rounded. -/
def accuDoubleLoop : ℚ → ℚ → List ℚ → ℚ
  | acc1, acc2, a :: b :: rest =>
    accuDoubleLoop (roundDouble (acc1 + a)) (roundDouble (acc2 + b)) rest
  | acc1, acc2, [a] => roundDouble (roundDouble (acc1 + a) + acc2)
  | acc1, acc2, [] => roundDouble (acc1 + acc2)

/-- `arma::accu(v)` in `double` arithmetic. -/
def accuDouble (v : List ℚ) : ℚ := accuDoubleLoop 0 0 v

/-- `delineateFinder::linearRegression(y, leftBoundX, rightBoundX, a, b)` with
the rounding of `double` arithmetic: the statements of `linearRegression`, every
power, product, sum, difference and quotient rounded by `roundDouble`, and
the literal `1e-4` read as the nearest `double`. The abscissae of `linspace` are
integers, which a `double` holds exactly. -/
def linearRegressionDouble (y : List ℚ) (leftBoundX rightBoundX : ℤ) : Option (ℚ × ℚ) := do
  let n : ℚ := (y.length : ℚ)
  let x := linspace leftBoundX rightBoundX
  let x2 := x.map (fun v => roundDouble (v ^ 2))
  let divisor : ℚ := roundDouble (roundDouble (n * accuDouble x2) - roundDouble ((accuDouble x) ^ 2))
  if |divisor| > roundDouble (1 / 10000) then do
    let xy ← (schur x y).map (List.map roundDouble)
    some (roundDouble (roundDouble (roundDouble (n * accuDouble xy) -
              roundDouble (accuDouble x * accuDouble y)) / divisor),
      roundDouble (roundDouble (roundDouble (accuDouble x2 * accuDouble y) -
              roundDouble (accuDouble x * accuDouble xy)) / divisor))
  else some (0, 0)

/-- The exact values of the sums that the loop of `arma::accu` forms: the two
partial sums after every element and their sum at the end. -/
def accuValuesLoop : ℚ → ℚ → List ℚ → List ℚ
  | acc1, acc2, a :: b :: rest =>
    (acc1 + a) :: (acc2 + b) :: accuValuesLoop (acc1 + a) (acc2 + b) rest
  | acc1, acc2, [a] => [acc1 + a, acc1 + a + acc2]
  | acc1, acc2, [] => [acc1 + acc2]

/-- The exact results of all operations of `linearRegression` on the samples
`y` at the abscissae `leftBoundX .. rightBoundX`: the squares and products of
the elements, the sums formed by the four `accu`, and the products,
differences and quotients of the three formulas. -/
def regressionValues (y : List ℚ) (leftBoundX rightBoundX : ℤ) : List ℚ :=
  let n : ℚ := (y.length : ℚ)
  let x := linspace leftBoundX rightBoundX
  let x2 := x.map (fun v => v ^ 2)
  let xy := List.zipWith (fun a b => a * b) x y
  let divisor : ℚ := n * accu x2 - (accu x) ^ 2
  x2 ++ accuValuesLoop 0 0 x ++ accuValuesLoop 0 0 x2 ++ xy ++ accuValuesLoop 0 0 xy ++
    accuValuesLoop 0 0 y ++
    [n * accu x2, (accu x) ^ 2, divisor,
      n * accu xy, accu x * accu y, n * accu xy - accu x * accu y,
      (n * accu xy - accu x * accu y) / divisor,
      accu x2 * accu y, accu x * accu xy, accu x2 * accu y - accu x * accu xy,
      (accu x2 * accu y - accu x * accu xy) / divisor]

/-- The `double` nearest to 0.1. -/
def tenth : ℚ := 3602879701896397 / 36028797018963968

/-! ## Concave humps (statements on single-hump waves) -/

theorem vecAt_eq_some {α : Type} {v : List α} {i : ℤ} {a : α} (h : vecAt v i = some a) :
    0 ≤ i ∧ i < v.length ∧ v.get? i.toNat = some a := by
  unfold vecAt at h
  split at h
  · rename_i hi
    refine ⟨hi, ?_, h⟩
    have := List.get?_eq_some.1 h
    obtain ⟨hlt, _⟩ := this
    omega
  · simp at h

theorem vecAt_of_lt {α : Type} (v : List α) (i : ℤ) (h0 : 0 ≤ i) (h1 : i < v.length) :
    ∃ a, vecAt v i = some a ∧ v.get? i.toNat = some a := by
  have hlt : i.toNat < v.length := by omega
  refine ⟨v.get ⟨i.toNat, hlt⟩, ?_, ?_⟩
  · unfold vecAt
    rw [if_pos h0]
    exact List.get?_eq_get hlt
  · exact List.get?_eq_get hlt

theorem indicesFrom_bounds {α : Type} (p : α → Bool) (l : List α) (i : ℕ) :
    ∀ k ∈ indicesFrom p i l, (i : ℤ) ≤ k ∧ k < (i : ℤ) + l.length := by
  induction l generalizing i with
  | nil => intro k hk; simp [indicesFrom] at hk
  | cons a as ih =>
    intro k hk
    unfold indicesFrom at hk
    split at hk
    · rcases List.mem_cons.1 hk with h | h
      · subst h; simp
      · have := ih (i + 1) k h
        simp only [List.length_cons]; push_cast at this ⊢; omega
    · have := ih (i + 1) k hk
      simp only [List.length_cons]; push_cast at this ⊢; omega

theorem indicesFrom_pairwise {α : Type} (p : α → Bool) (l : List α) (i : ℕ) :
    (indicesFrom p i l).Pairwise (fun a b => a < b) := by
  induction l generalizing i with
  | nil => simp [indicesFrom]
  | cons a as ih =>
    unfold indicesFrom
    split
    · refine List.Pairwise.cons ?_ (ih (i + 1))
      intro k hk
      have := (indicesFrom_bounds p as (i + 1) k hk).1
      push_cast at this; omega
    · exact ih (i + 1)

theorem indicesFrom_length_le {α : Type} (p : α → Bool) (l : List α) (i : ℕ) :
    (indicesFrom p i l).length ≤ l.length := by
  induction l generalizing i with
  | nil => simp [indicesFrom]
  | cons a as ih =>
    unfold indicesFrom
    split
    · simp only [List.length_cons]; have := ih (i + 1); omega
    · simp only [List.length_cons]; have := ih (i + 1); omega

theorem cleanUpLoop_of_removable (idx : List ℤ) :
    ∀ (i : ℕ) (candids : List candidate), Removable idx i candids.length →
      ∃ out, cleanUpLoop idx i candids = some out ∧ out.length + idx.length = candids.length ∧
        out.Sublist candids := by
  induction idx with
  | nil => intro i candids _; exact ⟨candids, rfl, by simp, List.Sublist.refl _⟩
  | cons k rest ih =>
    intro i candids h
    obtain ⟨hp, hb⟩ := h
    have hk := hb k (List.mem_cons_self _ _)
    have hpos : 0 ≤ k - (i : ℤ) ∧ k - (i : ℤ) < candids.length := by omega
    have hlt : (k - (i : ℤ)).toNat < candids.length := by omega
    unfold cleanUpLoop vecErase
    rw [if_pos hpos]
    simp only
    have hlen : (candids.eraseIdx (k - (i : ℤ)).toNat).length = candids.length - 1 :=
      List.length_eraseIdx_of_lt hlt
    have hrem : Removable rest (i + 1) (candids.eraseIdx (k - (i : ℤ)).toNat).length := by
      refine ⟨(List.pairwise_cons.1 hp).2, ?_⟩
      intro j hj
      have h1 := (List.pairwise_cons.1 hp).1 j hj
      have h2 := hb j (List.mem_cons_of_mem _ hj)
      rw [hlen]
      push_cast
      omega
    obtain ⟨out, ho, hl, hs⟩ := ih (i + 1) _ hrem
    refine ⟨out, ho, ?_, hs.trans (List.eraseIdx_sublist _ _)⟩
    simp only [List.length_cons]
    omega

theorem indicesWhere_removable {α : Type} (p : α → Bool) (l : List α) :
    Removable (indicesWhere p l) 0 l.length := by
  refine ⟨indicesFrom_pairwise p l 0, ?_⟩
  intro k hk
  have := indicesFrom_bounds p l 0 k hk
  push_cast at this ⊢; omega

theorem Removable.sublist {idx idx1 : List ℤ} {i n : ℕ} (h : Removable idx i n)
    (hs : idx1.Sublist idx) : Removable idx1 i n :=
  ⟨h.1.sublist hs, fun k hk => h.2 k (hs.subset hk)⟩

/-! ## Lemmas on the rules -/

theorem mapOpt_vecAt_of_bounds {α : Type} (v : List α) (index : List ℤ)
    (h : ∀ k ∈ index, 0 ≤ k ∧ k < (v.length : ℤ)) :
    ∃ out, mapOpt (fun i => vecAt v i) index = some out ∧ out.length = index.length := by
  induction index with
  | nil => exact ⟨[], rfl, rfl⟩
  | cons k rest ih =>
    obtain ⟨a, ha, _⟩ := vecAt_of_lt v k (h k (List.mem_cons_self _ _)).1
      (h k (List.mem_cons_self _ _)).2
    obtain ⟨out, ho, hl⟩ := ih (fun j hj => h j (List.mem_cons_of_mem _ hj))
    refine ⟨a :: out, ?_, by simp [hl]⟩
    simp [mapOpt, ha, ho]

theorem typeCandidates_bounds (candids : List candidate) (type : ℤ) :
    ∀ k ∈ typeCandidates candids type, 0 ≤ k ∧ k < (candids.length : ℤ) := by
  intro k hk
  have := indicesFrom_bounds _ candids 0 k hk
  push_cast at this; omega

theorem pickCandidates_peak (candids : List candidate) :
    ∃ out, pickCandidates candids (peakCandidates candids) = some out ∧
      out.length = (peakCandidates candids).length :=
  mapOpt_vecAt_of_bounds candids _ (typeCandidates_bounds candids 2)

theorem max_elementFrom_lt {α : Type} (cmp : α → α → Bool) (l : List α) :
    ∀ (i : ℕ) (a : α) (li : ℕ), li < i → max_elementFrom cmp l i a li < i + l.length := by
  induction l with
  | nil => intro i a li h; simpa [max_elementFrom] using h
  | cons b bs ih =>
    intro i a li h
    unfold max_elementFrom
    split
    · have := ih (i + 1) b i (by omega)
      simp only [List.length_cons]; omega
    · have := ih (i + 1) a li (by omega)
      simp only [List.length_cons]; omega

theorem max_element_lt {α : Type} (cmp : α → α → Bool) (l : List α) (h : 0 < l.length) :
    max_element cmp l < l.length := by
  cases l with
  | nil => simp at h
  | cons a as =>
    have := max_elementFrom_lt cmp as 1 a 0 (by omega)
    simp only [max_element, List.length_cons]; omega

theorem candidateMax_total (candids : List candidate) (amp : ℚ) (index : ℤ) :
    ∃ r, candidateMax candids amp index = some r := by
  unfold candidateMax
  split
  · rename_i h
    have hlt := max_element_lt cmp candids h
    obtain ⟨c, hc, _⟩ := vecAt_of_lt candids (max_element cmp candids : ℤ) (by omega)
      (by exact_mod_cast hlt)
    exact ⟨(c.y, (max_element cmp candids : ℤ)), by simp [hc]⟩
  · exact ⟨_, rfl⟩

theorem mainPeak_total (candids : List candidate) (i : ℤ) (a : ℚ) :
    ∃ r, mainPeak candids (peakCandidates candids) i a = some r := by
  obtain ⟨out, ho, _⟩ := pickCandidates_peak candids
  obtain ⟨r, hr⟩ := candidateMax_total out a i
  exact ⟨r, by simp [mainPeak, ho, hr]⟩

theorem filterIndices_total (candids : List candidate) (p : candidate → Bool) (index : List ℤ)
    (h : ∀ k ∈ index, 0 ≤ k ∧ k < (candids.length : ℤ)) :
    ∃ out, filterIndices candids p index = some out ∧ out.Sublist index := by
  induction index with
  | nil => exact ⟨[], rfl, List.Sublist.refl _⟩
  | cons k rest ih =>
    obtain ⟨c, hc, _⟩ := vecAt_of_lt candids k (h k (List.mem_cons_self _ _)).1
      (h k (List.mem_cons_self _ _)).2
    obtain ⟨out, ho, hs⟩ := ih (fun j hj => h j (List.mem_cons_of_mem _ hj))
    by_cases hp : p c = true
    · exact ⟨k :: out, by simp [filterIndices, hc, ho, hp], hs.cons₂ k⟩
    · exact ⟨out, by simp [filterIndices, hc, ho, hp], hs.cons k⟩

theorem peakCandidates_removable (candids : List candidate) :
    Removable (peakCandidates candids) 0 candids.length :=
  indicesWhere_removable _ candids

theorem lowAmplitudeMainPeak_removable (candids : List candidate) (a b : ℚ) :
    ∃ bad, lowAmplitudeMainPeak candids a b = some bad ∧ Removable bad 0 candids.length := by
  obtain ⟨r, hr⟩ := mainPeak_total candids (-1) 0
  unfold lowAmplitudeMainPeak
  simp only [hr, Option.bind_eq_bind, Option.some_bind]
  split
  · exact ⟨_, rfl, indicesWhere_removable _ candids⟩
  · exact ⟨[], rfl, by simp [Removable]⟩

theorem lowAmplitudePeaks_removable (candids : List candidate) (a b : ℚ) :
    ∃ bad, lowAmplitudePeaks candids a b = some bad ∧ Removable bad 0 candids.length := by
  obtain ⟨r, hr⟩ := mainPeak_total candids (-1) 0
  unfold lowAmplitudePeaks
  simp only [hr, Option.bind_eq_bind, Option.some_bind]
  obtain ⟨out, ho, hs⟩ := filterIndices_total candids
    (fun c => decide (peakMostlySlur r.1 a b c > 5 / 1000)) (peakCandidates candids)
    (typeCandidates_bounds candids 2)
  exact ⟨out, ho, (peakCandidates_removable candids).sublist hs⟩

theorem inconsistentPeaks_removable (candids : List candidate) (a : ℚ) :
    ∃ bad, inconsistentPeaks candids a = some bad ∧ Removable bad 0 candids.length := by
  obtain ⟨r, hr⟩ := mainPeak_total candids (-1) 0
  unfold inconsistentPeaks
  simp only [hr, Option.bind_eq_bind, Option.some_bind]
  obtain ⟨out, ho, hs⟩ := filterIndices_total candids
    (fun c => decide (r.1 - c.y > a)) (peakCandidates candids)
    (typeCandidates_bounds candids 2)
  exact ⟨out, ho, (peakCandidates_removable candids).sublist hs⟩

theorem rulesHitAt_cons (name : String) (n : ℕ) (hits : List (String × ℕ)) :
    rulesHitAt ((name, n) :: hits) name = n := by
  simp [rulesHitAt, List.find?]

theorem removalStep_of_removable (name : String) (bad : List ℤ) (w : Work)
    (h : Removable bad 0 w.1.length) :
    ∃ w1, removalStep name bad w = some w1 ∧ rulesHitAt w1.2 name = bad.length ∧
      w1.1.length + bad.length = w.1.length ∧ w1.1.Sublist w.1 ∧ w1.2 = (name, bad.length) :: w.2 := by
  obtain ⟨out, ho, hl, hs⟩ := cleanUpLoop_of_removable bad 0 w.1 h
  refine ⟨(out, (name, bad.length) :: w.2), ?_, rulesHitAt_cons _ _ _, hl, hs, rfl⟩
  simp [removalStep, cleanUpCandidates, ho]

theorem relabelLoop_length (label : candidateLabel) (guarded : Bool) (idx : List ℤ) :
    ∀ (candids out : List candidate), relabelLoop label guarded idx candids = some out →
      out.length = candids.length := by
  induction idx with
  | nil => intro candids out h; simp [relabelLoop] at h; simp [h]
  | cons k rest ih =>
    intro candids out h
    unfold relabelLoop at h
    split at h
    · simp at h; simp [h]
    · split at h
      · have := ih _ _ h
        simpa using this
      · simp at h

/-! ## The pipeline as a chain of steps -/

theorem postProcessing_eq_some (m : Libm) (twave : List ℚ) (P : Params) (w w15 : Work) :
    postProcessing m twave P w = some w15 ↔
      ∃ w6 w7 w8 c9 w10 w11 w12 w13 w14, step06 P w = some w6 ∧ step07 P w6 = some w7 ∧
        step08 P w7 = some w8 ∧ reLabellingSlurs w8.1 = some c9 ∧
        step10 (c9, w8.2) = some w10 ∧ step11 m twave P w10 = some w11 ∧
        step12 m P w11 = some w12 ∧ step13 w12 = some w13 ∧ step14 twave P w13 = some w14 ∧
        step15 P w14 = some w15 := by
  simp only [postProcessing, Option.bind_eq_bind, Option.bind_eq_some]
  constructor
  · rintro ⟨w6, h6, w7, h7, w8, h8, c9, h9, w10, h10, w11, h11, w12, h12, w13, h13, w14, h14, h15⟩
    exact ⟨w6, w7, w8, c9, w10, w11, w12, w13, w14, h6, h7, h8, h9, h10, h11, h12, h13, h14, h15⟩
  · rintro ⟨w6, w7, w8, c9, w10, w11, w12, w13, w14, h6, h7, h8, h9, h10, h11, h12, h13, h14, h15⟩
    exact ⟨w6, h6, w7, h7, w8, h8, c9, h9, w10, h10, w11, h11, w12, h12, w13, h13, w14, h14, h15⟩

theorem discovery_eq_some (m : Libm) (twave : List ℚ) (P : Params) (w5 : Work) :
    discovery m twave P = some w5 ↔
      ∃ derivative found c2 w3 c5, firstDifference twave = some derivative ∧
        findCandidates twave derivative P = some found ∧
        candidateRangeInfoFinder derivative found.1 [] P.looseWindow = some c2 ∧
        step03 P (c2, []) = some w3 ∧
        mapOpt (fun candid => delineatorsInfo m twave derivative candid P.deltaAmplitude)
          (labellingPeaks w3.1 found.2) = some c5 ∧ w5 = (c5, w3.2) := by
  simp only [discovery, Option.bind_eq_bind, Option.bind_eq_some]
  constructor
  · rintro ⟨d, hd, page, hp, c2, hc2, w3, h3, c5, h5, h⟩
    exact ⟨d, page, c2, w3, c5, hd, hp, hc2, h3, h5, by simpa using h.symm⟩
  · rintro ⟨d, page, c2, w3, c5, hd, hp, hc2, h3, h5, h⟩
    exact ⟨d, hd, page, hp, c2, hc2, w3, h3, c5, h5, by simp [h]⟩

/-! ## Relabelling and the number of peak candidates -/

theorem indicesFrom_set_false {α : Type} (p : α → Bool) (c : α) (hc : p c = false) (l : List α) :
    ∀ (i j : ℕ), j < l.length →
      indicesFrom p i (l.set j c) = (indicesFrom p i l).filter (fun k => decide (k ≠ (i : ℤ) + j)) := by
  induction l with
  | nil => intro i j h; simp at h
  | cons a as ih =>
    intro i j h
    have hrest : ∀ k ∈ indicesFrom p (i + 1) as, decide (k ≠ (i : ℤ)) = true := by
      intro k hk
      have := (indicesFrom_bounds p as (i + 1) k hk).1
      push_cast at this
      simp; omega
    cases j with
    | zero =>
      simp only [List.set_cons_zero, indicesFrom, hc, Bool.false_eq_true, if_false, Nat.cast_zero,
        add_zero]
      split
      · rw [List.filter_cons_of_neg (by simp)]
        exact (List.filter_eq_self.2 hrest).symm
      · exact (List.filter_eq_self.2 hrest).symm
    | succ j1 =>
      have h1 : j1 < as.length := by simpa using h
      have e := ih (i + 1) j1 h1
      have e2 : (fun k : ℤ => decide (k ≠ ((i + 1 : ℕ) : ℤ) + j1)) =
          (fun k : ℤ => decide (k ≠ (i : ℤ) + ((j1 + 1 : ℕ) : ℤ))) := by
        funext k; push_cast; congr 1; apply propext; constructor <;> intro hh <;> omega
      rw [e2] at e
      simp only [List.set_cons_succ, indicesFrom]
      split
      · rw [List.filter_cons_of_pos (by simp; omega), e]
      · exact e

theorem peakCandidates_set (candids : List candidate) (k : ℤ) (c : candidate)
    (hc : c.label.toInt ≠ 2) (h0 : 0 ≤ k) (h1 : k < candids.length) :
    peakCandidates (candids.set k.toNat c) =
      (peakCandidates candids).filter (fun j => decide (j ≠ k)) := by
  have h := indicesFrom_set_false (fun c : candidate => decide (c.label.toInt = 2)) c
    (by simpa using hc) candids 0 k.toNat (by omega)
  have e : ((0 : ℕ) : ℤ) + (k.toNat : ℤ) = k := by simp; omega
  rw [e] at h
  exact h

theorem relabelLoop_peaks (label : candidateLabel) (hl : label.toInt ≠ 2) (guarded : Bool)
    (idx : List ℤ) :
    ∀ (candids out : List candidate), relabelLoop label guarded idx candids = some out →
      peakCandidates out = (peakCandidates candids).filter (fun j => decide (j ∉ idx)) := by
  induction idx with
  | nil =>
    intro candids out h
    simp only [relabelLoop, Option.some.injEq] at h
    subst h
    simp
  | cons k rest ih =>
    intro candids out h
    unfold relabelLoop at h
    split at h
    · rename_i hg
      simp only [Option.some.injEq] at h
      subst h
      have : candids = [] := List.length_eq_zero.1 hg.2
      subst this
      rfl
    · split at h
      · rename_i c hc
        obtain ⟨h0, h1, _⟩ := vecAt_eq_some hc
        rw [ih _ _ h, peakCandidates_set candids k _ (by simpa [candidate.set_label] using hl) h0 h1,
          List.filter_filter]
        congr 1
        funext j
        simp only [List.mem_cons, not_or, ne_eq, Bool.decide_and, Bool.and_comm]
      · simp at h

theorem filter_not_mem_sublist_length {l s : List ℤ} (hs : s.Sublist l) (hn : l.Nodup) :
    (l.filter (fun j => decide (j ∉ s))).length + s.length = l.length := by
  induction hs with
  | slnil => simp
  | @cons s1 l1 a hsub ih =>
    have hn1 := (List.nodup_cons.1 hn)
    have ha : a ∉ s1 := fun h => hn1.1 (hsub.subset h)
    rw [List.filter_cons_of_pos (by simpa using ha)]
    simp only [List.length_cons]
    have := ih hn1.2
    omega
  | @cons₂ s1 l1 a hsub ih =>
    have hn1 := (List.nodup_cons.1 hn)
    rw [List.filter_cons_of_neg (by simp)]
    have e : l1.filter (fun j => decide (j ∉ a :: s1)) = l1.filter (fun j => decide (j ∉ s1)) := by
      apply List.filter_congr
      intro x hx
      have : x ≠ a := fun h => hn1.1 (h ▸ hx)
      simp [this]
    rw [e]
    simp only [List.length_cons]
    have := ih hn1.2
    omega

theorem pairwise_lt_nodup {l : List ℤ} (h : l.Pairwise (fun a b => a < b)) : l.Nodup :=
  h.imp (fun hab => ne_of_lt hab)

theorem vecErase_eq_some {α : Type} {v out : List α} {pos : ℤ} (h : vecErase v pos = some out) :
    out.Sublist v ∧ out.length + 1 = v.length := by
  unfold vecErase at h
  split at h
  · rename_i hp
    simp only [Option.some.injEq] at h
    subst h
    refine ⟨List.eraseIdx_sublist _ _, ?_⟩
    have : pos.toNat < v.length := by omega
    rw [List.length_eraseIdx_of_lt this]
    omega
  · simp at h

theorem keepJustTwoPeaks_eq_some {candids : List candidate} {out : List ℤ}
    (h : keepJustTwoPeaks candids = some out) :
    out.Sublist (peakCandidates candids) ∧ (peakCandidates candids).length ≤ out.length + 2 ∧
      0 < (peakCandidates candids).length := by
  simp only [keepJustTwoPeaks, Option.bind_eq_bind, Option.bind_eq_some] at h
  obtain ⟨tmp, _, r1, _, r2, _, index1, he1, h2⟩ := h
  obtain ⟨hs1, hl1⟩ := vecErase_eq_some he1
  split at h2
  · split at h2
    · obtain ⟨hs2, hl2⟩ := vecErase_eq_some h2
      exact ⟨hs2.trans hs1, by omega, by omega⟩
    · obtain ⟨hs2, hl2⟩ := vecErase_eq_some h2
      exact ⟨hs2.trans hs1, by omega, by omega⟩
  · simp only [Option.some.injEq] at h2
    subst h2
    exact ⟨hs1, by omega, by omega⟩

theorem step13_peaks {w w1 : Work} (h : step13 w = some w1) :
    (peakCandidates w1.1).length ≤ 2 ∧ 0 < (peakCandidates w.1).length := by
  simp only [step13, Option.bind_eq_bind, Option.bind_eq_some] at h
  obtain ⟨bad, hb, c1, hc1, hw⟩ := h
  simp only [Option.some.injEq] at hw
  subst hw
  obtain ⟨hs, hl, hpos⟩ := keepJustTwoPeaks_eq_some hb
  have e := relabelLoop_peaks candidateLabel.peakUnrelated (by decide) true bad _ _ hc1
  have hn := pairwise_lt_nodup (peakCandidates_removable w.1).1
  have := filter_not_mem_sublist_length hs hn
  simp only [e]
  exact ⟨by omega, hpos⟩

theorem step14_peaks {twave : List ℚ} {P : Params} {w w1 : Work} (h : step14 twave P w = some w1) :
    (peakCandidates w1.1).length ≤ (peakCandidates w.1).length := by
  simp only [step14, Option.bind_eq_bind, Option.bind_eq_some] at h
  obtain ⟨bad, hb, c1, hc1, hw⟩ := h
  simp only [Option.some.injEq] at hw
  subst hw
  have e := relabelLoop_peaks candidateLabel.sluredPeak (by decide) false bad _ _ hc1
  simp only [e]
  exact List.length_filter_le _ _

theorem step15_candids {P : Params} {w w1 : Work} (h : step15 P w = some w1) : w1.1 = w.1 := by
  simp only [step15, Option.bind_eq_bind, Option.bind_eq_some] at h
  obtain ⟨b, _, hw⟩ := h
  simp only [Option.some.injEq] at hw
  subst hw
  rfl

theorem mapOpt_length {α β : Type} (f : α → Option β) (l : List α) :
    ∀ out, mapOpt f l = some out → out.length = l.length := by
  induction l with
  | nil => intro out h; simp [mapOpt] at h; simp [← h]
  | cons a as ih =>
    intro out h
    unfold mapOpt at h
    split at h
    · split at h
      · rename_i bs hbs
        simp only [Option.some.injEq] at h
        subst h
        simp [ih _ hbs]
      · simp at h
    · simp at h

/-! ## Stage counters (C10) -/

theorem step06_counts (P : Params) (w : Work) :
    ∃ bad w1, lowAmplitudeMainPeak w.1 P.minVoltageMainPeak P.percentMainePeak = some bad ∧
      step06 P w = some w1 ∧ rulesHitAt w1.2 "lowAmplitudeMainPeak" = bad.length ∧
      w1.1.length + rulesHitAt w1.2 "lowAmplitudeMainPeak" = w.1.length := by
  obtain ⟨bad, hb, hr⟩ := lowAmplitudeMainPeak_removable w.1 P.minVoltageMainPeak P.percentMainePeak
  obtain ⟨w1, h1, hh, hl, _⟩ := removalStep_of_removable "lowAmplitudeMainPeak" bad w hr
  exact ⟨bad, w1, hb, by simp [step06, hb, h1], hh, by rw [hh]; exact hl⟩

theorem step07_counts (P : Params) (w : Work) :
    ∃ bad w1, lowAmplitudePeaks w.1 P.minVoltage P.percentPeak = some bad ∧
      step07 P w = some w1 ∧ rulesHitAt w1.2 "lowAmplitudePeaks" = bad.length ∧
      w1.1.length + rulesHitAt w1.2 "lowAmplitudePeaks" = w.1.length := by
  obtain ⟨bad, hb, hr⟩ := lowAmplitudePeaks_removable w.1 P.minVoltage P.percentPeak
  obtain ⟨w1, h1, hh, hl, _⟩ := removalStep_of_removable "lowAmplitudePeaks" bad w hr
  exact ⟨bad, w1, hb, by simp [step07, hb, h1], hh, by rw [hh]; exact hl⟩

theorem step08_counts (P : Params) (w : Work) :
    ∃ bad w1, inconsistentPeaks w.1 P.maxDelatAplitudeNotches = some bad ∧
      step08 P w = some w1 ∧ rulesHitAt w1.2 "inconsistentPeaks" = bad.length ∧
      w1.1.length + rulesHitAt w1.2 "inconsistentPeaks" = w.1.length := by
  obtain ⟨bad, hb, hr⟩ := inconsistentPeaks_removable w.1 P.maxDelatAplitudeNotches
  obtain ⟨w1, h1, hh, hl, _⟩ := removalStep_of_removable "inconsistentPeaks" bad w hr
  exact ⟨bad, w1, hb, by simp [step08, hb, h1], hh, by rw [hh]; exact hl⟩

theorem step03_counts (P : Params) (w : Work) :
    ∃ w1, step03 P w = some w1 ∧
      rulesHitAt w1.2 "fewPointsCandidates" = (fewPointsCandidates w.1 (P.minPoints : ℚ)).length ∧
      w1.1.length + rulesHitAt w1.2 "fewPointsCandidates" = w.1.length := by
  obtain ⟨w1, h1, hh, hl, _⟩ := removalStep_of_removable "fewPointsCandidates"
    (fewPointsCandidates w.1 (P.minPoints : ℚ)) w (indicesWhere_removable _ w.1)
  exact ⟨w1, h1, hh, by rw [hh]; exact hl⟩

theorem step13_counts (w w1 : Work) (h : step13 w = some w1) :
    ∃ bad, keepJustTwoPeaks w.1 = some bad ∧ rulesHitAt w1.2 "keepJustTwoPeaks" = bad.length ∧
      w1.1.length = w.1.length := by
  simp only [step13, Option.bind_eq_bind, Option.bind_eq_some] at h
  obtain ⟨bad, hb, c1, hc1, hw⟩ := h
  simp only [Option.some.injEq] at hw
  subst hw
  exact ⟨bad, hb, rulesHitAt_cons _ _ _, relabelLoop_length _ _ _ _ _ hc1⟩

theorem step14_counts (twave : List ℚ) (P : Params) (w w1 : Work)
    (h : step14 twave P w = some w1) :
    ∃ bad, convertPeakToSlur twave w.1 P.minValidAmplitudePeak = some bad ∧
      rulesHitAt w1.2 "convertPeakToSlur" = bad.length ∧ w1.1.length = w.1.length := by
  simp only [step14, Option.bind_eq_bind, Option.bind_eq_some] at h
  obtain ⟨bad, hb, c1, hc1, hw⟩ := h
  simp only [Option.some.injEq] at hw
  subst hw
  exact ⟨bad, hb, rulesHitAt_cons _ _ _, relabelLoop_length _ _ _ _ _ hc1⟩

/-- The counters of the steps, newest first, in the state a step returns. -/
theorem removalStep_hits {name : String} {bad : List ℤ} {w w1 : Work}
    (h : removalStep name bad w = some w1) : w1.2 = (name, bad.length) :: w.2 := by
  unfold removalStep at h
  split at h
  · simp only [Option.some.injEq] at h; subst h; rfl
  · simp at h

theorem postProcessing_hits {m : Libm} {twave : List ℚ} {P : Params} {w w15 : Work}
    (h : postProcessing m twave P w = some w15) :
    ∃ w6 w7 w8 w12 w13 w14 n10 n11 n12 n15,
      step06 P w = some w6 ∧ step07 P w6 = some w7 ∧ step08 P w7 = some w8 ∧
      step13 w12 = some w13 ∧ step14 twave P w13 = some w14 ∧ w15.1 = w14.1 ∧
      w15.2 = ("non-measurable", n15) :: ("convertPeakToSlur", rulesHitAt w14.2 "convertPeakToSlur") ::
        ("keepJustTwoPeaks", rulesHitAt w13.2 "keepJustTwoPeaks") :: ("slurClassifier", n12) ::
        ("meargingCandidates", n11) :: ("unrelatedSlure", n10) ::
        ("inconsistentPeaks", rulesHitAt w8.2 "inconsistentPeaks") ::
        ("lowAmplitudePeaks", rulesHitAt w7.2 "lowAmplitudePeaks") ::
        ("lowAmplitudeMainPeak", rulesHitAt w6.2 "lowAmplitudeMainPeak") :: w.2 := by
  obtain ⟨w6, w7, w8, c9, w10, w11, w12, w13, w14, h6, h7, h8, h9, h10, h11, h12, h13, h14, h15⟩ :=
    (postProcessing_eq_some m twave P w w15).1 h
  have k6 := h6
  have k7 := h7
  have k8 := h8
  have k13 := h13
  have k14 := h14
  simp only [step06, step07, step08, step10, step11, step12, step13, step14, step15,
    Option.bind_eq_bind, Option.bind_eq_some] at h6 h7 h8 h10 h11 h12 h13 h14 h15
  obtain ⟨b6, _, h6⟩ := h6
  obtain ⟨b7, _, h7⟩ := h7
  obtain ⟨b8, _, h8⟩ := h8
  obtain ⟨r11, _, r11b, _, h11⟩ := h11
  obtain ⟨b12, _, h12⟩ := h12
  obtain ⟨b13, _, c13, _, h13⟩ := h13
  obtain ⟨b14, _, c14, _, h14⟩ := h14
  obtain ⟨b15, _, h15⟩ := h15
  have e6 := removalStep_hits h6
  have e7 := removalStep_hits h7
  have e8 := removalStep_hits h8
  have e10 := removalStep_hits h10
  have e12 := removalStep_hits h12
  simp only [Option.some.injEq] at h11 h13 h14 h15
  refine ⟨w6, w7, w8, w12, w13, w14, (unrelatedSlure c9).length, r11.2.length / 2, b12.length,
    (if b15 = true then 1 else 0), k6, k7, k8, k13, k14, ?_, ?_⟩
  · rw [← h15]
  · rw [← h15, ← h14, ← h13]
    simp only [rulesHitAt_cons, e12, ← h11, e10, e8, e7, e6]

theorem outputPreparation_hits {pointStart : ℤ} {w : Work} {anns : annotation}
    (h : outputPreparation pointStart w = some anns) : anns.rulesHit = w.2 := by
  unfold outputPreparation at h
  simp only [Option.bind_eq_bind, Option.pure_def, Option.bind_eq_some] at h
  split at h
  · simp only [Option.bind_eq_some] at h
    obtain ⟨_, _, _, _, _, _, h⟩ := h
    simp only [Option.some.injEq] at h
    subst h
    rfl
  · simp only [Option.some.injEq] at h
    subst h
    rfl

theorem outputPreparation_lengths {pointStart : ℤ} {w : Work} {anns : annotation}
    (h : outputPreparation pointStart w = some anns) :
    anns.peak.length = (peakCandidates w.1).length ∧ anns.flatness.length = anns.peak.length ∧
      anns.distortion.length = anns.peak.length ∧ anns.skewness.length = anns.peak.length := by
  unfold outputPreparation at h
  simp only [Option.bind_eq_bind, Option.pure_def, Option.bind_eq_some] at h
  split at h
  · simp only [Option.bind_eq_some] at h
    obtain ⟨_, _, _, _, peaks, hp, h⟩ := h
    simp only [Option.some.injEq] at h
    subst h
    have := mapOpt_length _ _ _ hp
    simp [this]
  · rename_i hn
    simp only [Option.some.injEq] at h
    subst h
    simp at hn
    simp [hn]

theorem delineator_eq_some {m : Libm} {twave : List ℚ} {P : Params} {anns : annotation}
    (h : delineator m twave P = some anns) :
    ∃ w5 w15, discovery m twave P = some w5 ∧ postProcessing m twave P w5 = some w15 ∧
      survivors m twave P = some w15 ∧ outputPreparation P.pointStart w15 = some anns := by
  simp only [delineator, Option.bind_eq_bind, Option.bind_eq_some] at h
  obtain ⟨w15, hs, ho⟩ := h
  have hs1 := hs
  simp only [survivors, Option.bind_eq_bind, Option.bind_eq_some] at hs1
  obtain ⟨w5, hd, hp⟩ := hs1
  exact ⟨w5, w15, hd, hp, hs, ho⟩

theorem delineator_of_survivors {m : Libm} {twave : List ℚ} {P : Params} {w : Work}
    (h : survivors m twave P = some w) :
    delineator m twave P = outputPreparation P.pointStart w := by
  simp [delineator, h]

/-! ## The merge rule -/

theorem pairIndices_append (ps : List ℤ) (p : ℤ) :
    pairIndices (ps ++ [p]) = pairIndices ps ++ [p, p + 1] := by
  induction ps with
  | nil => rfl
  | cons q qs ih => simp [pairIndices, ih]

theorem pairIndices_length (ps : List ℤ) : (pairIndices ps).length = 2 * ps.length := by
  induction ps with
  | nil => rfl
  | cons q qs ih => simp [pairIndices, ih]; omega

theorem mem_pairIndices {ps : List ℤ} {a : ℤ} (h : a ∈ pairIndices ps) :
    ∃ p ∈ ps, a = p ∨ a = p + 1 := by
  induction ps with
  | nil => simp [pairIndices] at h
  | cons q qs ih =>
    simp only [pairIndices, List.mem_cons] at h
    rcases h with h | h | h
    · exact ⟨q, List.mem_cons_self _ _, Or.inl h⟩
    · exact ⟨q, List.mem_cons_self _ _, Or.inr h⟩
    · obtain ⟨p, hp, hpa⟩ := ih h
      exact ⟨p, List.mem_cons_of_mem _ hp, hpa⟩

theorem pairIndices_pairwise {ps : List ℤ} (h : ps.Pairwise (fun p q => p + 1 < q)) :
    (pairIndices ps).Pairwise (fun a b => a < b) := by
  induction ps with
  | nil => simp [pairIndices]
  | cons q qs ih =>
    obtain ⟨hq, hqs⟩ := List.pairwise_cons.1 h
    simp only [pairIndices]
    refine List.Pairwise.cons ?_ (List.Pairwise.cons ?_ (ih hqs))
    · intro a ha
      rcases List.mem_cons.1 ha with ha | ha
      · omega
      · obtain ⟨p, hp, hpa⟩ := mem_pairIndices ha
        have := hq p hp
        omega
    · intro a ha
      obtain ⟨p, hp, hpa⟩ := mem_pairIndices ha
      have := hq p hp
      omega

theorem vecAt_insertIdx_of_lt {α : Type} (l : List α) (x : α) (n : ℕ) (j : ℤ)
    (hj : j < n) (hn : n ≤ l.length) : vecAt (l.insertIdx n x) j = vecAt l j := by
  unfold vecAt
  split
  · rename_i h0
    have h1 : j.toNat < n := by omega
    have h2 : j.toNat < l.length := by omega
    have h3 : j.toNat < (l.insertIdx n x).length := by
      rw [List.length_insertIdx _ _ hn]; omega
    rw [List.get?_eq_get h3, List.get?_eq_get h2]
    congr 1
    exact List.get_insertIdx_of_lt l x n j.toNat h1 h2 h3
  · rfl

theorem vecAt_insertIdx_self {α : Type} (l : List α) (x : α) (n : ℕ) (hn : n ≤ l.length) :
    vecAt (l.insertIdx n x) (n : ℤ) = some x := by
  unfold vecAt
  rw [if_pos (by omega)]
  have h3 : n < (l.insertIdx n x).length := by
    rw [List.length_insertIdx _ _ hn]; omega
  simp only [Int.toNat_ofNat]
  rw [List.get?_eq_get h3]
  congr 1
  exact List.get_insertIdx_self l x n hn h3

theorem MergeTriple.insertIdx {m : Libm} {wave : List ℚ} {f : ℚ} {candids : List candidate}
    {p : ℤ} (h : MergeTriple m wave f candids p) (mc : candidate) (n : ℕ) (hp : p + 2 < n)
    (hn : n ≤ candids.length) : MergeTriple m wave f (candids.insertIdx n mc) p := by
  obtain ⟨l, r, c, hl, hr, hc, ht, hm⟩ := h
  refine ⟨l, r, c, ?_, ?_, ?_, ht, hm⟩
  · rw [vecAt_insertIdx_of_lt _ _ _ _ (by omega) hn]; exact hl
  · rw [vecAt_insertIdx_of_lt _ _ _ _ (by omega) hn]; exact hr
  · rw [vecAt_insertIdx_of_lt _ _ _ _ (by omega) hn]; exact hc

theorem mem_insertIdx_of_le {α : Type} {l : List α} {x c : α} {n : ℕ} (hn : n ≤ l.length)
    (h : c ∈ l.insertIdx n x) : c = x ∨ c ∈ l :=
  (List.mem_insertIdx hn).1 h

/-- What the loop of `meargingCandidates` returns: the indices are the pairs
`p, p+1` of the merges, every merged candidate stands right after its pair, the
vector has grown by one candidate for each merge, and it holds nothing but the
candidates of `orig` and the merged ones. -/
theorem meargingLoop_spec (m : Libm) (wave : List ℚ) (f : ℚ) (orig : List candidate) :
    ∀ (fuel i : ℕ) (candids : List candidate) (ps : List ℤ) (out : List candidate)
      (idx : List ℤ),
      meargingLoop m wave f fuel i candids (pairIndices ps) = some (out, idx) →
      1 ≤ i → ps.Pairwise (fun p q => p + 1 < q) →
      (∀ p ∈ ps, 0 ≤ p ∧ p + 2 < i ∧ p + 2 < candids.length ∧ MergeTriple m wave f candids p) →
      (∀ c ∈ candids, c ∈ orig ∨ ∃ p ∈ ps, vecAt candids (p + 2) = some c) →
      ∃ qs, idx = pairIndices qs ∧ qs.Pairwise (fun p q => p + 1 < q) ∧
        (∀ p ∈ qs, 0 ≤ p ∧ p + 2 < out.length ∧ MergeTriple m wave f out p) ∧
        out.length + ps.length = candids.length + qs.length ∧
        (∀ c ∈ out, c ∈ orig ∨ ∃ p ∈ qs, vecAt out (p + 2) = some c) := by
  intro fuel
  induction fuel with
  | zero =>
    intro i candids ps out idx h _ hps hall hmem
    unfold meargingLoop at h
    split at h
    · simp at h
    · simp only [Option.some.injEq, Prod.mk.injEq] at h
      obtain ⟨h1, h2⟩ := h
      subst h1 h2
      exact ⟨ps, rfl, hps, fun p hp => ⟨(hall p hp).1, (hall p hp).2.2.1, (hall p hp).2.2.2⟩,
        rfl, hmem⟩
  | succ fuel ih =>
    intro i candids ps out idx h hi hps hall hmem
    unfold meargingLoop at h
    split at h
    · rename_i hlt
      split at h
      · rename_i left right hl hr
        split at h
        · rename_i ht
          split at h
          · rename_i mc hmc
            have e : pairIndices ps ++ [(i : ℤ) - 1, (i : ℤ)] = pairIndices (ps ++ [(i : ℤ) - 1]) := by
              rw [pairIndices_append]; simp
            rw [e] at h
            have hlen : (candids.insertIdx (i + 1) mc).length = candids.length + 1 :=
              List.length_insertIdx _ _ (by omega)
            have hself : vecAt (candids.insertIdx (i + 1) mc) ((i : ℤ) - 1 + 2) = some mc := by
              have := vecAt_insertIdx_self candids mc (i + 1) (by omega)
              have e2 : (i : ℤ) - 1 + 2 = ((i + 1 : ℕ) : ℤ) := by push_cast; omega
              rw [e2]; exact this
            have hps1 : (ps ++ [(i : ℤ) - 1]).Pairwise (fun p q => p + 1 < q) := by
              rw [List.pairwise_append]
              refine ⟨hps, by simp, ?_⟩
              intro a ha b hb
              have := (hall a ha).2.1
              simp only [List.mem_singleton] at hb
              omega
            have hall1 : ∀ p ∈ ps ++ [(i : ℤ) - 1], 0 ≤ p ∧ p + 2 < ((i + 2 : ℕ) : ℤ) ∧
                p + 2 < ((candids.insertIdx (i + 1) mc).length : ℤ) ∧
                MergeTriple m wave f (candids.insertIdx (i + 1) mc) p := by
              intro p hp
              rcases List.mem_append.1 hp with hp | hp
              · obtain ⟨h0, h1, h2, h3⟩ := hall p hp
                refine ⟨h0, by push_cast; omega, by rw [hlen]; push_cast; omega, ?_⟩
                exact h3.insertIdx mc (i + 1) (by push_cast; omega) (by omega)
              · simp only [List.mem_singleton] at hp
                subst hp
                refine ⟨by omega, by push_cast; omega, by rw [hlen]; push_cast; omega, ?_⟩
                refine ⟨left, right, mc, ?_, ?_, hself, ht, hmc⟩
                · rw [vecAt_insertIdx_of_lt _ _ _ _ (by push_cast; omega) (by omega)]; exact hl
                · rw [vecAt_insertIdx_of_lt _ _ _ _ (by push_cast; omega) (by omega)]
                  simpa using hr
            have hmem1 : ∀ c ∈ candids.insertIdx (i + 1) mc, c ∈ orig ∨
                ∃ p ∈ ps ++ [(i : ℤ) - 1], vecAt (candids.insertIdx (i + 1) mc) (p + 2) = some c := by
              intro c hc
              rcases mem_insertIdx_of_le (by omega) hc with hc | hc
              · subst hc
                exact Or.inr ⟨(i : ℤ) - 1, by simp, hself⟩
              · rcases hmem c hc with h1 | ⟨p, hp, hpc⟩
                · exact Or.inl h1
                · refine Or.inr ⟨p, List.mem_append_left _ hp, ?_⟩
                  have := (hall p hp).2.1
                  rw [vecAt_insertIdx_of_lt _ _ _ _ (by push_cast; omega) (by omega)]
                  exact hpc
            obtain ⟨qs, hq1, hq2, hq3, hq4, hq5⟩ :=
              ih (i + 2) _ _ out idx h (by omega) hps1 hall1 hmem1
            refine ⟨qs, hq1, hq2, hq3, ?_, hq5⟩
            rw [hlen] at hq4
            simp only [List.length_append, List.length_singleton] at hq4
            omega
          · simp at h
        · exact ih (i + 1) candids ps out idx h (by omega) hps
            (fun p hp => ⟨(hall p hp).1, by have := (hall p hp).2.1; push_cast; omega,
              (hall p hp).2.2.1, (hall p hp).2.2.2⟩) hmem
        · simp at h
      · simp at h
    · simp only [Option.some.injEq, Prod.mk.injEq] at h
      obtain ⟨h1, h2⟩ := h
      subst h1 h2
      exact ⟨ps, rfl, hps, fun p hp => ⟨(hall p hp).1, (hall p hp).2.2.1, (hall p hp).2.2.2⟩,
        rfl, hmem⟩

/-- More iterations than `candids.size() - i` change nothing: the bound on the
number of iterations of the loop is never what stops it. -/
theorem meargingLoop_fuel (m : Libm) (wave : List ℚ) (f : ℚ) :
    ∀ (fuel i : ℕ) (candids : List candidate) (acc : List ℤ), candids.length ≤ fuel + i →
      meargingLoop m wave f (fuel + 1) i candids acc = meargingLoop m wave f fuel i candids acc := by
  intro fuel
  induction fuel with
  | zero =>
    intro i candids acc h
    have : ¬ i < candids.length := by omega
    simp [meargingLoop, this]
  | succ fuel ih =>
    intro i candids acc h
    rw [meargingLoop]
    conv_rhs => rw [meargingLoop]
    split
    · rename_i hlt
      split
      · split
        · split
          · rename_i mc _
            exact ih (i + 2) _ _ (by rw [List.length_insertIdx _ _ (by omega)]; omega)
          · rfl
        · exact ih (i + 1) _ _ (by omega)
        · rfl
      · rfl
    · rfl

theorem mergedCandidate_fields {m : Libm} {wave : List ℚ} {left right mc : candidate}
    (h : mergedCandidate m wave left right = some mc) : MergedFrom left right mc := by
  simp only [mergedCandidate, Option.bind_eq_bind, Option.bind_eq_some] at h
  obtain ⟨y, _, w, _, r, _, h⟩ := h
  simp only [Option.some.injEq] at h
  subst h
  simp [MergedFrom, candidate.set_candidateRangeInfo, candidate.set_risingRangeInfo,
    candidate.get_candidateRangeInfo, candidate.get_risingRangeInfo]

theorem meargingCandidates_spec {m : Libm} {wave : List ℚ} {f : ℚ} {candids out : List candidate}
    {idx : List ℤ} (h : meargingCandidates m wave candids f = some (out, idx)) :
    ∃ qs, idx = pairIndices qs ∧ qs.Pairwise (fun p q => p + 1 < q) ∧
      (∀ p ∈ qs, 0 ≤ p ∧ p + 2 < out.length ∧ MergeTriple m wave f out p) ∧
      out.length = candids.length + qs.length ∧
      (∀ c ∈ out, c ∈ candids ∨ ∃ p ∈ qs, vecAt out (p + 2) = some c) := by
  obtain ⟨qs, h1, h2, h3, h4, h5⟩ := meargingLoop_spec m wave f candids candids.length 1 candids []
    out idx h (le_refl _) List.Pairwise.nil (by simp) (fun c hc => Or.inl hc)
  exact ⟨qs, h1, h2, h3, by simpa using h4, h5⟩

theorem pairIndices_removable {qs : List ℤ} {n : ℕ} (hp : qs.Pairwise (fun p q => p + 1 < q))
    (hb : ∀ p ∈ qs, 0 ≤ p ∧ p + 2 < (n : ℤ)) : Removable (pairIndices qs) 0 n := by
  refine ⟨pairIndices_pairwise hp, ?_⟩
  intro a ha
  obtain ⟨p, hp1, hpa⟩ := mem_pairIndices ha
  have := hb p hp1
  push_cast
  omega

/-! ## Claims on the pipeline -/

/-- C10: every removal stage of `delineator` (`fewPointsCandidates`,
`lowAmplitudeMainPeak`, `lowAmplitudePeaks`, `inconsistentPeaks`) returns, and
leaves a candidate list whose length plus the counter it records is the length
before; the relabel stages `keepJustTwoPeaks` and `convertPeakToSlur`, when they
return, leave the length unchanged; for all six the counter is the number of
indices the rule returned; and in the annotation `delineator` returns the six
counters are the ones of the stages it ran. -/
theorem delineator_stage_counts (m : Libm) (twave : List ℚ) (P : Params) :
    (∀ w : Work,
      (∃ w1, step03 P w = some w1 ∧
        rulesHitAt w1.2 "fewPointsCandidates" =
          (fewPointsCandidates w.1 (P.minPoints : ℚ)).length ∧
        w1.1.length + rulesHitAt w1.2 "fewPointsCandidates" = w.1.length) ∧
      (∃ bad w1, lowAmplitudeMainPeak w.1 P.minVoltageMainPeak P.percentMainePeak = some bad ∧
        step06 P w = some w1 ∧ rulesHitAt w1.2 "lowAmplitudeMainPeak" = bad.length ∧
        w1.1.length + rulesHitAt w1.2 "lowAmplitudeMainPeak" = w.1.length) ∧
      (∃ bad w1, lowAmplitudePeaks w.1 P.minVoltage P.percentPeak = some bad ∧
        step07 P w = some w1 ∧ rulesHitAt w1.2 "lowAmplitudePeaks" = bad.length ∧
        w1.1.length + rulesHitAt w1.2 "lowAmplitudePeaks" = w.1.length) ∧
      (∃ bad w1, inconsistentPeaks w.1 P.maxDelatAplitudeNotches = some bad ∧
        step08 P w = some w1 ∧ rulesHitAt w1.2 "inconsistentPeaks" = bad.length ∧
        w1.1.length + rulesHitAt w1.2 "inconsistentPeaks" = w.1.length) ∧
      (∀ w1, step13 w = some w1 → ∃ bad, keepJustTwoPeaks w.1 = some bad ∧
        rulesHitAt w1.2 "keepJustTwoPeaks" = bad.length ∧ w1.1.length = w.1.length) ∧
      (∀ w1, step14 twave P w = some w1 →
        ∃ bad, convertPeakToSlur twave w.1 P.minValidAmplitudePeak = some bad ∧
          rulesHitAt w1.2 "convertPeakToSlur" = bad.length ∧ w1.1.length = w.1.length)) ∧
    (∀ anns, delineator m twave P = some anns →
      ∃ (c2 : List candidate) (w3 w5 w6 w7 w8 w12 w13 w14 : Work),
        step03 P (c2, []) = some w3 ∧ discovery m twave P = some w5 ∧
        step06 P w5 = some w6 ∧ step07 P w6 = some w7 ∧ step08 P w7 = some w8 ∧
        step13 w12 = some w13 ∧ step14 twave P w13 = some w14 ∧
        rulesHitAt anns.rulesHit "fewPointsCandidates" = rulesHitAt w3.2 "fewPointsCandidates" ∧
        rulesHitAt anns.rulesHit "lowAmplitudeMainPeak" =
          rulesHitAt w6.2 "lowAmplitudeMainPeak" ∧
        rulesHitAt anns.rulesHit "lowAmplitudePeaks" = rulesHitAt w7.2 "lowAmplitudePeaks" ∧
        rulesHitAt anns.rulesHit "inconsistentPeaks" = rulesHitAt w8.2 "inconsistentPeaks" ∧
        rulesHitAt anns.rulesHit "keepJustTwoPeaks" = rulesHitAt w13.2 "keepJustTwoPeaks" ∧
        rulesHitAt anns.rulesHit "convertPeakToSlur" = rulesHitAt w14.2 "convertPeakToSlur") := by
  refine ⟨fun w => ⟨step03_counts P w, step06_counts P w, step07_counts P w, step08_counts P w,
    step13_counts w, step14_counts twave P w⟩, ?_⟩
  intro anns h
  obtain ⟨w5, w15, hd, hp, _, ho⟩ := delineator_eq_some h
  obtain ⟨d, found, c2, w3, c5, _, _, _, h3, _, hw5⟩ := (discovery_eq_some m twave P w5).1 hd
  obtain ⟨w6, w7, w8, w12, w13, w14, n10, n11, n12, n15, h6, h7, h8, h13, h14, _, hh⟩ :=
    postProcessing_hits hp
  have e3 : w3.2 = ("fewPointsCandidates", (fewPointsCandidates c2 (P.minPoints : ℚ)).length) :: [] :=
    removalStep_hits h3
  refine ⟨c2, w3, w5, w6, w7, w8, w12, w13, w14, h3, hd, h6, h7, h8, h13, h14, ?_⟩
  rw [outputPreparation_hits ho, hh, hw5, e3]
  simp [rulesHitAt, List.find?]

/-- C3: whenever `delineator` returns, the peak list has at most two entries and
the flatness, distortion and skewness lists have as many entries as the peak
list. -/
theorem delineator_peak_lists (m : Libm) (twave : List ℚ) (P : Params) (anns : annotation)
    (h : delineator m twave P = some anns) :
    anns.peak.length ≤ 2 ∧ anns.flatness.length = anns.peak.length ∧
      anns.distortion.length = anns.peak.length ∧ anns.skewness.length = anns.peak.length := by
  obtain ⟨w5, w15, _, hp, _, ho⟩ := delineator_eq_some h
  obtain ⟨w6, w7, w8, w12, w13, w14, _, _, _, _, _, _, _, h13, h14, hc, _⟩ := postProcessing_hits hp
  obtain ⟨hl, hrest⟩ := outputPreparation_lengths ho
  have h1 := (step13_peaks h13).1
  have h2 := step14_peaks h14
  refine ⟨?_, hrest⟩
  rw [hl, hc]
  omega

set_option maxRecDepth 100000 in
/-- The candidate of the synthetic bell wave that survives all rules. -/
theorem survivors_bellWave : survivors libm0 bellWave {} = some ([bellCandidate], bellHits) := by
  decide!

/-- The delineation of the synthetic bell wave. -/
theorem delineator_bellWave : delineator libm0 bellWave {} = some bellResult := by
  have h : outputPreparation 0 ([bellCandidate], bellHits) = some bellResult := by decide!
  rw [delineator_of_survivors survivors_bellWave]
  exact h

/-- Witness of C3 on the synthetic bell wave. -/
theorem delineator_peak_lists_witness :
    delineator libm0 bellWave {} = some bellResult ∧
      (bellResult.peak.length ≤ 2 ∧
        bellResult.flatness.length = bellResult.peak.length ∧
        bellResult.distortion.length = bellResult.peak.length ∧
        bellResult.skewness.length = bellResult.peak.length) := by
  exact ⟨delineator_bellWave,
    delineator_peak_lists libm0 bellWave {} bellResult delineator_bellWave⟩

/-- With no candidate labelled peak, `keepJustTwoPeaks` erases at position `-1`
of an empty index vector. -/
theorem keepJustTwoPeaks_no_peak (candids : List candidate)
    (h : peakCandidates candids = []) : keepJustTwoPeaks candids = none := by
  simp [keepJustTwoPeaks, h, pickCandidates, mapOpt, candidateMax, candidateSecondMax, vecErase]

set_option maxRecDepth 100000 in
/-- C2 (failing inputs): on the constant wave `0, 0, 0`, where candidate
discovery finds no candidate, and on the 9-sample bell, whose only candidate is
removed by `fewPointsCandidates`, step 13 runs `keepJustTwoPeaks` on an empty
candidate list and `delineator` does not return normally; so does step 13 on
every candidate list without a candidate labelled peak. -/
theorem delineator_without_peak :
    discovery libm0 [0, 0, 0] {} = some ([], [("fewPointsCandidates", 0)]) ∧
      delineator libm0 [0, 0, 0] {} = none ∧
      discovery libm0 shortBell {} = some ([], [("fewPointsCandidates", 1)]) ∧
      delineator libm0 shortBell {} = none ∧
      ∀ w : Work, peakCandidates w.1 = [] → step13 w = none := by
  refine ⟨by decide!, by decide!, by decide!, by decide!, ?_⟩
  intro w h
  simp [step13, keepJustTwoPeaks_no_peak w.1 h]

/-! ## Claims on the merge rule -/

/-- C8: when `meargingCandidates` returns, `cleanUpCandidates` on the indices it
returned succeeds; the number of indices is twice the number of merges, the
vector had grown by one candidate for each merge, and the cleaned list has the
length before minus the number of merges (also when a merged candidate is
merged again, as in the witness). -/
theorem meargingCandidates_cleanUp_length (m : Libm) (wave : List ℚ) (candids : List candidate)
    (f : ℚ) (out : List candidate) (idx : List ℤ)
    (h : meargingCandidates m wave candids f = some (out, idx)) :
    ∃ out2, cleanUpCandidates out idx = some (out2, []) ∧ idx.length % 2 = 0 ∧
      out.length = candids.length + idx.length / 2 ∧
      out2.length + idx.length / 2 = candids.length := by
  obtain ⟨qs, h1, h2, h3, h4, _⟩ := meargingCandidates_spec h
  have hr : Removable idx 0 out.length := by
    rw [h1]
    exact pairIndices_removable h2 (fun p hp => ⟨(h3 p hp).1, (h3 p hp).2.1⟩)
  obtain ⟨out2, ho, hl, _⟩ := cleanUpLoop_of_removable idx 0 out hr
  have hlen : idx.length = 2 * qs.length := by rw [h1, pairIndices_length]
  refine ⟨out2, by simp [cleanUpCandidates, ho], by omega, by omega, by omega⟩

set_option maxRecDepth 100000 in
/-- Witness of C8: three close peaks, the candidate merged from the first two is
merged again with the third. -/
theorem meargingCandidates_cleanUp_length_witness :
    meargingCandidates libm0 chainWave [chainA, chainB, chainC] 7 =
        some ([chainA, chainB, chainM1, chainC, chainM2], [0, 1, 2, 3]) ∧
      ∃ out2, cleanUpCandidates [chainA, chainB, chainM1, chainC, chainM2] [0, 1, 2, 3] =
          some (out2, []) ∧ [(0 : ℤ), 1, 2, 3].length % 2 = 0 ∧
        [chainA, chainB, chainM1, chainC, chainM2].length =
          [chainA, chainB, chainC].length + [(0 : ℤ), 1, 2, 3].length / 2 ∧
        out2.length + [(0 : ℤ), 1, 2, 3].length / 2 = [chainA, chainB, chainC].length := by
  have h : meargingCandidates libm0 chainWave [chainA, chainB, chainC] 7 =
      some ([chainA, chainB, chainM1, chainC, chainM2], [0, 1, 2, 3]) := by decide!
  exact ⟨h, meargingCandidates_cleanUp_length libm0 chainWave [chainA, chainB, chainC] 7 _ _ h⟩

/-- C9: when `meargingCandidates` returns, its indices are the pairs `p, p+1` of
the merges; for each of them the candidate at `p+2` was built from the
candidates `left` at `p` and `right` at `p+1`: it has the candidate range
`[left.candidateRange[0], right.candidateRange[1]]`, the rising range
`[left.risingRange[0], right.risingRange[1]]`, the rising fit of `left`, the
falling fit of `right` and the label peak; and every candidate of the returned
vector is a candidate of the input or one of these. -/
theorem meargingCandidates_merged_fields (m : Libm) (wave : List ℚ) (candids : List candidate)
    (f : ℚ) (out : List candidate) (idx : List ℤ)
    (h : meargingCandidates m wave candids f = some (out, idx)) :
    ∃ ps, idx = pairIndices ps ∧ out.length = candids.length + ps.length ∧
      (∀ p ∈ ps, ∃ left right mc, vecAt out p = some left ∧ vecAt out (p + 1) = some right ∧
        vecAt out (p + 2) = some mc ∧ mergedCandidate m wave left right = some mc ∧
        mc.candidateRangeInfo0 = left.candidateRangeInfo0 ∧
        mc.candidateRangeInfo1 = right.candidateRangeInfo1 ∧
        mc.risingRangeInfo0 = left.risingRangeInfo0 ∧
        mc.risingRangeInfo1 = right.risingRangeInfo1 ∧
        mc.a0 = left.a0 ∧ mc.b0 = left.b0 ∧ mc.a1 = right.a1 ∧ mc.b1 = right.b1 ∧
        mc.label = candidateLabel.peak) ∧
      (∀ c ∈ out, c ∈ candids ∨ ∃ p ∈ ps, vecAt out (p + 2) = some c) := by
  obtain ⟨qs, h1, _, h3, h4, h5⟩ := meargingCandidates_spec h
  refine ⟨qs, h1, h4, ?_, h5⟩
  intro p hp
  obtain ⟨left, right, mc, hl, hr, hc, _, hm⟩ := (h3 p hp).2.2
  exact ⟨left, right, mc, hl, hr, hc, hm, mergedCandidate_fields hm⟩

set_option maxRecDepth 100000 in
/-- The merge of the two candidates of `notchWave`. -/
theorem meargingCandidates_notch :
    meargingCandidates libm0 notchWave [notchA, notchB] 7 =
      some ([notchA, notchB, notchMerged], [0, 1]) := by
  decide!

/-- Witness of C9 on the two candidates of `notchWave`. -/
theorem meargingCandidates_merged_fields_witness :
    ∃ ps, [(0 : ℤ), 1] = pairIndices ps ∧
      [notchA, notchB, notchMerged].length = [notchA, notchB].length + ps.length ∧
      (∀ p ∈ ps, ∃ left right mc, vecAt [notchA, notchB, notchMerged] p = some left ∧
        vecAt [notchA, notchB, notchMerged] (p + 1) = some right ∧
        vecAt [notchA, notchB, notchMerged] (p + 2) = some mc ∧
        mergedCandidate libm0 notchWave left right = some mc ∧
        mc.candidateRangeInfo0 = left.candidateRangeInfo0 ∧
        mc.candidateRangeInfo1 = right.candidateRangeInfo1 ∧
        mc.risingRangeInfo0 = left.risingRangeInfo0 ∧
        mc.risingRangeInfo1 = right.risingRangeInfo1 ∧
        mc.a0 = left.a0 ∧ mc.b0 = left.b0 ∧ mc.a1 = right.a1 ∧ mc.b1 = right.b1 ∧
        mc.label = candidateLabel.peak) ∧
      (∀ c ∈ [notchA, notchB, notchMerged], c ∈ [notchA, notchB] ∨
        ∃ p ∈ ps, vecAt [notchA, notchB, notchMerged] (p + 2) = some c) :=
  meargingCandidates_merged_fields libm0 notchWave [notchA, notchB] 7 _ _
    meargingCandidates_notch

set_option maxRecDepth 100000 in
/-- C7 (counterexample): the two peak candidates of `notchWave` differ by less
than `minAmplitudeFlatness = 7` in amplitude and the valley of the wave between
their peaks (69/100, at sample 48) lies 7 or more below the higher of them, yet
`meargingCandidates` merges them: it reads the wave at `xIntersect = 46`, where
the fitted falling edge of the first and the fitted rising edge of the second
cross, and that sample is less than 7 below. -/
theorem mearging_valley_counterexample :
    notchA.label = candidateLabel.peak ∧ notchB.label = candidateLabel.peak ∧
      |notchA.y - notchB.y| < 7 ∧
      valley notchWave notchA.x notchB.x = some (69 / 100) ∧
      max notchA.y notchB.y - 69 / 100 ≥ 7 ∧
      intersectionTwoCandidates notchA notchB = 46 ∧
      vecAt notchWave 46 = some (437 / 400) ∧
      meargingCandidates libm0 notchWave [notchA, notchB] 7 =
        some ([notchA, notchB, notchMerged], [0, 1]) := by
  refine ⟨by decide!, by decide!, by decide!, by decide!, by decide!, by decide!, by decide!,
    meargingCandidates_notch⟩

/-- C7 (amended): for a list of two peak candidates whose amplitudes differ by
less than `minAmplitudeFlatness`, `meargingCandidates` merges them exactly when
the wave at `xIntersect`, the index `intersectionTwoCandidates` computes from
their fitted edges, is less than `minAmplitudeFlatness` below `max(y1, y2)`. -/
theorem mearging_pair_decision (m : Libm) (wave : List ℚ) (c1 c2 : candidate) (f w : ℚ)
    (h1 : c1.label = candidateLabel.peak) (h2 : c2.label = candidateLabel.peak)
    (hy : |c1.y - c2.y| < f)
    (hw : vecAt wave (intersectionTwoCandidates c1 c2) = some w) :
    meargingCandidates m wave [c1, c2] f =
      if max c1.y c2.y - w < f then
        match mergedCandidate m wave c1 c2 with
        | some mc => some ([c1, c2, mc], [(0 : ℤ), 1])
        | none => none
      else some ([c1, c2], ([] : List ℤ)) := by
  have ht : meargingTest wave f c1 c2 = some (decide (max c1.y c2.y - w < f)) := by
    simp [meargingTest, h1, h2, candidateLabel.toInt, hw, hy]
  by_cases hc : max c1.y c2.y - w < f
  · rw [if_pos hc]
    simp only [hc, decide_True] at ht
    cases hm : mergedCandidate m wave c1 c2 with
    | none => simp [meargingCandidates, meargingLoop, vecAt, ht, hm]
    | some mc => simp [meargingCandidates, meargingLoop, vecAt, ht, hm, List.insertIdx]
  · rw [if_neg hc]
    simp only [hc, decide_False] at ht
    simp [meargingCandidates, meargingLoop, vecAt, ht]

/-- Witness of C7 (amended) on the two candidates of `notchWave`. -/
theorem mearging_pair_decision_witness :
    meargingCandidates libm0 notchWave [notchA, notchB] 7 =
      if max notchA.y notchB.y - 437 / 400 < 7 then
        match mergedCandidate libm0 notchWave notchA notchB with
        | some mc => some ([notchA, notchB, mc], [(0 : ℤ), 1])
        | none => none
      else some ([notchA, notchB], ([] : List ℤ)) :=
  mearging_pair_decision libm0 notchWave notchA notchB 7 (437 / 400) (by decide!) (by decide!)
    (by decide!) (by decide!)

/-! ## Offset refinement -/

theorem ctrunc_nonneg {q : ℚ} (h : 0 ≤ q) : 0 ≤ ctrunc q := by
  unfold ctrunc; rw [if_pos h]; exact Int.floor_nonneg.2 h

theorem ctrunc_le {q : ℚ} (h : 0 ≤ q) : (ctrunc q : ℚ) ≤ q := by
  unfold ctrunc; rw [if_pos h]; exact Int.floor_le q

theorem ctrunc_ge_of_neg {q : ℚ} (h : ¬ 0 ≤ q) : q ≤ (ctrunc q : ℚ) := by
  unfold ctrunc; rw [if_neg h]; exact Int.le_ceil q

theorem ctrunc_add_int {q : ℚ} (h : 0 ≤ q) (z : ℤ) (hz : 0 ≤ z) :
    ctrunc (q + (z : ℚ)) = ctrunc q + z := by
  have hz' : (0 : ℚ) ≤ (z : ℚ) := by exact_mod_cast hz
  unfold ctrunc
  rw [if_pos h, if_pos (by linarith)]
  exact Int.floor_add_int q z

theorem ctrunc_lt_add_one {q : ℚ} (h : 0 ≤ q) : q < (ctrunc q : ℚ) + 1 := by
  unfold ctrunc; rw [if_pos h]; exact Int.lt_floor_add_one q

theorem ctrunc_intCast (z : ℤ) : ctrunc (z : ℚ) = z := by
  unfold ctrunc
  split <;> simp

theorem span_eq_some {α : Type} {v w : List α} {a b : ℤ} (h : span v a b = some w) :
    0 ≤ a ∧ a ≤ b ∧ b < v.length ∧ (w.length : ℤ) = b - a + 1 := by
  unfold span at h
  split at h
  · rename_i hc
    simp only [Option.some.injEq] at h
    subst h
    refine ⟨hc.1, hc.2.1, hc.2.2, ?_⟩
    simp only [List.length_take, List.length_drop]
    omega
  · simp at h

theorem smoothLoop_length (wave : List ℚ) (ws : ℤ) :
    ∀ (k i : ℕ) (out : List ℚ), smoothLoop wave ws k i = some out → out.length = k := by
  intro k
  induction k with
  | zero => intro i out h; simp [smoothLoop] at h; simp [← h]
  | succ k ih =>
    intro i out h
    simp only [smoothLoop, Option.bind_eq_bind, Option.bind_eq_some] at h
    obtain ⟨w, _, rest, hr, h⟩ := h
    simp only [Option.some.injEq] at h
    subst h
    simp [ih _ _ hr]

theorem smoothWaveFunc_length {wave out : List ℚ} {ws : ℤ} (h : smoothWaveFunc wave ws = some out) :
    out.length = wave.length :=
  smoothLoop_length wave ws _ _ _ h

theorem firstDifference_length {v d : List ℚ} (h : firstDifference v = some d) :
    d.length + 1 = v.length := by
  simp only [firstDifference, Option.bind_eq_bind, Option.bind_eq_some] at h
  obtain ⟨hi, hhi, lo, hlo, h⟩ := h
  simp only [Option.some.injEq] at h
  subst h
  have h1 := span_eq_some hhi
  have h2 := span_eq_some hlo
  simp only [List.length_zipWith]
  omega

theorem energyStep_length (i : ℕ) (d s : ℚ) (st : EnergyState) :
    (energyStep i d s st).energy.length = st.energy.length + 1 := by
  unfold energyStep
  split
  · simp
  · split <;> simp

theorem energyLoop_length : ∀ (ds ss : List ℚ) (i : ℕ) (st : EnergyState),
    (energyLoop ds ss i st).energy.length ≤ st.energy.length + ss.length := by
  intro ds
  induction ds with
  | nil => intro ss i st; simp [energyLoop]
  | cons d ds ih =>
    intro ss i st
    cases ss with
    | nil => simp [energyLoop]
    | cons s ss =>
      simp only [energyLoop, List.length_cons]
      have := ih ss (i + 1) (energyStep i d s st)
      rw [energyStep_length] at this
      omega

theorem toffCandidateLoop_range (dec : List ℚ) :
    ∀ (rest : List ℚ) (prev : ℚ) (k : ℕ) (flag : Bool) (i0 r : ℤ),
      toffCandidateLoop dec rest prev k flag i0 = some r →
      r = i0 ∨ ((k : ℤ) ≤ r ∧ r < (k : ℤ) + rest.length) := by
  intro rest
  induction rest with
  | nil => intro prev k flag i0 r h; simp [toffCandidateLoop] at h; exact Or.inl h.symm
  | cons cur rest ih =>
    intro prev k flag i0 r h
    simp only [toffCandidateLoop, Option.bind_eq_bind, Option.pure_def] at h
    have key : ∀ (fl : Bool) (j : ℤ), (j = i0 ∨ j = (k : ℤ)) →
        toffCandidateLoop dec rest cur (k + 1) fl j = some r →
        r = i0 ∨ ((k : ℤ) ≤ r ∧ r < (k : ℤ) + ((cur :: rest).length : ℤ)) := by
      intro fl j hj hh
      have := ih cur (k + 1) fl j r hh
      simp only [List.length_cons]
      push_cast at this ⊢
      rcases this with h1 | h1
      · rcases hj with h2 | h2
        · exact Or.inl (h1.trans h2)
        · right; omega
      · right; omega
    have hbind : ((vecAt dec i0).bind fun best =>
          toffCandidateLoop dec rest cur (k + 1) true (if cur > best then (k : ℤ) else i0)) = some r →
        r = i0 ∨ ((k : ℤ) ≤ r ∧ r < (k : ℤ) + ((cur :: rest).length : ℤ)) := by
      intro hh
      simp only [Option.bind_eq_some] at hh
      obtain ⟨best, _, hh⟩ := hh
      split_ifs at hh
      · exact key _ _ (Or.inr rfl) hh
      · exact key _ _ (Or.inl rfl) hh
    split_ifs at h
    all_goals first
      | exact key _ _ (Or.inl rfl) h
      | exact hbind h

theorem newToffCandidate_range {derivative derivativeEnergy : List ℚ} {j t2 c : ℤ}
    (h : newToffCandidate derivative derivativeEnergy j t2 = some c) :
    0 ≤ c ∧ c < derivativeEnergy.length := by
  unfold newToffCandidate at h
  simp only [Option.bind_eq_bind, Option.bind_eq_some] at h
  obtain ⟨d, _, dmin, _, indexMin, _, dec0, hdec0, dec1, hdec1, h⟩ := h
  have hs := span_eq_some hdec0
  have hl1 := smoothWaveFunc_length hdec1
  generalize hdec : dec1.map (fun v => ((cfloor (v * 10000) : ℤ) : ℚ) / 10000) = dec at h
  have hlen : (dec.length : ℤ) = (dec0.length : ℤ) := by simp [← hdec, hl1]
  obtain ⟨r, hrange, h⟩ : ∃ r : ℤ, (r = 1 ∨ (1 ≤ r ∧ r < (dec.length : ℤ))) ∧
      (if (if j + indexMin > t2 then t2 else j + indexMin) =
            (if j + indexMin > t2 then j + indexMin else t2) then
          (if j + indexMin > t2 then t2 else j + indexMin) - 1
        else (if j + indexMin > t2 then t2 else j + indexMin)) +
        (if r = 1 then (dec.length : ℤ) - 1 else r) = c := by
    cases dec with
    | nil =>
      simp only [Option.some_bind, Option.some.injEq] at h
      exact ⟨1, Or.inl rfl, h⟩
    | cons d0 rest =>
      simp only [Option.bind_eq_some, Option.some.injEq] at h
      obtain ⟨r, hr, h⟩ := h
      refine ⟨r, ?_, h⟩
      have := toffCandidateLoop_range (d0 :: rest) rest d0 1 false 1 r hr
      simp only [List.length_cons]
      push_cast at this ⊢
      rcases this with h1 | h1
      · exact Or.inl h1
      · right; omega
  rw [← h]
  rcases hrange with h1 | h1
  · rw [if_pos h1]; omega
  · by_cases h2 : r = 1
    · rw [if_pos h2]; omega
    · rw [if_neg h2]; omega

theorem newToffCandidates_range (derivative derivativeEnergy : List ℚ) :
    ∀ (idx : List ℤ) (j : ℤ) (out : List ℤ),
      newToffCandidates derivative derivativeEnergy idx j = some out →
      ∀ c ∈ out, 0 ≤ c ∧ c < derivativeEnergy.length := by
  intro idx
  induction idx with
  | nil => intro j out h; simp only [newToffCandidates, Option.some.injEq] at h; subst h; simp
  | cons t rest ih =>
    intro j out h
    simp only [newToffCandidates, Option.bind_eq_bind, Option.bind_eq_some] at h
    obtain ⟨c, hc, cs, hcs, h⟩ := h
    simp only [Option.some.injEq] at h
    subst h
    intro x hx
    rcases List.mem_cons.1 hx with hx | hx
    · subst hx; exact newToffCandidate_range hc
    · exact ih _ _ hcs x hx

theorem vecAt_mem {α : Type} {v : List α} {i : ℤ} {a : α} (h : vecAt v i = some a) : a ∈ v := by
  obtain ⟨_, _, h3⟩ := vecAt_eq_some h
  exact List.get?_mem h3

theorem selectToff_mem {energyNormal : List ℚ} {idx : List ℤ} {rr rpeak lc t : ℚ}
    (h : selectToff energyNormal idx rr rpeak lc = some t) : ∃ c ∈ idx, t = lc + (c : ℚ) := by
  unfold selectToff at h
  simp only [Option.bind_eq_bind, Option.bind_eq_some] at h
  obtain ⟨E, _, h⟩ := h
  have hjp : ∀ o : Option ℤ, (o.bind fun y => (vecAt idx y).bind fun c => some (lc + (c : ℚ))) = some t →
      ∃ c ∈ idx, t = lc + (c : ℚ) := by
    intro o ho
    simp only [Option.bind_eq_some, Option.some.injEq] at ho
    obtain ⟨y, _, c, hc, ho⟩ := ho
    exact ⟨c, vecAt_mem hc, ho.symm⟩
  split_ifs at h
  · exact hjp _ h
  · split at h
    · exact hjp _ h
    · exact hjp _ h

theorem newToffFunc_range {seg : List ℚ} {rr rpeak lc t : ℚ}
    (h : newToffFunc seg rr rpeak lc = some t) :
    (seg.length < 2 ∧ t = 0) ∨ ∃ c : ℤ, t = lc + (c : ℚ) ∧ 0 ≤ c ∧ c + 2 ≤ seg.length := by
  unfold newToffFunc at h
  split at h
  · rename_i hlt
    simp only [Option.some.injEq] at h
    exact Or.inl ⟨hlt, h.symm⟩
  · right
    simp only [Option.bind_eq_bind, Option.bind_eq_some] at h
    obtain ⟨d0, hd0, d, hd, h⟩ := h
    simp only [newToffEnergy, Option.bind_eq_bind, Option.bind_eq_some] at h
    obtain ⟨s0, _, emin, _, emax, _, h⟩ := h
    split at h
    · simp at h
    · simp only [Option.bind_eq_bind, Option.bind_eq_some] at h
      obtain ⟨dE, hdE, idx, hidx, h⟩ := h
      obtain ⟨c, hc, ht⟩ := selectToff_mem h
      have hr := newToffCandidates_range _ _ _ _ _ hidx c hc
      have h1 := firstDifference_length hdE
      have h2 := energyLoop_length (d.drop 1) (seg.drop 1) 1
        { energy := [s0], last := s0, indexlocalMinimaEnergy := [], flagmaxima := true }
      simp only [List.length_map] at h1
      simp only [List.length_singleton, List.length_drop] at h2
      refine ⟨c, ht, hr.1, ?_⟩
      omega


theorem readjustTail_cases {wave : List ℚ} {rr rpeak toff amp lc r : ℚ}
    (h : readjustTail wave rr rpeak toff amp lc = some r) :
    ∃ (adj t : ℚ) (w seg : List ℚ),
      span wave (ctrunc (lc + (ctrunc ((toff - lc) / 2) : ℚ))) (ctrunc toff) = some w ∧
      (adj = toff ∨ ∃ k : ℤ, 0 ≤ k ∧ k < w.length ∧
        adj = lc + (ctrunc ((toff - lc) / 2) : ℚ) + (k : ℚ)) ∧
      span wave (ctrunc lc) (ctrunc adj) = some seg ∧
      newToffFunc seg rr rpeak lc = some t ∧ r = if t > 0 then t else adj := by
  unfold readjustTail at h
  simp only [Option.bind_eq_bind, Option.bind_eq_some] at h
  obtain ⟨w, hw, seg, hseg, t, ht, h⟩ := h
  simp only [Option.some.injEq] at h
  refine ⟨_, t, w, seg, hw, ?_, hseg, ht, h.symm⟩
  cases hk : (indicesWhere (fun v => decide (v > amp)) w).take 1 with
  | nil => exact Or.inl rfl
  | cons k ks =>
    right
    have hmem : k ∈ indicesWhere (fun v => decide (v > amp)) w :=
      List.mem_of_mem_take (by rw [hk]; exact List.mem_cons_self _ _)
    have := indicesFrom_bounds _ w 0 k hmem
    push_cast at this
    exact ⟨k, this.1, by omega, rfl⟩

theorem readjustTail_nonneg {wave : List ℚ} {rr rpeak toff amp lc r : ℚ}
    (hlc : 0 ≤ lc) (ht0 : 0 ≤ toff)
    (h : readjustTail wave rr rpeak toff amp lc = some r) : 0 ≤ r := by
  obtain ⟨adj, t, w, seg, _, hadj, _, _, hr⟩ := readjustTail_cases h
  have hlb : (0 : ℚ) ≤ lc + (ctrunc ((toff - lc) / 2) : ℚ) := by
    by_cases hq : (0 : ℚ) ≤ (toff - lc) / 2
    · have : (0 : ℚ) ≤ (ctrunc ((toff - lc) / 2) : ℚ) := by exact_mod_cast ctrunc_nonneg hq
      linarith
    · have := ctrunc_ge_of_neg hq
      linarith
  have hadj0 : 0 ≤ adj := by
    rcases hadj with h1 | ⟨k, hk0, _, h1⟩
    · rw [h1]; exact ht0
    · have : (0 : ℚ) ≤ (k : ℚ) := by exact_mod_cast hk0
      rw [h1]; linarith
  rw [hr]
  split_ifs with h1
  · exact le_of_lt h1
  · exact hadj0

theorem readjustTail_bound {wave : List ℚ} {rr rpeak toff amp lc r : ℚ}
    (hlc : 0 ≤ lc) (ht : lc ≤ toff) (hn : toff ≤ (wave.length : ℚ) - 1)
    (h : readjustTail wave rr rpeak toff amp lc = some r) :
    lc ≤ r ∧ r ≤ (wave.length : ℚ) - 1 := by
  obtain ⟨adj, t, w, seg, hw, hadj, hseg, hnew, hr⟩ := readjustTail_cases h
  have hq : (0 : ℚ) ≤ (toff - lc) / 2 := by linarith
  have hT : 0 ≤ ctrunc ((toff - lc) / 2) := ctrunc_nonneg hq
  have hTq : (0 : ℚ) ≤ (ctrunc ((toff - lc) / 2) : ℚ) := by exact_mod_cast hT
  have hsw := span_eq_some hw
  have hss := span_eq_some hseg
  rw [ctrunc_add_int hlc _ hT] at hsw
  have hclc : (ctrunc lc : ℚ) ≤ lc := ctrunc_le hlc
  have hclc1 : lc < (ctrunc lc : ℚ) + 1 := ctrunc_lt_add_one hlc
  have hadj_ge : lc ≤ adj := by
    rcases hadj with h1 | ⟨k, hk0, _, h1⟩
    · rw [h1]; exact ht
    · have : (0 : ℚ) ≤ (k : ℚ) := by exact_mod_cast hk0
      rw [h1]; linarith
  have hadj0 : 0 ≤ adj := le_trans hlc hadj_ge
  have hcadj : ((ctrunc adj : ℤ) : ℚ) ≤ (wave.length : ℚ) - 1 := by
    have : ctrunc adj ≤ (wave.length : ℤ) - 1 := by omega
    exact_mod_cast this
  rcases newToffFunc_range hnew with ⟨hlen, ht0⟩ | ⟨c, htc, hc0, hc2⟩
  · -- the segment has one sample: `adjusted_toff` truncates to the same index
    have hEq : ctrunc adj = ctrunc lc := by omega
    have hadj_le : adj ≤ (wave.length : ℚ) - 1 := by
      rcases hadj with h1 | ⟨k, hk0, hk1, h1⟩
      · rw [h1]; exact hn
      · have hsum : ctrunc adj = ctrunc lc + (ctrunc ((toff - lc) / 2) + k) := by
          rw [h1, add_assoc, ← Int.cast_add]
          exact ctrunc_add_int hlc _ (by omega)
        have hz : ctrunc ((toff - lc) / 2) + k = 0 := by omega
        have hz0 : ctrunc ((toff - lc) / 2) = 0 := by omega
        have hk : k = 0 := by omega
        rw [h1, hz0, hk]
        simp only [Int.cast_zero, add_zero]
        linarith
    rw [hr, ht0]
    simp only [gt_iff_lt, lt_self_iff_false, if_false]
    exact ⟨hadj_ge, hadj_le⟩
  · have hcq : (0 : ℚ) ≤ (c : ℚ) := by exact_mod_cast hc0
    by_cases hpos : t > 0
    · rw [hr, if_pos hpos, htc]
      refine ⟨by linarith, ?_⟩
      have h3 : c + 1 ≤ ctrunc adj - ctrunc lc := by omega
      have h3q : (c : ℚ) + 1 ≤ (ctrunc adj : ℚ) - (ctrunc lc : ℚ) := by exact_mod_cast h3
      linarith
    · -- `toff_new = lastCandidate + c <= 0` forces `lastCandidate = 0`
      have hlc0 : lc = 0 := by
        rw [htc] at hpos
        push_neg at hpos
        linarith
      have hadj_le : adj ≤ (wave.length : ℚ) - 1 := by
        rcases hadj with h1 | ⟨k, hk0, hk1, h1⟩
        · rw [h1]; exact hn
        · have hc0' : ctrunc lc = 0 := by rw [hlc0]; unfold ctrunc; simp
          have hk2 : ctrunc ((toff - lc) / 2) + k ≤ ctrunc toff := by omega
          have hk2q : (ctrunc ((toff - lc) / 2) : ℚ) + (k : ℚ) ≤ (ctrunc toff : ℚ) := by
            exact_mod_cast hk2
          have : (ctrunc toff : ℚ) ≤ toff := ctrunc_le (le_trans hlc ht)
          rw [h1]
          linarith
      rw [hr, if_neg hpos]
      exact ⟨hadj_ge, hadj_le⟩


/-- C6: `readjustToff` returns -1 when the annotation has no peak, when
`peak[0]` lies after `off` and when `peak[0]` lies before `rpeak`; for
non-negative `off` and `lastCandidate` a returned -1 means one of these three
or a second peak lying after `off`. -/
theorem readjustToff_minus_one (wave : List ℚ) (anns : annotation) (rr rpeak : ℚ) :
    (anns.peak = [] → readjustToff wave anns rr rpeak = some (-1)) ∧
    (∀ p ps, anns.peak = p :: ps → p > anns.off → readjustToff wave anns rr rpeak = some (-1)) ∧
    (∀ p ps, anns.peak = p :: ps → p < rpeak → readjustToff wave anns rr rpeak = some (-1)) ∧
    (0 ≤ anns.off → 0 ≤ anns.lastCandidate → readjustToff wave anns rr rpeak = some (-1) →
      anns.peak = [] ∨ ∃ p ps, anns.peak = p :: ps ∧
        (p > anns.off ∨ p < rpeak ∨ ∃ q qs, ps = q :: qs ∧ q > anns.off)) := by
  refine ⟨?_, ?_, ?_, ?_⟩
  · intro h; unfold readjustToff; rw [h]
  · intro p ps h h1; unfold readjustToff; rw [h]; simp only [if_pos h1]
  · intro p ps h h1; unfold readjustToff; rw [h]
    simp only [if_pos h1]; split_ifs <;> rfl
  · intro hoff hlc h
    cases hp : anns.peak with
    | nil => exact Or.inl rfl
    | cons p ps =>
      right
      refine ⟨p, ps, rfl, ?_⟩
      by_contra hcon
      push_neg at hcon
      obtain ⟨h1, h2, h3⟩ := hcon
      unfold readjustToff at h
      rw [hp] at h
      simp only [if_neg (not_lt.2 h1), if_neg (not_lt.2 h2), Option.bind_eq_bind,
        Option.bind_eq_some] at h
      obtain ⟨amp0, hamp0, h⟩ := h
      have hn : (1 : ℚ) ≤ (wave.length : ℚ) := by
        obtain ⟨_, hlt, _⟩ := vecAt_eq_some hamp0
        have : 1 ≤ wave.length := by omega
        exact_mod_cast this
      have htoff : (0 : ℚ) ≤
          (if anns.off > (wave.length : ℚ) - 1 then (wave.length : ℚ) - 1 else anns.off) := by
        split_ifs
        · linarith
        · exact hoff
      have key : ∀ amp, readjustTail wave rr rpeak
          (if anns.off > (wave.length : ℚ) - 1 then (wave.length : ℚ) - 1 else anns.off) amp
          anns.lastCandidate = some (-1) → False := by
        intro amp ht
        have := readjustTail_nonneg hlc htoff ht
        linarith
      cases ps with
      | nil => exact key _ h
      | cons q qs =>
        simp only [if_neg (not_lt.2 (h3 q qs rfl)), Option.bind_eq_bind, Option.bind_eq_some] at h
        obtain ⟨w1, _, h⟩ := h
        exact key _ h

/-- C5: for an annotation with a non-empty peak list, `rpeak <= peak[0] <= off`
(and `peak[1] <= off` when present) and `0 <= lastCandidate <= min(off,
wave.length-1)`, every value `readjustToff` returns lies in
`[lastCandidate, wave.length-1]`. -/
theorem readjustToff_bound (wave : List ℚ) (anns : annotation) (rr rpeak r : ℚ)
    (hne : anns.peak ≠ [])
    (h0 : ∀ p ∈ anns.peak.head?, rpeak ≤ p ∧ p ≤ anns.off)
    (h1 : ∀ q ∈ anns.peak.tail.head?, q ≤ anns.off)
    (hlc0 : 0 ≤ anns.lastCandidate)
    (hlc1 : anns.lastCandidate ≤ min anns.off ((wave.length : ℚ) - 1))
    (h : readjustToff wave anns rr rpeak = some r) :
    anns.lastCandidate ≤ r ∧ r ≤ (wave.length : ℚ) - 1 := by
  have hlo := le_trans hlc1 (min_le_left _ _)
  have hln := le_trans hlc1 (min_le_right _ _)
  have ht : anns.lastCandidate ≤
      (if anns.off > (wave.length : ℚ) - 1 then (wave.length : ℚ) - 1 else anns.off) := by
    split_ifs
    · exact hln
    · exact hlo
  have hn : (if anns.off > (wave.length : ℚ) - 1 then (wave.length : ℚ) - 1 else anns.off) ≤
      (wave.length : ℚ) - 1 := by
    split_ifs with hc
    · exact le_refl _
    · exact not_lt.1 hc
  cases hp : anns.peak with
  | nil => exact absurd hp hne
  | cons p ps =>
    rw [hp] at h0 h1
    have hp0 := h0 p (by simp)
    unfold readjustToff at h
    rw [hp] at h
    simp only [if_neg (not_lt.2 hp0.2), if_neg (not_lt.2 hp0.1), Option.bind_eq_bind,
      Option.bind_eq_some] at h
    obtain ⟨amp0, _, h⟩ := h
    cases ps with
    | nil => exact readjustTail_bound hlc0 ht hn h
    | cons q qs =>
      have hq := h1 q (by simp)
      simp only [if_neg (not_lt.2 hq), Option.bind_eq_bind, Option.bind_eq_some] at h
      obtain ⟨w1, _, h⟩ := h
      exact readjustTail_bound hlc0 ht hn h

theorem readjustToff_tailWave : readjustToff tailWave tailResult 20 0 = some 5 := by
  decide!

set_option maxRecDepth 100000 in
theorem readjustToff_bound_witness :
    tailResult.lastCandidate ≤ (5 : ℚ) ∧ (5 : ℚ) ≤ (tailWave.length : ℚ) - 1 :=
  readjustToff_bound tailWave tailResult 20 0 5 (by decide) (by decide!) (by decide!)
    (by decide!) (by decide!) readjustToff_tailWave

/-! ## Candidate ranges -/

theorem foldl_min_le (l : List ℚ) (a : ℚ) :
    l.foldl min a ≤ a ∧ (∀ u ∈ l, l.foldl min a ≤ u) ∧ (l.foldl min a = a ∨ l.foldl min a ∈ l) := by
  induction l generalizing a with
  | nil => simp
  | cons b bs ih =>
    simp only [List.foldl_cons, List.mem_cons, forall_eq_or_imp]
    obtain ⟨h1, h2, h3⟩ := ih (min a b)
    refine ⟨le_trans h1 (min_le_left _ _), ⟨le_trans h1 (min_le_right _ _), h2⟩, ?_⟩
    rcases h3 with h3 | h3
    · rw [h3]
      rcases min_choice a b with h4 | h4
      · exact Or.inl h4
      · exact Or.inr (Or.inl h4)
    · exact Or.inr (Or.inr h3)

theorem vecMin_spec {v : List ℚ} {vmin : ℚ} (h : vecMin v = some vmin) :
    vmin ∈ v ∧ ∀ u ∈ v, vmin ≤ u := by
  cases v with
  | nil => simp [vecMin] at h
  | cons a as =>
    simp only [vecMin, Option.some.injEq] at h
    subst h
    obtain ⟨h1, h2, h3⟩ := foldl_min_le as a
    refine ⟨?_, ?_⟩
    · rcases h3 with h3 | h3
      · rw [h3]; exact List.mem_cons_self _ _
      · exact List.mem_cons_of_mem _ h3
    · intro u hu
      rcases List.mem_cons.1 hu with hu | hu
      · subst hu; exact h1
      · exact h2 u hu

theorem indicesFrom_mem {α : Type} (p : α → Bool) (l : List α) (i : ℕ) :
    ∀ k ∈ indicesFrom p i l, ∃ a, vecAt l (k - (i : ℤ)) = some a ∧ p a = true := by
  induction l generalizing i with
  | nil => intro k hk; simp [indicesFrom] at hk
  | cons a as ih =>
    intro k hk
    unfold indicesFrom at hk
    have hrec : k ∈ indicesFrom p (i + 1) as → ∃ b, vecAt (a :: as) (k - (i : ℤ)) = some b ∧ p b = true := by
      intro hk1
      obtain ⟨b, hb, hpb⟩ := ih (i + 1) k hk1
      have hbd := indicesFrom_bounds p as (i + 1) k hk1
      refine ⟨b, ?_, hpb⟩
      obtain ⟨h0, _, hget⟩ := vecAt_eq_some hb
      push_cast at h0 hbd
      unfold vecAt
      rw [if_pos (by omega)]
      have : (k - (i : ℤ)).toNat = (k - ((i : ℤ) + 1)).toNat + 1 := by omega
      rw [this, List.get?_cons_succ]
      push_cast at hget
      exact hget
    split at hk
    · rename_i hpa
      rcases List.mem_cons.1 hk with h | h
      · subst h
        exact ⟨a, by simp [vecAt], hpa⟩
      · exact hrec h
    · exact hrec hk

theorem lastIndexOfMin_spec {v : List ℚ} {k : ℤ} (h : lastIndexOfMin v = some k) :
    0 ≤ k ∧ k < v.length ∧ ∃ vmin, vecAt v k = some vmin ∧ ∀ u ∈ v, vmin ≤ u := by
  simp only [lastIndexOfMin, Option.bind_eq_bind, Option.bind_eq_some] at h
  obtain ⟨vmin, hmin, h⟩ := h
  have hmem := vecAt_mem h
  have hb := indicesFrom_bounds _ v 0 k hmem
  obtain ⟨a, ha, hpa⟩ := indicesFrom_mem _ v 0 k hmem
  simp only [decide_eq_true_eq] at hpa
  push_cast at hb ha
  simp only [sub_zero] at ha
  refine ⟨hb.1, by omega, vmin, ?_, (vecMin_spec hmin).2⟩
  rw [ha, hpa]

theorem span_vecAt {α : Type} {v w : List α} {a b : ℤ} (h : span v a b = some w) (j : ℤ)
    (hj0 : 0 ≤ j) (hj1 : j < w.length) : vecAt w j = vecAt v (a + j) := by
  have hs := span_eq_some h
  unfold span at h
  rw [if_pos ⟨hs.1, hs.2.1, hs.2.2.1⟩] at h
  simp only [Option.some.injEq] at h
  subst h
  unfold vecAt
  rw [if_pos hj0, if_pos (by omega)]
  have hlen := hs.2.2.2
  rw [List.get?_eq_getElem?, List.get?_eq_getElem?, List.getElem?_take_of_lt (by omega),
    List.getElem?_drop]
  congr 1
  omega

theorem vecAt_mem_span {α : Type} {v w : List α} {a b : ℤ} (h : span v a b = some w) (j : ℤ)
    (hj0 : a ≤ j) (hj1 : j ≤ b) {u : α} (hu : vecAt v j = some u) : u ∈ w := by
  have hs := span_eq_some h
  have := span_vecAt h (j - a) (by omega) (by omega)
  rw [show a + (j - a) = j by ring, hu] at this
  exact vecAt_mem this

theorem vecAt_strictMono {points : List ℤ} (hp : points.Pairwise (fun a b => a < b)) {i j p q : ℤ}
    (hi : vecAt points i = some p) (hj : vecAt points j = some q) (hij : i < j) : p < q := by
  obtain ⟨hi0, hi1, hgi⟩ := vecAt_eq_some hi
  obtain ⟨hj0, hj1, hgj⟩ := vecAt_eq_some hj
  rw [List.get?_eq_getElem?] at hgi hgj
  have hi2 : i.toNat < points.length := by omega
  have hj2 : j.toNat < points.length := by omega
  rw [List.getElem?_eq_getElem hi2, Option.some.injEq] at hgi
  rw [List.getElem?_eq_getElem hj2, Option.some.injEq] at hgj
  rw [← hgi, ← hgj]
  exact List.pairwise_iff_getElem.1 hp _ _ hi2 hj2 (by omega)

theorem vecAt_mono {points : List ℤ} (hp : points.Pairwise (fun a b => a < b)) {i j p q : ℤ}
    (hi : vecAt points i = some p) (hj : vecAt points j = some q) (hij : i ≤ j) : p ≤ q := by
  rcases lt_or_eq_of_le hij with h | h
  · exact le_of_lt (vecAt_strictMono hp hi hj h)
  · subst h; rw [hi] at hj; simp only [Option.some.injEq] at hj; omega

theorem closeLast_append (l : List candidate) (c : candidate) (cr1 rr1 : ℤ) :
    closeLast (l ++ [c]) cr1 rr1 =
      some (l ++ [{ c with candidateRangeInfo1 := cr1, risingRangeInfo1 := rr1 }]) := by
  unfold closeLast
  have hk : ((l ++ [c]).length : ℤ) - 1 = (l.length : ℤ) := by simp
  have hat : vecAt (l ++ [c]) (l.length : ℤ) = some c := by
    unfold vecAt
    simp
  simp only [Option.bind_eq_bind, hk, hat, Option.some_bind, Int.toNat_ofNat, Option.some.injEq]
  rw [List.set_append_right _ _ (le_refl _)]
  simp [candidate.set_candidateRangeInfo, candidate.set_risingRangeInfo]

theorem findFraction_nonneg (r : List ℤ) (L : ℤ) :
    ∀ (fuel j : ℕ) (f : ℤ), findFraction r L fuel j = some f → 0 ≤ f := by
  intro fuel
  induction fuel with
  | zero => intro j f h; simp only [findFraction, Option.some.injEq] at h; omega
  | succ fuel ih =>
    intro j f h
    unfold findFraction at h
    split at h
    · split at h
      · split at h
        · simp only [Option.some.injEq] at h; omega
        · exact ih _ _ h
      · simp at h
    · simp only [Option.some.injEq] at h; omega

theorem vecAt_last {α : Type} (l : List α) (c : α) :
    vecAt (l ++ [c]) (((l ++ [c]).length : ℤ) - 1) = some c := by
  have hk : ((l ++ [c]).length : ℤ) - 1 = (l.length : ℤ) := by simp
  rw [hk]
  unfold vecAt
  simp

theorem chain_replace_last {R : candidate → candidate → Prop} {l : List candidate}
    {c c1 : candidate} (h : List.Chain' R (l ++ [c])) (hR : ∀ a, R a c → R a c1) :
    List.Chain' R (l ++ [c1]) := by
  rw [List.chain'_append] at h ⊢
  refine ⟨h.1, List.chain'_singleton _, ?_⟩
  intro x hx y hy
  simp only [List.head?_cons, Option.mem_def, Option.some.injEq] at hy
  subst hy
  exact hR x (h.2.2 x hx c (by simp))

theorem chain_snoc {R : candidate → candidate → Prop} {l : List candidate}
    {c d : candidate} (h : List.Chain' R (l ++ [c])) (hR : R c d) :
    List.Chain' R ((l ++ [c]) ++ [d]) := by
  rw [List.chain'_append]
  refine ⟨h, List.chain'_singleton _, ?_⟩
  intro x hx y hy
  simp only [List.head?_cons, Option.mem_def, Option.some.injEq] at hy
  have hx1 : x = c := by simpa using hx.symm
  subst hy; subst hx1
  exact hR

theorem rangeLoop_spec (derivative : List ℚ) (points : List ℤ) (L : ℤ)
    (hp : points.Pairwise (fun a b => a < b)) (pre : List candidate) :
    ∀ (fuel : ℕ) (i : ℤ) (done : List candidate) (openc tmp : candidate) (r : ℤ × List candidate),
      (∃ j0, j0 ≤ i ∧ vecAt points j0 = some openc.risingRangeInfo0) →
      openc.candidateRangeInfo0 ≤ openc.risingRangeInfo0 →
      List.Chain' (Boundary derivative points) (done ++ [openc]) →
      (∀ c ∈ done, RangeOrdered c) →
      rangeLoop derivative points L fuel i (pre ++ (done ++ [openc])) tmp = some r →
      ∃ done1 open1, r.2 = pre ++ (done1 ++ [open1]) ∧
        (∃ j1, j1 ≤ r.1 - 1 ∧ vecAt points j1 = some open1.risingRangeInfo0) ∧
        open1.candidateRangeInfo0 ≤ open1.risingRangeInfo0 ∧
        List.Chain' (Boundary derivative points) (done1 ++ [open1]) ∧
        (∀ c ∈ done1, RangeOrdered c) := by
  intro fuel
  induction fuel with
  | zero =>
    intro i done openc tmp r hj hop hch hdone h
    unfold rangeLoop at h
    split at h
    · simp at h
    · rename_i hi
      simp only [Option.some.injEq] at h
      subst h
      obtain ⟨j0, _, hj0⟩ := hj
      obtain ⟨_, hlt, _⟩ := vecAt_eq_some hj0
      exact ⟨done, openc, rfl, ⟨j0, by simp only; omega, hj0⟩, hop, hch, hdone⟩
  | succ fuel ih =>
    intro i done openc tmp r hj hop hch hdone h
    unfold rangeLoop at h
    split at h
    · rename_i hi
      simp only [Option.bind_eq_bind, Option.bind_eq_some] at h
      obtain ⟨window, hwin, pi, hpi, h⟩ := h
      split at h
      · simp only [Option.bind_eq_bind, Option.bind_eq_some] at h
        obtain ⟨fraction, hfr, p, hpp, pnext, hpn, d, hd, ims, hims, candids1, hclose, last, hlast, h⟩ := h
        have hf0 := findFraction_nonneg _ _ _ _ _ hfr
        rw [← List.append_assoc, closeLast_append, Option.some.injEq] at hclose
        subst hclose
        have hlast1 : last = { openc with candidateRangeInfo1 := ims + p + 1, risingRangeInfo1 := p } := by
          have := vecAt_last (pre ++ done) { openc with candidateRangeInfo1 := ims + p + 1, risingRangeInfo1 := p }
          rw [this] at hlast
          simp only [Option.some.injEq] at hlast
          exact hlast.symm
        subst hlast1
        obtain ⟨j0, hj0i, hj0⟩ := hj
        obtain ⟨hims0, hims1, vmin, hvmin, hall⟩ := lastIndexOfMin_spec hims
        have hsd := span_eq_some hd
        have hle : openc.risingRangeInfo0 ≤ p := vecAt_mono hp hj0 hpp (by omega)
        have hg : ({ openc with candidateRangeInfo1 := ims + p + 1, risingRangeInfo1 := p } :
            candidate).get_candidateRangeInfo 1 = ims + p + 1 := rfl
        rw [hg] at h
        have ht0 : ((tmp.set_candidateRangeInfo (ims + p + 1) 0).set_risingRangeInfo pnext 0).candidateRangeInfo0
            = ims + p + 1 := rfl
        have ht1 : ((tmp.set_candidateRangeInfo (ims + p + 1) 0).set_risingRangeInfo pnext 0).risingRangeInfo0
            = pnext := rfl
        generalize (tmp.set_candidateRangeInfo (ims + p + 1) 0).set_risingRangeInfo pnext 0 = tmp1 at h ht0 ht1
        have hbd : Boundary derivative points
            { openc with candidateRangeInfo1 := ims + p + 1, risingRangeInfo1 := p } tmp1 := by
          refine ⟨ht0, ⟨i + fraction, hpp, by rw [ht1]; exact hpn⟩, ?_⟩
          rw [ht1]
          refine ⟨by show p < ims + p + 1; omega, by show ims + p + 1 < pnext; omega, vmin, ?_, ?_⟩
          · have := span_vecAt hd ims hims0 hims1
            rw [hvmin] at this
            show vecAt derivative (ims + p + 1) = some vmin
            rw [show ims + p + 1 = p + 1 + ims by ring]
            exact this.symm
          · intro j u hj1 hj2 hu
            have hj1' : p < j := hj1
            exact hall u (vecAt_mem_span hd j (by omega) (by omega) hu)
        have hrep : List.Chain' (Boundary derivative points)
            (done ++ [{ openc with candidateRangeInfo1 := ims + p + 1, risingRangeInfo1 := p }]) :=
          chain_replace_last hch (fun a ha => ha)
        have hch1 := chain_snoc hrep hbd
        have hdone1 : ∀ c ∈ done ++ [{ openc with candidateRangeInfo1 := ims + p + 1, risingRangeInfo1 := p }],
            RangeOrdered c := by
          intro c hc
          rcases List.mem_append.1 hc with hc | hc
          · exact hdone c hc
          · simp only [List.mem_singleton] at hc
            subst hc
            exact ⟨hop, hle, by show p ≤ ims + p + 1; omega⟩
        have hrec := ih (i + fraction + 1)
          (done ++ [{ openc with candidateRangeInfo1 := ims + p + 1, risingRangeInfo1 := p }])
          tmp1 tmp1 r
          ⟨i + fraction + 1, le_refl _, by rw [ht1]; exact hpn⟩
          (by rw [ht0, ht1]; omega)
          hch1 hdone1
        apply hrec
        rw [← h]
        simp only [List.append_assoc]
      · obtain ⟨j0, hj0i, hj0⟩ := hj
        exact ih (i + 1) done openc tmp r ⟨j0, by omega, hj0⟩ hop hch hdone h
    · rename_i hi
      simp only [Option.some.injEq] at h
      subst h
      obtain ⟨j0, _, hj0⟩ := hj
      obtain ⟨_, hlt, _⟩ := vecAt_eq_some hj0
      exact ⟨done, openc, rfl, ⟨j0, by simp only; omega, hj0⟩, hop, hch, hdone⟩

theorem rangeLoop_fuel (derivative : List ℚ) (points : List ℤ) (L : ℤ) :
    ∀ (fuel : ℕ) (i : ℤ) (candids : List candidate) (tmp : candidate),
      (points.length : ℤ) ≤ i + fuel →
      rangeLoop derivative points L (fuel + 1) i candids tmp =
        rangeLoop derivative points L fuel i candids tmp := by
  intro fuel
  induction fuel with
  | zero =>
    intro i candids tmp hi
    have : ¬ i < (points.length : ℤ) := by push_cast at hi; omega
    unfold rangeLoop
    rw [if_neg this, if_neg this]
  | succ fuel ih =>
    intro i candids tmp hi
    rw [rangeLoop]
    conv_rhs => rw [rangeLoop]
    split
    · simp only [Option.bind_eq_bind]
      cases hw : span points i (min ((points.length : ℤ) - 1) (i + L)) with
      | none => simp only [Option.none_bind]
      | some window =>
        cases hpi : vecAt points i with
        | none => simp only [Option.none_bind]
        | some pi =>
          simp only [Option.some_bind]
          split
          · cases hfr : findFraction (window.map (fun v => v - pi)) L L.toNat 0 with
            | none => simp only [Option.none_bind]
            | some fraction =>
              have hf0 := findFraction_nonneg _ _ _ _ _ hfr
              simp only [Option.some_bind]
              iterate 6 refine congrArg _ (funext fun _ => ?_)
              exact ih _ _ _ (by push_cast at hi ⊢; omega)
          · exact ih _ _ _ (by push_cast at hi ⊢; omega)
    · rfl

theorem indicesFrom_eq_nil {α : Type} (p : α → Bool) (l : List α) (i : ℕ)
    (h : ∀ a ∈ l, p a = false) : indicesFrom p i l = [] := by
  induction l generalizing i with
  | nil => rfl
  | cons a as ih =>
    unfold indicesFrom
    rw [h a (List.mem_cons_self _ _)]
    simp only [Bool.false_eq_true, if_false]
    exact ih (i + 1) (fun b hb => h b (List.mem_cons_of_mem _ hb))

theorem indicesFrom_ne_nil {α : Type} (p : α → Bool) (l : List α) (i : ℕ)
    (h : ∃ a ∈ l, p a = true) : indicesFrom p i l ≠ [] := by
  induction l generalizing i with
  | nil => obtain ⟨a, ha, _⟩ := h; simp at ha
  | cons a as ih =>
    unfold indicesFrom
    split
    · simp
    · rename_i hpa
      obtain ⟨b, hb, hpb⟩ := h
      rcases List.mem_cons.1 hb with hb | hb
      · subst hb; exact absurd hpb hpa
      · exact ih (i + 1) ⟨b, hb, hpb⟩

theorem candidateRangeInfoFinder_spec {derivative page : List ℚ} {pre out : List candidate}
    {L : ℤ} (hne : indicesWhere (fun v => decide (v ≠ 0)) page ≠ [])
    (h : candidateRangeInfoFinder derivative page pre L = some out) :
    ∃ new, new ≠ [] ∧ out = pre ++ new ∧
      List.Chain' (Boundary derivative (indicesWhere (fun v => decide (v ≠ 0)) page)) new ∧
      ∀ c ∈ new, RangeOrdered c := by
  have hp : (indicesWhere (fun v => decide (v ≠ 0)) page).Pairwise (fun a b => a < b) :=
    (indicesWhere_removable _ page).1
  unfold candidateRangeInfoFinder at h
  simp only [] at h
  generalize indicesWhere (fun v => decide (v ≠ 0)) page = points at h hne hp
  have hlen : ¬ points.length = 0 := by
    intro hc; exact hne (List.length_eq_zero.1 hc)
  rw [if_neg hlen] at h
  simp only [Option.bind_eq_bind, Option.bind_eq_some] at h
  obtain ⟨p0, hp0, d0, hd0, index, hidx, r, hr, plast, hplast, dlast, hdlast, indexLast, hil, h⟩ := h
  obtain ⟨hi0, hi1, _⟩ := lastIndexOfMin_spec hidx
  obtain ⟨hl0, _, _⟩ := lastIndexOfMin_spec hil
  have hs0 := span_eq_some hd0
  have hc0 : ((((({} : candidate).set_candidateRangeInfo index 0).set_candidateRangeInfo p0 1).set_risingRangeInfo
      p0 0)).candidateRangeInfo0 = index := rfl
  have hr0 : ((((({} : candidate).set_candidateRangeInfo index 0).set_candidateRangeInfo p0 1).set_risingRangeInfo
      p0 0)).risingRangeInfo0 = p0 := rfl
  generalize ((({} : candidate).set_candidateRangeInfo index 0).set_candidateRangeInfo p0 1).set_risingRangeInfo
      p0 0 = tmp at hr hc0 hr0
  have hspec := rangeLoop_spec derivative points L hp pre points.length 1 [] tmp tmp r
    ⟨0, by omega, by rw [hr0]; exact hp0⟩ (by rw [hc0, hr0]; omega)
    (List.chain'_singleton _) (by simp) (by simpa using hr)
  obtain ⟨done1, open1, hr2, ⟨j1, hj1, hj1v⟩, hop, hch, hdone⟩ := hspec
  obtain ⟨i, candids1⟩ := r
  simp only at hr2 hj1 hplast h
  subst hr2
  rw [← List.append_assoc, closeLast_append, Option.some.injEq] at h
  subst h
  refine ⟨done1 ++ [{ open1 with candidateRangeInfo1 := indexLast + plast, risingRangeInfo1 := plast }],
    by simp, by simp, chain_replace_last hch (fun a ha => ha), ?_⟩
  intro c hc
  rcases List.mem_append.1 hc with hc | hc
  · exact hdone c hc
  · simp only [List.mem_singleton] at hc
    subst hc
    exact ⟨hop, vecAt_mono hp hj1v hplast hj1, by show plast ≤ indexLast + plast; omega⟩

theorem foldl_add_eq_sum (l : List ℤ) (z : ℤ) : l.foldl (fun s a => s + a) z = z + l.sum := by
  induction l generalizing z with
  | nil => simp
  | cons a as ih => simp only [List.foldl_cons, List.sum_cons, ih]; ring

theorem two_mul_tdiv_succ (L : ℤ) (hL : 0 ≤ L) : 2 * Int.tdiv (L * (L + 1)) 2 = L * (L + 1) := by
  have hnn : 0 ≤ L * (L + 1) := mul_nonneg hL (by omega)
  rw [Int.tdiv_eq_ediv hnn (by decide)]
  have hev : Even (L * (L + 1)) := Int.even_mul_succ_self L
  obtain ⟨k, hk⟩ := hev
  omega

theorem sum_offsets_ge (c : ℤ) : ∀ (l : List ℤ) (a : ℤ), List.Chain (fun x y => x < y) a l →
    2 * ((a :: l).map (fun v => v - c)).sum ≥
      2 * ((l.length : ℤ) + 1) * (a - c) + (l.length : ℤ) * ((l.length : ℤ) + 1) := by
  intro l
  induction l with
  | nil => intro a _; simp
  | cons b l ih =>
    intro a h
    rw [List.chain_cons] at h
    have := ih b h.2
    simp only [List.map_cons, List.sum_cons, List.length_cons] at this ⊢
    push_cast
    have hn : (0 : ℤ) ≤ (l.length : ℤ) := by omega
    nlinarith [mul_nonneg hn (show (0 : ℤ) ≤ b - a - 1 by omega), h.1]

theorem sum_offsets_eq (c : ℤ) : ∀ (l : List ℤ) (a : ℤ), List.Chain (fun x y => y = x + 1) a l →
    2 * ((a :: l).map (fun v => v - c)).sum =
      2 * ((l.length : ℤ) + 1) * (a - c) + (l.length : ℤ) * ((l.length : ℤ) + 1) := by
  intro l
  induction l with
  | nil => intro a _; simp
  | cons b l ih =>
    intro a h
    rw [List.chain_cons] at h
    have := ih b h.2
    simp only [List.map_cons, List.sum_cons, List.length_cons] at this ⊢
    push_cast
    rw [h.1] at this ⊢
    linarith

theorem sum_offsets_gt (c : ℤ) : ∀ (l : List ℤ) (a : ℤ), List.Chain (fun x y => x < y) a l →
    ¬ List.Chain (fun x y => y = x + 1) a l →
    2 * ((a :: l).map (fun v => v - c)).sum >
      2 * ((l.length : ℤ) + 1) * (a - c) + (l.length : ℤ) * ((l.length : ℤ) + 1) := by
  intro l
  induction l with
  | nil => intro a _ h; exact absurd List.Chain.nil h
  | cons b l ih =>
    intro a h hn
    rw [List.chain_cons] at h hn
    have hge := sum_offsets_ge c l b h.2
    simp only [List.map_cons, List.sum_cons, List.length_cons] at hge ⊢
    push_cast
    have hlen : (0 : ℤ) ≤ (l.length : ℤ) := by omega
    by_cases hb : b = a + 1
    · have hn2 : ¬ List.Chain (fun x y => y = x + 1) b l := fun hc => hn ⟨hb, hc⟩
      have := ih b h.2 hn2
      simp only [List.map_cons, List.sum_cons] at this
      rw [hb] at this ⊢
      linarith
    · have hb2 : a + 2 ≤ b := by have := h.1; omega
      nlinarith [mul_nonneg hlen (show (0 : ℤ) ≤ b - a - 2 by omega)]

theorem findFraction_first_gap (rel : List ℤ) (L : ℤ) :
    ∀ (fuel j g : ℕ), j ≤ g → g < j + fuel → (g : ℤ) < L →
      (∀ t : ℕ, j ≤ t → t < g → ∃ r, vecAt rel (t : ℤ) = some r ∧ vecAt rel ((t : ℤ) + 1) = some (r + 1)) →
      (∃ r r1, vecAt rel (g : ℤ) = some r ∧ vecAt rel ((g : ℤ) + 1) = some r1 ∧ r + 1 ≠ r1) →
      findFraction rel L fuel j = some (g : ℤ) := by
  intro fuel
  induction fuel with
  | zero => intro j g h1 h2; omega
  | succ fuel ih =>
    intro j g h1 h2 hL hc hg
    unfold findFraction
    rw [if_pos (by omega)]
    rcases Nat.eq_or_lt_of_le h1 with h | h
    · subst h
      obtain ⟨r, r1, hr, hr1, hne⟩ := hg
      simp only [hr, hr1, if_pos hne]
    · obtain ⟨r, hr, hr1⟩ := hc j (le_refl _) h
      simp only [hr, hr1, ne_eq, not_true_eq_false, if_false]
      exact ih (j + 1) g h (by omega) hL (fun t ht1 ht2 => hc t (by omega) ht2) hg

theorem span_sublist {α : Type} {v w : List α} {a b : ℤ} (h : span v a b = some w) :
    w.Sublist v := by
  unfold span at h
  split at h
  · simp only [Option.some.injEq] at h
    subst h
    exact (List.take_sublist _ _).trans (List.drop_sublist _ _)
  · simp at h

theorem vecAt_cons_succ {α : Type} (a : α) (l : List α) (t : ℕ) :
    vecAt (a :: l) ((t : ℤ) + 1) = vecAt l (t : ℤ) := by
  unfold vecAt
  rw [if_pos (by omega), if_pos (by omega)]
  have : ((t : ℤ) + 1).toNat = t + 1 := by omega
  rw [this, Int.toNat_ofNat, List.get?_cons_succ]

theorem chain_of_vecAt {R : ℤ → ℤ → Prop} : ∀ (w : List ℤ),
    (∀ (t : ℕ) (x y : ℤ), vecAt w (t : ℤ) = some x → vecAt w ((t : ℤ) + 1) = some y → R x y) →
    List.Chain' R w := by
  intro w
  induction w with
  | nil => intro _; exact List.chain'_nil
  | cons a l ih =>
    intro h
    cases l with
    | nil => exact List.chain'_singleton _
    | cons b l =>
      rw [List.chain'_cons]
      refine ⟨h 0 a b (by simp [vecAt]) (by simp [vecAt]), ih ?_⟩
      intro t x y hx hy
      refine h (t + 1) x y ?_ ?_
      · push_cast; rw [vecAt_cons_succ]; exact hx
      · push_cast
        have := vecAt_cons_succ a (b :: l) (t + 1)
        push_cast at this
        rw [this]; exact hy

theorem vecAt_of_chain {R : ℤ → ℤ → Prop} : ∀ (w : List ℤ), List.Chain' R w →
    ∀ (t : ℕ) (x y : ℤ), vecAt w (t : ℤ) = some x → vecAt w ((t : ℤ) + 1) = some y → R x y := by
  intro w
  induction w with
  | nil => intro _ t x y hx; simp [vecAt] at hx
  | cons a l ih =>
    intro h t x y hx hy
    cases l with
    | nil =>
      rw [vecAt_cons_succ] at hy
      simp [vecAt] at hy
    | cons b l =>
      rw [List.chain'_cons] at h
      cases t with
      | zero =>
        simp [vecAt] at hx hy
        subst hx; subst hy
        exact h.1
      | succ t =>
        push_cast at hx hy
        rw [vecAt_cons_succ] at hx
        have := vecAt_cons_succ a (b :: l) (t + 1)
        push_cast at this
        rw [this] at hy
        exact ih h.2 t x y hx hy

theorem vecAt_map {α β : Type} (f : α → β) (l : List α) (j : ℤ) :
    vecAt (l.map f) j = (vecAt l j).map f := by
  unfold vecAt
  split
  · simp [List.get?_eq_getElem?]
  · rfl

theorem window_facts {points : List ℤ} (hp : points.Pairwise (fun a b => a < b)) {i ub : ℤ}
    {w : List ℤ} (hw : span points i ub = some w) {pi : ℤ} (hpi : vecAt points i = some pi) :
    ∃ l, w = pi :: l ∧ (l.length : ℤ) = ub - i ∧ List.Chain (fun x y => x < y) pi l ∧
      ∀ t : ℕ, (t : ℤ) ≤ ub - i → vecAt w (t : ℤ) = vecAt points (i + (t : ℤ)) := by
  have hs := span_eq_some hw
  have hv : ∀ t : ℕ, (t : ℤ) ≤ ub - i → vecAt w (t : ℤ) = vecAt points (i + (t : ℤ)) :=
    fun t ht => span_vecAt hw t (by omega) (by omega)
  have h0 := hv 0 (by omega)
  simp only [Nat.cast_zero, add_zero, hpi] at h0
  cases w with
  | nil => simp [vecAt] at h0
  | cons a l =>
    simp [vecAt] at h0
    subst h0
    have hpw : (a :: l).Pairwise (fun a b => a < b) := hp.sublist (span_sublist hw)
    refine ⟨l, rfl, ?_, List.chain_iff_pairwise.2 hpw, hv⟩
    have := hs.2.2.2
    simp only [List.length_cons] at this
    push_cast at this
    omega

theorem first_gap_of_not_chain : ∀ (l : List ℤ) (a : ℤ),
    ¬ List.Chain (fun x y => y = x + 1) a l →
    ∃ t : ℕ, t < l.length ∧
      (∀ s : ℕ, s < t → ∃ r, vecAt (a :: l) (s : ℤ) = some r ∧
        vecAt (a :: l) ((s : ℤ) + 1) = some (r + 1)) ∧
      ∃ r r1, vecAt (a :: l) (t : ℤ) = some r ∧ vecAt (a :: l) ((t : ℤ) + 1) = some r1 ∧
        r1 ≠ r + 1 := by
  intro l
  induction l with
  | nil => intro a h; exact absurd List.Chain.nil h
  | cons b l ih =>
    intro a h
    by_cases hb : b = a + 1
    · have h2 : ¬ List.Chain (fun x y => y = x + 1) b l := fun hc => h (List.Chain.cons hb hc)
      obtain ⟨t, ht, hbefore, r, r1, hr, hr1, hne⟩ := ih b h2
      refine ⟨t + 1, by simp only [List.length_cons]; omega, ?_, r, r1, ?_, ?_, hne⟩
      · intro s hs
        cases s with
        | zero =>
          refine ⟨a, by simp [vecAt], ?_⟩
          rw [hb]
          simp [vecAt]
        | succ s =>
          obtain ⟨x, hx1, hx2⟩ := hbefore s (by omega)
          refine ⟨x, ?_, ?_⟩
          · push_cast; rw [vecAt_cons_succ]; exact hx1
          · have := vecAt_cons_succ a (b :: l) (s + 1)
            push_cast at this
            push_cast
            rw [this]; exact hx2
      · push_cast; rw [vecAt_cons_succ]; exact hr
      · have := vecAt_cons_succ a (b :: l) (t + 1)
        push_cast at this
        push_cast
        rw [this]; exact hr1
    · exact ⟨0, by simp, fun s hs => absurd hs (Nat.not_lt_zero s), a, b, by simp [vecAt],
        by simp [vecAt], hb⟩

/-- The boundary step of the loop of `candidateRangeInfoFinder`: when the sum
test of the window walked at `i` succeeds and `g` is the first gap of the
window, the current candidate is closed between `points[g]` and `points[g+1]`
and a new one is opened. -/
theorem rangeLoop_boundary_step (derivative : List ℚ) (points : List ℤ) (looseWindow : ℤ)
    (fuel : ℕ) (i : ℤ) (cs : List candidate) (c tmp : candidate)
    (hin : i < (points.length : ℤ)) {w : List ℤ} {pi : ℤ}
    (hw : span points i (min ((points.length : ℤ) - 1) (i + looseWindow)) = some w)
    (hpi : vecAt points i = some pi)
    (hyes : (w.map (fun v => v - pi)).foldl (fun s a => s + a) 0 >
      Int.tdiv (looseWindow * (looseWindow + 1)) 2)
    (g p q : ℤ) (hg0 : i ≤ g) (hg1 : g < min ((points.length : ℤ) - 1) (i + looseWindow))
    (hpg : vecAt points g = some p) (hqg : vecAt points (g + 1) = some q) (hne : q ≠ p + 1)
    (hcont : ∀ j, i ≤ j → j < g → ContiguousAt points j) :
    rangeLoop derivative points looseWindow (fuel + 1) i (cs ++ [c]) tmp =
      (span derivative (p + 1) (q - 1)).bind fun d =>
        (lastIndexOfMin d).bind fun indexMinSlope =>
          rangeLoop derivative points looseWindow fuel (g + 1)
            (cs ++ [{ c with candidateRangeInfo1 := indexMinSlope + p + 1,
                             risingRangeInfo1 := p }] ++
              [(tmp.set_candidateRangeInfo (indexMinSlope + p + 1) 0).set_risingRangeInfo q 0])
            ((tmp.set_candidateRangeInfo (indexMinSlope + p + 1) 0).set_risingRangeInfo q 0) := by
  have hv : ∀ t : ℕ, (t : ℤ) ≤ min ((points.length : ℤ) - 1) (i + looseWindow) - i →
      vecAt w (t : ℤ) = vecAt points (i + (t : ℤ)) :=
    fun t ht => span_vecAt hw t (by omega) (by have := (span_eq_some hw).2.2.2; omega)
  have hgL : g < i + looseWindow := lt_of_lt_of_le hg1 (min_le_right _ _)
  have hfr : findFraction (w.map (fun v => v - pi)) looseWindow looseWindow.toNat 0 = some (g - i) := by
    have := findFraction_first_gap (w.map (fun v => v - pi)) looseWindow looseWindow.toNat 0
      (g - i).toNat (Nat.zero_le _) (by omega) (by omega) ?_ ?_
    · rw [this]; congr 1; omega
    · intro t _ ht
      obtain ⟨x, hx1, hx2⟩ := hcont (i + t) (by omega) (by omega)
      refine ⟨x - pi, ?_, ?_⟩
      · rw [vecAt_map, hv t (by omega), hx1]; rfl
      · have := hv (t + 1) (by push_cast; omega)
        push_cast at this
        rw [vecAt_map, this, show i + ((t : ℤ) + 1) = i + (t : ℤ) + 1 by ring, hx2]
        simp only [Option.map_some', Option.some.injEq]
        ring
    · refine ⟨p - pi, q - pi, ?_, ?_, by omega⟩
      · rw [vecAt_map, hv _ (by omega), show i + (((g - i).toNat : ℕ) : ℤ) = g by omega, hpg]; rfl
      · have := hv ((g - i).toNat + 1) (by push_cast; omega)
        push_cast at this
        rw [vecAt_map, this, show i + ((((g - i).toNat : ℕ) : ℤ) + 1) = g + 1 by omega, hqg]; rfl
  rw [rangeLoop, if_pos hin]
  simp only [Option.bind_eq_bind, hw, hpi, Option.some_bind, if_pos hyes, hfr,
    show i + (g - i) = g by ring, hpg, hqg]
  refine congrArg _ (funext fun d => ?_)
  refine congrArg _ (funext fun ims => ?_)
  rw [closeLast_append]
  simp only [Option.some_bind]
  rw [vecAt_last]
  simp only [Option.some_bind]
  rfl

/-- C17 (amended): one iteration of the loop of `candidateRangeInfoFinder` at a
position `i >= 1` of the strictly ascending crossing points, with the window
`points[i .. min(i+looseWindow, last)]`. (1) If the points of the window are
all contiguous, the iteration moves to `i+1` and leaves the candidates
unchanged. (2) If the window holds `looseWindow+1` points and `g` is its first
gap, the iteration closes the current candidate at the last minimum of the
derivative strictly between `points[g]` and `points[g+1]`, opens a new
candidate there and continues after `g`. (3) In every window, also a shorter
one at the end of the list, the test is the sum of the offsets of the window's
points from `points[i]`: when it is at most `looseWindow*(looseWindow+1)/2` the
candidates stay unchanged, gap or no gap; when it is larger the window has a
first gap and the boundary of (2) is created there. -/
theorem rangeLoop_window_rule (derivative : List ℚ) (points : List ℤ) (looseWindow : ℤ)
    (fuel : ℕ) (i : ℤ) (cs : List candidate) (c tmp : candidate)
    (hp : points.Pairwise (fun a b => a < b)) (hL : 0 ≤ looseWindow) (hi : 1 ≤ i)
    (hin : i < (points.length : ℤ)) :
    ((∀ j, i ≤ j → j < min ((points.length : ℤ) - 1) (i + looseWindow) → ContiguousAt points j) →
      rangeLoop derivative points looseWindow (fuel + 1) i (cs ++ [c]) tmp =
        rangeLoop derivative points looseWindow fuel (i + 1) (cs ++ [c]) tmp) ∧
    (i + looseWindow ≤ (points.length : ℤ) - 1 →
      ∀ g p q, i ≤ g → g < i + looseWindow → vecAt points g = some p →
        vecAt points (g + 1) = some q → q ≠ p + 1 →
        (∀ j, i ≤ j → j < g → ContiguousAt points j) →
        rangeLoop derivative points looseWindow (fuel + 1) i (cs ++ [c]) tmp =
          (span derivative (p + 1) (q - 1)).bind fun d =>
            (lastIndexOfMin d).bind fun indexMinSlope =>
              rangeLoop derivative points looseWindow fuel (g + 1)
                (cs ++ [{ c with candidateRangeInfo1 := indexMinSlope + p + 1,
                                 risingRangeInfo1 := p }] ++
                  [(tmp.set_candidateRangeInfo (indexMinSlope + p + 1) 0).set_risingRangeInfo q 0])
                ((tmp.set_candidateRangeInfo (indexMinSlope + p + 1) 0).set_risingRangeInfo q 0)) ∧
    (∃ w pi, span points i (min ((points.length : ℤ) - 1) (i + looseWindow)) = some w ∧
      vecAt points i = some pi ∧
      ((w.map (fun v => v - pi)).sum ≤ Int.tdiv (looseWindow * (looseWindow + 1)) 2 →
        rangeLoop derivative points looseWindow (fuel + 1) i (cs ++ [c]) tmp =
          rangeLoop derivative points looseWindow fuel (i + 1) (cs ++ [c]) tmp) ∧
      ((w.map (fun v => v - pi)).sum > Int.tdiv (looseWindow * (looseWindow + 1)) 2 →
        ∃ g p q, i ≤ g ∧ g < min ((points.length : ℤ) - 1) (i + looseWindow) ∧
          vecAt points g = some p ∧ vecAt points (g + 1) = some q ∧ q ≠ p + 1 ∧
          (∀ j, i ≤ j → j < g → ContiguousAt points j) ∧
          rangeLoop derivative points looseWindow (fuel + 1) i (cs ++ [c]) tmp =
            (span derivative (p + 1) (q - 1)).bind fun d =>
              (lastIndexOfMin d).bind fun indexMinSlope =>
                rangeLoop derivative points looseWindow fuel (g + 1)
                  (cs ++ [{ c with candidateRangeInfo1 := indexMinSlope + p + 1,
                                   risingRangeInfo1 := p }] ++
                    [(tmp.set_candidateRangeInfo (indexMinSlope + p + 1) 0).set_risingRangeInfo q 0])
                  ((tmp.set_candidateRangeInfo (indexMinSlope + p + 1) 0).set_risingRangeInfo q 0))) := by
  have hub : i ≤ min ((points.length : ℤ) - 1) (i + looseWindow) := le_min (by omega) (by omega)
  have hub1 : min ((points.length : ℤ) - 1) (i + looseWindow) < (points.length : ℤ) :=
    lt_of_le_of_lt (min_le_left _ _) (by omega)
  obtain ⟨pi, hpi⟩ : ∃ pi, vecAt points i = some pi := by
    unfold vecAt
    rw [if_pos (by omega)]
    exact ⟨_, List.get?_eq_get (by omega)⟩
  obtain ⟨w, hw⟩ : ∃ w, span points i (min ((points.length : ℤ) - 1) (i + looseWindow)) = some w := by
    unfold span
    rw [if_pos ⟨by omega, hub, hub1⟩]
    exact ⟨_, rfl⟩
  obtain ⟨l, hwl, hlen, hlt, hv⟩ := window_facts hp hw hpi
  have hthr := two_mul_tdiv_succ looseWindow hL
  have hsum : (w.map (fun v => v - pi)).foldl (fun s a => s + a) 0 =
      ((pi :: l).map (fun v => v - pi)).sum := by
    rw [foldl_add_eq_sum, hwl, zero_add]
  have hlen0 : (0 : ℤ) ≤ (l.length : ℤ) := by omega
  have hle : (l.length : ℤ) ≤ looseWindow := by
    rw [hlen]
    have := min_le_right ((points.length : ℤ) - 1) (i + looseWindow)
    omega
  have hno : (w.map (fun v => v - pi)).sum ≤ Int.tdiv (looseWindow * (looseWindow + 1)) 2 →
      rangeLoop derivative points looseWindow (fuel + 1) i (cs ++ [c]) tmp =
        rangeLoop derivative points looseWindow fuel (i + 1) (cs ++ [c]) tmp := by
    intro hs
    have hnot : ¬ (w.map (fun v => v - pi)).foldl (fun s a => s + a) 0 >
        Int.tdiv (looseWindow * (looseWindow + 1)) 2 := by
      rw [foldl_add_eq_sum, zero_add]
      exact not_lt.2 hs
    rw [rangeLoop, if_pos hin]
    simp only [Option.bind_eq_bind, hw, hpi, Option.some_bind, if_neg hnot]
  have hcontsum : List.Chain (fun x y => y = x + 1) pi l →
      (w.map (fun v => v - pi)).sum ≤ Int.tdiv (looseWindow * (looseWindow + 1)) 2 := by
    intro hch
    have heq := sum_offsets_eq pi l pi hch
    rw [hwl]
    have : (l.length : ℤ) * ((l.length : ℤ) + 1) ≤ looseWindow * (looseWindow + 1) := by
      nlinarith
    simp only [sub_self, mul_zero, zero_add] at heq
    omega
  refine ⟨?_, ?_, w, pi, hw, hpi, hno, ?_⟩
  · intro hcont
    apply hno
    apply hcontsum
    have : List.Chain' (fun x y => y = x + 1) (pi :: l) := by
      apply chain_of_vecAt
      intro t x y hx hy
      rw [← hwl] at hx hy
      have ht1 : (t : ℤ) + 1 ≤ min ((points.length : ℤ) - 1) (i + looseWindow) - i := by
        obtain ⟨_, hlt1, _⟩ := vecAt_eq_some hy
        rw [hwl] at hlt1
        simp only [List.length_cons] at hlt1
        push_cast at hlt1
        omega
      have hx1 := hv t (by omega)
      have hy1 := hv (t + 1) (by push_cast; omega)
      push_cast at hy1
      rw [hx] at hx1
      rw [hy] at hy1
      obtain ⟨p, hp1, hp2⟩ := hcont (i + t) (by omega) (by omega)
      rw [← hx1, Option.some.injEq] at hp1
      rw [show i + (t : ℤ) + 1 = i + ((t : ℤ) + 1) by ring, ← hy1, Option.some.injEq] at hp2
      omega
    exact this
  · intro hfull g p q hg0 hg1 hpg hqg hne hcont
    have hub2 : min ((points.length : ℤ) - 1) (i + looseWindow) = i + looseWindow := min_eq_right hfull
    have hch : ¬ List.Chain (fun x y => y = x + 1) pi l := by
      intro hc
      have hc1 : List.Chain' (fun x y => y = x + 1) (pi :: l) := hc
      have hx1 := hv (g - i).toNat (by omega)
      have hy1 := hv ((g - i).toNat + 1) (by push_cast; omega)
      rw [show i + (((g - i).toNat : ℕ) : ℤ) = g by omega, hpg] at hx1
      rw [show i + ((((g - i).toNat + 1 : ℕ)) : ℤ) = g + 1 by push_cast; omega, hqg] at hy1
      push_cast at hy1
      rw [hwl] at hx1 hy1
      exact hne (vecAt_of_chain _ hc1 _ p q hx1 hy1)
    have hgt := sum_offsets_gt pi l pi hlt hch
    have hyes : (w.map (fun v => v - pi)).foldl (fun s a => s + a) 0 >
        Int.tdiv (looseWindow * (looseWindow + 1)) 2 := by
      rw [hsum]
      simp only [sub_self, mul_zero, zero_add] at hgt
      have hlen2 : (l.length : ℤ) = looseWindow := by omega
      rw [hlen2] at hgt
      omega
    exact rangeLoop_boundary_step derivative points looseWindow fuel i cs c tmp hin hw hpi hyes
      g p q hg0 (by omega) hpg hqg hne hcont
  · intro hs
    have hch : ¬ List.Chain (fun x y => y = x + 1) pi l := fun hc =>
      absurd (hcontsum hc) (not_le.2 hs)
    obtain ⟨t, ht, hbefore, r, r1, hr, hr1, hne⟩ := first_gap_of_not_chain l pi hch
    have htub : (t : ℤ) + 1 ≤ min ((points.length : ℤ) - 1) (i + looseWindow) - i := by omega
    have hyes : (w.map (fun v => v - pi)).foldl (fun s a => s + a) 0 >
        Int.tdiv (looseWindow * (looseWindow + 1)) 2 := by
      rw [foldl_add_eq_sum, zero_add]
      exact hs
    have e1 := hv t (by omega)
    have e2 := hv (t + 1) (by push_cast; omega)
    push_cast at e2
    rw [hwl, hr] at e1
    rw [hwl, hr1] at e2
    have hcont : ∀ j, i ≤ j → j < i + (t : ℤ) → ContiguousAt points j := by
      intro j hj1 hj2
      obtain ⟨x, hx1, hx2⟩ := hbefore (j - i).toNat (by omega)
      have f1 := hv (j - i).toNat (by omega)
      have f2 := hv ((j - i).toNat + 1) (by push_cast; omega)
      push_cast at f2
      rw [hwl, hx1, show i + (((j - i).toNat : ℕ) : ℤ) = j by omega] at f1
      rw [hwl, hx2, show i + ((((j - i).toNat : ℕ) : ℤ) + 1) = j + 1 by omega] at f2
      exact ⟨x, f1.symm, f2.symm⟩
    refine ⟨i + t, r, r1, by omega, by omega, e1.symm, ?_, hne, hcont, ?_⟩
    · rw [show i + (t : ℤ) + 1 = i + ((t : ℤ) + 1) by ring]; exact e2.symm
    · exact rangeLoop_boundary_step derivative points looseWindow fuel i cs c tmp hin hw hpi hyes
        (i + t) r r1 (by omega) (by omega) e1.symm
        (by rw [show i + (t : ℤ) + 1 = i + ((t : ℤ) + 1) by ring]; exact e2.symm) hne hcont

theorem candidateRangeInfoFinder_rangeResult :
    candidateRangeInfoFinder rangeDerivative rangePage [] 2 = some rangeResult := by
  decide!

/-- C15: when the crossing-amplitude vector has a nonzero entry, every
candidate `candidateRangeInfoFinder` appends to the list satisfies
`candidateRange[0] <= risingRange[0] <= risingRange[1] <= candidateRange[1]`. -/
theorem candidateRangeInfoFinder_ranges (derivative page : List ℚ) (pre out : List candidate)
    (looseWindow : ℤ) (hne : ∃ v ∈ page, v ≠ 0)
    (h : candidateRangeInfoFinder derivative page pre looseWindow = some out) :
    ∃ new, new ≠ [] ∧ out = pre ++ new ∧ ∀ c ∈ new, RangeOrdered c := by
  have hpts : indicesWhere (fun v => decide (v ≠ 0)) page ≠ [] := by
    obtain ⟨v, hv, hv0⟩ := hne
    exact indicesFrom_ne_nil _ page 0 ⟨v, hv, by simpa using hv0⟩
  obtain ⟨new, h1, h2, _, h4⟩ := candidateRangeInfoFinder_spec hpts h
  exact ⟨new, h1, h2, h4⟩

/-- Witness of C15: the two candidates built from `rangePage`. -/
theorem candidateRangeInfoFinder_ranges_witness :
    ∃ new, new ≠ [] ∧ rangeResult = [] ++ new ∧ ∀ c ∈ new, RangeOrdered c :=
  candidateRangeInfoFinder_ranges rangeDerivative rangePage [] rangeResult 2
    ⟨1, by decide, by decide⟩ candidateRangeInfoFinder_rangeResult

/-- C16: when the crossing-amplitude vector has no nonzero entry,
`candidateRangeInfoFinder` returns the candidate list unchanged. -/
theorem candidateRangeInfoFinder_no_crossing (derivative page : List ℚ) (candids : List candidate)
    (looseWindow : ℤ) (h : ∀ v ∈ page, v = 0) :
    candidateRangeInfoFinder derivative page candids looseWindow = some candids := by
  have hpts : indicesWhere (fun v => decide (v ≠ 0)) page = [] :=
    indicesFrom_eq_nil _ page 0 (fun a ha => by simp [h a ha])
  unfold candidateRangeInfoFinder
  simp only [hpts, List.length_nil, if_true]

/-- Witness of C16: an all-zero crossing-amplitude vector and an empty list. -/
theorem candidateRangeInfoFinder_no_crossing_witness :
    candidateRangeInfoFinder rangeDerivative [0, 0, 0] [] 10 = some [] :=
  candidateRangeInfoFinder_no_crossing rangeDerivative [0, 0, 0] [] 10 (by decide)

/-- C18: in the candidates `candidateRangeInfoFinder` appends, each candidate
after the first starts where its predecessor ends, and that shared boundary
lies strictly between the predecessor's last crossing point and the successor's
first crossing point (two consecutive crossing points) and attains the minimum
of the derivative over that open interval. -/
theorem candidateRangeInfoFinder_boundaries (derivative page : List ℚ)
    (pre out : List candidate) (looseWindow : ℤ)
    (h : candidateRangeInfoFinder derivative page pre looseWindow = some out) :
    ∃ new, out = pre ++ new ∧
      List.Chain' (Boundary derivative (indicesWhere (fun v => decide (v ≠ 0)) page)) new := by
  by_cases hpts : indicesWhere (fun v => decide (v ≠ 0)) page = []
  · refine ⟨[], ?_, List.chain'_nil⟩
    unfold candidateRangeInfoFinder at h
    simp only [hpts, List.length_nil, if_true, Option.some.injEq] at h
    simp [← h]
  · obtain ⟨new, _, h2, h3, _⟩ := candidateRangeInfoFinder_spec hpts h
    exact ⟨new, h2, h3⟩

/-- Witness of C18: the boundary 4 between the two candidates built from
`rangePage`. -/
theorem candidateRangeInfoFinder_boundaries_witness :
    ∃ new, rangeResult = [] ++ new ∧
      List.Chain' (Boundary rangeDerivative (indicesWhere (fun v => decide (v ≠ 0)) rangePage)) new :=
  candidateRangeInfoFinder_boundaries rangeDerivative rangePage [] rangeResult 2
    candidateRangeInfoFinder_rangeResult

/-- C17 (counterexample): with `looseWindow = 10` the crossing points of
`rangePage` are 1, 2, 5, 6; the window walked at position 1 is `[2, 5, 6]`, not
contiguous, yet no boundary is created: the finder returns one candidate that
spans all four points. -/
theorem rangeLoop_window_counterexample :
    indicesWhere (fun v => decide (v ≠ 0)) rangePage = [1, 2, 5, 6] ∧
      ¬ ContiguousAt [1, 2, 5, 6] 1 ∧
      candidateRangeInfoFinder rangeDerivative rangePage [] 10 =
        some [{ candidateRangeInfo0 := 0, risingRangeInfo0 := 1, risingRangeInfo1 := 6,
                candidateRangeInfo1 := 7 }] := by
  refine ⟨by decide!, ?_, by decide!⟩
  rintro ⟨p, h1, h2⟩
  have h3 : vecAt [(1 : ℤ), 2, 5, 6] 1 = some 2 := by decide
  have h4 : vecAt [(1 : ℤ), 2, 5, 6] (1 + 1) = some 5 := by decide
  rw [h3] at h1
  rw [h4] at h2
  simp only [Option.some.injEq] at h1 h2
  omega

/-- Witness of C17 (amended): the window `[2, 5, 6]` walked at position 1 of the
points 1, 2, 5, 6. With `looseWindow = 2` it is a full window with its first gap
at position 1, where the boundary is created; with `looseWindow = 10` it is a
shorter window whose offsets sum to `7 <= 55`, and the candidates stay
unchanged in spite of the gap. -/
theorem rangeLoop_window_rule_witness :
    rangeLoop rangeDerivative [1, 2, 5, 6] 2 (3 + 1) 1 ([] ++ [rangeFirst]) rangeFirst =
      ((span rangeDerivative (2 + 1) (5 - 1)).bind fun d =>
        (lastIndexOfMin d).bind fun indexMinSlope =>
          rangeLoop rangeDerivative [1, 2, 5, 6] 2 3 (1 + 1)
            ([] ++ [{ rangeFirst with candidateRangeInfo1 := indexMinSlope + 2 + 1,
                                      risingRangeInfo1 := 2 }] ++
              [(rangeFirst.set_candidateRangeInfo (indexMinSlope + 2 + 1) 0).set_risingRangeInfo 5 0])
            ((rangeFirst.set_candidateRangeInfo (indexMinSlope + 2 + 1) 0).set_risingRangeInfo 5 0)) ∧
    rangeLoop rangeDerivative [1, 2, 5, 6] 10 (3 + 1) 1 ([] ++ [rangeFirst]) rangeFirst =
      rangeLoop rangeDerivative [1, 2, 5, 6] 10 3 (1 + 1) ([] ++ [rangeFirst]) rangeFirst := by
  constructor
  · exact (rangeLoop_window_rule rangeDerivative [1, 2, 5, 6] 2 3 1 [] rangeFirst rangeFirst
      (by decide) (by decide) (by decide) (by decide)).2.1 (by decide) 1 2 5 (by decide) (by decide)
      (by decide) (by decide) (by decide) (fun j h1 h2 => absurd h2 (not_lt.2 h1))
  · obtain ⟨w, pi, hw, hpi, hno, _⟩ :=
      (rangeLoop_window_rule rangeDerivative [1, 2, 5, 6] 10 3 1 [] rangeFirst rangeFirst
        (by decide) (by decide) (by decide) (by decide)).2.2
    have e1 : span [(1 : ℤ), 2, 5, 6] 1
        (min ((([(1 : ℤ), 2, 5, 6].length : ℕ) : ℤ) - 1) (1 + 10)) = some [2, 5, 6] := by decide
    have e2 : vecAt [(1 : ℤ), 2, 5, 6] 1 = some 2 := by decide
    rw [e1, Option.some.injEq] at hw
    rw [e2, Option.some.injEq] at hpi
    subst hw
    subst hpi
    exact hno (by decide)

/-! ## The two highest peaks -/

theorem max_elementFrom_spec (l : List candidate) :
    ∀ (i : ℕ) (a : candidate) (li : ℕ), li < i →
      ∃ v, ((max_elementFrom cmp l i a li = li ∧ v = a) ∨
          (i ≤ max_elementFrom cmp l i a li ∧ l[max_elementFrom cmp l i a li - i]? = some v)) ∧
        a.y ≤ v.y ∧ ∀ b ∈ l, b.y ≤ v.y := by
  induction l with
  | nil => intro i a li _; exact ⟨a, Or.inl ⟨rfl, rfl⟩, le_refl _, by simp⟩
  | cons b bs ih =>
    intro i a li h
    unfold max_elementFrom
    by_cases hc : cmp a b = true
    · rw [if_pos hc]
      obtain ⟨v, hv, h1, h2⟩ := ih (i + 1) b i (by omega)
      have hab : a.y < b.y := by simpa [cmp] using hc
      refine ⟨v, Or.inr ?_, by linarith, ?_⟩
      · rcases hv with ⟨hr, hv⟩ | ⟨hr, hv⟩
        · rw [hr, hv]; exact ⟨le_refl _, by simp⟩
        · refine ⟨by omega, ?_⟩
          have : max_elementFrom cmp bs (i + 1) b i - i = (max_elementFrom cmp bs (i + 1) b i - (i + 1)) + 1 := by
            omega
          rw [this, List.getElem?_cons_succ]
          exact hv
      · intro c hcm
        rcases List.mem_cons.1 hcm with hcm | hcm
        · subst hcm; exact h1
        · exact h2 c hcm
    · rw [if_neg hc]
      obtain ⟨v, hv, h1, h2⟩ := ih (i + 1) a li (by omega)
      have hab : b.y ≤ a.y := by simpa [cmp] using hc
      refine ⟨v, ?_, h1, ?_⟩
      · rcases hv with ⟨hr, hv⟩ | ⟨hr, hv⟩
        · exact Or.inl ⟨hr, hv⟩
        · right
          refine ⟨by omega, ?_⟩
          have : max_elementFrom cmp bs (i + 1) a li - i = (max_elementFrom cmp bs (i + 1) a li - (i + 1)) + 1 := by
            omega
          rw [this, List.getElem?_cons_succ]
          exact hv
      · intro c hcm
        rcases List.mem_cons.1 hcm with hcm | hcm
        · subst hcm; linarith
        · exact h2 c hcm

theorem max_element_spec (l : List candidate) (h : 0 < l.length) :
    ∃ v, l[max_element cmp l]? = some v ∧ max_element cmp l < l.length ∧ ∀ b ∈ l, b.y ≤ v.y := by
  have hlt := max_element_lt cmp l h
  cases l with
  | nil => simp at h
  | cons a as =>
    obtain ⟨v, hv, h1, h2⟩ := max_elementFrom_spec as 1 a 0 (by omega)
    refine ⟨v, ?_, hlt, ?_⟩
    · show (a :: as)[max_elementFrom cmp as 1 a 0]? = some v
      rcases hv with ⟨hr, hv⟩ | ⟨hr, hv⟩
      · rw [hr, hv, List.getElem?_cons_zero]
      · have : max_elementFrom cmp as 1 a 0 = (max_elementFrom cmp as 1 a 0 - 1) + 1 := by omega
        rw [this, List.getElem?_cons_succ]
        exact hv
    · intro b hb
      rcases List.mem_cons.1 hb with hb | hb
      · subst hb; exact h1
      · exact h2 b hb

theorem vecAt_natCast {α : Type} (l : List α) (i : ℕ) : vecAt l (i : ℤ) = l[i]? := by
  unfold vecAt
  rw [if_pos (by omega), Int.toNat_ofNat, List.get?_eq_getElem?]

theorem candidateMax_spec (T : List candidate) (h : 0 < T.length) (amp : ℚ) (index : ℤ) :
    ∃ v, candidateMax T amp index = some (v.y, (max_element cmp T : ℤ)) ∧
      T[max_element cmp T]? = some v ∧ max_element cmp T < T.length ∧ ∀ b ∈ T, b.y ≤ v.y := by
  obtain ⟨v, hv, hlt, hall⟩ := max_element_spec T h
  refine ⟨v, ?_, hv, hlt, hall⟩
  unfold candidateMax
  rw [if_pos h]
  simp only [Option.bind_eq_bind, vecAt_natCast, hv, Option.some_bind]

/-- The index `candidateSecondMax` returns on a list of at least two
candidates is a position other than the one of the maximum, and its candidate
is the highest of the others. -/
theorem candidateSecondMax_spec (T : List candidate) (h : 2 ≤ T.length) (amp : ℚ) (index : ℤ) :
    ∃ (a : ℚ) (s : ℕ) (v : candidate), candidateSecondMax T amp index = some (a, (s : ℤ)) ∧
      s ≠ max_element cmp T ∧ T[s]? = some v ∧
      ∀ (t : ℕ) (b : candidate), t ≠ max_element cmp T → T[t]? = some b → b.y ≤ v.y := by
  obtain ⟨vm, hvm, hlt, hall⟩ := max_element_spec T (by omega)
  generalize hm : max_element cmp T = m at hvm hlt
  -- the part before the maximum
  have hp1 : m ≠ 0 → ∃ v1, T[max_element cmp (T.take m)]? = some v1 ∧
      max_element cmp (T.take m) < m ∧ ∀ (t : ℕ) (b : candidate), t < m → T[t]? = some b → b.y ≤ v1.y := by
    intro hm0
    have hl : (T.take m).length = m := by rw [List.length_take]; omega
    obtain ⟨v1, hv1, hlt1, hall1⟩ := max_element_spec (T.take m) (by omega)
    rw [hl] at hlt1
    rw [List.getElem?_take_of_lt hlt1] at hv1
    refine ⟨v1, hv1, hlt1, ?_⟩
    intro t b ht hb
    apply hall1
    rw [List.mem_iff_getElem?]
    exact ⟨t, by rw [List.getElem?_take_of_lt ht]; exact hb⟩
  -- the part after the maximum
  have hp2 : m + 1 < T.length → ∃ v2, T[m + 1 + max_element cmp (T.drop (m + 1))]? = some v2 ∧
      m + 1 + max_element cmp (T.drop (m + 1)) < T.length ∧
      ∀ (t : ℕ) (b : candidate), m < t → T[t]? = some b → b.y ≤ v2.y := by
    intro hm1
    have hl : (T.drop (m + 1)).length = T.length - (m + 1) := List.length_drop _ _
    obtain ⟨v2, hv2, hlt2, hall2⟩ := max_element_spec (T.drop (m + 1)) (by omega)
    rw [List.getElem?_drop] at hv2
    refine ⟨v2, hv2, by omega, ?_⟩
    intro t b ht hb
    apply hall2
    rw [List.mem_iff_getElem?]
    refine ⟨t - (m + 1), ?_⟩
    rw [List.getElem?_drop, show m + 1 + (t - (m + 1)) = t by omega]
    exact hb
  have hcast1 : ((max_element cmp (T.take ((m : ℤ)).toNat) : ℕ) : ℤ) =
      ((max_element cmp (T.take m) : ℕ) : ℤ) := by rw [Int.toNat_ofNat]
  have hcast2 : (m : ℤ) + 1 + ((max_element cmp (T.drop ((m : ℤ).toNat + 1)) : ℕ) : ℤ) =
      ((m + 1 + max_element cmp (T.drop (m + 1)) : ℕ) : ℤ) := by
    rw [Int.toNat_ofNat]; push_cast; ring
  unfold candidateSecondMax
  rw [if_pos (by omega)]
  simp only [hm, hcast1, hcast2, Option.bind_eq_bind]
  by_cases hm0 : m = 0
  · -- the maximum is the first candidate
    obtain ⟨v2, hv2, hlt2, hall2⟩ := hp2 (by omega)
    have h1 : ¬ ((m : ℤ) ≠ 0) := by simp [hm0]
    have h2 : (m : ℤ) < (T.length : ℤ) - 1 := by omega
    refine ⟨v2.y, m + 1 + max_element cmp (T.drop (m + 1)), v2, ?_, by omega, hv2, ?_⟩
    · have hne : ((m + 1 + max_element cmp (T.drop (m + 1)) : ℕ) : ℤ) ≠ -1 := by omega
      have hne2 : ((m + 1 + max_element cmp (T.drop (m + 1)) : ℕ) : ℤ) ≠
          ((max_element cmp (T.take m) : ℕ) : ℤ) := by
        have : max_element cmp (T.take m) = 0 := by subst hm0; simp [max_element]
        rw [this]; push_cast; omega
      simp only [if_neg h1, if_pos h2, Option.some_bind, if_pos hne, if_pos hne2, vecAt_natCast, hv2]
    · intro t b ht hb
      exact hall2 t b (by omega) hb
  · obtain ⟨v1, hv1, hlt1, hall1⟩ := hp1 hm0
    have h1 : (m : ℤ) ≠ 0 := by omega
    by_cases hm1 : m + 1 < T.length
    · obtain ⟨v2, hv2, hlt2, hall2⟩ := hp2 hm1
      have h2 : (m : ℤ) < (T.length : ℤ) - 1 := by omega
      simp only [if_pos h1, if_pos h2, vecAt_natCast, hv1, hv2, Option.some_bind]
      by_cases hgt : v1.y > v2.y
      · refine ⟨v1.y, max_element cmp (T.take m), v1, ?_, by omega, hv1, ?_⟩
        · have hne : ((max_element cmp (T.take m) : ℕ) : ℤ) ≠ -1 := by omega
          simp only [if_pos hgt, if_pos hne, ne_eq, not_true_eq_false, if_false, vecAt_natCast, hv1,
            Option.some_bind]
        · intro t b ht hb
          rcases Nat.lt_or_gt_of_ne ht with h3 | h3
          · exact hall1 t b h3 hb
          · exact le_trans (hall2 t b h3 hb) (le_of_lt hgt)
      · refine ⟨v2.y, m + 1 + max_element cmp (T.drop (m + 1)), v2, ?_, by omega, hv2, ?_⟩
        · have hne : ((m + 1 + max_element cmp (T.drop (m + 1)) : ℕ) : ℤ) ≠ -1 := by omega
          have hne2 : ((m + 1 + max_element cmp (T.drop (m + 1)) : ℕ) : ℤ) ≠
              ((max_element cmp (T.take m) : ℕ) : ℤ) := by omega
          simp only [if_neg hgt, if_pos hne, if_pos hne2, vecAt_natCast, hv2, Option.some_bind]
        · intro t b ht hb
          rcases Nat.lt_or_gt_of_ne ht with h3 | h3
          · exact le_trans (hall1 t b h3 hb) (not_lt.1 hgt)
          · exact hall2 t b h3 hb
    · have h2 : ¬ (m : ℤ) < (T.length : ℤ) - 1 := by omega
      refine ⟨v1.y, max_element cmp (T.take m), v1, ?_, by omega, hv1, ?_⟩
      · have hne : ((max_element cmp (T.take m) : ℕ) : ℤ) ≠ -1 := by omega
        simp only [if_pos h1, if_neg h2, Option.some_bind, if_pos hne, ne_eq, not_true_eq_false,
          if_false, vecAt_natCast, hv1]
      · intro t b ht hb
        have : t < T.length := by
          by_contra hcon
          rw [List.getElem?_eq_none (by omega)] at hb
          simp at hb
        exact hall1 t b (by omega) hb

theorem candidateSecondMax_single (T : List candidate) (h : T.length = 1) (amp : ℚ) (index : ℤ) :
    candidateSecondMax T amp index = some (0, -1) := by
  obtain ⟨c, hc⟩ := List.length_eq_one.1 h
  subst hc
  have h0 : max_element cmp [c] = 0 := by simp [max_element, max_elementFrom]
  have hl : ([c] : List candidate).length > 0 := by simp
  unfold candidateSecondMax
  rw [if_pos hl]
  simp only [h0, Option.bind_eq_bind, Nat.cast_zero, ne_eq, not_true_eq_false, if_false,
    List.length_singleton, Nat.cast_one, sub_self, lt_self_iff_false, Option.some_bind]

theorem mapOpt_getElem {α β : Type} (f : α → Option β) :
    ∀ (l : List α) (out : List β), mapOpt f l = some out →
      out.length = l.length ∧ ∀ t : ℕ, out[t]? = (l[t]?).bind f := by
  intro l
  induction l with
  | nil =>
    intro out h
    simp only [mapOpt, Option.some.injEq] at h
    subst h
    exact ⟨rfl, fun t => by simp⟩
  | cons a as ih =>
    intro out h
    unfold mapOpt at h
    cases hfa : f a with
    | none => rw [hfa] at h; simp at h
    | some b =>
      rw [hfa] at h
      cases hrest : mapOpt f as with
      | none => rw [hrest] at h; simp at h
      | some bs =>
        rw [hrest] at h
        simp only [Option.some.injEq] at h
        subst h
        obtain ⟨hl, hget⟩ := ih bs hrest
        refine ⟨by simp [hl], ?_⟩
        intro t
        cases t with
        | zero => simp [hfa]
        | succ t => simp only [List.getElem?_cons_succ]; exact hget t

theorem mem_eraseIdx_eraseIdx {P : List ℤ} {m s : ℕ} (hne : s ≠ m) (x : ℤ) :
    x ∈ (P.eraseIdx m).eraseIdx (if s > m then s - 1 else s) ↔
      ∃ t, t ≠ m ∧ t ≠ s ∧ P[t]? = some x := by
  rw [List.mem_eraseIdx_iff_getElem?]
  constructor
  · rintro ⟨i, hi, hx⟩
    rw [List.getElem?_eraseIdx] at hx
    by_cases him : i < m
    · rw [if_pos him] at hx
      refine ⟨i, by omega, ?_, hx⟩
      split at hi <;> omega
    · rw [if_neg him] at hx
      refine ⟨i + 1, by omega, ?_, hx⟩
      split at hi <;> omega
  · rintro ⟨t, htm, hts, hx⟩
    by_cases h : t < m
    · refine ⟨t, ?_, ?_⟩
      · split <;> omega
      · rw [List.getElem?_eraseIdx, if_pos h]; exact hx
    · refine ⟨t - 1, ?_, ?_⟩
      · split <;> omega
      · rw [List.getElem?_eraseIdx, if_neg (by omega), show t - 1 + 1 = t by omega]; exact hx

theorem keepJustTwoPeaks_spec (candids : List candidate)
    (hn : 1 ≤ (peakCandidates candids).length) :
    ∃ out, keepJustTwoPeaks candids = some out ∧
      out.length = (peakCandidates candids).length - min (peakCandidates candids).length 2 ∧
      ∀ j ∈ out, ∀ k ∈ peakCandidates candids, k ∉ out →
        ∀ cj ck, vecAt candids j = some cj → vecAt candids k = some ck → cj.y ≤ ck.y := by
  obtain ⟨T, hT, hTl⟩ := pickCandidates_peak candids
  obtain ⟨_, hget⟩ := mapOpt_getElem _ _ _ hT
  generalize hP : peakCandidates candids = P at hn hT hTl hget
  obtain ⟨vm, hmax, hvm, hmlt, hall⟩ := candidateMax_spec T (by omega) 0 (-1)
  generalize hm : max_element cmp T = m at hmax hvm hmlt
  have herase : vecErase P (m : ℤ) = some (P.eraseIdx m) := by
    unfold vecErase
    rw [if_pos ⟨by omega, by omega⟩, Int.toNat_ofNat]
  unfold keepJustTwoPeaks
  rw [hP]
  simp only [Option.bind_eq_bind, hT, hmax, Option.some_bind, herase]
  by_cases h1 : T.length = 1
  · rw [candidateSecondMax_single T h1]
    simp only [ne_eq, not_true_eq_false, if_false, Option.some_bind]
    have hl : (P.eraseIdx m).length = 0 := by
      rw [List.length_eraseIdx, if_pos (by omega)]; omega
    refine ⟨_, rfl, by rw [hl]; omega, ?_⟩
    intro j hj
    rw [List.length_eq_zero.1 hl] at hj
    simp at hj
  · obtain ⟨a, s, vs, hsec, hsm, hvs, hsall⟩ := candidateSecondMax_spec T (by omega) 0 (-1)
    rw [hm] at hsm hsall
    have hslt : s < T.length := by
      by_contra hcon
      rw [List.getElem?_eq_none (by omega)] at hvs
      simp at hvs
    rw [hsec]
    have hs1 : (s : ℤ) ≠ -1 := by omega
    have hl1 : (P.eraseIdx m).length = P.length - 1 := by
      rw [List.length_eraseIdx, if_pos (by omega)]
    have herase2 : (if (s : ℤ) > (m : ℤ) then vecErase (P.eraseIdx m) ((s : ℤ) - 1)
        else vecErase (P.eraseIdx m) (s : ℤ)) =
        some ((P.eraseIdx m).eraseIdx (if s > m then s - 1 else s)) := by
      by_cases hgt : s > m
      · rw [if_pos (by omega), if_pos hgt]
        unfold vecErase
        rw [if_pos ⟨by omega, by omega⟩]
        congr 2
        omega
      · rw [if_neg (by omega), if_neg hgt]
        unfold vecErase
        rw [if_pos ⟨by omega, by omega⟩, Int.toNat_ofNat]
    simp only [Option.some_bind, if_pos hs1, herase2]
    refine ⟨_, rfl, ?_, ?_⟩
    · rw [List.length_eraseIdx, if_pos (by split <;> omega), hl1]
      omega
    · intro j hj k hk hkn cj ck hcj hck
      obtain ⟨t, htm, hts, htj⟩ := (mem_eraseIdx_eraseIdx hsm j).1 hj
      obtain ⟨u, hu⟩ := List.mem_iff_getElem?.1 hk
      have hu2 : u = m ∨ u = s := by
        by_contra hcon
        push_neg at hcon
        exact hkn ((mem_eraseIdx_eraseIdx hsm k).2 ⟨u, hcon.1, hcon.2, hu⟩)
      have hTt : T[t]? = some cj := by rw [hget t, htj]; exact hcj
      have hTu : T[u]? = some ck := by rw [hget u, hu]; exact hck
      have hjs : cj.y ≤ vs.y := hsall t cj htm hTt
      rcases hu2 with h | h
      · subst h
        rw [hvm, Option.some.injEq] at hTu
        subst hTu
        exact hall cj (List.mem_iff_getElem?.2 ⟨t, hTt⟩)
      · subst h
        rw [hvs, Option.some.injEq] at hTu
        subst hTu
        exact hjs

/-- C11: with `n >= 1` candidates labelled peak, `keepJustTwoPeaks` returns
`n - min(n, 2)` of the peak indices, in ascending order, and every returned
peak has an amplitude no greater than the one of each peak that is not
returned (the highest peak and the second-highest one). -/
theorem keepJustTwoPeaks_indices (candids : List candidate)
    (hn : 1 ≤ (peakCandidates candids).length) :
    ∃ out, keepJustTwoPeaks candids = some out ∧
      out.Sublist (peakCandidates candids) ∧
      out.length = (peakCandidates candids).length - min (peakCandidates candids).length 2 ∧
      out.Pairwise (fun a b => a < b) ∧
      ∀ j ∈ out, ∀ k ∈ peakCandidates candids, k ∉ out →
        ∀ cj ck, vecAt candids j = some cj → vecAt candids k = some ck → cj.y ≤ ck.y := by
  obtain ⟨out, h, hl, hy⟩ := keepJustTwoPeaks_spec candids hn
  have hs := (keepJustTwoPeaks_eq_some h).1
  exact ⟨out, h, hs, hl, (indicesFrom_pairwise _ candids 0).sublist hs, hy⟩

/-- Witness of C11: of three peaks of amplitudes 5, 9 and 7 the first one is
returned. -/
theorem keepJustTwoPeaks_indices_witness :
    ∃ out, keepJustTwoPeaks threePeaks = some out ∧
      out.Sublist (peakCandidates threePeaks) ∧
      out.length = (peakCandidates threePeaks).length - min (peakCandidates threePeaks).length 2 ∧
      out.Pairwise (fun a b => a < b) ∧
      ∀ j ∈ out, ∀ k ∈ peakCandidates threePeaks, k ∉ out →
        ∀ cj ck, vecAt threePeaks j = some cj → vecAt threePeaks k = some ck → cj.y ≤ ck.y :=
  keepJustTwoPeaks_indices threePeaks (by decide)

/-! ## The slur classifier -/

theorem mem_indicesFrom_of_vecAt {α : Type} (p : α → Bool) (l : List α) (i : ℕ) (k : ℤ) (a : α)
    (hk : vecAt l (k - (i : ℤ)) = some a) (hp : p a = true) : k ∈ indicesFrom p i l := by
  induction l generalizing i with
  | nil => simp [vecAt] at hk
  | cons b bs ih =>
    obtain ⟨h0, h1, hget⟩ := vecAt_eq_some hk
    unfold indicesFrom
    by_cases hz : k = (i : ℤ)
    · subst hz
      simp only [sub_self, Int.toNat_zero, List.get?_cons_zero, Option.some.injEq] at hget
      subst hget
      rw [if_pos hp]
      exact List.mem_cons_self _ _
    · have hrec : k ∈ indicesFrom p (i + 1) bs := by
        apply ih (i + 1)
        unfold vecAt
        push_cast
        rw [if_pos (by omega)]
        have : (k - (i : ℤ)).toNat = (k - ((i : ℤ) + 1)).toNat + 1 := by omega
        rw [this, List.get?_cons_succ] at hget
        exact hget
      split
      · exact List.mem_cons_of_mem _ hrec
      · exact hrec

theorem mem_typeCandidates (candids : List candidate) (type k : ℤ) :
    k ∈ typeCandidates candids type ↔ ∃ c, vecAt candids k = some c ∧ c.label.toInt = type := by
  unfold typeCandidates indicesWhere
  constructor
  · intro h
    obtain ⟨c, hc, hp⟩ := indicesFrom_mem _ candids 0 k h
    simp only [Nat.cast_zero, sub_zero] at hc
    exact ⟨c, hc, by simpa using hp⟩
  · rintro ⟨c, hc, hp⟩
    exact mem_indicesFrom_of_vecAt _ candids 0 k c (by simpa using hc) (by simpa using hp)

theorem toInt_eq_one (l : candidateLabel) : l.toInt = 1 ↔ l = candidateLabel.slurRising := by
  cases l <;> simp [candidateLabel.toInt]

theorem toInt_eq_neg_one (l : candidateLabel) : l.toInt = -1 ↔ l = candidateLabel.slurFalling := by
  cases l <;> simp [candidateLabel.toInt]

theorem slurClassifierTest_eq (m : Libm) (candids : List candidate) (T : List (List ℚ))
    (t00 t10 t11 t12 t22 : ℚ) (h00 : thresholdAt T 0 0 = some t00)
    (h10 : thresholdAt T 1 0 = some t10) (h11 : thresholdAt T 1 1 = some t11)
    (h12 : thresholdAt T 1 2 = some t12) (h22 : thresholdAt T 2 2 = some t22)
    (s : ℤ) (cs cp : candidate) (hcs : vecAt candids s = some cs)
    (hcp : (cs.label = candidateLabel.slurRising ∧ vecAt candids (s + 1) = some cp) ∨
      (cs.label = candidateLabel.slurFalling ∧ vecAt candids (s - 1) = some cp)) :
    slurClassifierTest m candids T s =
      some (decide (badSlurRule t00 t10 t11 t12 t22 (slurFeatures m cs cp))) := by
  have hp : vecAt candids (if cs.label.toInt = 1 then s + 1
      else if cs.label.toInt = -1 then s - 1 else s) = some cp := by
    rcases hcp with ⟨hl, hc⟩ | ⟨hl, hc⟩
    · rw [if_pos (by rw [hl]; rfl)]; exact hc
    · rw [if_neg (by rw [hl]; decide), if_pos (by rw [hl]; rfl)]; exact hc
  have hfs : ([|m.atan cs.a0 * (180 / (31415 / 10000)) - m.atan cs.a1 * (180 / (31415 / 10000))|] ++
      (if cs.label.toInt = 1 then
        [|m.atan cp.a0 * (180 / (31415 / 10000)) - m.atan cs.a0 * (180 / (31415 / 10000))|]
       else if cs.label.toInt = -1 then
        [|m.atan cp.a1 * (180 / (31415 / 10000)) - m.atan cs.a1 * (180 / (31415 / 10000))|]
       else []) ++ [cp.y / cs.yOrigin]) =
      [(slurFeatures m cs cp).1, (slurFeatures m cs cp).2.1, (slurFeatures m cs cp).2.2] := by
    rcases hcp with ⟨hl, _⟩ | ⟨hl, _⟩
    · simp [slurFeatures, slopeAngle, hl, candidateLabel.toInt]
    · simp [slurFeatures, slopeAngle, hl, candidateLabel.toInt]
  unfold slurClassifierTest
  simp only [Option.bind_eq_bind, hcs, Option.some_bind, hp, hfs, h00, h10, h11, h12, h22]
  have e0 : vecAt [(slurFeatures m cs cp).1, (slurFeatures m cs cp).2.1, (slurFeatures m cs cp).2.2] 0
      = some (slurFeatures m cs cp).1 := rfl
  have e1 : vecAt [(slurFeatures m cs cp).1, (slurFeatures m cs cp).2.1, (slurFeatures m cs cp).2.2] 1
      = some (slurFeatures m cs cp).2.1 := rfl
  have e2 : vecAt [(slurFeatures m cs cp).1, (slurFeatures m cs cp).2.1, (slurFeatures m cs cp).2.2] 2
      = some (slurFeatures m cs cp).2.2 := rfl
  simp only [e0, e1, e2, Option.some_bind]
  generalize slurFeatures m cs cp = F
  unfold badSlurRule
  by_cases c0 : F.1 < t00
  · rw [if_pos c0]
    by_cases c1 : F.1 > t10
    · rw [if_pos c1]
      by_cases c2 : F.2.1 > t11
      · rw [if_pos c2]
        by_cases c3 : F.2.2 < t12
        · simp [c0, c1, c2, c3, not_le.2 c0]
        · simp [c0, c1, c2, c3, not_le.2 c0]
      · rw [if_neg c2]; simp [c0, c1, c2, not_le.2 c0]
    · rw [if_neg c1]; simp [c0, c1, not_le.2 c0]
  · rw [if_neg c0]
    by_cases c4 : F.2.2 > t22
    · simp [c0, c4, not_lt.1 c0]
    · simp [c0, c4]

theorem slurClassifierLoop_spec (m : Libm) (candids : List candidate) (T : List (List ℚ)) :
    ∀ idx : List ℤ, (∀ s ∈ idx, ∃ b, slurClassifierTest m candids T s = some b) →
      ∃ out, slurClassifierLoop m candids T idx = some out ∧ out.Sublist idx ∧
        ∀ s, s ∈ out ↔ s ∈ idx ∧ slurClassifierTest m candids T s = some true := by
  intro idx
  induction idx with
  | nil => intro _; exact ⟨[], rfl, List.Sublist.refl _, by simp⟩
  | cons a rest ih =>
    intro h
    obtain ⟨b, hb⟩ := h a (List.mem_cons_self _ _)
    obtain ⟨out, ho, hsub, hmem⟩ := ih (fun s hs => h s (List.mem_cons_of_mem _ hs))
    unfold slurClassifierLoop
    simp only [Option.bind_eq_bind, hb, ho, Option.some_bind]
    cases b with
    | true =>
      refine ⟨a :: out, rfl, hsub.cons₂ _, ?_⟩
      intro s
      simp only [List.mem_cons, hmem]
      constructor
      · rintro (h1 | h1)
        · subst h1; exact ⟨Or.inl rfl, hb⟩
        · exact ⟨Or.inr h1.1, h1.2⟩
      · rintro ⟨h1 | h1, h2⟩
        · exact Or.inl h1
        · exact Or.inr ⟨h1, h2⟩
    | false =>
      refine ⟨out, rfl, hsub.cons _, ?_⟩
      intro s
      simp only [List.mem_cons, hmem, Bool.false_eq_true, if_false]
      constructor
      · rintro ⟨h1, h2⟩; exact ⟨Or.inr h1, h2⟩
      · rintro ⟨h1 | h1, h2⟩
        · subst h1; rw [hb] at h2; simp at h2
        · exact ⟨h1, h2⟩

/-- C12: with the thresholds `T[0][0], T[1][0], T[1][1], T[1][2], T[2][2]`
present, every rising slur followed by a candidate and every falling slur
preceded by one (with a nonzero `yOrigin`, so that the ratio `F2` is a number),
`slurClassifier` returns and its result holds the index `s` if and only if `s`
is a rising or a falling slur and the features of `s` and of its adjacent
candidate `p` (`s+1` for a rising slur, `s-1` for a falling one) satisfy the
decision rule. -/
theorem slurClassifier_rule (m : Libm) (candids : List candidate) (T : List (List ℚ))
    (t00 t10 t11 t12 t22 : ℚ) (h00 : thresholdAt T 0 0 = some t00)
    (h10 : thresholdAt T 1 0 = some t10) (h11 : thresholdAt T 1 1 = some t11)
    (h12 : thresholdAt T 1 2 = some t12) (h22 : thresholdAt T 2 2 = some t22)
    (hadj : ∀ s cs, vecAt candids s = some cs →
      (cs.label = candidateLabel.slurRising → s + 1 < candids.length ∧ cs.yOrigin ≠ 0) ∧
      (cs.label = candidateLabel.slurFalling → 1 ≤ s ∧ cs.yOrigin ≠ 0)) :
    ∃ out, slurClassifier m candids T = some out ∧
      ∀ s, s ∈ out ↔ ∃ cs cp, vecAt candids s = some cs ∧
        ((cs.label = candidateLabel.slurRising ∧ vecAt candids (s + 1) = some cp) ∨
          (cs.label = candidateLabel.slurFalling ∧ vecAt candids (s - 1) = some cp)) ∧
        badSlurRule t00 t10 t11 t12 t22 (slurFeatures m cs cp) := by
  have hidx : ∀ s, s ∈ risingFallingslurCandidates candids ↔
      ∃ cs, vecAt candids s = some cs ∧
        (cs.label = candidateLabel.slurRising ∨ cs.label = candidateLabel.slurFalling) := by
    intro s
    unfold risingFallingslurCandidates risingSlurCandidates fallingSlurCandidates
    rw [List.mem_append, mem_typeCandidates, mem_typeCandidates]
    constructor
    · rintro (⟨c, hc, hl⟩ | ⟨c, hc, hl⟩)
      · exact ⟨c, hc, Or.inl ((toInt_eq_one _).1 hl)⟩
      · exact ⟨c, hc, Or.inr ((toInt_eq_neg_one _).1 hl)⟩
    · rintro ⟨c, hc, hl | hl⟩
      · exact Or.inl ⟨c, hc, (toInt_eq_one _).2 hl⟩
      · exact Or.inr ⟨c, hc, (toInt_eq_neg_one _).2 hl⟩
  have hadjacent : ∀ s cs, vecAt candids s = some cs →
      (cs.label = candidateLabel.slurRising ∨ cs.label = candidateLabel.slurFalling) →
      ∃ cp, (cs.label = candidateLabel.slurRising ∧ vecAt candids (s + 1) = some cp) ∨
        (cs.label = candidateLabel.slurFalling ∧ vecAt candids (s - 1) = some cp) := by
    intro s cs hcs hl
    obtain ⟨hs0, hs1, _⟩ := vecAt_eq_some hcs
    rcases hl with hl | hl
    · obtain ⟨cp, hcp, _⟩ := vecAt_of_lt candids (s + 1) (by omega) ((hadj s cs hcs).1 hl).1
      exact ⟨cp, Or.inl ⟨hl, hcp⟩⟩
    · obtain ⟨cp, hcp, _⟩ := vecAt_of_lt candids (s - 1)
        (by have := ((hadj s cs hcs).2 hl).1; omega) (by omega)
      exact ⟨cp, Or.inr ⟨hl, hcp⟩⟩
  have htotal : ∀ s ∈ risingFallingslurCandidates candids,
      ∃ b, slurClassifierTest m candids T s = some b := by
    intro s hs
    obtain ⟨cs, hcs, hl⟩ := (hidx s).1 hs
    obtain ⟨cp, hcp⟩ := hadjacent s cs hcs hl
    exact ⟨_, slurClassifierTest_eq m candids T t00 t10 t11 t12 t22 h00 h10 h11 h12 h22 s cs cp hcs hcp⟩
  obtain ⟨out, ho, _, hmem⟩ := slurClassifierLoop_spec m candids T _ htotal
  refine ⟨out, ho, ?_⟩
  intro s
  rw [hmem, hidx]
  constructor
  · rintro ⟨⟨cs, hcs, hl⟩, ht⟩
    obtain ⟨cp, hcp⟩ := hadjacent s cs hcs hl
    rw [slurClassifierTest_eq m candids T t00 t10 t11 t12 t22 h00 h10 h11 h12 h22 s cs cp hcs hcp] at ht
    exact ⟨cs, cp, hcs, hcp, by simpa using ht⟩
  · rintro ⟨cs, cp, hcs, hcp, hbad⟩
    refine ⟨⟨cs, hcs, ?_⟩, ?_⟩
    · rcases hcp with ⟨hl, _⟩ | ⟨hl, _⟩
      · exact Or.inl hl
      · exact Or.inr hl
    · rw [slurClassifierTest_eq m candids T t00 t10 t11 t12 t22 h00 h10 h11 h12 h22 s cs cp hcs hcp]
      simpa using hbad

set_option maxRecDepth 100000 in
/-- Witness of C12: in `slursBetweenPeaks` every angle is 0, so that both slurs
are bad slurs. -/

theorem slurClassifier_rule_witness :
    ∃ out, slurClassifier libm0 slursBetweenPeaks [[20, 0, 0], [10, 10, 3 / 2], [0, 0, 17 / 10]] =
        some out ∧
      ∀ s, s ∈ out ↔ ∃ cs cp, vecAt slursBetweenPeaks s = some cs ∧
        ((cs.label = candidateLabel.slurRising ∧ vecAt slursBetweenPeaks (s + 1) = some cp) ∨
          (cs.label = candidateLabel.slurFalling ∧ vecAt slursBetweenPeaks (s - 1) = some cp)) ∧
        badSlurRule 20 10 10 (3 / 2) (17 / 10) (slurFeatures libm0 cs cp) :=
  slurClassifier_rule libm0 slursBetweenPeaks [[20, 0, 0], [10, 10, 3 / 2], [0, 0, 17 / 10]]
    20 10 10 (3 / 2) (17 / 10) rfl rfl rfl rfl rfl
    (by
      intro s cs h
      obtain ⟨h0, h1, hg⟩ := vecAt_eq_some h
      have hs : s = 0 ∨ s = 1 ∨ s = 2 ∨ s = 3 := by
        simp only [slursBetweenPeaks, List.length_cons, List.length_nil] at h1
        omega
      rcases hs with rfl | rfl | rfl | rfl <;>
        · simp only [slursBetweenPeaks, vecAt] at h
          simp at h
          subst h
          constructor <;> intro hl <;> first
            | exact absurd hl (by decide)
            | exact ⟨by decide, by norm_num⟩)

set_option maxRecDepth 100000 in
/-- C13 (failing input): on `slursBetweenPeaks` (peak, falling slur, rising
slur, peak; all slopes 0) `slurClassifier` classifies both slurs as bad and
returns the rising one first: `[2, 1]`. `cleanUpCandidates` erases the index 2
and then the index `1 - 1 = 0`: the stage removes the first peak and keeps the
bad falling slur. -/

theorem step12_removes_peak :
    slurClassifier libm0 slursBetweenPeaks [[20, 0, 0], [10, 10, 3 / 2], [0, 0, 17 / 10]] =
        some [2, 1] ∧
      step12 libm0 {} (slursBetweenPeaks, []) =
        some ([{ label := candidateLabel.slurFalling, y := 1, yOrigin := 1 },
               { label := candidateLabel.peak, y := 20, yOrigin := 20 }],
              [("slurClassifier", 2)]) := by
  decide!

/-! ## Peaks converted to slurs -/

theorem convertPeakToSlurTest_iff {wave : List ℚ} {candids : List candidate} {minValid : ℚ}
    {idx : ℤ} {b : Bool} (h : convertPeakToSlurTest wave candids minValid idx = some b) :
    b = true ↔ lowDrop wave candids minValid idx := by
  unfold convertPeakToSlurTest at h
  simp only [Option.bind_eq_bind, Option.bind_eq_some] at h
  obtain ⟨c, hc, h⟩ := h
  unfold lowDrop
  by_cases hpos : idx > 0
  · rw [if_pos hpos, Option.bind_eq_some] at h
    obtain ⟨l, hl, h⟩ := h
    rw [Option.bind_eq_some] at h
    obtain ⟨w, hw, h⟩ := h
    simp only [Option.some_bind] at h
    by_cases hleft : c.y - w < minValid
    · simp only [hleft, decide_True, if_true, Option.some.injEq] at h
      rw [← h]
      simp only [true_iff]
      exact ⟨c, hc, Or.inl ⟨hpos, l, w, hl, hw, hleft⟩⟩
    · simp only [hleft, decide_False, Bool.false_eq_true, if_false] at h
      have hnl : ¬ (0 < idx ∧ ∃ l w, vecAt candids (idx - 1) = some l ∧
          vecAt wave (intersectionTwoCandidates l c) = some w ∧ c.y - w < minValid) := by
        rintro ⟨_, l1, w1, hl1, hw1, hlt⟩
        rw [hl, Option.some.injEq] at hl1
        subst hl1
        rw [hw, Option.some.injEq] at hw1
        subst hw1
        exact hleft hlt
      by_cases hr : idx < (candids.length : ℤ) - 1
      · rw [if_pos hr, Option.bind_eq_some] at h
        obtain ⟨r, hr1, h⟩ := h
        rw [Option.bind_eq_some] at h
        obtain ⟨w2, hw2, hb2⟩ := h
        simp only [Option.some.injEq] at hb2
        rw [← hb2]
        simp only [decide_eq_true_eq]
        constructor
        · intro hlt
          exact ⟨c, hc, Or.inr ⟨hr, r, w2, hr1, hw2, hlt⟩⟩
        · rintro ⟨c1, hc1, hcase⟩
          rw [hc, Option.some.injEq] at hc1
          subst hc1
          rcases hcase with hcase | ⟨_, r1, w3, hr2, hw3, hlt⟩
          · exact absurd hcase hnl
          · rw [hr1, Option.some.injEq] at hr2
            subst hr2
            rw [hw2, Option.some.injEq] at hw3
            subst hw3
            exact hlt
      · rw [if_neg hr] at h
        simp only [Option.some.injEq] at h
        rw [← h]
        simp only [Bool.false_eq_true, false_iff]
        rintro ⟨c1, hc1, hcase⟩
        rw [hc, Option.some.injEq] at hc1
        subst hc1
        rcases hcase with hcase | ⟨hr2, _⟩
        · exact hnl hcase
        · exact hr hr2
  · rw [if_neg hpos] at h
    simp only [Option.some_bind, Bool.false_eq_true, if_false] at h
    by_cases hr : idx < (candids.length : ℤ) - 1
    · rw [if_pos hr, Option.bind_eq_some] at h
      obtain ⟨r, hr1, h⟩ := h
      rw [Option.bind_eq_some] at h
      obtain ⟨w2, hw2, hb2⟩ := h
      simp only [Option.some.injEq] at hb2
      rw [← hb2]
      simp only [decide_eq_true_eq]
      constructor
      · intro hlt
        exact ⟨c, hc, Or.inr ⟨hr, r, w2, hr1, hw2, hlt⟩⟩
      · rintro ⟨c1, hc1, hcase⟩
        rw [hc, Option.some.injEq] at hc1
        subst hc1
        rcases hcase with ⟨h0, _⟩ | ⟨_, r1, w3, hr2, hw3, hlt⟩
        · exact absurd h0 hpos
        · rw [hr1, Option.some.injEq] at hr2
          subst hr2
          rw [hw2, Option.some.injEq] at hw3
          subst hw3
          exact hlt
    · rw [if_neg hr] at h
      simp only [Option.some.injEq] at h
      rw [← h]
      simp only [Bool.false_eq_true, false_iff]
      rintro ⟨c1, hc1, hcase⟩
      rcases hcase with ⟨h0, _⟩ | ⟨hr2, _⟩
      · exact hpos h0
      · exact hr hr2

theorem convertPeakToSlurLoop_spec (wave : List ℚ) (candids : List candidate) (minValid : ℚ) :
    ∀ (idx out : List ℤ), convertPeakToSlurLoop wave candids minValid idx = some out →
      out.Sublist idx ∧ ∀ s, s ∈ out ↔ s ∈ idx ∧ lowDrop wave candids minValid s := by
  intro idx
  induction idx with
  | nil =>
    intro out h
    simp only [convertPeakToSlurLoop, Option.some.injEq] at h
    subst h
    exact ⟨List.Sublist.refl _, by simp⟩
  | cons a rest ih =>
    intro out h
    unfold convertPeakToSlurLoop at h
    simp only [Option.bind_eq_bind, Option.bind_eq_some, Option.some.injEq] at h
    obtain ⟨hit, hhit, out1, hout1, h⟩ := h
    obtain ⟨hsub, hmem⟩ := ih out1 hout1
    have hiff := convertPeakToSlurTest_iff hhit
    cases hit with
    | true =>
      simp only [if_true] at h
      subst h
      refine ⟨hsub.cons₂ _, ?_⟩
      intro s
      simp only [List.mem_cons, hmem]
      constructor
      · rintro (h1 | h1)
        · subst h1; exact ⟨Or.inl rfl, hiff.1 rfl⟩
        · exact ⟨Or.inr h1.1, h1.2⟩
      · rintro ⟨h1 | h1, h2⟩
        · exact Or.inl h1
        · exact Or.inr ⟨h1, h2⟩
    | false =>
      simp only [Bool.false_eq_true, if_false] at h
      subst h
      refine ⟨hsub.cons _, ?_⟩
      intro s
      simp only [List.mem_cons, hmem]
      constructor
      · rintro ⟨h1, h2⟩; exact ⟨Or.inr h1, h2⟩
      · rintro ⟨h1 | h1, h2⟩
        · subst h1
          have := hiff.2 h2
          simp at this
        · exact ⟨h1, h2⟩

/-- C14: when `convertPeakToSlur` returns, either there is no peak and the
result is empty, or the result holds exactly the indices of the peak candidates
other than the main peak (a peak of the highest amplitude) for which the
amplitude minus the wave value at the intersection with the left neighbour, or
failing that with the right neighbour, is below `minValidAmplitudePeak`; the
result is strictly ascending, so that no index is returned twice. -/
theorem convertPeakToSlur_indices (wave : List ℚ) (candids : List candidate) (minValid : ℚ)
    (out : List ℤ) (h : convertPeakToSlur wave candids minValid = some out) :
    out.Pairwise (fun a b => a < b) ∧
    ((peakCandidates candids = [] ∧ out = []) ∨
      ∃ main cmain, main ∈ peakCandidates candids ∧ vecAt candids main = some cmain ∧
        (∀ k ∈ peakCandidates candids, ∀ ck, vecAt candids k = some ck → ck.y ≤ cmain.y) ∧
        main ∉ out ∧
        ∀ idx, idx ∈ out ↔
          idx ∈ peakCandidates candids ∧ idx ≠ main ∧ lowDrop wave candids minValid idx) := by
  have hpw : (peakCandidates candids).Pairwise (fun a b => a < b) := indicesFrom_pairwise _ candids 0
  obtain ⟨T, hT, hTl⟩ := pickCandidates_peak candids
  obtain ⟨_, hget⟩ := mapOpt_getElem _ _ _ hT
  unfold convertPeakToSlur at h
  simp only [] at h
  generalize hP : peakCandidates candids = P at h hT hTl hget hpw
  by_cases hempty : P.length > 0
  · obtain ⟨vm, hmax, hvm, hmlt, hall⟩ := candidateMax_spec T (by omega) 0 (-1)
    generalize hm : max_element cmp T = m at hmax hvm hmlt
    have hmp : mainPeak candids P (-1) 0 = some (vm.y, (m : ℤ)) := by
      unfold mainPeak
      simp only [Option.bind_eq_bind, hT, Option.some_bind]
      exact hmax
    have herase : vecErase P (m : ℤ) = some (P.eraseIdx m) := by
      unfold vecErase
      rw [if_pos ⟨by omega, by omega⟩, Int.toNat_ofNat]
    simp only [Option.bind_eq_bind, hmp, Option.some_bind, if_pos hempty, herase] at h
    obtain ⟨hsub, hmem⟩ := convertPeakToSlurLoop_spec wave candids minValid _ _ h
    have hsubP : out.Sublist P := hsub.trans (List.eraseIdx_sublist _ _)
    refine ⟨hpw.sublist hsubP, Or.inr ?_⟩
    have hmP : m < P.length := by omega
    have hPm : P[m]? = some P[m] := List.getElem?_eq_getElem hmP
    have hcm : vecAt candids P[m] = some vm := by
      have := hget m
      rw [hvm, hPm] at this
      exact this.symm
    have hnodup : P.Nodup := pairwise_lt_nodup hpw
    have hmemE : ∀ x, x ∈ P.eraseIdx m ↔ x ∈ P ∧ x ≠ P[m] := by
      intro x
      rw [List.mem_eraseIdx_iff_getElem?]
      constructor
      · rintro ⟨i, hi, hx⟩
        refine ⟨List.mem_iff_getElem?.2 ⟨i, hx⟩, ?_⟩
        intro hxe
        have hilt : i < P.length := by
          by_contra hcon
          rw [List.getElem?_eq_none (by omega)] at hx
          simp at hx
        rw [hxe, ← hPm] at hx
        exact hi (List.getElem?_inj hilt hnodup hx)
      · rintro ⟨hx, hne⟩
        obtain ⟨i, hi⟩ := List.mem_iff_getElem?.1 hx
        refine ⟨i, ?_, hi⟩
        intro him
        subst him
        rw [hPm, Option.some.injEq] at hi
        exact hne hi.symm
    refine ⟨P[m], vm, List.getElem_mem _, hcm, ?_, ?_, ?_⟩
    · intro k hk ck hck
      obtain ⟨u, hu⟩ := List.mem_iff_getElem?.1 hk
      have hTu : T[u]? = some ck := by rw [hget u, hu]; exact hck
      exact hall ck (List.mem_iff_getElem?.2 ⟨u, hTu⟩)
    · intro hin
      exact ((hmemE _).1 ((hmem _).1 hin).1).2 rfl
    · intro idx
      rw [hmem, hmemE]
      exact and_assoc
  · have hnil : P = [] := List.length_eq_zero.1 (by omega)
    subst hnil
    have hmp : mainPeak candids [] (-1) 0 = some (0, -1) := by
      simp [mainPeak, pickCandidates, mapOpt, candidateMax]
    simp only [Option.bind_eq_bind, hmp, Option.some_bind, List.length_nil, gt_iff_lt,
      lt_self_iff_false, if_false, convertPeakToSlurLoop, Option.some.injEq] at h
    subst h
    exact ⟨List.Pairwise.nil, Or.inl ⟨rfl, rfl⟩⟩

theorem convertPeakToSlur_threePeaks : convertPeakToSlur [0] threePeaks 7 = some [0] := by
  decide!

/-- Witness of C14: of the three peaks of `threePeaks` (amplitudes 5, 9, 7) on
the one-sample wave `0`, the first one is converted. -/
theorem convertPeakToSlur_indices_witness :
    ([(0 : ℤ)]).Pairwise (fun a b => a < b) ∧
    ((peakCandidates threePeaks = [] ∧ [(0 : ℤ)] = []) ∨
      ∃ main cmain, main ∈ peakCandidates threePeaks ∧ vecAt threePeaks main = some cmain ∧
        (∀ k ∈ peakCandidates threePeaks, ∀ ck, vecAt threePeaks k = some ck → ck.y ≤ cmain.y) ∧
        main ∉ [(0 : ℤ)] ∧
        ∀ idx, idx ∈ [(0 : ℤ)] ↔
          idx ∈ peakCandidates threePeaks ∧ idx ≠ main ∧ lowDrop [0] threePeaks 7 idx) :=
  convertPeakToSlur_indices [0] threePeaks 7 [0] convertPeakToSlur_threePeaks

/-! ## Labels -/

/-- C19: on candidates all labelled `slurUnrelated`, `labellingPeaks` labels a
candidate `peak` if and only if some peak index `p` satisfies
`risingRange[0] - 3 <= p <= risingRange[1] + 3`; every other candidate is still
`slurUnrelated`, and no field other than the label changes. -/
theorem labellingPeaks_iff (candids : List candidate) (positions : List ℤ)
    (h : ∀ c ∈ candids, c.label = candidateLabel.slurUnrelated) :
    List.Forall₂ (fun c c1 =>
      (c1.label = candidateLabel.peak ↔
        ∃ p ∈ positions, c.risingRangeInfo0 - 3 ≤ p ∧ p ≤ c.risingRangeInfo1 + 3) ∧
      (c1.label ≠ candidateLabel.peak → c1.label = candidateLabel.slurUnrelated) ∧
      c1 = { c with label := c1.label }) candids (labellingPeaks candids positions) := by
  unfold labellingPeaks
  rw [List.forall₂_map_right_iff, List.forall₂_same]
  intro c hc
  have hl := h c hc
  have hany : (positions.any (fun position =>
      decide (position ≥ c.get_risingRangeInfo 0 - 3 ∧ position ≤ c.get_risingRangeInfo 1 + 3)) = true) ↔
      ∃ p ∈ positions, c.risingRangeInfo0 - 3 ≤ p ∧ p ≤ c.risingRangeInfo1 + 3 := by
    simp only [List.any_eq_true, decide_eq_true_eq]
    constructor
    · rintro ⟨p, hp, h1, h2⟩; exact ⟨p, hp, h1, h2⟩
    · rintro ⟨p, hp, h1, h2⟩; exact ⟨p, hp, h1, h2⟩
  by_cases hc1 : positions.any (fun position =>
      decide (position ≥ c.get_risingRangeInfo 0 - 3 ∧ position ≤ c.get_risingRangeInfo 1 + 3)) = true
  · simp only [hc1, if_true]
    exact ⟨⟨fun _ => hany.1 hc1, fun _ => rfl⟩, fun hne => absurd rfl hne, rfl⟩
  · simp only [hc1, Bool.false_eq_true, if_false]
    refine ⟨⟨fun hp => ?_, fun hp => absurd (hany.2 hp) hc1⟩, fun _ => hl, trivial⟩
    rw [hl] at hp
    exact absurd hp (by decide)

/-- Witness of C19: with the peak index 0, the first candidate of `rangeResult`
(rising range 1..2) becomes a peak and the second one (5..6) does not. -/
theorem labellingPeaks_iff_witness :
    List.Forall₂ (fun c c1 =>
      (c1.label = candidateLabel.peak ↔
        ∃ p ∈ [(0 : ℤ)], c.risingRangeInfo0 - 3 ≤ p ∧ p ≤ c.risingRangeInfo1 + 3) ∧
      (c1.label ≠ candidateLabel.peak → c1.label = candidateLabel.slurUnrelated) ∧
      c1 = { c with label := c1.label }) rangeResult (labellingPeaks rangeResult [0]) :=
  labellingPeaks_iff rangeResult [0] (by decide)

theorem toInt_eq_zero (l : candidateLabel) : l.toInt = 0 ↔ l = candidateLabel.slurUnrelated := by
  cases l <;> simp [candidateLabel.toInt]

theorem toInt_eq_two (l : candidateLabel) : l.toInt = 2 ↔ l = candidateLabel.peak := by
  cases l <;> simp [candidateLabel.toInt]

theorem labelAfterFalling_eq_peak (orig : List candidate) (k : ℕ) (c : candidate) :
    labelAfterFalling orig k c = candidateLabel.peak ↔ c.label = candidateLabel.peak := by
  unfold labelAfterFalling
  split
  · rename_i h
    rw [h.1]
    simp
  · rfl

theorem relabelledUpTo_getElem (orig : List candidate) (i k : ℕ) :
    (relabelledUpTo orig i)[k]? = (orig[k]?).map (fun c => c.set_label (labelAt orig i k c)) := by
  unfold relabelledUpTo
  rw [List.getElem?_mapIdx]

theorem set_label_label (c : candidate) : c.set_label c.label = c := rfl

theorem reLabellingStep_relabelledUpTo (orig : List candidate) (i : ℕ) (hi : i < orig.length) :
    reLabellingStep (relabelledUpTo orig i) i = some (relabelledUpTo orig (i + 1)) := by
  obtain ⟨oi, hoi⟩ : ∃ oi, orig[i]? = some oi := ⟨orig[i], List.getElem?_eq_getElem hi⟩
  have hci : vecAt (relabelledUpTo orig i) (i : ℤ) = some oi := by
    rw [vecAt_natCast, relabelledUpTo_getElem, hoi]
    simp only [Option.map_some', labelAt, show ¬ (i + 1 < i) by omega, show ¬ (i + 1 = i) by omega,
      if_false, set_label_label]
  have hlen : (relabelledUpTo orig i).length = orig.length := by
    unfold relabelledUpTo; exact List.length_mapIdx
  -- the candidates other than `i - 1` and `i` are not touched
  have hother : ∀ k, k ≠ i → k + 1 ≠ i → ∀ c, labelAt orig (i + 1) k c = labelAt orig i k c := by
    intro k h1 h2 c
    unfold labelAt
    by_cases h3 : k + 1 < i
    · rw [if_pos h3, if_pos (by omega)]
    · rw [if_neg h3, if_neg h2, if_neg (by omega), if_neg (by omega)]
  have hself : labelAt orig (i + 1) i oi = labelAfterFalling orig i oi := by
    unfold labelAt
    rw [if_neg (by omega), if_pos rfl]
  cases i with
  | zero =>
    have hprev : vecAt (relabelledUpTo orig 0) (max 0 (((0 : ℕ) : ℤ) - 1)) = some oi := by
      have : max 0 (((0 : ℕ) : ℤ) - 1) = ((0 : ℕ) : ℤ) := by simp
      rw [this]; exact hci
    have hfall : labelAfterFalling orig 0 oi = oi.label := by
      unfold labelAfterFalling
      rw [if_neg (by omega)]
    have hres : relabelledUpTo orig (0 + 1) = relabelledUpTo orig 0 := by
      apply List.ext_getElem?
      intro k
      rw [relabelledUpTo_getElem, relabelledUpTo_getElem]
      by_cases hk : k = 0
      · subst hk
        rw [hoi]
        simp only [Option.map_some', hself, hfall, set_label_label]
        simp only [labelAt, show ¬ (0 + 1 < 0) by omega, show ¬ (0 + 1 = 0) by omega, if_false,
          set_label_label]
      · congr 1
        funext c
        rw [hother k hk (by omega)]
    unfold reLabellingStep
    simp only [Option.bind_eq_bind, hci, hprev, Option.some_bind, toInt_eq_zero, toInt_eq_two]
    rw [hres]
    by_cases h0 : oi.label = candidateLabel.slurUnrelated
    · rw [if_neg (by rw [h0]; simp), if_neg (by rw [h0]; simp)]
    · rw [if_neg (by simp [h0]), if_neg (by simp [h0])]
  | succ j =>
    have hj : j < orig.length := by omega
    obtain ⟨oj, hoj⟩ : ∃ oj, orig[j]? = some oj := ⟨orig[j], List.getElem?_eq_getElem hj⟩
    have hjlab : labelAt orig (j + 1) j oj = labelAfterFalling orig j oj := by
      unfold labelAt
      rw [if_neg (by omega), if_pos rfl]
    have hjlab2 : labelAt orig (j + 1 + 1) j oj = labelAfterRising orig j oj := by
      unfold labelAt
      rw [if_pos (by omega)]
    have hprev0 : vecAt (relabelledUpTo orig (j + 1)) ((j : ℕ) : ℤ) =
        some (oj.set_label (labelAfterFalling orig j oj)) := by
      rw [vecAt_natCast, relabelledUpTo_getElem, hoj]
      simp only [Option.map_some', hjlab]
    have hprev : vecAt (relabelledUpTo orig (j + 1)) (max 0 (((j + 1 : ℕ) : ℤ) - 1)) =
        some (oj.set_label (labelAfterFalling orig j oj)) := by
      have : max 0 (((j + 1 : ℕ) : ℤ) - 1) = ((j : ℕ) : ℤ) := by push_cast; omega
      rw [this]; exact hprev0
    have hprev1 : vecAt (relabelledUpTo orig (j + 1)) (((j + 1 : ℕ) : ℤ) - 1) =
        some (oj.set_label (labelAfterFalling orig j oj)) := by
      have : (((j + 1 : ℕ) : ℤ) - 1) = ((j : ℕ) : ℤ) := by push_cast; omega
      rw [this]; exact hprev0
    have hnext : (orig[j + 1]?).map (fun q => q.label) = some oi.label := by rw [hoi]; rfl
    have hbefore : (orig[j + 1 - 1]?).map (fun q => q.label) = some oj.label := by
      rw [show j + 1 - 1 = j by omega, hoj]; rfl
    -- the general shape of the new vector
    have hshape : ∀ (l : List candidate),
        (∀ k, k ≠ j → k ≠ j + 1 → l[k]? = (relabelledUpTo orig (j + 1))[k]?) →
        l[j]? = some (oj.set_label (labelAfterRising orig j oj)) →
        l[j + 1]? = some (oi.set_label (labelAfterFalling orig (j + 1) oi)) →
        l = relabelledUpTo orig (j + 1 + 1) := by
      intro l h1 h2 h3
      apply List.ext_getElem?
      intro k
      by_cases hk1 : k = j
      · subst hk1
        rw [h2, relabelledUpTo_getElem, hoj]
        simp only [Option.map_some', hjlab2]
      · by_cases hk2 : k = j + 1
        · subst hk2
          rw [h3, relabelledUpTo_getElem, hoi]
          simp only [Option.map_some', hself]
        · rw [h1 k hk1 hk2, relabelledUpTo_getElem, relabelledUpTo_getElem]
          congr 1
          funext c
          rw [hother k hk2 (by omega)]
    have hSj : (relabelledUpTo orig (j + 1))[j]? = some (oj.set_label (labelAfterFalling orig j oj)) := by
      rw [← vecAt_natCast]; exact hprev0
    have hSi : (relabelledUpTo orig (j + 1))[j + 1]? = some oi := by
      rw [← vecAt_natCast]; exact hci
    unfold reLabellingStep
    simp only [Option.bind_eq_bind, hci, hprev, hprev1, Option.some_bind, toInt_eq_zero,
      toInt_eq_two, candidate.set_label, labelAfterFalling_eq_peak]
    by_cases hA : oi.label = candidateLabel.slurUnrelated ∧ oj.label = candidateLabel.peak
    · rw [if_pos hA]
      have hjr : labelAfterRising orig j oj = labelAfterFalling orig j oj := by
        unfold labelAfterRising
        rw [if_neg]
        rw [hnext, hA.1]
        simp
      by_cases hs : oi.a0 ≤ 0 ∧ oi.a1 ≤ 0
      · rw [if_pos hs]
        congr 1
        apply hshape
        · intro k h1 h2
          rw [List.getElem?_set_ne (Ne.symm h2)]
        · rw [List.getElem?_set_ne (by omega), hSj, hjr]
        · rw [List.getElem?_set_self (by rw [hlen]; exact hi)]
          have : labelAfterFalling orig (j + 1) oi = candidateLabel.slurFalling := by
            unfold labelAfterFalling
            rw [if_pos ⟨hA.1, by omega, by rw [hbefore, hA.2], hs⟩]
          rw [this]
          rfl
      · rw [if_neg hs]
        congr 1
        apply hshape
        · intro k _ _; rfl
        · rw [hSj, hjr]
        · rw [hSi]
          have : labelAfterFalling orig (j + 1) oi = oi.label := by
            unfold labelAfterFalling
            rw [if_neg]
            intro hc
            exact hs hc.2.2.2
          rw [this, set_label_label]
    · rw [if_neg hA]
      have hfi : labelAfterFalling orig (j + 1) oi = oi.label := by
        unfold labelAfterFalling
        rw [if_neg]
        rw [hbefore]
        intro hc
        exact hA ⟨hc.1, by simpa using hc.2.2.1⟩
      by_cases hB : oi.label = candidateLabel.peak ∧
          labelAfterFalling orig j oj = candidateLabel.slurUnrelated
      · rw [if_pos hB]
        by_cases hs : oj.a0 ≥ 0 ∧ oj.a1 ≥ 0
        · rw [if_pos hs]
          congr 1
          apply hshape
          · intro k h1 h2
            rw [show j + 1 - 1 = j by omega, List.getElem?_set_ne (Ne.symm h1)]
          · rw [show j + 1 - 1 = j by omega, List.getElem?_set_self (by rw [hlen]; exact hj)]
            have : labelAfterRising orig j oj = candidateLabel.slurRising := by
              unfold labelAfterRising
              rw [if_pos ⟨hB.2, by rw [hnext, hB.1], hs⟩]
            rw [this]
            rfl
          · rw [show j + 1 - 1 = j by omega, List.getElem?_set_ne (by omega), hSi, hfi,
              set_label_label]
        · rw [if_neg hs]
          congr 1
          apply hshape
          · intro k _ _; rfl
          · rw [hSj]
            have : labelAfterRising orig j oj = labelAfterFalling orig j oj := by
              unfold labelAfterRising
              rw [if_neg]
              intro hc
              exact hs hc.2.2
            rw [this]
          · rw [hSi, hfi, set_label_label]
      · rw [if_neg hB]
        congr 1
        apply hshape
        · intro k _ _; rfl
        · rw [hSj]
          have : labelAfterRising orig j oj = labelAfterFalling orig j oj := by
            unfold labelAfterRising
            rw [if_neg]
            rw [hnext]
            intro hc
            exact hB ⟨by simpa using hc.2.1, hc.1⟩
          rw [this]
        · rw [hSi, hfi, set_label_label]

theorem reLabellingLoop_relabelledUpTo (orig : List candidate) :
    ∀ (k i : ℕ), i + k ≤ orig.length →
      reLabellingLoop k i (relabelledUpTo orig i) = some (relabelledUpTo orig (i + k)) := by
  intro k
  induction k with
  | zero => intro i _; rfl
  | succ k ih =>
    intro i h
    unfold reLabellingLoop
    rw [reLabellingStep_relabelledUpTo orig i (by omega)]
    simp only
    rw [ih (i + 1) (by omega)]
    congr 2
    omega

theorem relabelledUpTo_zero (orig : List candidate) : relabelledUpTo orig 0 = orig := by
  apply List.ext_getElem?
  intro k
  rw [relabelledUpTo_getElem]
  cases orig[k]? with
  | none => rfl
  | some c =>
    simp only [Option.map_some', labelAt, Nat.not_lt_zero, if_false,
      show ¬ (k + 1 = 0) by omega, set_label_label]

theorem reLabellingSlurs_eq (orig : List candidate) :
    reLabellingSlurs orig = some (relabelledUpTo orig orig.length) := by
  have := reLabellingLoop_relabelledUpTo orig orig.length 0 (by omega)
  rw [relabelledUpTo_zero, Nat.zero_add] at this
  exact this

/-- C20 (amended): `reLabellingSlurs` returns a list of the same length, and
for a candidate that was `slurUnrelated`: if it is immediately preceded by a
peak it is labelled `slurFalling` if and only if `a0 <= 0` and `a1 <= 0`; if it
is immediately followed by a peak it is labelled `slurRising` if and only if
`a0 >= 0` and `a1 >= 0` and it has not been labelled `slurFalling` (it is not
preceded by a peak with `a0 <= 0` and `a1 <= 0`). -/
theorem reLabellingSlurs_labels (candids : List candidate) :
    ∃ out, reLabellingSlurs candids = some out ∧ out.length = candids.length ∧
      ∀ (k : ℕ) (c c1 : candidate), candids[k]? = some c → out[k]? = some c1 →
        c.label = candidateLabel.slurUnrelated →
        (∀ q, 1 ≤ k → candids[k - 1]? = some q → q.label = candidateLabel.peak →
          (c1.label = candidateLabel.slurFalling ↔ c.a0 ≤ 0 ∧ c.a1 ≤ 0)) ∧
        (∀ q, candids[k + 1]? = some q → q.label = candidateLabel.peak →
          (c1.label = candidateLabel.slurRising ↔
            (c.a0 ≥ 0 ∧ c.a1 ≥ 0) ∧
              ¬ (1 ≤ k ∧ (candids[k - 1]?).map (fun p => p.label) = some candidateLabel.peak ∧
                c.a0 ≤ 0 ∧ c.a1 ≤ 0))) := by
  refine ⟨_, reLabellingSlurs_eq candids, by unfold relabelledUpTo; exact List.length_mapIdx, ?_⟩
  intro k c c1 hc hc1 hlab
  have hk : k < candids.length := by
    by_contra hcon
    rw [List.getElem?_eq_none (by omega)] at hc
    simp at hc
  rw [relabelledUpTo_getElem, hc] at hc1
  simp only [Option.map_some', Option.some.injEq] at hc1
  have hl1 : c1.label = labelAfterRising candids k c := by
    rw [← hc1]
    show labelAt candids candids.length k c = _
    unfold labelAt
    by_cases h1 : k + 1 < candids.length
    · rw [if_pos h1]
    · rw [if_neg h1, if_pos (by omega)]
      unfold labelAfterRising
      rw [if_neg]
      rw [List.getElem?_eq_none (by omega)]
      simp
  have hrise : ∀ l, labelAfterFalling candids k c = l →
      labelAfterRising candids k c = l ∨ (l = candidateLabel.slurUnrelated ∧
        labelAfterRising candids k c = candidateLabel.slurRising) := by
    intro l hl
    unfold labelAfterRising
    split
    · rename_i h; exact Or.inr ⟨hl ▸ h.1, rfl⟩
    · exact Or.inl hl
  constructor
  · intro q hk1 hq hql
    have hb : (candids[k - 1]?).map (fun p => p.label) = some candidateLabel.peak := by
      rw [hq, ← hql]; rfl
    rw [hl1]
    by_cases hs : c.a0 ≤ 0 ∧ c.a1 ≤ 0
    · have hfal : labelAfterFalling candids k c = candidateLabel.slurFalling := by
        unfold labelAfterFalling
        rw [if_pos ⟨hlab, hk1, hb, hs⟩]
      rcases hrise _ hfal with h | ⟨h, _⟩
      · rw [h]; exact ⟨fun _ => hs, fun _ => rfl⟩
      · exact absurd h (by decide)
    · have hfal : labelAfterFalling candids k c = candidateLabel.slurUnrelated := by
        unfold labelAfterFalling
        rw [if_neg (fun hc => hs hc.2.2.2), hlab]
      rcases hrise _ hfal with h | ⟨_, h⟩
      · rw [h]; exact ⟨fun hc => absurd hc (by decide), fun hc => absurd hc hs⟩
      · rw [h]; exact ⟨fun hc => absurd hc (by decide), fun hc => absurd hc hs⟩
  · intro q hq hql
    have hn : (candids[k + 1]?).map (fun p => p.label) = some candidateLabel.peak := by
      rw [hq, ← hql]; rfl
    rw [hl1]
    by_cases hf : 1 ≤ k ∧ (candids[k - 1]?).map (fun p => p.label) = some candidateLabel.peak ∧
        c.a0 ≤ 0 ∧ c.a1 ≤ 0
    · have hfal : labelAfterFalling candids k c = candidateLabel.slurFalling := by
        unfold labelAfterFalling
        rw [if_pos ⟨hlab, hf⟩]
      rcases hrise _ hfal with h | ⟨h, _⟩
      · rw [h]; exact ⟨fun hc => absurd hc (by decide), fun hc => absurd hf hc.2⟩
      · exact absurd h (by decide)
    · have hfal : labelAfterFalling candids k c = candidateLabel.slurUnrelated := by
        unfold labelAfterFalling
        rw [if_neg (fun hc => hf hc.2), hlab]
      by_cases hs : c.a0 ≥ 0 ∧ c.a1 ≥ 0
      · have : labelAfterRising candids k c = candidateLabel.slurRising := by
          unfold labelAfterRising
          rw [if_pos ⟨hfal, hn, hs⟩]
        rw [this]
        exact ⟨fun _ => ⟨hs, hf⟩, fun _ => rfl⟩
      · have : labelAfterRising candids k c = candidateLabel.slurUnrelated := by
          unfold labelAfterRising
          rw [if_neg (fun hc => hs hc.2.2), hfal]
        rw [this]
        exact ⟨fun hc => absurd hc (by decide), fun hc => absurd hc.1 hs⟩

/-- C20 (counterexample): a slur with both slopes 0 between two peaks was
`slurUnrelated`, is immediately followed by a peak and has `a0 >= 0` and
`a1 >= 0`, yet `reLabellingSlurs` labels it `slurFalling`, not `slurRising`. -/
theorem reLabellingSlurs_flat_slur :
    reLabellingSlurs flatSlurCandidates =
        some [{ label := candidateLabel.peak },
              { a0 := 0, a1 := 0, label := candidateLabel.slurFalling },
              { label := candidateLabel.peak }] ∧
      (flatSlurCandidates[1]?).map (fun c => (c.label, decide (c.a0 ≥ 0 ∧ c.a1 ≥ 0))) =
        some (candidateLabel.slurUnrelated, true) ∧
      (flatSlurCandidates[2]?).map (fun c => c.label) = some candidateLabel.peak := by
  decide!

/-! ## The order of the candidates along the wave -/

theorem Ordered.restrict {l l1 : List candidate} (h : Ordered l) (hs : l1.Sublist l) : Ordered l1 :=
  ⟨h.1.sublist (hs.map _), fun k hk => h.2 k ((hs.map _).subset hk)⟩

theorem Ordered.of_keys {l l1 : List candidate} (h : Ordered l)
    (hk : l1.map rangeKey = l.map rangeKey) : Ordered l1 := by
  unfold Ordered
  rw [hk]
  exact h

theorem cleanUpLoop_sublist (idx : List ℤ) :
    ∀ (i : ℕ) (candids out : List candidate), cleanUpLoop idx i candids = some out →
      out.Sublist candids := by
  induction idx with
  | nil =>
    intro i candids out h
    simp only [cleanUpLoop, Option.some.injEq] at h
    subst h
    exact List.Sublist.refl _
  | cons k rest ih =>
    intro i candids out h
    unfold cleanUpLoop at h
    cases he : vecErase candids (k - (i : ℤ)) with
    | none => rw [he] at h; simp at h
    | some c1 =>
      rw [he] at h
      exact (ih _ _ _ h).trans (vecErase_eq_some he).1

theorem removalStep_sublist {name : String} {bad : List ℤ} {w w1 : Work}
    (h : removalStep name bad w = some w1) : w1.1.Sublist w.1 := by
  unfold removalStep cleanUpCandidates at h
  cases hc : cleanUpLoop bad 0 w.1 with
  | none => rw [hc] at h; simp at h
  | some c1 =>
    rw [hc] at h
    simp only [Option.some.injEq] at h
    subst h
    exact cleanUpLoop_sublist _ _ _ _ hc

theorem map_set_rangeKey (l : List candidate) (i : ℕ) (c c1 : candidate) (hc : l[i]? = some c)
    (hk : rangeKey c1 = rangeKey c) : (l.set i c1).map rangeKey = l.map rangeKey := by
  apply List.ext_getElem?
  intro n
  rw [List.getElem?_map, List.getElem?_map, List.getElem?_set]
  by_cases h : i = n
  · subst h
    rw [if_pos rfl, hc]
    split
    · simp [hk]
    · rename_i hlt
      rw [List.getElem?_eq_none (by omega)] at hc
      simp at hc
  · rw [if_neg h]

theorem vecAt_getElem {α : Type} {l : List α} {i : ℤ} {a : α} (h : vecAt l i = some a) :
    l[i.toNat]? = some a := by
  obtain ⟨_, _, hg⟩ := vecAt_eq_some h
  rw [← List.get?_eq_getElem?]
  exact hg

theorem relabelLoop_keys (label : candidateLabel) (guarded : Bool) (idx : List ℤ) :
    ∀ (candids out : List candidate), relabelLoop label guarded idx candids = some out →
      out.map rangeKey = candids.map rangeKey := by
  induction idx with
  | nil =>
    intro candids out h
    simp only [relabelLoop, Option.some.injEq] at h
    subst h
    rfl
  | cons k rest ih =>
    intro candids out h
    unfold relabelLoop at h
    split at h
    · simp only [Option.some.injEq] at h
      subst h
      rfl
    · split at h
      · rename_i c hc
        rw [ih _ _ h]
        exact map_set_rangeKey candids k.toNat c _ (vecAt_getElem hc) rfl
      · simp at h

theorem reLabellingSlurs_keys {candids out : List candidate}
    (h : reLabellingSlurs candids = some out) : out.map rangeKey = candids.map rangeKey := by
  rw [reLabellingSlurs_eq, Option.some.injEq] at h
  subst h
  apply List.ext_getElem?
  intro n
  rw [List.getElem?_map, List.getElem?_map, relabelledUpTo_getElem]
  cases candids[n]? with
  | none => rfl
  | some c => rfl

theorem labellingPeaks_keys (candids : List candidate) (positions : List ℤ) :
    (labellingPeaks candids positions).map rangeKey = candids.map rangeKey := by
  unfold labellingPeaks
  rw [List.map_map]
  apply List.map_congr_left
  intro c _
  simp only [Function.comp]
  split <;> rfl

theorem peakFinder_range {wave : List ℚ} {delta : ℚ} {r : ℤ × ℚ × ℤ}
    (h : peakFinder wave delta = some r) : 0 ≤ r.1 ∧ r.1 < wave.length := by
  simp only [peakFinder, Option.bind_eq_bind, Option.bind_eq_some] at h
  obtain ⟨wmax, _, x, hx, y, _, h⟩ := h
  simp only [Option.some.injEq] at h
  subst h
  have hmem := vecAt_mem hx
  have := indicesFrom_bounds _ wave 0 x hmem
  push_cast at this
  exact ⟨this.1, by omega⟩

theorem delineatorsInfo_spec {m : Libm} {wave derivative : List ℚ} {c c1 : candidate} {delta : ℚ}
    (h : delineatorsInfo m wave derivative c delta = some c1) :
    c1.risingRangeInfo0 = c.risingRangeInfo0 ∧ c1.risingRangeInfo1 = c.risingRangeInfo1 ∧
      c.risingRangeInfo0 ≤ c1.x ∧ c1.x ≤ c.risingRangeInfo1 := by
  simp only [delineatorsInfo, Option.bind_eq_bind, Option.bind_eq_some] at h
  obtain ⟨wc, _, dc, _, sl, _, f0, _, f1, _, wo, _, org, _, wp, hwp, pk, hpk, h⟩ := h
  simp only [Option.some.injEq] at h
  subst h
  have hr := peakFinder_range hpk
  have hs := span_eq_some hwp
  simp only [candidate.get_risingRangeInfo, candidate.get_candidateRangeInfo, ge_iff_le,
    Int.reduceLE, if_false, le_refl, if_true] at hs hr ⊢
  refine ⟨rfl, rfl, ?_, ?_⟩
  · show c.risingRangeInfo0 ≤ pk.1 + (c.risingRangeInfo0 - c.candidateRangeInfo0) + c.candidateRangeInfo0
    omega
  · show pk.1 + (c.risingRangeInfo0 - c.candidateRangeInfo0) + c.candidateRangeInfo0 ≤ c.risingRangeInfo1
    omega

theorem mapOpt_forall₂ {α β : Type} (f : α → Option β) :
    ∀ (l : List α) (out : List β), mapOpt f l = some out →
      List.Forall₂ (fun a b => f a = some b) l out := by
  intro l
  induction l with
  | nil =>
    intro out h
    simp only [mapOpt, Option.some.injEq] at h
    subst h
    exact List.Forall₂.nil
  | cons a as ih =>
    intro out h
    unfold mapOpt at h
    cases hfa : f a with
    | none => rw [hfa] at h; simp at h
    | some b =>
      rw [hfa] at h
      cases hrest : mapOpt f as with
      | none => rw [hrest] at h; simp at h
      | some bs =>
        rw [hrest] at h
        simp only [Option.some.injEq] at h
        subst h
        exact List.Forall₂.cons hfa (ih bs hrest)

theorem sorted_of_boundary (derivative : List ℚ) (points : List ℤ) :
    ∀ l : List candidate, List.Chain' (Boundary derivative points) l →
      (∀ c ∈ l, RangeOrdered c) →
      l.Pairwise (fun a b => a.risingRangeInfo1 < b.risingRangeInfo0) := by
  intro l
  induction l with
  | nil => intro _ _; exact List.Pairwise.nil
  | cons a rest ih =>
    intro hch hro
    cases rest with
    | nil => exact List.pairwise_singleton _ _
    | cons b rest1 =>
      rw [List.chain'_cons] at hch
      have hpw := ih hch.2 (fun c hc => hro c (List.mem_cons_of_mem _ hc))
      have hab : a.risingRangeInfo1 < b.risingRangeInfo0 := by
        obtain ⟨_, _, h1, h2, _⟩ := hch.1
        omega
      refine List.Pairwise.cons ?_ hpw
      intro c hc
      rcases List.mem_cons.1 hc with hc | hc
      · subst hc; exact hab
      · have h1 := (List.pairwise_cons.1 hpw).1 c hc
        have h2 := (hro b (by simp)).2.1
        omega

theorem ordered_of_forall₂ : ∀ (l out : List candidate),
    List.Forall₂ (fun a b => b.risingRangeInfo0 = a.risingRangeInfo0 ∧
      b.risingRangeInfo1 = a.risingRangeInfo1 ∧ a.risingRangeInfo0 ≤ b.x ∧
      b.x ≤ a.risingRangeInfo1) l out →
    l.Pairwise (fun a b => a.risingRangeInfo1 < b.risingRangeInfo0) → Ordered out := by
  intro l out h
  induction h with
  | nil => intro _; exact ⟨List.Pairwise.nil, by simp⟩
  | @cons a b l1 out1 hab hrest ih =>
    intro hpw
    rw [List.pairwise_cons] at hpw
    obtain ⟨h1, h2⟩ := ih hpw.2
    refine ⟨?_, ?_⟩
    · rw [List.map_cons, List.pairwise_cons]
      refine ⟨?_, h1⟩
      intro k hk
      obtain ⟨c, hc, hck⟩ := List.mem_map.1 hk
      obtain ⟨i, hi⟩ := List.mem_iff_getElem?.1 hc
      have hlen := hrest.length_eq
      have hil : i < l1.length := by
        by_contra hcon
        rw [List.getElem?_eq_none (by omega)] at hi
        simp at hi
      have hpair := List.forall₂_iff_get.1 hrest
      have hi2 : i < out1.length := by omega
      have hrel := hpair.2 i hil hi2
      have hci : out1.get ⟨i, hi2⟩ = c := by
        rw [List.get_eq_getElem]
        rw [List.getElem?_eq_getElem hi2, Option.some.injEq] at hi
        exact hi
      rw [hci] at hrel
      have hlt := hpw.1 (l1.get ⟨i, hil⟩) (List.get_mem _ _ _)
      rw [← hck]
      show b.risingRangeInfo1 < c.risingRangeInfo0
      rw [hab.2.1, hrel.1]
      exact hlt
    · intro k hk
      rw [List.map_cons] at hk
      rcases List.mem_cons.1 hk with hk | hk
      · subst hk
        show b.risingRangeInfo0 ≤ b.x ∧ b.x ≤ b.risingRangeInfo1
        rw [hab.1, hab.2.1]
        exact hab.2.2
      · exact h2 k hk

theorem discovery_ordered {m : Libm} {twave : List ℚ} {P : Params} {w5 : Work}
    (h : discovery m twave P = some w5) : Ordered w5.1 := by
  obtain ⟨derivative, found, c2, w3, c5, _, _, hc2, h3, h5, hw⟩ :=
    (discovery_eq_some m twave P w5).1 h
  subst hw
  have hsorted : c2.Pairwise (fun a b => a.risingRangeInfo1 < b.risingRangeInfo0) := by
    by_cases hpts : indicesWhere (fun v => decide (v ≠ 0)) found.1 = []
    · unfold candidateRangeInfoFinder at hc2
      simp only [hpts, List.length_nil, if_true, Option.some.injEq] at hc2
      subst hc2
      exact List.Pairwise.nil
    · obtain ⟨new, _, h2, h3, h4⟩ := candidateRangeInfoFinder_spec hpts hc2
      rw [h2, List.nil_append]
      exact sorted_of_boundary _ _ new h3 h4
  have hs3 : w3.1.Sublist c2 := removalStep_sublist h3
  have hs4 : (labellingPeaks w3.1 found.2).Pairwise
      (fun a b => a.risingRangeInfo1 < b.risingRangeInfo0) := by
    have h1 := hsorted.sublist hs3
    unfold labellingPeaks
    rw [List.pairwise_map]
    refine h1.imp ?_
    intro a b hab
    split <;> split <;> exact hab
  refine ordered_of_forall₂ _ _ ?_ hs4
  refine (mapOpt_forall₂ _ _ _ h5).imp ?_
  intro a b hab
  obtain ⟨e1, e2, e3, e4⟩ := delineatorsInfo_spec hab
  exact ⟨e1, e2, e3, e4⟩

theorem pickCandidates_indicesFrom (p : candidate → Bool) :
    ∀ (l pre : List candidate),
      mapOpt (fun k => vecAt (pre ++ l) k) (indicesFrom p pre.length l) = some (l.filter p) := by
  intro l
  induction l with
  | nil => intro pre; rfl
  | cons a as ih =>
    intro pre
    have hrec := ih (pre ++ [a])
    rw [List.append_assoc, List.singleton_append, List.length_append, List.length_singleton] at hrec
    unfold indicesFrom
    by_cases hp : p a = true
    · rw [if_pos hp, List.filter_cons_of_pos hp]
      have hat : vecAt (pre ++ a :: as) (pre.length : ℤ) = some a := by
        unfold vecAt
        rw [if_pos (by omega), Int.toNat_ofNat, List.get?_eq_getElem?,
          List.getElem?_append_right (le_refl _)]
        simp
      unfold mapOpt
      simp only [hat, hrec]
    · rw [if_neg hp, List.filter_cons_of_neg hp]
      exact hrec

theorem pickCandidates_peak_eq (candids : List candidate) :
    pickCandidates candids (peakCandidates candids) =
      some (candids.filter (fun c => decide (c.label.toInt = 2))) := by
  have := pickCandidates_indicesFrom (fun c => decide (c.label.toInt = 2)) candids []
  simpa using this

theorem tdiv_between {a b : ℤ} (h : a ≤ b) : a ≤ Int.tdiv (a + b) 2 ∧ Int.tdiv (a + b) 2 ≤ b := by
  by_cases hs : 0 ≤ a + b
  · rw [Int.tdiv_eq_ediv hs (by decide)]
    omega
  · have h1 : Int.tdiv (a + b) 2 = -(Int.tdiv (-(a + b)) 2) := by
      rw [Int.neg_tdiv, neg_neg]
    rw [h1, Int.tdiv_eq_ediv (by omega) (by decide)]
    omega

theorem ordered_merge {A B : List candidate} {l r mc : candidate}
    (h : Ordered (A ++ l :: r :: B)) (h0 : mc.risingRangeInfo0 = l.risingRangeInfo0)
    (h1 : mc.risingRangeInfo1 = r.risingRangeInfo1) (hx : mc.x = Int.tdiv (l.x + r.x) 2) :
    Ordered (A ++ mc :: B) := by
  obtain ⟨hpw, hk⟩ := h
  simp only [List.map_append, List.map_cons, List.pairwise_append, List.pairwise_cons,
    List.mem_cons, List.mem_append, forall_eq_or_imp] at hpw hk
  obtain ⟨hA, ⟨⟨hlr, hlB⟩, hrB, hB⟩, hAall⟩ := hpw
  have hkl := hk (rangeKey l) (Or.inr (Or.inl rfl))
  have hkr := hk (rangeKey r) (Or.inr (Or.inr (Or.inl rfl)))
  have hlr' : l.risingRangeInfo1 < r.risingRangeInfo0 := hlr
  have hkl' : l.risingRangeInfo0 ≤ l.x ∧ l.x ≤ l.risingRangeInfo1 := hkl
  have hkr' : r.risingRangeInfo0 ≤ r.x ∧ r.x ≤ r.risingRangeInfo1 := hkr
  have htd := tdiv_between (show l.x ≤ r.x by omega)
  refine ⟨?_, ?_⟩
  · simp only [List.map_append, List.map_cons, List.pairwise_append, List.pairwise_cons,
      List.mem_cons, forall_eq_or_imp]
    refine ⟨hA, ⟨?_, hB⟩, ?_⟩
    · intro k hkB
      have := hrB k hkB
      show mc.risingRangeInfo1 < k.1
      rw [h1]; exact this
    · intro a ha
      refine ⟨?_, fun k hkB => (hAall a ha).2.2 k hkB⟩
      have := (hAall a ha).1
      show a.2.2 < mc.risingRangeInfo0
      rw [h0]; exact this
  · intro k hkm
    simp only [List.map_append, List.map_cons, List.mem_append, List.mem_cons] at hkm
    rcases hkm with hkm | hkm | hkm
    · exact hk k (Or.inl hkm)
    · subst hkm
      show mc.risingRangeInfo0 ≤ mc.x ∧ mc.x ≤ mc.risingRangeInfo1
      rw [h0, h1, hx]
      omega
    · exact hk k (Or.inr (Or.inr (Or.inr hkm)))

theorem cleanUpLoop_append (a : List ℤ) :
    ∀ (b : List ℤ) (i : ℕ) (l : List candidate),
      cleanUpLoop (a ++ b) i l = (cleanUpLoop a i l).bind (cleanUpLoop b (i + a.length)) := by
  induction a with
  | nil => intro b i l; rfl
  | cons k rest ih =>
    intro b i l
    rw [List.cons_append]
    cases he : vecErase l (k - (i : ℤ)) with
    | none => simp only [cleanUpLoop, he, Option.none_bind]
    | some l1 =>
      simp only [cleanUpLoop, he]
      rw [ih b (i + 1) l1, List.length_cons, show i + 1 + rest.length = i + (rest.length + 1) by omega]

theorem vecErase_extend {l out : List candidate} {k : ℤ} (h : vecErase l k = some out)
    (suf : List candidate) : vecErase (l ++ suf) k = some (out ++ suf) := by
  unfold vecErase at h ⊢
  split at h
  · rename_i hk
    simp only [Option.some.injEq] at h
    subst h
    rw [if_pos ⟨hk.1, by rw [List.length_append]; push_cast; omega⟩]
    congr 1
    exact List.eraseIdx_append_of_lt_length (by omega) suf
  · simp at h

theorem cleanUpLoop_extend (idx : List ℤ) :
    ∀ (i : ℕ) (l out : List candidate), cleanUpLoop idx i l = some out →
      ∀ suf, cleanUpLoop idx i (l ++ suf) = some (out ++ suf) := by
  induction idx with
  | nil =>
    intro i l out h suf
    simp only [cleanUpLoop, Option.some.injEq] at h
    subst h
    rfl
  | cons k rest ih =>
    intro i l out h suf
    unfold cleanUpLoop at h ⊢
    cases he : vecErase l (k - (i : ℤ)) with
    | none => rw [he] at h; simp at h
    | some l1 =>
      rw [he] at h
      rw [vecErase_extend he suf]
      exact ih _ _ _ h suf

theorem vecErase_at_length (L : List candidate) (c : candidate) (rest : List candidate) :
    vecErase (L ++ c :: rest) (L.length : ℤ) = some (L ++ rest) := by
  unfold vecErase
  rw [if_pos ⟨by omega, by rw [List.length_append, List.length_cons]; push_cast; omega⟩,
    Int.toNat_ofNat]
  congr 1
  rw [List.eraseIdx_append_of_length_le (le_refl _), Nat.sub_self]
  rfl

theorem insertIdx_eq_take_drop (x : candidate) :
    ∀ (n : ℕ) (l : List candidate), n ≤ l.length → l.insertIdx n x = l.take n ++ x :: l.drop n := by
  intro n
  induction n with
  | zero => intro l _; simp
  | succ n ih =>
    intro l h
    cases l with
    | nil => simp at h
    | cons a as =>
      rw [List.insertIdx_succ_cons, ih as (by simpa using h)]
      simp

theorem mergedCandidate_x {m : Libm} {wave : List ℚ} {left right mc : candidate}
    (h : mergedCandidate m wave left right = some mc) : mc.x = Int.tdiv (left.x + right.x) 2 := by
  simp only [mergedCandidate, Option.bind_eq_bind, Option.bind_eq_some] at h
  obtain ⟨y, _, w, _, r, _, h⟩ := h
  simp only [Option.some.injEq] at h
  subst h
  rfl

theorem take_drop_two {l : List candidate} {i : ℕ} {a b : candidate}
    (ha : l[i]? = some a) (hb : l[i + 1]? = some b) :
    l.drop i = a :: b :: l.drop (i + 2) ∧ l.take (i + 2) = l.take i ++ [a, b] := by
  have hi : i + 1 < l.length := by
    by_contra hcon
    rw [List.getElem?_eq_none (by omega)] at hb
    simp at hb
  have ha1 : l[i] = a := by
    rw [List.getElem?_eq_getElem (by omega), Option.some.injEq] at ha; exact ha
  have hb1 : l[i + 1] = b := by
    rw [List.getElem?_eq_getElem hi, Option.some.injEq] at hb; exact hb
  constructor
  · rw [List.drop_eq_getElem_cons (by omega), List.drop_eq_getElem_cons hi, ha1, hb1]
  · rw [show i + 2 = (i + 1) + 1 by omega, List.take_succ, List.take_succ, ha, hb]
    simp

theorem meargingLoop_ordered (m : Libm) (wave : List ℚ) (f : ℚ) :
    ∀ (fuel i : ℕ) (candids : List candidate) (acc : List ℤ) (out : List candidate)
      (idx : List ℤ),
      meargingLoop m wave f fuel i candids acc = some (out, idx) → 1 ≤ i →
      (∃ L1, cleanUpLoop acc 0 (candids.take (i - 1)) = some L1 ∧
        L1.length + acc.length = i - 1 ∧ Ordered (L1 ++ candids.drop (i - 1))) →
      ∃ L, cleanUpLoop idx 0 out = some L ∧ Ordered L := by
  have hend : ∀ (i : ℕ) (candids : List candidate) (acc : List ℤ),
      (∃ L1, cleanUpLoop acc 0 (candids.take (i - 1)) = some L1 ∧
        L1.length + acc.length = i - 1 ∧ Ordered (L1 ++ candids.drop (i - 1))) →
      ∃ L, cleanUpLoop acc 0 candids = some L ∧ Ordered L := by
    intro i candids acc ⟨L1, h1, _, h3⟩
    refine ⟨L1 ++ candids.drop (i - 1), ?_, h3⟩
    have := cleanUpLoop_extend acc 0 _ _ h1 (candids.drop (i - 1))
    rw [List.take_append_drop] at this
    exact this
  intro fuel
  induction fuel with
  | zero =>
    intro i candids acc out idx h _ hinv
    unfold meargingLoop at h
    split at h
    · simp at h
    · simp only [Option.some.injEq, Prod.mk.injEq] at h
      obtain ⟨e1, e2⟩ := h
      subst e1 e2
      exact hend i _ _ hinv
  | succ fuel ih =>
    intro i candids acc out idx h hi hinv
    unfold meargingLoop at h
    split at h
    · rename_i hlt
      split at h
      · rename_i left right hl hr
        have hl1 : candids[i - 1]? = some left := by
          have := vecAt_getElem hl
          rwa [show ((i : ℤ) - 1).toNat = i - 1 by omega] at this
        have hr1 : candids[i - 1 + 1]? = some right := by
          have := vecAt_getElem hr
          rwa [show ((i : ℤ)).toNat = i - 1 + 1 by omega] at this
        obtain ⟨hdrop, htake⟩ := take_drop_two hl1 hr1
        obtain ⟨L1, hL1, hlen, hord⟩ := hinv
        split at h
        · split at h
          · rename_i mc hmc
            -- the pair is merged
            refine ih (i + 2) _ _ out idx h (by omega) ⟨L1, ?_, ?_, ?_⟩
            · rw [show i + 2 - 1 = i + 1 by omega, insertIdx_eq_take_drop mc (i + 1) candids (by omega),
                List.take_left' (by rw [List.length_take]; omega),
                show i + 1 = i - 1 + 2 by omega, htake, cleanUpLoop_append,
                cleanUpLoop_extend acc 0 _ _ hL1 [left, right]]
              simp only [Option.some_bind, Nat.zero_add]
              unfold cleanUpLoop
              have e1 : ((i : ℤ) - 1 - (acc.length : ℤ)) = (L1.length : ℤ) := by omega
              rw [e1, vecErase_at_length L1 left [right]]
              simp only
              unfold cleanUpLoop
              have e2 : ((i : ℤ) - ((acc.length + 1 : ℕ) : ℤ)) = (L1.length : ℤ) := by
                push_cast; omega
              rw [e2, vecErase_at_length L1 right []]
              simp [cleanUpLoop]
            · simp only [List.length_append, List.length_cons, List.length_nil]
              omega
            · have hd : (candids.insertIdx (i + 1) mc).drop (i + 2 - 1) =
                  mc :: candids.drop (i - 1 + 2) := by
                rw [show i + 2 - 1 = i + 1 by omega, show i - 1 + 2 = i + 1 by omega,
                  insertIdx_eq_take_drop mc (i + 1) candids (by omega),
                  List.drop_left' (by rw [List.length_take]; omega)]
              rw [hd]
              rw [hdrop] at hord
              have hf := mergedCandidate_fields hmc
              exact ordered_merge hord hf.2.2.1 hf.2.2.2.1 (mergedCandidate_x hmc)
          · simp at h
        · -- no merge
          refine ih (i + 1) _ _ out idx h (by omega) ⟨L1 ++ [left], ?_, ?_, ?_⟩
          · rw [show i + 1 - 1 = i - 1 + 1 by omega, List.take_succ, hl1]
            exact cleanUpLoop_extend acc 0 _ _ hL1 [left]
          · simp only [List.length_append, List.length_singleton]
            omega
          · rw [show i + 1 - 1 = i - 1 + 1 by omega]
            rw [hdrop] at hord
            have : candids.drop (i - 1 + 1) = right :: candids.drop (i - 1 + 2) := by
              have := hdrop
              rw [List.drop_eq_getElem_cons (by omega)] at this
              simp only [List.cons.injEq] at this
              exact this.2
            rw [this, List.append_assoc, List.singleton_append]
            exact hord
        · simp at h
      · simp at h
    · simp only [Option.some.injEq, Prod.mk.injEq] at h
      obtain ⟨e1, e2⟩ := h
      subst e1 e2
      exact hend i _ _ hinv

theorem step11_ordered {m : Libm} {twave : List ℚ} {P : Params} {w w1 : Work}
    (h : step11 m twave P w = some w1) (ho : Ordered w.1) : Ordered w1.1 := by
  simp only [step11, Option.bind_eq_bind, Option.bind_eq_some] at h
  obtain ⟨⟨c1, bad⟩, hm, ⟨c2, rest⟩, hc, h⟩ := h
  simp only [Option.some.injEq] at h
  subst h
  unfold meargingCandidates at hm
  obtain ⟨L, hL, hord⟩ := meargingLoop_ordered m twave P.minAmplitudeFlatness w.1.length 1 w.1 []
    c1 bad hm (le_refl _) ⟨[], rfl, rfl, by simpa using ho⟩
  unfold cleanUpCandidates at hc
  rw [hL] at hc
  simp only [Option.some.injEq, Prod.mk.injEq] at hc
  rw [← hc.1]
  exact hord

theorem postProcessing_ordered {m : Libm} {twave : List ℚ} {P : Params} {w w15 : Work}
    (h : postProcessing m twave P w = some w15) (ho : Ordered w.1) : Ordered w15.1 := by
  obtain ⟨w6, w7, w8, c9, w10, w11, w12, w13, w14, h6, h7, h8, h9, h10, h11, h12, h13, h14, h15⟩ :=
    (postProcessing_eq_some m twave P w w15).1 h
  have o6 : Ordered w6.1 := by
    simp only [step06, Option.bind_eq_bind, Option.bind_eq_some] at h6
    obtain ⟨_, _, h6⟩ := h6
    exact ho.restrict (removalStep_sublist h6)
  have o7 : Ordered w7.1 := by
    simp only [step07, Option.bind_eq_bind, Option.bind_eq_some] at h7
    obtain ⟨_, _, h7⟩ := h7
    exact o6.restrict (removalStep_sublist h7)
  have o8 : Ordered w8.1 := by
    simp only [step08, Option.bind_eq_bind, Option.bind_eq_some] at h8
    obtain ⟨_, _, h8⟩ := h8
    exact o7.restrict (removalStep_sublist h8)
  have o9 : Ordered c9 := o8.of_keys (reLabellingSlurs_keys h9)
  have o10 : Ordered w10.1 := by
    unfold step10 at h10
    have hs10 : w10.1.Sublist c9 := removalStep_sublist h10
    exact o9.restrict hs10
  have o11 : Ordered w11.1 := step11_ordered h11 o10
  have o12 : Ordered w12.1 := by
    simp only [step12, Option.bind_eq_bind, Option.bind_eq_some] at h12
    obtain ⟨_, _, h12⟩ := h12
    exact o11.restrict (removalStep_sublist h12)
  have o13 : Ordered w13.1 := by
    simp only [step13, Option.bind_eq_bind, Option.bind_eq_some] at h13
    obtain ⟨bad, _, c, hc, h13⟩ := h13
    simp only [Option.some.injEq] at h13
    subst h13
    exact o12.of_keys (relabelLoop_keys _ _ _ _ _ hc)
  have o14 : Ordered w14.1 := by
    simp only [step14, Option.bind_eq_bind, Option.bind_eq_some] at h14
    obtain ⟨bad, _, c, hc, h14⟩ := h14
    simp only [Option.some.injEq] at h14
    subst h14
    exact o13.of_keys (relabelLoop_keys _ _ _ _ _ hc)
  simp only [step15, Option.bind_eq_bind, Option.bind_eq_some] at h15
  obtain ⟨_, _, h15⟩ := h15
  simp only [Option.some.injEq] at h15
  subst h15
  exact o14

theorem survivors_ordered {m : Libm} {twave : List ℚ} {P : Params} {w : Work}
    (h : survivors m twave P = some w) : Ordered w.1 := by
  simp only [survivors, Option.bind_eq_bind, Option.bind_eq_some] at h
  obtain ⟨w5, h5, hp⟩ := h
  exact postProcessing_ordered hp (discovery_ordered h5)

theorem ordered_x_ascending {l : List candidate} (h : Ordered l) (z : ℤ) :
    (l.map (fun c => ((z + c.x : ℤ) : ℚ))).Pairwise (fun a b => a < b) := by
  obtain ⟨hpw, hk⟩ := h
  rw [List.pairwise_map] at hpw ⊢
  have hk1 : ∀ c ∈ l, c.risingRangeInfo0 ≤ c.x ∧ c.x ≤ c.risingRangeInfo1 :=
    fun c hc => hk (rangeKey c) (List.mem_map_of_mem _ hc)
  refine (List.Pairwise.and_mem.1 hpw).imp ?_
  rintro a b ⟨ha, hb, hab⟩
  have h1 := (hk1 a ha).2
  have h2 := (hk1 b hb).1
  have hab' : a.risingRangeInfo1 < b.risingRangeInfo0 := hab
  have : z + a.x < z + b.x := by omega
  exact_mod_cast this

theorem delineator_of_peak_survivors {m : Libm} {twave : List ℚ} {P : Params}
    {candids : List candidate} {hits : List (String × ℕ)} {first last : candidate}
    (hs : survivors m twave P = some (candids, hits))
    (hp : peakCandidates candids ≠ [])
    (hf : candids.head? = some first) (hl : candids.getLast? = some last) :
    delineator m twave P = some
      { on_ := (cround ((P.pointStart : ℚ) - first.b0 / first.a0) : ℚ),
        off := (cround ((P.pointStart : ℚ) - last.b1 / last.a1) : ℚ),
        lastCandidate := ((P.pointStart + last.x : ℤ) : ℚ),
        peak := (candids.filter (fun c => decide (c.label = candidateLabel.peak))).map
          (fun c => ((P.pointStart + c.x : ℤ) : ℚ)),
        flatness := (candids.filter (fun c => decide (c.label = candidateLabel.peak))).map
          (fun c => c.flatnessSamples),
        distortion := (candids.filter (fun c => decide (c.label = candidateLabel.peak))).map
          (fun c => c.distortion),
        skewness := (candids.filter (fun c => decide (c.label = candidateLabel.peak))).map
          (fun c => c.skewness),
        rulesHit := hits } := by
  have hfilter : candids.filter (fun c => decide (c.label.toInt = 2)) =
      candids.filter (fun c => decide (c.label = candidateLabel.peak)) := by
    apply List.filter_congr
    intro c _
    simp only [toInt_eq_two]
  rw [delineator_of_survivors hs]
  have hne : candids ≠ [] := by
    intro hc; subst hc; simp at hf
  have hfirst : vecAt candids 0 = some first := by
    cases candids with
    | nil => exact absurd rfl hne
    | cons a as =>
      simp only [List.head?_cons, Option.some.injEq] at hf
      subst hf
      rfl
  have hlast : vecAt candids ((candids.length : ℤ) - 1) = some last := by
    have h1 := List.getLast?_eq_getElem? candids
    rw [hl] at h1
    unfold vecAt
    have hpos : 0 < candids.length := List.length_pos.2 hne
    rw [if_pos (by omega), List.get?_eq_getElem?,
      show ((candids.length : ℤ) - 1).toNat = candids.length - 1 by omega]
    exact h1.symm
  have hlen : (peakCandidates candids).length > 0 := List.length_pos.2 hp
  unfold outputPreparation
  simp only [Option.bind_eq_bind, Option.pure_def, if_pos hlen, hfirst, hlast, Option.some_bind,
    pickCandidates_peak_eq, hfilter]

/-- C4: when at least one candidate labelled peak survives all rules (and the
slopes `a0` of the first and `a1` of the last survivor are not zero, so that
the two quotients are numbers), `delineator` returns the annotation with `on`
the rounded `pointStart - b0/a0` of the first survivor, `off` the rounded
`pointStart - b1/a1` of the last one, `lastCandidate` its `pointStart + x`, and
`peak`, `flatness`, `distortion`, `skewness` the values of the surviving peak
candidates in their order; the peak entries are strictly ascending. -/
theorem delineator_output (m : Libm) (twave : List ℚ) (P : Params) (candids : List candidate)
    (hits : List (String × ℕ)) (first last : candidate)
    (hs : survivors m twave P = some (candids, hits))
    (hp : peakCandidates candids ≠ [])
    (hf : candids.head? = some first) (hl : candids.getLast? = some last)
    (_ha0 : first.a0 ≠ 0) (_ha1 : last.a1 ≠ 0) :
    delineator m twave P = some
      { on_ := (cround ((P.pointStart : ℚ) - first.b0 / first.a0) : ℚ),
        off := (cround ((P.pointStart : ℚ) - last.b1 / last.a1) : ℚ),
        lastCandidate := ((P.pointStart + last.x : ℤ) : ℚ),
        peak := (candids.filter (fun c => decide (c.label = candidateLabel.peak))).map
          (fun c => ((P.pointStart + c.x : ℤ) : ℚ)),
        flatness := (candids.filter (fun c => decide (c.label = candidateLabel.peak))).map
          (fun c => c.flatnessSamples),
        distortion := (candids.filter (fun c => decide (c.label = candidateLabel.peak))).map
          (fun c => c.distortion),
        skewness := (candids.filter (fun c => decide (c.label = candidateLabel.peak))).map
          (fun c => c.skewness),
        rulesHit := hits } ∧
      ((candids.filter (fun c => decide (c.label = candidateLabel.peak))).map
        (fun c => ((P.pointStart + c.x : ℤ) : ℚ))).Pairwise (fun a b => a < b) :=
  ⟨delineator_of_peak_survivors hs hp hf hl,
    ordered_x_ascending ((survivors_ordered hs).restrict (List.filter_sublist _)) _⟩

set_option maxRecDepth 100000 in
/-- Witness of C4: the synthetic bell wave, whose single surviving candidate is
`bellCandidate`. -/

theorem delineator_output_witness :
    delineator libm0 bellWave {} = some
      { on_ := (cround (((0 : ℤ) : ℚ) - bellCandidate.b0 / bellCandidate.a0) : ℚ),
        off := (cround (((0 : ℤ) : ℚ) - bellCandidate.b1 / bellCandidate.a1) : ℚ),
        lastCandidate := ((0 + bellCandidate.x : ℤ) : ℚ),
        peak := ([bellCandidate].filter (fun c => decide (c.label = candidateLabel.peak))).map
          (fun c => ((0 + c.x : ℤ) : ℚ)),
        flatness := ([bellCandidate].filter (fun c => decide (c.label = candidateLabel.peak))).map
          (fun c => c.flatnessSamples),
        distortion := ([bellCandidate].filter (fun c => decide (c.label = candidateLabel.peak))).map
          (fun c => c.distortion),
        skewness := ([bellCandidate].filter (fun c => decide (c.label = candidateLabel.peak))).map
          (fun c => c.skewness),
        rulesHit := bellHits } ∧
      (([bellCandidate].filter (fun c => decide (c.label = candidateLabel.peak))).map
        (fun c => ((0 + c.x : ℤ) : ℚ))).Pairwise (fun a b => a < b) :=
  delineator_output libm0 bellWave {} [bellCandidate] bellHits bellCandidate bellCandidate
    survivors_bellWave (by decide) rfl rfl (by decide!) (by decide!)

theorem dropIndices_of_lt {α : Type} (idx : List ℤ) (l : List α) (k : ℕ)
    (h : ∀ a ∈ idx, (k : ℤ) + l.length ≤ a) : dropIndices idx k l = l := by
  induction l generalizing k with
  | nil => rfl
  | cons b bs ih =>
    unfold dropIndices
    have hk : ¬ (k : ℤ) ∈ idx := by
      intro hm
      have := h _ hm
      simp only [List.length_cons, Nat.cast_add, Nat.cast_one] at this
      omega
    rw [if_neg hk, ih (k + 1)]
    intro a ha
    have := h a ha
    simp only [List.length_cons, Nat.cast_add, Nat.cast_one] at this ⊢
    omega

theorem dropIndices_cons_of_lt {α : Type} (a : ℤ) (rest : List ℤ) (l : List α) (k : ℕ)
    (h : a < k) : dropIndices (a :: rest) k l = dropIndices rest k l := by
  induction l generalizing k with
  | nil => rfl
  | cons b bs ih =>
    unfold dropIndices
    have hne : (k : ℤ) ≠ a := by omega
    simp only [List.mem_cons, hne, false_or]
    rw [ih (k + 1) (by push_cast; omega)]

theorem dropIndices_split {α : Type} (a : ℤ) (rest : List ℤ) (l : List α) (k d : ℕ)
    (ha : a = (k : ℤ) + d) (hd : d < l.length) (hrest : ∀ b ∈ rest, a < b) :
    dropIndices (a :: rest) k l = l.take d ++ dropIndices rest (k + d + 1) (l.drop (d + 1)) := by
  induction d generalizing k l with
  | zero =>
    cases l with
    | nil => simp at hd
    | cons b bs =>
      rw [dropIndices]
      have hk : (k : ℤ) ∈ a :: rest := by simp [ha]
      rw [if_pos hk]
      simp only [List.take_zero, List.nil_append, zero_add, List.drop_succ_cons, List.drop_zero,
        add_zero]
      exact dropIndices_cons_of_lt a rest bs (k + 1) (by push_cast; omega)
  | succ d ih =>
    cases l with
    | nil => simp at hd
    | cons b bs =>
      rw [dropIndices]
      have ha2 : a = (k : ℤ) + d + 1 := by rw [ha]; push_cast; ring
      have hk : ¬ (k : ℤ) ∈ a :: rest := by
        simp only [List.mem_cons, not_or]
        refine ⟨by omega, fun hm => ?_⟩
        have := hrest _ hm
        omega
      rw [if_neg hk]
      simp only [List.take_succ_cons, List.cons_append, List.drop_succ_cons, List.cons.injEq,
        true_and]
      have hd2 : d < bs.length := by simp only [List.length_cons] at hd; omega
      have := ih bs (k + 1) (by push_cast; omega) hd2
      rw [this]
      congr 2
      omega

theorem cleanUpLoop_dropIndices (idx : List ℤ) :
    ∀ (i : ℕ) (pre post : List candidate), idx.Pairwise (fun a b => a < b) →
      (∀ a ∈ idx, ((pre.length + i : ℕ) : ℤ) ≤ a ∧ a < ((pre.length + i + post.length : ℕ) : ℤ)) →
      cleanUpLoop idx i (pre ++ post) = some (pre ++ dropIndices idx (pre.length + i) post) := by
  induction idx with
  | nil =>
    intro i pre post _ _
    rw [dropIndices_of_lt [] post _ (by simp)]
    rfl
  | cons a rest ih =>
    intro i pre post hpw hb
    obtain ⟨hlo, hhi⟩ := hb a (List.mem_cons_self _ _)
    obtain ⟨d, hd⟩ : ∃ d : ℕ, a = ((pre.length + i : ℕ) : ℤ) + d :=
      ⟨(a - ((pre.length + i : ℕ) : ℤ)).toNat, by omega⟩
    have hdlt : d < post.length := by push_cast at hd hhi; omega
    have hrest : ∀ b ∈ rest, a < b := (List.pairwise_cons.1 hpw).1
    have he : vecErase (pre ++ post) (a - (i : ℤ)) =
        some ((pre ++ post.take d) ++ post.drop (d + 1)) := by
      unfold vecErase
      have hpos : (a - (i : ℤ)).toNat = pre.length + d := by push_cast at hd; omega
      rw [if_pos (by simp only [List.length_append]; push_cast at hd ⊢; omega), hpos]
      congr 1
      rw [List.eraseIdx_append_of_length_le (by omega), List.append_assoc]
      congr 1
      rw [List.eraseIdx_eq_take_drop_succ]
      simp
    simp only [cleanUpLoop, he]
    have hlen : (pre ++ post.take d).length = pre.length + d := by
      simp only [List.length_append, List.length_take]; omega
    have hk : (pre ++ post.take d).length + (i + 1) = pre.length + i + d + 1 := by
      rw [hlen]; omega
    rw [ih (i + 1) (pre ++ post.take d) (post.drop (d + 1)) (List.pairwise_cons.1 hpw).2, hk,
      dropIndices_split a rest post (pre.length + i) d hd hdlt hrest, List.append_assoc]
    · intro b hbm
      have h1 := hrest b hbm
      have h2 := (hb b (List.mem_cons_of_mem _ hbm)).2
      rw [hlen]
      simp only [List.length_drop]
      push_cast at hd h2 ⊢
      omega

/-- C30: for every candidate list and every strictly increasing list of valid
indices into it, `cleanUpCandidates` returns, and leaves exactly the candidates
whose positions are not in the index list, in their original order, with an
empty index list. -/
theorem cleanUpCandidates_spec (candids : List candidate) (indexCandidates : List ℤ)
    (hinc : indexCandidates.Pairwise (fun a b => a < b))
    (hvalid : ∀ a ∈ indexCandidates, 0 ≤ a ∧ a < candids.length) :
    cleanUpCandidates candids indexCandidates =
      some (dropIndices indexCandidates 0 candids, []) := by
  have h := cleanUpLoop_dropIndices indexCandidates 0 [] candids hinc
    (by intro a ha; simpa using hvalid a ha)
  simp only [List.nil_append, List.length_nil, add_zero] at h
  simp only [cleanUpCandidates, h]

set_option maxRecDepth 100000 in
theorem cleanUpCandidates_spec_witness :
    cleanUpCandidates threePeaks [0, 2] =
      some ([{ label := candidateLabel.peak, y := 9 }, { label := candidateLabel.peak, y := 7 }],
        []) :=
  (cleanUpCandidates_spec threePeaks [0, 2] (by decide) (by decide)).trans (by decide!)

theorem foldl_max_ge (l : List ℚ) (a : ℚ) :
    a ≤ l.foldl max a ∧ (∀ u ∈ l, u ≤ l.foldl max a) ∧ (l.foldl max a = a ∨ l.foldl max a ∈ l) := by
  induction l generalizing a with
  | nil => simp
  | cons b bs ih =>
    simp only [List.foldl_cons, List.mem_cons, forall_eq_or_imp]
    obtain ⟨h1, h2, h3⟩ := ih (max a b)
    refine ⟨le_trans (le_max_left a b) h1, ⟨le_trans (le_max_right a b) h1, h2⟩, ?_⟩
    rcases h3 with h3 | h3
    · rcases max_choice a b with hc | hc
      · left; rw [h3, hc]
      · right; left; rw [h3, hc]
    · right; right; exact h3

theorem vecMax_spec {v : List ℚ} {vmax : ℚ} (h : vecMax v = some vmax) :
    vmax ∈ v ∧ ∀ u ∈ v, u ≤ vmax := by
  cases v with
  | nil => simp [vecMax] at h
  | cons a as =>
    simp only [vecMax, Option.some.injEq] at h
    subst h
    obtain ⟨h1, h2, h3⟩ := foldl_max_ge as a
    refine ⟨?_, ?_⟩
    · rcases h3 with h3 | h3
      · rw [h3]; exact List.mem_cons_self _ _
      · exact List.mem_cons_of_mem _ h3
    · intro u hu
      rcases List.mem_cons.1 hu with rfl | hu
      · exact h1
      · exact h2 u hu

theorem vecMax_isSome {v : List ℚ} (h : v ≠ []) : ∃ vmax, vecMax v = some vmax := by
  cases v with
  | nil => exact absurd rfl h
  | cons a as => exact ⟨_, rfl⟩

theorem cround_half (n : ℕ) : cround ((n : ℚ) / 2) = ⌈(n : ℚ) / 2⌉ := by
  unfold cround
  rw [if_pos (by positivity)]
  obtain ⟨k, hk | hk⟩ := Nat.even_or_odd' n
  · subst hk
    have h1 : ((2 * k : ℕ) : ℚ) / 2 = (k : ℤ) := by push_cast; ring
    rw [h1, Int.ceil_intCast, Int.floor_eq_iff]
    constructor <;> linarith
  · subst hk
    have h1 : ((2 * k + 1 : ℕ) : ℚ) / 2 = ((k : ℤ) : ℚ) + 1 / 2 := by push_cast; ring
    rw [h1]
    have e : ⌈((k : ℤ) : ℚ) + 1 / 2⌉ = (k : ℤ) + 1 := by
      rw [Int.ceil_eq_iff]; push_cast; constructor <;> linarith
    rw [e, Int.floor_eq_iff]
    push_cast
    constructor <;> linarith

/-- C22: for every non-empty wave segment and `deltaAmplitude ≥ 0`, `peakFinder`
returns; `flatness` is the number `n ≥ 1` of samples with
`wave[i] ≥ max(wave) - deltaAmplitude`, `x` is the `⌈n/2⌉`-th of those indices in
ascending order and `y = wave[x] ≥ max(wave) - deltaAmplitude`. -/
theorem peakFinder_spec (wave : List ℚ) (deltaAmplitude : ℚ) (hne : wave ≠ [])
    (hdelta : 0 ≤ deltaAmplitude) :
    ∃ (wmax : ℚ) (indexPeaks : List ℤ) (x : ℤ) (y : ℚ),
      (wmax ∈ wave ∧ ∀ v ∈ wave, v ≤ wmax) ∧
      indexPeaks.Pairwise (fun a b => a < b) ∧
      (∀ i, i ∈ indexPeaks ↔ ∃ v, vecAt wave i = some v ∧ wmax - deltaAmplitude ≤ v) ∧
      1 ≤ indexPeaks.length ∧
      vecAt indexPeaks (⌈(indexPeaks.length : ℚ) / 2⌉ - 1) = some x ∧
      vecAt wave x = some y ∧ wmax - deltaAmplitude ≤ y ∧
      peakFinder wave deltaAmplitude = some (x, y, (indexPeaks.length : ℤ)) := by
  obtain ⟨wmax, hmax⟩ := vecMax_isSome hne
  obtain ⟨hmem, hle⟩ := vecMax_spec hmax
  have hiff : ∀ i, i ∈ indicesWhere (fun v => decide (v ≥ wmax - deltaAmplitude)) wave ↔
      ∃ v, vecAt wave i = some v ∧ wmax - deltaAmplitude ≤ v := by
    intro i
    constructor
    · intro hi
      obtain ⟨a, ha, hpa⟩ := indicesFrom_mem _ wave 0 i hi
      simp only [Nat.cast_zero, sub_zero] at ha
      exact ⟨a, ha, by simpa using hpa⟩
    · rintro ⟨v, hv, hge⟩
      exact mem_indicesFrom_of_vecAt _ wave 0 i v (by simpa using hv) (by simpa using hge)
  have hnil : indicesWhere (fun v => decide (v ≥ wmax - deltaAmplitude)) wave ≠ [] :=
    indicesFrom_ne_nil _ wave 0 ⟨wmax, hmem, by simp only [ge_iff_le, decide_eq_true_eq]; linarith⟩
  generalize hidx : indicesWhere (fun v => decide (v ≥ wmax - deltaAmplitude)) wave = idx at hiff hnil
  have hpos : 1 ≤ idx.length := by
    cases idx with
    | nil => exact absurd rfl hnil
    | cons a as => simp
  have hceil1 : 1 ≤ ⌈(idx.length : ℚ) / 2⌉ := by
    rw [Int.one_le_ceil_iff]
    have : (1 : ℚ) ≤ idx.length := by exact_mod_cast hpos
    linarith
  have hceil2 : ⌈(idx.length : ℚ) / 2⌉ ≤ idx.length := by
    rw [Int.ceil_le]
    have : (1 : ℚ) ≤ idx.length := by exact_mod_cast hpos
    push_cast
    linarith
  obtain ⟨x, hx, _⟩ := vecAt_of_lt idx (⌈(idx.length : ℚ) / 2⌉ - 1) (by omega) (by omega)
  obtain ⟨y, hy, hge⟩ := (hiff x).1 (vecAt_mem hx)
  refine ⟨wmax, idx, x, y, ⟨hmem, hle⟩, ?_, hiff, hpos, hx, hy, hge, ?_⟩
  · rw [← hidx]; exact indicesFrom_pairwise _ wave 0
  · have hm : max 0 (cround ((idx.length : ℚ) / 2) - 1) = ⌈(idx.length : ℚ) / 2⌉ - 1 := by
      rw [cround_half]; exact max_eq_right (by omega)
    simp only [peakFinder, hmax, Option.bind_eq_bind, Option.some_bind, hidx, hm, hx, hy]

set_option maxRecDepth 100000 in
theorem peakFinder_spec_witness :
    ∃ (wmax : ℚ) (indexPeaks : List ℤ) (x : ℤ) (y : ℚ),
      (wmax ∈ [1, 9, 7, 8, 2] ∧ ∀ v ∈ [1, 9, 7, 8, 2], v ≤ wmax) ∧
      indexPeaks.Pairwise (fun a b => a < b) ∧
      (∀ i, i ∈ indexPeaks ↔ ∃ v, vecAt [1, 9, 7, 8, 2] i = some v ∧ wmax - 2 ≤ v) ∧
      1 ≤ indexPeaks.length ∧
      vecAt indexPeaks (⌈(indexPeaks.length : ℚ) / 2⌉ - 1) = some x ∧
      vecAt [1, 9, 7, 8, 2] x = some y ∧ wmax - 2 ≤ y ∧
      peakFinder [1, 9, 7, 8, 2] 2 = some (x, y, (indexPeaks.length : ℤ)) :=
  peakFinder_spec [1, 9, 7, 8, 2] 2 (by simp) (by norm_num)

theorem accu_eq_sum (v : List ℚ) : accu v = v.sum := by
  have h : ∀ (l : List ℚ) (z : ℚ), l.foldl (fun s a => s + a) z = z + l.sum := by
    intro l
    induction l with
    | nil => intro z; simp
    | cons a as ih => intro z; simp only [List.foldl_cons, List.sum_cons, ih]; ring
  unfold accu
  rw [h, zero_add]

theorem linspace_eq (l : ℤ) (n : ℕ) :
    linspace l (l + n - 1) = (List.range n).map (fun (k : ℕ) => (l : ℚ) + (k : ℚ)) := by
  unfold linspace
  have h : (l + n - 1 - l + 1).toNat = n := by omega
  rw [h]
  have hm : ∀ L : List ℕ, (do let a ← L; pure (a : ℤ)) = L.map (fun (a : ℕ) => (a : ℤ)) := by
    intro L
    induction L with
    | nil => rfl
    | cons a as ih => simpa using ih
  rw [hm, List.map_map]
  apply List.map_congr_left
  intro k _
  simp

theorem linspace_length (l : ℤ) (n : ℕ) : (linspace l (l + n - 1)).length = n := by
  rw [linspace_eq, List.length_map, List.length_range]

theorem linspace_sum (l : ℤ) (n : ℕ) :
    (linspace l (l + n - 1)).sum = n * (l : ℚ) + (n : ℚ) * (n - 1) / 2 := by
  rw [linspace_eq]
  induction n with
  | zero => simp
  | succ n ih =>
    rw [List.range_succ, List.map_append, List.sum_append, ih]
    simp only [List.map_cons, List.map_nil, List.sum_cons, List.sum_nil]
    push_cast
    ring

theorem linspace_sum_sq (l : ℤ) (n : ℕ) :
    ((linspace l (l + n - 1)).map (fun v => v ^ 2)).sum =
      n * (l : ℚ) ^ 2 + (l : ℚ) * n * (n - 1) + ((n : ℚ) - 1) * n * (2 * n - 1) / 6 := by
  rw [linspace_eq]
  induction n with
  | zero => simp
  | succ n ih =>
    rw [List.range_succ, List.map_append, List.map_append, List.sum_append, ih]
    simp only [List.map_cons, List.map_nil, List.sum_cons, List.sum_nil]
    push_cast
    ring

/-- The regression denominator on `n` consecutive integer abscissae. -/
theorem linspace_divisor (l : ℤ) (n : ℕ) :
    (n : ℚ) * ((linspace l (l + n - 1)).map (fun v => v ^ 2)).sum -
      ((linspace l (l + n - 1)).sum) ^ 2 = (n : ℚ) ^ 2 * ((n : ℚ) ^ 2 - 1) / 12 := by
  rw [linspace_sum, linspace_sum_sq]
  ring

theorem zipWith_sq_split {K : Type} [Field K] (xs ys : List ℚ) (a b a' b' : K) :
    (List.zipWith (fun (x y : ℚ) => ((y : K) - a' * (x : K) - b') ^ 2) xs ys).sum =
      (List.zipWith (fun (x y : ℚ) => ((y : K) - a * (x : K) - b) ^ 2) xs ys).sum +
      2 * ((a - a') * (List.zipWith (fun (x y : ℚ) => (x : K) * ((y : K) - a * (x : K) - b)) xs ys).sum
        + (b - b') * (List.zipWith (fun (x y : ℚ) => (y : K) - a * (x : K) - b) xs ys).sum) +
      (List.zipWith (fun (x _y : ℚ) => ((a - a') * (x : K) + (b - b')) ^ 2) xs ys).sum := by
  induction xs generalizing ys with
  | nil => simp
  | cons x xs ih =>
    cases ys with
    | nil => simp
    | cons y ys =>
      simp only [List.zipWith_cons_cons, List.sum_cons, ih ys]
      ring

theorem zipWith_sq_nonneg {K : Type} [LinearOrderedField K] (f : ℚ → ℚ → K) (xs ys : List ℚ) :
    0 ≤ (List.zipWith (fun (x y : ℚ) => (f x y) ^ 2) xs ys).sum := by
  induction xs generalizing ys with
  | nil => simp
  | cons x xs ih =>
    cases ys with
    | nil => simp
    | cons y ys =>
      simp only [List.zipWith_cons_cons, List.sum_cons]
      exact add_nonneg (sq_nonneg _) (ih ys)

theorem zipWith_cast_sum {K : Type} [Field K] [CharZero K] (g : ℚ → ℚ → ℚ) (xs ys : List ℚ) :
    (List.zipWith (fun (x y : ℚ) => ((g x y : ℚ) : K)) xs ys).sum =
      (((List.zipWith g xs ys).sum : ℚ) : K) := by
  induction xs generalizing ys with
  | nil => simp
  | cons x xs ih =>
    cases ys with
    | nil => simp
    | cons y ys =>
      simp only [List.zipWith_cons_cons, List.sum_cons, ih ys]
      push_cast
      rfl

theorem zipWith_residual_sum (xs ys : List ℚ) (h : xs.length = ys.length) (a b : ℚ) :
    (List.zipWith (fun (x y : ℚ) => y - a * x - b) xs ys).sum =
      ys.sum - a * xs.sum - (xs.length : ℚ) * b ∧
    (List.zipWith (fun (x y : ℚ) => x * (y - a * x - b)) xs ys).sum =
      (List.zipWith (fun p q => p * q) xs ys).sum - a * (xs.map (fun v => v ^ 2)).sum -
        b * xs.sum := by
  induction xs generalizing ys with
  | nil =>
    have : ys = [] := List.length_eq_zero.1 h.symm
    subst this
    simp
  | cons x xs ih =>
    cases ys with
    | nil => simp at h
    | cons y ys =>
      simp only [List.length_cons, add_left_inj] at h
      obtain ⟨h1, h2⟩ := ih ys h
      simp only [List.zipWith_cons_cons, List.sum_cons, List.map_cons, List.length_cons, h1, h2]
      push_cast
      constructor <;> ring

/-- A line satisfying the two normal equations minimises the squared error. -/
theorem squaredError_min {K : Type} [LinearOrderedField K] (xs ys : List ℚ) (a b : ℚ)
    (h1 : (List.zipWith (fun (x y : ℚ) => y - a * x - b) xs ys).sum = 0)
    (h2 : (List.zipWith (fun (x y : ℚ) => x * (y - a * x - b)) xs ys).sum = 0) (a' b' : K) :
    (List.zipWith (fun (x y : ℚ) => ((y : K) - (a : K) * (x : K) - (b : K)) ^ 2) xs ys).sum ≤
      (List.zipWith (fun (x y : ℚ) => ((y : K) - a' * (x : K) - b') ^ 2) xs ys).sum := by
  rw [zipWith_sq_split xs ys (a : K) (b : K) a' b']
  have e1 : (List.zipWith (fun (x y : ℚ) => (y : K) - (a : K) * (x : K) - (b : K)) xs ys).sum = 0 := by
    have := @zipWith_cast_sum K _ _ (fun x y => y - a * x - b) xs ys
    rw [h1] at this
    simpa using this
  have e2 : (List.zipWith (fun (x y : ℚ) => (x : K) * ((y : K) - (a : K) * (x : K) - (b : K)))
      xs ys).sum = 0 := by
    have := @zipWith_cast_sum K _ _ (fun x y => x * (y - a * x - b)) xs ys
    rw [h2] at this
    simpa using this
  rw [e1, e2]
  have := zipWith_sq_nonneg (fun (x _y : ℚ) => ((a : K) - a') * (x : K) + ((b : K) - b')) xs ys
  linarith

/-- On `n ≥ 2` samples at consecutive integer abscissae the regression takes the
branch of the quotient formulas: its denominator is `n²(n²-1)/12 ≥ 1`. -/
theorem linearRegression_eq (y : List ℚ) (leftBoundX : ℤ) (hn : 2 ≤ y.length) :
    1 ≤ (y.length : ℚ) ^ 2 * ((y.length : ℚ) ^ 2 - 1) / 12 ∧
    linearRegression y leftBoundX (leftBoundX + y.length - 1) =
      some (((y.length : ℚ) * (List.zipWith (fun p q => p * q)
            (linspace leftBoundX (leftBoundX + y.length - 1)) y).sum -
          (linspace leftBoundX (leftBoundX + y.length - 1)).sum * y.sum) /
          ((y.length : ℚ) ^ 2 * ((y.length : ℚ) ^ 2 - 1) / 12),
        (((linspace leftBoundX (leftBoundX + y.length - 1)).map (fun v => v ^ 2)).sum * y.sum -
          (linspace leftBoundX (leftBoundX + y.length - 1)).sum * (List.zipWith (fun p q => p * q)
            (linspace leftBoundX (leftBoundX + y.length - 1)) y).sum) /
          ((y.length : ℚ) ^ 2 * ((y.length : ℚ) ^ 2 - 1) / 12)) := by
  have h2 : (2 : ℚ) ≤ y.length := by exact_mod_cast hn
  have hD : 1 ≤ (y.length : ℚ) ^ 2 * ((y.length : ℚ) ^ 2 - 1) / 12 := by
    have h4 : (4 : ℚ) ≤ (y.length : ℚ) ^ 2 := by nlinarith
    have : (12 : ℚ) ≤ (y.length : ℚ) ^ 2 * ((y.length : ℚ) ^ 2 - 1) := by nlinarith
    linarith
  refine ⟨hD, ?_⟩
  have habs : |(y.length : ℚ) ^ 2 * ((y.length : ℚ) ^ 2 - 1) / 12| > 1 / 10000 := by
    rw [abs_of_nonneg (by linarith)]
    linarith
  have hs : schur (linspace leftBoundX (leftBoundX + y.length - 1)) y =
      some (List.zipWith (fun p q => p * q) (linspace leftBoundX (leftBoundX + y.length - 1)) y) := by
    unfold schur
    rw [if_pos (linspace_length _ _)]
  simp only [linearRegression, accu_eq_sum, linspace_divisor, if_pos habs, hs,
    Option.bind_eq_bind, Option.some_bind]

theorem map_line_sums (xs : List ℚ) (m c : ℚ) :
    (xs.map (fun x => m * x + c)).sum = m * xs.sum + (xs.length : ℚ) * c ∧
    (List.zipWith (fun p q => p * q) xs (xs.map (fun x => m * x + c))).sum =
      m * (xs.map (fun v => v ^ 2)).sum + c * xs.sum := by
  induction xs with
  | nil => simp
  | cons x xs ih =>
    obtain ⟨h1, h2⟩ := ih
    simp only [List.map_cons, List.sum_cons, List.zipWith_cons_cons, List.length_cons, h1, h2]
    push_cast
    constructor <;> ring

/-- In exact arithmetic `linearRegression` returns the ordinary least-squares
line of `n ≥ 2` samples at consecutive integer abscissae: its `(a, b)` minimises
the sum of the squared residuals over all real `(a', b')`, and samples lying
exactly on `y = m x + c` give `a = m` and `b = c`. -/
theorem linearRegression_exact_ols (y : List ℚ) (leftBoundX : ℤ) (hn : 2 ≤ y.length) :
    ∃ a b : ℚ, linearRegression y leftBoundX (leftBoundX + y.length - 1) = some (a, b) ∧
      (∀ a' b' : ℝ, squaredError y leftBoundX (leftBoundX + y.length - 1) (a : ℝ) (b : ℝ) ≤
        squaredError y leftBoundX (leftBoundX + y.length - 1) a' b') ∧
      (∀ m c : ℚ,
        y = (linspace leftBoundX (leftBoundX + y.length - 1)).map (fun x => m * x + c) →
        a = m ∧ b = c) := by
  obtain ⟨hD, heq⟩ := linearRegression_eq y leftBoundX hn
  refine ⟨_, _, heq, ?_, ?_⟩
  · intro a' b'
    unfold squaredError
    have hl := linspace_length leftBoundX y.length
    obtain ⟨r1, r2⟩ := zipWith_residual_sum (linspace leftBoundX (leftBoundX + y.length - 1)) y hl
      (((y.length : ℚ) * (List.zipWith (fun p q => p * q)
            (linspace leftBoundX (leftBoundX + y.length - 1)) y).sum -
          (linspace leftBoundX (leftBoundX + y.length - 1)).sum * y.sum) /
          ((y.length : ℚ) ^ 2 * ((y.length : ℚ) ^ 2 - 1) / 12))
      ((((linspace leftBoundX (leftBoundX + y.length - 1)).map (fun v => v ^ 2)).sum * y.sum -
          (linspace leftBoundX (leftBoundX + y.length - 1)).sum * (List.zipWith (fun p q => p * q)
            (linspace leftBoundX (leftBoundX + y.length - 1)) y).sum) /
          ((y.length : ℚ) ^ 2 * ((y.length : ℚ) ^ 2 - 1) / 12))
    have hdiv := linspace_divisor leftBoundX y.length
    rw [hl] at r1
    generalize (linspace leftBoundX (leftBoundX + y.length - 1)) = xs at *
    generalize (List.zipWith (fun p q => p * q) xs y).sum = Sxy at *
    generalize (xs.map (fun v => v ^ 2)).sum = Sxx at *
    generalize hSx : xs.sum = Sx at *
    generalize hSy : y.sum = Sy at *
    generalize hDv : (y.length : ℚ) ^ 2 * ((y.length : ℚ) ^ 2 - 1) / 12 = D at *
    have hD0 : D ≠ 0 := by linarith
    have e1 : Sy - ((y.length : ℚ) * Sxy - Sx * Sy) / D * Sx -
        (y.length : ℚ) * ((Sxx * Sy - Sx * Sxy) / D) = 0 := by
      field_simp
      rw [← hdiv]
      ring
    have e2 : Sxy - ((y.length : ℚ) * Sxy - Sx * Sy) / D * Sxx -
        (Sxx * Sy - Sx * Sxy) / D * Sx = 0 := by
      field_simp
      rw [← hdiv]
      ring
    exact squaredError_min xs y _ _ (r1.trans e1) (r2.trans e2) a' b'
  · intro m c hy
    obtain ⟨s1, s2⟩ := map_line_sums (linspace leftBoundX (leftBoundX + y.length - 1)) m c
    have hdiv := linspace_divisor leftBoundX y.length
    rw [linspace_length] at s1
    rw [← hy] at s1 s2
    rw [s1, s2]
    generalize (linspace leftBoundX (leftBoundX + y.length - 1)).sum = Sx at *
    generalize ((linspace leftBoundX (leftBoundX + y.length - 1)).map (fun v => v ^ 2)).sum = Sxx at *
    generalize hDv : (y.length : ℚ) ^ 2 * ((y.length : ℚ) ^ 2 - 1) / 12 = D at *
    have hD0 : D ≠ 0 := by linarith
    constructor
    · field_simp
      rw [← hdiv]
      ring
    · field_simp
      rw [← hdiv]
      ring

theorem accuDoubleLoop_eq : ∀ (n : ℕ) (l : List ℚ), l.length ≤ n → ∀ acc1 acc2 : ℚ,
    (∀ v ∈ accuValuesLoop acc1 acc2 l, roundDouble v = v) →
      accuDoubleLoop acc1 acc2 l = acc1 + acc2 + l.sum := by
  intro n
  induction n with
  | zero =>
    intro l hl acc1 acc2 h
    have : l = [] := List.length_eq_zero.1 (Nat.le_zero.1 hl)
    subst this
    simp only [accuDoubleLoop, List.sum_nil, add_zero]
    exact h _ (by simp [accuValuesLoop])
  | succ n ih =>
    intro l hl acc1 acc2 h
    match l, hl, h with
    | [], _, h =>
      simp only [accuDoubleLoop, List.sum_nil, add_zero]
      exact h _ (by simp [accuValuesLoop])
    | [a], _, h =>
      simp only [accuDoubleLoop, List.sum_cons, List.sum_nil, add_zero]
      rw [h (acc1 + a) (by simp [accuValuesLoop]), h (acc1 + a + acc2) (by simp [accuValuesLoop])]
      ring
    | a :: b :: rest, hl, h =>
      simp only [accuDoubleLoop, List.sum_cons]
      rw [h (acc1 + a) (by simp [accuValuesLoop]), h (acc2 + b) (by simp [accuValuesLoop]),
        ih rest (by simp only [List.length_cons] at hl; omega) (acc1 + a) (acc2 + b)
          (fun v hv => h v (by simp [accuValuesLoop, hv]))]
      ring

theorem accuDouble_eq (l : List ℚ) (h : ∀ v ∈ accuValuesLoop 0 0 l, roundDouble v = v) :
    accuDouble l = accu l := by
  unfold accuDouble
  rw [accuDoubleLoop_eq l.length l (le_refl _) 0 0 h, accu_eq_sum]
  ring

set_option maxRecDepth 100000 in
theorem roundDouble_guard : roundDouble (1 / 10000) < 1 := by decide!

/-- When no operation rounds, the `double` computation of `linearRegression` is
the exact one. -/
theorem linearRegressionDouble_eq (y : List ℚ) (leftBoundX : ℤ) (hn : 2 ≤ y.length)
    (hexact : ∀ v ∈ regressionValues y leftBoundX (leftBoundX + y.length - 1),
      roundDouble v = v) :
    linearRegressionDouble y leftBoundX (leftBoundX + y.length - 1) =
      linearRegression y leftBoundX (leftBoundX + y.length - 1) := by
  obtain ⟨hD, -⟩ := linearRegression_eq y leftBoundX hn
  have hdiv := linspace_divisor leftBoundX y.length
  have hs : schur (linspace leftBoundX (leftBoundX + y.length - 1)) y =
      some (List.zipWith (fun p q => p * q) (linspace leftBoundX (leftBoundX + y.length - 1)) y) := by
    unfold schur
    rw [if_pos (linspace_length _ _)]
  unfold regressionValues at hexact
  unfold linearRegressionDouble linearRegression
  simp only [List.mem_append, List.mem_cons, List.mem_singleton, List.not_mem_nil, or_false] at hexact
  generalize linspace leftBoundX (leftBoundX + y.length - 1) = x at *
  have hA : ∀ v ∈ x.map (fun v => v ^ 2), roundDouble v = v :=
    fun v hv => hexact v (Or.inl (Or.inl (Or.inl (Or.inl (Or.inl (Or.inl hv))))))
  have hB : ∀ v ∈ accuValuesLoop 0 0 x, roundDouble v = v :=
    fun v hv => hexact v (Or.inl (Or.inl (Or.inl (Or.inl (Or.inl (Or.inr hv))))))
  have hC : ∀ v ∈ accuValuesLoop 0 0 (x.map (fun v => v ^ 2)), roundDouble v = v :=
    fun v hv => hexact v (Or.inl (Or.inl (Or.inl (Or.inl (Or.inr hv)))))
  have hE : ∀ v ∈ List.zipWith (fun p q => p * q) x y, roundDouble v = v :=
    fun v hv => hexact v (Or.inl (Or.inl (Or.inl (Or.inr hv))))
  have hF : ∀ v ∈ accuValuesLoop 0 0 (List.zipWith (fun p q => p * q) x y), roundDouble v = v :=
    fun v hv => hexact v (Or.inl (Or.inl (Or.inr hv)))
  have hG : ∀ v ∈ accuValuesLoop 0 0 y, roundDouble v = v :=
    fun v hv => hexact v (Or.inl (Or.inr hv))
  have hK : ∀ v, (v = ↑y.length * accu (List.map (fun v => v ^ 2) x) ∨
      v = accu x ^ 2 ∨
      v = ↑y.length * accu (List.map (fun v => v ^ 2) x) - accu x ^ 2 ∨
      v = ↑y.length * accu (List.zipWith (fun a b => a * b) x y) ∨
      v = accu x * accu y ∨
      v = ↑y.length * accu (List.zipWith (fun a b => a * b) x y) - accu x * accu y ∨
      v = (↑y.length * accu (List.zipWith (fun a b => a * b) x y) - accu x * accu y) /
            (↑y.length * accu (List.map (fun v => v ^ 2) x) - accu x ^ 2) ∨
      v = accu (List.map (fun v => v ^ 2) x) * accu y ∨
      v = accu x * accu (List.zipWith (fun a b => a * b) x y) ∨
      v = accu (List.map (fun v => v ^ 2) x) * accu y -
            accu x * accu (List.zipWith (fun a b => a * b) x y) ∨
      v = (accu (List.map (fun v => v ^ 2) x) * accu y -
            accu x * accu (List.zipWith (fun a b => a * b) x y)) /
          (↑y.length * accu (List.map (fun v => v ^ 2) x) - accu x ^ 2)) → roundDouble v = v :=
    fun v hv => hexact v (Or.inr hv)
  clear hexact
  have h1 : x.map (fun v => roundDouble (v ^ 2)) = x.map (fun v => v ^ 2) :=
    List.map_congr_left (fun v hv => hA _ (List.mem_map_of_mem _ hv))
  have h2 : accuDouble x = accu x := accuDouble_eq x hB
  have h3 : accuDouble (x.map (fun v => v ^ 2)) = accu (x.map (fun v => v ^ 2)) :=
    accuDouble_eq _ hC
  have h4 : (List.zipWith (fun p q => p * q) x y).map roundDouble =
      List.zipWith (fun p q => p * q) x y := by
    conv_rhs => rw [← List.map_id (List.zipWith (fun p q => p * q) x y)]
    exact List.map_congr_left (fun v hv => hE v hv)
  have h5 : accuDouble (List.zipWith (fun p q => p * q) x y) =
      accu (List.zipWith (fun p q => p * q) x y) := accuDouble_eq _ hF
  have h6 : accuDouble y = accu y := accuDouble_eq y hG
  have hg : |(y.length : ℚ) * accu (x.map (fun v => v ^ 2)) - accu x ^ 2| >
      roundDouble (1 / 10000) := by
    rw [accu_eq_sum, accu_eq_sum, hdiv, abs_of_nonneg (by linarith)]
    have := roundDouble_guard
    linarith
  have hg2 : |(y.length : ℚ) * accu (x.map (fun v => v ^ 2)) - accu x ^ 2| > 1 / 10000 := by
    rw [accu_eq_sum, accu_eq_sum, hdiv, abs_of_nonneg (by linarith)]
    linarith
  simp only [h1, h2, h3, Option.bind_eq_bind, hs, Option.map_some', Option.some_bind, h4, h5, h6]
  rw [hK (y.length * accu (x.map (fun v => v ^ 2))) (by simp),
    hK (accu x ^ 2) (by simp),
    hK (y.length * accu (x.map (fun v => v ^ 2)) - accu x ^ 2) (by simp),
    if_pos hg, if_pos hg2,
    hK (y.length * accu (List.zipWith (fun p q => p * q) x y)) (by simp),
    hK (accu x * accu y) (by simp),
    hK (y.length * accu (List.zipWith (fun p q => p * q) x y) - accu x * accu y) (by simp),
    hK (accu (x.map (fun v => v ^ 2)) * accu y) (by simp),
    hK (accu x * accu (List.zipWith (fun p q => p * q) x y)) (by simp),
    hK (accu (x.map (fun v => v ^ 2)) * accu y -
      accu x * accu (List.zipWith (fun p q => p * q) x y)) (by simp)]
  rw [hK ((↑y.length * accu (List.zipWith (fun a b => a * b) x y) - accu x * accu y) /
            (↑y.length * accu (List.map (fun v => v ^ 2) x) - accu x ^ 2)) (by simp),
    hK ((accu (List.map (fun v => v ^ 2) x) * accu y -
            accu x * accu (List.zipWith (fun a b => a * b) x y)) /
          (↑y.length * accu (List.map (fun v => v ^ 2) x) - accu x ^ 2)) (by simp)]


set_option maxRecDepth 100000 in
theorem linearRegressionDouble_tenth :
    linearRegressionDouble [0, tenth, 2 * tenth] 0 2 =
      some (900719925474099 / 9007199254740992,
        6004799503160661 / 162259276829213363391578010288128) := by decide!

set_option maxRecDepth 100000 in
/-- C21 (counterexample): `tenth` is the `double` nearest to 0.1, and the three
samples `0, tenth, 2 tenth` are `double`s that lie exactly on the line
`y = tenth x + 0` at the abscissae 0, 1, 2. In `double` arithmetic
`linearRegression` returns the slope `0.09999999999999998` (two units in the
last place below `tenth`) and the intercept `3.7e-17`: not the slope and the
intercept of that line, and not a minimiser of the squared error, which is 0
on the line and positive on the returned pair. The four sums of the
computation are the same when the elements are added one after the other
instead of alternately to two partial sums. -/
theorem linearRegressionDouble_collinear_counterexample :
    roundDouble (1 / 10) = tenth ∧
    (∀ v ∈ [0, tenth, 2 * tenth], roundDouble v = v) ∧
    (∀ v ∈ [[0, 1, 2], [0, 1, 4], [0, tenth, 4 * tenth], [0, tenth, 2 * tenth]],
      accuDouble v = v.foldl (fun s a => roundDouble (s + a)) 0) ∧
    [0, tenth, 2 * tenth] = (linspace 0 2).map (fun x => tenth * x + 0) ∧
    linearRegressionDouble [0, tenth, 2 * tenth] 0 2 =
      some (900719925474099 / 9007199254740992,
        6004799503160661 / 162259276829213363391578010288128) ∧
    (900719925474099 / 9007199254740992 : ℚ) ≠ tenth ∧
    (6004799503160661 / 162259276829213363391578010288128 : ℚ) ≠ 0 ∧
    squaredError [0, tenth, 2 * tenth] 0 2 tenth (0 : ℚ) <
      squaredError [0, tenth, 2 * tenth] 0 2 (900719925474099 / 9007199254740992 : ℚ)
        (6004799503160661 / 162259276829213363391578010288128 : ℚ) := by
  refine ⟨by decide!, by decide!, by decide!, by decide!, linearRegressionDouble_tenth, by decide!, by decide!,
    by decide!⟩

/-- C21 (amended): on `n ≥ 2` samples `y` at the consecutive integer abscissae
`leftBoundX .. rightBoundX`, when no operation of the computation rounds (the
exact value of every square, product, partial sum, difference and quotient is
a `double`), `linearRegression` in `double` arithmetic returns the ordinary
least-squares line: its `(a, b)` minimises the sum of the squared residuals
over all real `(a', b')`, and samples lying exactly on `y = m x + c` give
`a = m` and `b = c`. -/
theorem linearRegressionDouble_least_squares (y : List ℚ) (leftBoundX : ℤ)
    (hn : 2 ≤ y.length)
    (hexact : ∀ v ∈ regressionValues y leftBoundX (leftBoundX + y.length - 1),
      roundDouble v = v) :
    ∃ a b : ℚ, linearRegressionDouble y leftBoundX (leftBoundX + y.length - 1) = some (a, b) ∧
      (∀ a' b' : ℝ, squaredError y leftBoundX (leftBoundX + y.length - 1) (a : ℝ) (b : ℝ) ≤
        squaredError y leftBoundX (leftBoundX + y.length - 1) a' b') ∧
      (∀ m c : ℚ,
        y = (linspace leftBoundX (leftBoundX + y.length - 1)).map (fun x => m * x + c) →
        a = m ∧ b = c) := by
  rw [linearRegressionDouble_eq y leftBoundX hn hexact]
  exact linearRegression_exact_ols y leftBoundX hn

set_option maxRecDepth 100000 in
/-- Witness of C21 (amended): the samples 1, 3, 2 at the abscissae 4, 5, 6; all
values of the computation are integers or halves. -/
theorem linearRegressionDouble_least_squares_witness :
    ∃ a b : ℚ, linearRegressionDouble [1, 3, 2] 4 (4 + ([1, 3, 2] : List ℚ).length - 1) =
        some (a, b) ∧
      (∀ a' b' : ℝ, squaredError [1, 3, 2] 4 (4 + ([1, 3, 2] : List ℚ).length - 1) (a : ℝ) (b : ℝ) ≤
        squaredError [1, 3, 2] 4 (4 + ([1, 3, 2] : List ℚ).length - 1) a' b') ∧
      (∀ m c : ℚ,
        [1, 3, 2] = (linspace 4 (4 + ([1, 3, 2] : List ℚ).length - 1)).map (fun x => m * x + c) →
        a = m ∧ b = c) :=
  linearRegressionDouble_least_squares [1, 3, 2] 4 (by decide) (by decide!)

theorem indicesFrom_take_one {α : Type} (p : α → Bool) (v : List α) (k : ℕ)
    (h : ∃ a ∈ v, p a = true) :
    ∃ (i : ℕ) (a : α), (indicesFrom p k v).take 1 = [((k + i : ℕ) : ℤ)] ∧ v[i]? = some a ∧
      p a = true ∧ ∀ (j : ℕ) (b : α), j < i → v[j]? = some b → p b = false := by
  induction v generalizing k with
  | nil => obtain ⟨a, ha, _⟩ := h; simp at ha
  | cons a as ih =>
    by_cases hp : p a = true
    · refine ⟨0, a, ?_, by simp, hp, fun j b hj _ => absurd hj (by omega)⟩
      simp [indicesFrom, hp]
    · have hex : ∃ b ∈ as, p b = true := by
        obtain ⟨b, hb, hpb⟩ := h
        rcases List.mem_cons.1 hb with rfl | hb
        · exact absurd hpb hp
        · exact ⟨b, hb, hpb⟩
      obtain ⟨i, b, h1, h2, h3, h4⟩ := ih (k + 1) hex
      refine ⟨i + 1, b, ?_, by simpa using h2, h3, ?_⟩
      · simp only [indicesFrom, hp, Bool.false_eq_true, if_false]
        rw [h1]
        congr 2
        omega
      · intro j c hj hc
        cases j with
        | zero =>
          simp only [List.getElem?_cons_zero, Option.some.injEq] at hc
          subst hc
          simpa using hp
        | succ j => exact h4 j c (by omega) (by simpa using hc)

/-- What `peakOriginFinder` returns on a non-empty sub-span: with `i` the first
sample of minimal `deltaError`, it returns the sample at `min(i + 1, n - 1)`. -/
theorem peakOriginFinder_returns (m : Libm) (wave : List ℚ) (shift : ℤ) (a0 b0 a1 b1 : ℚ)
    (hne : wave ≠ []) :
    ∃ (i : ℕ) (yi y : ℚ), wave[i]? = some yi ∧
      (∀ (j : ℕ) (w : ℚ), wave[j]? = some w →
        deltaErrorAt (intersectionLine m a0 b0 a1 b1).1 (intersectionLine m a0 b0 a1 b1).2.1 shift i yi
          ≤ deltaErrorAt (intersectionLine m a0 b0 a1 b1).1 (intersectionLine m a0 b0 a1 b1).2.1
            shift j w) ∧
      (∀ (j : ℕ) (w : ℚ), j < i → wave[j]? = some w →
        deltaErrorAt (intersectionLine m a0 b0 a1 b1).1 (intersectionLine m a0 b0 a1 b1).2.1 shift i yi
          < deltaErrorAt (intersectionLine m a0 b0 a1 b1).1 (intersectionLine m a0 b0 a1 b1).2.1
            shift j w) ∧
      wave[min (i + 1) (wave.length - 1)]? = some y ∧
      peakOriginFinder m wave shift a0 b0 a1 b1 =
        some (((min (i + 1) (wave.length - 1) : ℕ) : ℤ) + shift, y,
          (intersectionLine m a0 b0 a1 b1).2.2) := by
  generalize hI : intersectionLine m a0 b0 a1 b1 = I
  obtain ⟨aB, bB, ang⟩ := I
  have hn : 0 < wave.length := List.length_pos.2 hne
  have hX : linspace 1 (wave.length : ℤ) =
      (List.range wave.length).map (fun (k : ℕ) => ((1 : ℤ) : ℚ) + (k : ℚ)) := by
    have := linspace_eq 1 wave.length
    rwa [show (1 : ℤ) + (wave.length : ℤ) - 1 = (wave.length : ℤ) by ring] at this
  -- the error vector, entry by entry
  have hE : ∀ L : List ℚ, ∀ k : ℕ,
      (List.zipWith (fun a b => a - b)
        (((List.range' k L.length).map (fun (k : ℕ) => ((1 : ℤ) : ℚ) + (k : ℚ))).map
          (fun v => aB * (v + (shift : ℚ)) + bB)) L).map (fun v => v ^ 2) =
      List.zipWith (fun (j : ℕ) (w : ℚ) => deltaErrorAt aB bB shift j w) (List.range' k L.length) L := by
    intro L
    induction L with
    | nil => intro k; simp
    | cons w ws ih =>
      intro k
      simp only [List.length_cons, List.range'_succ, List.map_cons, List.zipWith_cons_cons,
        List.cons.injEq]
      refine ⟨?_, ih (k + 1)⟩
      unfold deltaErrorAt
      push_cast
      ring
  have hG : ∀ (L : List ℚ) (k j : ℕ),
      (List.zipWith (fun (j : ℕ) (w : ℚ) => deltaErrorAt aB bB shift j w)
        (List.range' k L.length) L)[j]? = L[j]?.map (deltaErrorAt aB bB shift (k + j)) := by
    intro L
    induction L with
    | nil => intro k j; simp
    | cons w ws ih =>
      intro k j
      cases j with
      | zero => simp [List.range'_succ]
      | succ j =>
        simp only [List.length_cons, List.range'_succ, List.zipWith_cons_cons,
          List.getElem?_cons_succ, ih (k + 1) j]
        rw [show k + 1 + j = k + (j + 1) by omega]
  have hD := hE wave 0
  generalize hDdef : List.zipWith (fun (j : ℕ) (w : ℚ) => deltaErrorAt aB bB shift j w)
    (List.range' 0 wave.length) wave = D at hD
  have hDget : ∀ j, D[j]? = wave[j]?.map (deltaErrorAt aB bB shift j) := by
    intro j
    rw [← hDdef, hG wave 0 j, zero_add]
  have hDlen : D.length = wave.length := by
    rw [← hDdef, List.length_zipWith, List.length_range', min_self]
  have hDne : D ≠ [] := by
    intro h0
    have : wave.length = 0 := by rw [← hDlen, h0]; rfl
    omega
  obtain ⟨dmin, hmin⟩ : ∃ d, vecMin D = some d := by
    cases D with
    | nil => exact absurd rfl hDne
    | cons a as => exact ⟨_, rfl⟩
  obtain ⟨hmem, hle⟩ := vecMin_spec hmin
  obtain ⟨i, a, ht, hia, hpa, hfirst⟩ := indicesFrom_take_one (fun v => decide (v = dmin)) D 0
    ⟨dmin, hmem, by simp⟩
  simp only [decide_eq_true_eq] at hpa
  subst hpa
  have hilt : i < wave.length := by
    rw [← hDlen]
    exact (List.getElem?_eq_some.1 hia).1
  obtain ⟨yi, hyi⟩ : ∃ yi, wave[i]? = some yi := ⟨wave[i], List.getElem?_eq_getElem hilt⟩
  have hai : a = deltaErrorAt aB bB shift i yi := by
    have := hDget i
    rw [hia, hyi] at this
    simpa using this
  have hxlt : min (i + 1) (wave.length - 1) < wave.length := by omega
  obtain ⟨y, hy⟩ : ∃ y, wave[min (i + 1) (wave.length - 1)]? = some y :=
    ⟨wave[min (i + 1) (wave.length - 1)], List.getElem?_eq_getElem hxlt⟩
  refine ⟨i, yi, y, hyi, ?_, ?_, hy, ?_⟩
  · intro j w hw
    have hj : D[j]? = some (deltaErrorAt aB bB shift j w) := by rw [hDget j, hw]; rfl
    rw [← hai]
    exact hle _ (List.getElem?_mem hj)
  · intro j w hji hw
    have hj : D[j]? = some (deltaErrorAt aB bB shift j w) := by rw [hDget j, hw]; rfl
    have hne2 := hfirst j _ hji hj
    simp only [decide_eq_false_iff_not] at hne2
    rw [← hai]
    exact lt_of_le_of_ne (hle _ (List.getElem?_mem hj)) (Ne.symm hne2)
  · simp only [zero_add] at ht
    have hvi : vecAt [(i : ℤ)] 0 = some (i : ℤ) := by simp [vecAt]
    have hrx : vecAt (linspace 1 (wave.length : ℤ)) (i : ℤ) = some ((1 : ℚ) + (i : ℚ)) := by
      rw [vecAt_natCast, hX, List.getElem?_map, List.getElem?_range hilt]
      simp
    have hx : ctrunc (min ((1 : ℚ) + (i : ℚ)) ((wave.length : ℚ) - 1)) =
        ((min (i + 1) (wave.length - 1) : ℕ) : ℤ) := by
      have : min ((1 : ℚ) + (i : ℚ)) ((wave.length : ℚ) - 1) =
          (((min (i + 1) (wave.length - 1) : ℕ) : ℤ) : ℚ) := by
        have h1 : ((wave.length : ℚ) - 1) = ((wave.length - 1 : ℕ) : ℚ) := by
          rw [Nat.cast_sub hn]; simp
        rw [h1]
        push_cast
        rw [add_comm]
      rw [this, ctrunc_intCast]
    have hlen2 : ((linspace 1 (wave.length : ℤ)).map (fun v => aB * (v + (shift : ℚ)) + bB)).length
        = wave.length := by
      rw [hX]; simp
    have hDD : (List.zipWith (fun a b => a - b)
        ((linspace 1 (wave.length : ℤ)).map (fun v => aB * (v + (shift : ℚ)) + bB)) wave).map
          (fun v => v ^ 2) = D := by
      rw [hX, List.range_eq_range']; exact hD
    simp only [peakOriginFinder, hI, hlen2, if_true, Option.bind_eq_bind, Option.some_bind, hDD,
      hmin, indicesWhere, ht, hvi, hrx, hx, vecAt_natCast, hy]

/-- C23 (failing input): on the sub-span `[100, 300, 0]` with both fitted lines
flat (`a0 = b0 = a1 = b1 = 0`, shift 0) the bisector is `y = 100 x`; the squared
error `deltaError` is `0` at sample 0 and positive at samples 1 and 2, so the
sample of minimal distance is sample 0 (value 100), but `peakOriginFinder`
returns `x = 1` and `y = wave[1] = 300`. -/
theorem peakOriginFinder_off_by_one (m : Libm) (h0 : m.atan 0 = 0)
    (h100 : m.tan (m.atan 100 * 180 / (31416 / 10000) * (31416 / 10000) / 180) = 100) :
    peakOriginFinder m [100, 300, 0] 0 0 0 0 0 =
      some (1, 300, 895 / 10 - m.atan 100 * 180 / (31416 / 10000)) ∧
    deltaErrorAt 100 0 0 0 100 = 0 ∧ 0 < deltaErrorAt 100 0 0 1 300 ∧
      0 < deltaErrorAt 100 0 0 2 0 := by
  have hI : intersectionLine m 0 0 0 0 =
      (100, 0, 895 / 10 - m.atan 100 * 180 / (31416 / 10000)) := by
    simp only [intersectionLine, h0, sub_self, ne_eq, not_true_eq_false, if_false, zero_mul,
      zero_div, add_zero, if_true, h100, mul_zero]
  obtain ⟨i, yi, y, hyi, _, hfirst, hy, hres⟩ :=
    peakOriginFinder_returns m [100, 300, 0] 0 0 0 0 0 (by simp)
  rw [hI] at hfirst hres
  have hi : i = 0 := by
    by_contra hne
    have := hfirst 0 100 (Nat.pos_of_ne_zero hne) (by simp)
    have hnn : 0 ≤ deltaErrorAt 100 0 0 i yi := by unfold deltaErrorAt; positivity
    have hz : deltaErrorAt 100 0 0 0 100 = 0 := by unfold deltaErrorAt; norm_num
    linarith
  subst hi
  simp only [List.length_cons, List.length_nil, zero_add, Nat.reduceAdd, Nat.add_one_sub_one,
    Nat.reduceSub, min_self, Nat.one_le_ofNat, min_eq_left, List.getElem?_cons_succ,
    List.getElem?_cons_zero, Option.some.injEq] at hy
  subst hy
  refine ⟨?_, ?_, ?_, ?_⟩
  · rw [hres]
    simp
  · unfold deltaErrorAt; norm_num
  · unfold deltaErrorAt; norm_num
  · unfold deltaErrorAt; norm_num

theorem peakOriginFinder_off_by_one_witness :
    peakOriginFinder libmFlat [100, 300, 0] 0 0 0 0 0 =
      some (1, 300, 895 / 10 - libmFlat.atan 100 * 180 / (31416 / 10000)) ∧
    deltaErrorAt 100 0 0 0 100 = 0 ∧ 0 < deltaErrorAt 100 0 0 1 300 ∧
      0 < deltaErrorAt 100 0 0 2 0 :=
  peakOriginFinder_off_by_one libmFlat (by simp [libmFlat]) (by norm_num [libmFlat])

theorem split_ne_nil (sep : Char) (s : List Char) : split sep s ≠ [] := by
  cases s with
  | nil => simp [split]
  | cons c cs =>
    unfold split
    split
    · simp
    · split <;> simp

theorem split_of_not_mem (sep : Char) (f : List Char) (h : sep ∉ f) : split sep f = [f] := by
  induction f with
  | nil => rfl
  | cons c cs ih =>
    have hc : c ≠ sep := fun e => h (by simp [e])
    have hcs : sep ∉ cs := fun e => h (List.mem_cons_of_mem _ e)
    simp only [split, hc, if_false, ih hcs]

theorem split_append_sep (sep : Char) (f t : List Char) (h : sep ∉ f) :
    split sep (f ++ sep :: t) = f :: split sep t := by
  induction f with
  | nil => simp [split]
  | cons c cs ih =>
    have hc : c ≠ sep := fun e => h (by simp [e])
    have hcs : sep ∉ cs := fun e => h (List.mem_cons_of_mem _ e)
    have e : split sep (c :: (cs ++ sep :: t)) =
        (match split sep (cs ++ sep :: t) with
          | [] => [[c]]
          | p :: ps => (c :: p) :: ps) := by rw [split, if_neg hc]
    rw [List.cons_append, e, ih hcs]

theorem split_joinWith (sep : Char) (fields : List (List Char)) (hne : fields ≠ [])
    (h : ∀ f ∈ fields, sep ∉ f) : split sep (joinWith sep fields) = fields := by
  induction fields with
  | nil => exact absurd rfl hne
  | cons f rest ih =>
    cases rest with
    | nil => exact split_of_not_mem sep f (h f (List.mem_cons_self _ _))
    | cons g rest =>
      simp only [joinWith]
      rw [split_append_sep sep f _ (h f (List.mem_cons_self _ _)),
        ih (by simp) (fun x hx => h x (List.mem_cons_of_mem _ hx))]

theorem mapOpt_eq_none_iff {α β : Type} (f : α → Option β) (l : List α) :
    mapOpt f l = none ↔ ∃ a ∈ l, f a = none := by
  induction l with
  | nil => simp [mapOpt]
  | cons a as ih =>
    unfold mapOpt
    cases ha : f a with
    | none => simp [ha]
    | some b =>
      cases hm : mapOpt f as with
      | none =>
        simp only [true_iff]
        obtain ⟨x, hx, hfx⟩ := ih.1 hm
        exact ⟨x, List.mem_cons_of_mem _ hx, hfx⟩
      | some bs =>
        constructor
        · intro h; cases h
        · rintro ⟨x, hx, hfx⟩
          rcases List.mem_cons.1 hx with rfl | hx
          · rw [ha] at hfx; cases hfx
          · have := ih.2 ⟨x, hx, hfx⟩
            rw [hm] at this
            cases this

theorem mapOpt_of_forall₂ {α β : Type} (f : α → Option β) (l : List α) (out : List β)
    (h : List.Forall₂ (fun a b => f a = some b) l out) : mapOpt f l = some out := by
  induction h with
  | nil => rfl
  | cons hab _ ih => simp only [mapOpt, hab, ih]

theorem strtod_eq_none_iff (str : List Char) : strtod str = none ↔ leadingNumber str = false := by
  have h1 : strtod str = none ↔ (numberHead str).2.1 = [] ∧ (numberHead str).2.2.1 = [] := by
    unfold strtod
    simp only
    split <;> simp_all
  rw [h1]
  unfold numberHead leadingNumber
  simp only
  generalize (if (str.dropWhile isspace).head? = some '-' ∨ (str.dropWhile isspace).head? = some '+'
    then (str.dropWhile isspace).tail else str.dropWhile isspace) = s2
  cases s2 with
  | nil => simp
  | cons c r =>
    by_cases hc : isdigit c = true
    · have : List.takeWhile isdigit (c :: r) ≠ [] := by simp [List.takeWhile, hc]
      simp [this, hc]
    · have h1 : List.takeWhile isdigit (c :: r) = [] := by simp [List.takeWhile, hc]
      have h2 : List.dropWhile isdigit (c :: r) = c :: r := by simp [List.dropWhile, hc]
      simp only [Bool.not_eq_true] at hc
      simp only [h1, h2, true_and, List.head?_cons, Option.some.injEq, List.tail_cons, hc,
        Bool.false_or]
      by_cases hp : c = '.'
      · subst hp
        simp only [if_true, decide_True, Bool.true_and]
        cases r with
        | nil => simp
        | cons d r2 =>
          by_cases hd : isdigit d = true
          · simp [List.takeWhile, hd]
          · simp only [Bool.not_eq_true] at hd
            simp [List.takeWhile, hd]
      · simp [hp]

theorem stod_eq_none_iff (str : List Char) :
    stod str = none ↔ leadingNumber str = false ∨ outOfRange str = true := by
  rw [← strtod_eq_none_iff]
  unfold stod outOfRange
  cases h : strtod str with
  | none => simp
  | some r =>
    obtain ⟨v, rest, range⟩ := r
    cases range <;> simp

theorem stod_of_strtod {str : List Char} {v : ℚ} {rest : List Char}
    (h : strtod str = some (v, rest, false)) : stod str = some v := by
  unfold stod
  rw [h]
  rfl

theorem mem_joinWith (sep : Char) (fields : List (List Char)) (c : Char)
    (h : c ∈ joinWith sep fields) : c = sep ∨ ∃ f ∈ fields, c ∈ f := by
  induction fields with
  | nil => simp [joinWith] at h
  | cons f rest ih =>
    cases rest with
    | nil => exact Or.inr ⟨f, List.mem_cons_self _ _, h⟩
    | cons g rest =>
      simp only [joinWith, List.mem_append, List.mem_cons] at h
      rcases h with h | h | h
      · exact Or.inr ⟨f, List.mem_cons_self _ _, h⟩
      · exact Or.inl h
      · rcases ih h with h | ⟨x, hx, hc⟩
        · exact Or.inl h
        · exact Or.inr ⟨x, List.mem_cons_of_mem _ hx, hc⟩

/-- C27: `twaveDelineators` fails with the frequency error for every sampling
frequency other than 1000 Hz, whatever the rest of the call would do with the
ECG, the annotations and the configuration; at 1000 Hz the check raises no
error and the result is that of the rest of the function. -/
theorem twaveDelineators_frequency {α : Type} (fs : ℚ) (body : Except String α) :
    (fs ≠ 1000 → twaveDelineators fs body = Except.error "frequency should be 1000Hz") ∧
    (fs = 1000 → twaveDelineators fs body = body) := by
  unfold twaveDelineators
  constructor
  · intro h; rw [if_pos h]
  · intro h; rw [if_neg (not_not.2 h)]

set_option maxRecDepth 100000 in
/-- C28 (counterexample): a table that is not 3x3 and a field that is not
entirely a number are both accepted. -/
theorem featursThresholdPreparation_accepts_malformed :
    featursThresholdPreparation "20,0_10" = some [[20, 0], [10]] ∧
    featursThresholdPreparation "20x,0,0_10,10,1.5_0,0,1.7" =
      some [[20, 0, 0], [10, 10, 3 / 2], [0, 0, 17 / 10]] := by
  constructor <;> decide!

/-- C28 (amended): on strings whose fields use decimal notation,
`featursThresholdPreparation` fails exactly when some field of some rule does
not begin with a decimal number (`std::invalid_argument`) or begins with a
number outside the range of a `double` (`std::out_of_range`); otherwise it
returns one row per rule and one value per field, the value `std::stod` reads
at the head of the field, whatever the number of rules and fields. -/
theorem featursThresholdPreparation_rejects (thresholds : String)
    (_hdecimal : ∀ rule ∈ split '_' thresholds.toList, ∀ field ∈ split ',' rule,
      nonDecimal field = false) :
    (featursThresholdPreparation thresholds = none ↔
      ∃ rule ∈ split '_' thresholds.toList, ∃ field ∈ split ',' rule,
        leadingNumber field = false ∨ outOfRange field = true) ∧
    (∀ table, featursThresholdPreparation thresholds = some table →
      List.Forall₂ (fun rule row => List.Forall₂ (fun field v => stod field = some v)
        (split ',' rule) row) (split '_' thresholds.toList) table) := by
  unfold featursThresholdPreparation
  constructor
  · rw [mapOpt_eq_none_iff]
    constructor
    · rintro ⟨rule, hr, hf⟩
      obtain ⟨field, hfield, hn⟩ := (mapOpt_eq_none_iff _ _).1 hf
      exact ⟨rule, hr, field, hfield, (stod_eq_none_iff field).1 hn⟩
    · rintro ⟨rule, hr, field, hfield, hn⟩
      exact ⟨rule, hr, (mapOpt_eq_none_iff _ _).2 ⟨field, hfield, (stod_eq_none_iff field).2 hn⟩⟩
  · intro table h
    have h2 := mapOpt_forall₂ _ _ _ h
    exact h2.imp (fun _ _ hrow => mapOpt_forall₂ _ _ _ hrow)

set_option maxRecDepth 100000 in
/-- Witness of C28 (amended): a string with a field that is not entirely a
number, an empty field and a field beyond the range of a `double`. -/
theorem featursThresholdPreparation_rejects_witness :
    (featursThresholdPreparation "1,2x_,3_1e999" = none ↔
      ∃ rule ∈ split '_' "1,2x_,3_1e999".toList, ∃ field ∈ split ',' rule,
        leadingNumber field = false ∨ outOfRange field = true) ∧
    (∀ table, featursThresholdPreparation "1,2x_,3_1e999" = some table →
      List.Forall₂ (fun rule row => List.Forall₂ (fun field v => stod field = some v)
        (split ',' rule) row) (split '_' "1,2x_,3_1e999".toList) table) :=
  featursThresholdPreparation_rejects "1,2x_,3_1e999" (by decide)

set_option maxRecDepth 100000 in
theorem featursThreshold_default :
    featursThresholdPreparation "20,0,0_10,10,1.5_0,0,1.7" =
      some [[20, 0, 0], [10, 10, 3 / 2], [0, 0, 17 / 10]] := by decide!

set_option maxRecDepth 100000 in
/-- C29 (counterexample): `1e999` and `1e-400` are numeric fields, read to
their end by `strtod`, yet `featursThresholdPreparation` fails on them and on
a table that holds one of them: `std::stod` raises `std::out_of_range`. -/
theorem featursThresholdPreparation_range_counterexample :
    (strtod "1e999".toList).map (fun r => r.2.1) = some [] ∧
    (strtod "1e-400".toList).map (fun r => r.2.1) = some [] ∧
    featursThresholdPreparation "1e999" = none ∧
    featursThresholdPreparation "1e-400" = none ∧
    featursThresholdPreparation "20,0,0_10,1e999,1.5_0,0,1.7" = none := by
  refine ⟨?_, ?_, ?_, ?_, ?_⟩ <;> decide!

/-- C29 (amended): for every string made of numeric fields whose values are in
the range of a `double`, joined by `,` within a rule and rules joined by `_`,
`featursThresholdPreparation` returns one row per rule and one value per field,
in order; the default string parses to the 3x3 table
`[[20,0,0],[10,10,1.5],[0,0,1.7]]`. -/
theorem featursThresholdPreparation_table (rows : List (List (List Char)))
    (hrows : rows ≠ []) (hrow : ∀ r ∈ rows, r ≠ [])
    (hfield : ∀ r ∈ rows, ∀ f ∈ r,
      ',' ∉ f ∧ '_' ∉ f ∧ (strtod f).map Prod.snd = some ([], false)) :
    (∃ table, featursThresholdPreparation (String.mk (joinWith '_' (rows.map (joinWith ',')))) =
        some table ∧
      List.Forall₂ (List.Forall₂ (fun f v => strtod f = some (v, [], false))) rows table) ∧
    featursThresholdPreparation "20,0,0_10,10,1.5_0,0,1.7" =
      some [[20, 0, 0], [10, 10, 3 / 2], [0, 0, 17 / 10]] := by
  refine ⟨?_, featursThreshold_default⟩
  have hsplit : split '_' (joinWith '_' (rows.map (joinWith ','))) = rows.map (joinWith ',') := by
    apply split_joinWith
    · simpa using hrows
    · intro j hj hmem
      obtain ⟨r, hr, rfl⟩ := List.mem_map.1 hj
      rcases mem_joinWith ',' r '_' hmem with h | ⟨f, hf, hc⟩
      · exact absurd h (by decide)
      · exact (hfield r hr f hf).2.1 hc
  have hex : ∀ r ∈ rows, ∀ f ∈ r, ∃ v, strtod f = some (v, [], false) := by
    intro r hr f hf
    have h := (hfield r hr f hf).2.2
    cases hs : strtod f with
    | none => rw [hs] at h; cases h
    | some p =>
      rw [hs] at h
      simp only [Option.map_some', Option.some.injEq] at h
      exact ⟨p.1, by rw [← h]⟩
  have hval : ∀ r ∈ rows, ∀ f ∈ r, strtod f = some ((stod f).getD 0, [], false) := by
    intro r hr f hf
    obtain ⟨v, hv⟩ := hex r hr f hf
    rw [stod_of_strtod hv]
    exact hv
  refine ⟨rows.map (fun r => r.map (fun f => (stod f).getD 0)), ?_, ?_⟩
  · unfold featursThresholdPreparation
    show mapOpt _ (split '_' (joinWith '_' (rows.map (joinWith ',')))) = _
    rw [hsplit]
    apply mapOpt_of_forall₂
    rw [List.forall₂_map_left_iff, List.forall₂_map_right_iff, List.forall₂_same]
    intro r hr
    rw [split_joinWith ',' r (hrow r hr) (fun f hf => (hfield r hr f hf).1)]
    apply mapOpt_of_forall₂
    rw [List.forall₂_map_right_iff, List.forall₂_same]
    intro f hf
    obtain ⟨v, hv⟩ := hex r hr f hf
    rw [stod_of_strtod hv]
    rfl
  · rw [List.forall₂_map_right_iff, List.forall₂_same]
    intro r hr
    rw [List.forall₂_map_right_iff, List.forall₂_same]
    intro f hf
    exact hval r hr f hf

set_option maxRecDepth 100000 in
/-- Witness of C29 (amended): the table of the fields `1`, `-2.5` and `3e1`. -/
theorem featursThresholdPreparation_table_witness :
    (∃ table, featursThresholdPreparation
        (String.mk (joinWith '_' ([["1", "-2.5"], ["3e1"]].map (fun r => r.map String.toList)
          |>.map (joinWith ',')))) = some table ∧
      List.Forall₂ (List.Forall₂ (fun f v => strtod f = some (v, [], false)))
        ([["1", "-2.5"], ["3e1"]].map (fun r => r.map String.toList)) table) ∧
    featursThresholdPreparation "20,0,0_10,10,1.5_0,0,1.7" =
      some [[20, 0, 0], [10, 10, 3 / 2], [0, 0, 17 / 10]] :=
  featursThresholdPreparation_table ([["1", "-2.5"], ["3e1"]].map (fun r => r.map String.toList))
    (by decide) (by decide) (by decide!)

theorem remarkFlat_getElem? (val : ℚ) (row : List ℚ) (k0 : ℕ) (upto : ℤ) (k : ℕ) :
    (remarkFlat val row k0 upto)[k]? =
      row[k]?.map (fun u => if ((k0 + k : ℕ) : ℤ) ≤ upto ∧ u = 2 then val else u) := by
  induction row generalizing k0 k with
  | nil => simp [remarkFlat]
  | cons v vs ih =>
    cases k with
    | zero => simp [remarkFlat]
    | succ k =>
      simp only [remarkFlat, List.getElem?_cons_succ, ih (k0 + 1) k]
      rw [show k0 + 1 + k = k0 + (k + 1) by omega]

theorem remarkFlat_length (val : ℚ) (row : List ℚ) (k0 : ℕ) (upto : ℤ) :
    (remarkFlat val row k0 upto).length = row.length := by
  induction row generalizing k0 with
  | nil => simp [remarkFlat]
  | cons v vs ih => simp [remarkFlat, ih]

theorem markPeakFlat_length (rs ps : List ℚ) (k0 : ℕ) (upto : ℤ) :
    (markPeakFlat rs ps k0 upto).length = ps.length := by
  induction rs generalizing ps k0 with
  | nil => simp [markPeakFlat]
  | cons r rs ih =>
    cases ps with
    | nil => simp [markPeakFlat]
    | cons p ps => simp [markPeakFlat, ih]

theorem markPeakFlat_getElem? (rs ps : List ℚ) (k0 : ℕ) (upto : ℤ) (k : ℕ) (v : ℚ)
    (h : (markPeakFlat rs ps k0 upto)[k]? = some v) :
    ps[k]? = some v ∨ (rs[k]? = some 2 ∧ v = 1 ∧ k < ps.length) := by
  induction rs generalizing ps k0 k with
  | nil => left; simpa [markPeakFlat] using h
  | cons r rs ih =>
    cases ps with
    | nil => simp [markPeakFlat] at h
    | cons p ps =>
      cases k with
      | zero =>
        simp only [markPeakFlat, List.getElem?_cons_zero, Option.some.injEq] at h
        split at h
        · rename_i hc
          right
          exact ⟨by simp [hc.2], h.symm, by simp⟩
        · left; simp [h]
      | succ k =>
        simp only [markPeakFlat, List.getElem?_cons_succ] at h
        rcases ih ps (k0 + 1) k h with h1 | ⟨h1, h2, h3⟩
        · left; simpa using h1
        · right; exact ⟨by simpa using h1, h2, by simp only [List.length_cons]; omega⟩

theorem sign3_ne_neg_one {x : ℚ} (h : sign3 (ctrunc x) ≠ -1) : -1 < x := by
  by_contra hx
  push_neg at hx
  apply h
  have hc : ctrunc x < 0 := by
    unfold ctrunc
    rw [if_neg (by linarith)]
    have : ⌈x⌉ ≤ -1 := Int.ceil_le.2 (by exact_mod_cast hx)
    omega
  unfold sign3
  rw [if_neg (by omega), if_pos hc]

theorem sign3_ne_one {x : ℚ} (h : sign3 (ctrunc x) ≠ 1) : x < 1 := by
  by_contra hx
  push_neg at hx
  apply h
  have hc : ctrunc x > 0 := by
    unfold ctrunc
    rw [if_pos (by linarith)]
    have : (1 : ℤ) ≤ ⌊x⌋ := Int.le_floor.2 (by exact_mod_cast hx)
    omega
  unfold sign3
  rw [if_pos hc]

theorem gt_of_sign3 {d t delta : ℚ} (hd : 0 < delta)
    (h : sign3 (ctrunc ((d - t) * delta)) ≠ -1) : t - 1 / delta < d := by
  have h1 := sign3_ne_neg_one h
  have e : (d - t) * delta / delta = d - t := by field_simp
  have h2 := div_lt_div_of_pos_right h1 hd
  rw [e] at h2
  have e2 : (-1 : ℚ) / delta = -(1 / delta) := by ring
  rw [e2] at h2
  linarith

theorem lt_of_sign3 {d t delta : ℚ} (hd : 0 < delta)
    (h : sign3 (ctrunc ((d - t) * delta)) ≠ 1) : d < t + 1 / delta := by
  have h1 := sign3_ne_one h
  have e : (d - t) * delta / delta = d - t := by field_simp
  have h2 := div_lt_div_of_pos_right h1 hd
  rw [e] at h2
  linarith

theorem RowInv.remark {d : List ℚ} {t delta : ℚ} {row : List ℚ} (h : RowInv d t delta row)
    (val : ℚ) (hval : val = 0 ∨ val = 1) (upto : ℤ) :
    RowInv d t delta (remarkFlat val row 0 upto) := by
  obtain ⟨h1, h2, h3⟩ := h
  have key : ∀ (k : ℕ) (v : ℚ), (remarkFlat val row 0 upto)[k]? = some v →
      ∃ u, row[k]? = some u ∧ (v = u ∨ v = val) := by
    intro k v hv
    rw [remarkFlat_getElem?] at hv
    cases hu : row[k]? with
    | none => rw [hu] at hv; cases hv
    | some u =>
      rw [hu] at hv
      simp only [Option.map_some', Option.some.injEq] at hv
      refine ⟨u, rfl, ?_⟩
      split at hv
      · right; exact hv.symm
      · left; exact hv.symm
  refine ⟨by rw [remarkFlat_length, h1], ?_, ?_⟩
  · intro k v hv
    obtain ⟨u, hu, hc⟩ := key k v hv
    rcases hc with rfl | rfl
    · exact h2 k _ hu
    · rcases hval with rfl | rfl
      · exact Or.inl rfl
      · exact Or.inr (Or.inl rfl)
  · intro k hv
    obtain ⟨u, hu, hc⟩ := key k 2 hv
    rcases hc with rfl | hc
    · exact h3 k hu
    · rcases hval with h0 | h0 <;> rw [h0] at hc <;> norm_num at hc

theorem RowInv.set_one {d : List ℚ} {t delta : ℚ} {row : List ℚ} (h : RowInv d t delta row)
    (p : ℕ) : RowInv d t delta (row.set p 1) := by
  obtain ⟨h1, h2, h3⟩ := h
  refine ⟨by rw [List.length_set, h1], ?_, ?_⟩
  · intro k v hv
    rw [List.getElem?_set] at hv
    split at hv
    · split at hv
      · simp only [Option.some.injEq] at hv
        exact Or.inr (Or.inl hv.symm)
      · cases hv
    · exact h2 k v hv
  · intro k hv
    rw [List.getElem?_set] at hv
    split at hv
    · split at hv
      · simp only [Option.some.injEq] at hv
        norm_num at hv
      · cases hv
    · exact h3 k hv

theorem RowInv.set_two {d : List ℚ} {t delta : ℚ} {row : List ℚ} (h : RowInv d t delta row)
    (p : ℕ) (hp : NearCrossing d t delta p) : RowInv d t delta (row.set p 2) := by
  obtain ⟨h1, h2, h3⟩ := h
  refine ⟨by rw [List.length_set, h1], ?_, ?_⟩
  · intro k v hv
    rw [List.getElem?_set] at hv
    split at hv
    · split at hv
      · simp only [Option.some.injEq] at hv
        exact Or.inr (Or.inr hv.symm)
      · cases hv
    · exact h2 k v hv
  · intro k hv
    rw [List.getElem?_set] at hv
    split at hv
    · rename_i hpk
      subst hpk
      exact hp
    · exact h3 k hv

theorem PeakInv.set_peak {d : List ℚ} {t delta : ℚ} {jz : ℤ} {peak : List ℚ}
    (h : PeakInv d t delta jz peak) (p : ℕ) (hjz : jz ≠ -1) (hp : NearCrossing d t delta p) :
    PeakInv d t delta jz (peak.set p 1) := by
  obtain ⟨h1, h2, h3⟩ := h
  refine ⟨by rw [List.length_set, h1], ?_, ?_⟩
  · intro k v hv
    rw [List.getElem?_set] at hv
    split at hv
    · split at hv
      · simp only [Option.some.injEq] at hv
        exact Or.inr hv.symm
      · cases hv
    · exact h2 k v hv
  · intro k v hv hne
    rw [List.getElem?_set] at hv
    split at hv
    · rename_i hpk
      subst hpk
      exact ⟨hjz, hp⟩
    · exact h3 k v hv hne

theorem PeakInv.mark {d : List ℚ} {t delta : ℚ} {jz : ℤ} {row peak : List ℚ}
    (h : PeakInv d t delta jz peak) (hr : RowInv d t delta row) (hjz : jz ≠ -1) (upto : ℤ) :
    PeakInv d t delta jz (markPeakFlat row peak 0 upto) := by
  obtain ⟨h1, h2, h3⟩ := h
  refine ⟨by rw [markPeakFlat_length, h1], ?_, ?_⟩
  · intro k v hv
    rcases markPeakFlat_getElem? row peak 0 upto k v hv with hv | ⟨_, hv, _⟩
    · exact h2 k v hv
    · exact Or.inr hv
  · intro k v hv hne
    rcases markPeakFlat_getElem? row peak 0 upto k v hv with hv | ⟨hrow, _, _⟩
    · exact h3 k v hv hne
    · exact ⟨hjz, hr.2.2 k hrow⟩

theorem sweepStep_inv {d : List ℚ} {t delta : ℚ} {jz : ℤ} (hd : 0 < delta) {i : ℕ} {prev cur : ℚ}
    (hprev : d[i - 1]? = some prev) (hcur : d[i]? = some cur) (hi : 1 ≤ i) {st : SweepState}
    (hr : RowInv d t delta st.row) (hp : PeakInv d t delta jz st.peakRow) :
    RowInv d t delta (sweepStep t delta jz i prev cur st).row ∧
      PeakInv d t delta jz (sweepStep t delta jz i prev cur st).peakRow := by
  have hnear : sign3 (ctrunc ((prev - t) * delta)) ≠ -1 →
      sign3 (ctrunc ((cur - t) * delta)) ≠ 1 → NearCrossing d t delta (i - 1) := by
    intro h1 h2
    refine ⟨prev, cur, hprev, ?_, gt_of_sign3 hd h1, lt_of_sign3 hd h2⟩
    rw [show i - 1 + 1 = i by omega]
    exact hcur
  unfold sweepStep
  simp only []
  split_ifs
  all_goals first
    | exact ⟨hr, hp⟩
    | exact ⟨hr.remark 0 (Or.inl rfl) _, hp⟩
    | exact ⟨(hr.set_one _).remark 0 (Or.inl rfl) _, hp⟩
    | exact ⟨(hr.remark 0 (Or.inl rfl) _).remark 0 (Or.inl rfl) _, hp⟩
    | exact ⟨((hr.set_one _).remark 1 (Or.inr rfl) _).remark 0 (Or.inl rfl) _, hp⟩
    | (have hN := hnear (by simp [*]) (by simp [*])
       first
        | exact ⟨hr.set_two _ hN, hp⟩
        | exact ⟨(hr.set_one _).remark 0 (Or.inl rfl) _, hp.set_peak _ (by assumption) hN⟩
        | exact ⟨((hr.set_one _).remark 1 (Or.inr rfl) _).remark 0 (Or.inl rfl) _,
            (hp.set_peak _ (by assumption) hN).mark (hr.set_one _) (by assumption) _⟩)

theorem sweepLoop_inv {d : List ℚ} {t delta : ℚ} {jz : ℤ} (hd : 0 < delta) :
    ∀ (rest : List ℚ) (prev : ℚ) (i : ℕ) (st : SweepState), d.drop i = rest →
      d[i - 1]? = some prev → 1 ≤ i → RowInv d t delta st.row → PeakInv d t delta jz st.peakRow →
      RowInv d t delta (sweepLoop t delta jz rest prev i st).row ∧
        PeakInv d t delta jz (sweepLoop t delta jz rest prev i st).peakRow := by
  intro rest
  induction rest with
  | nil => intro prev i st _ _ _ hr hp; exact ⟨hr, hp⟩
  | cons cur rest ih =>
    intro prev i st hdrop hprev hi hr hp
    have hcur : d[i]? = some cur := by
      have := congrArg List.head? hdrop
      rw [List.head?_drop] at this
      simpa using this
    have hdrop2 : d.drop (i + 1) = rest := by
      have := congrArg List.tail hdrop
      rw [List.tail_drop] at this
      simpa using this
    obtain ⟨hr2, hp2⟩ := sweepStep_inv hd hprev hcur hi hr hp
    exact ih cur (i + 1) _ hdrop2 (by simpa using hcur) (by omega) hr2 hp2

theorem zeros_rowInv (d : List ℚ) (t delta : ℚ) :
    RowInv d t delta (List.replicate (d.length - 1) 0) := by
  refine ⟨by simp, ?_, ?_⟩
  · intro k v hv
    rw [List.getElem?_replicate] at hv
    split at hv
    · simp only [Option.some.injEq] at hv; exact Or.inl hv.symm
    · cases hv
  · intro k hv
    rw [List.getElem?_replicate] at hv
    split at hv
    · simp only [Option.some.injEq] at hv; norm_num at hv
    · cases hv

theorem zeros_peakInv (d : List ℚ) (t delta : ℚ) (jz : ℤ) :
    PeakInv d t delta jz (List.replicate (d.length - 1) 0) := by
  refine ⟨by simp, ?_, ?_⟩
  · intro k v hv
    rw [List.getElem?_replicate] at hv
    split at hv
    · simp only [Option.some.injEq] at hv; exact Or.inl hv.symm
    · cases hv
  · intro k v hv hne
    rw [List.getElem?_replicate] at hv
    split at hv
    · simp only [Option.some.injEq] at hv; exact absurd hv.symm hne
    · cases hv

/-- The threshold of sweep `j` and the row of `peakCandidates` it writes to. -/
theorem sweepRow_inv (d : List ℚ) (startingSlope delta : ℚ) (zeroSlopeIndex : ℤ) (j : ℕ)
    (hd : 0 < delta) :
    ∃ (t : ℚ) (jz : ℤ), t = startingSlope + (j : ℚ) * (-1 / delta) ∧
      (jz ≠ -1 → (j : ℤ) = zeroSlopeIndex - 1 ∨ (j : ℤ) = zeroSlopeIndex ∨
        (j : ℤ) = zeroSlopeIndex + 1) ∧
      (sweepRow d startingSlope delta zeroSlopeIndex j).1.length = d.length - 1 ∧
      (∀ (k : ℕ) (v : ℚ), (sweepRow d startingSlope delta zeroSlopeIndex j).1[k]? = some v →
        v = 0 ∨ v = 1) ∧
      PeakInv d t delta jz (sweepRow d startingSlope delta zeroSlopeIndex j).2 := by
  refine ⟨startingSlope + (j : ℚ) * (-1 / delta),
    if (j : ℤ) = zeroSlopeIndex - 1 then 0 else if (j : ℤ) = zeroSlopeIndex then 1
      else if (j : ℤ) = zeroSlopeIndex + 1 then 2 else -1, rfl, ?_, ?_⟩
  · intro h
    by_contra hc
    push_neg at hc
    exact h (by rw [if_neg hc.1, if_neg hc.2.1, if_neg hc.2.2])
  · have hst : ∀ st : SweepState,
        RowInv d (startingSlope + (j : ℚ) * (-1 / delta)) delta st.row →
        (remarkFlat 0 st.row 0 (st.row.length : ℤ)).length = d.length - 1 ∧
        (∀ (k : ℕ) (v : ℚ), (remarkFlat 0 st.row 0 (st.row.length : ℤ))[k]? = some v →
          v = 0 ∨ v = 1) := by
      intro st hr
      refine ⟨by rw [remarkFlat_length, hr.1], ?_⟩
      intro k v hv
      rw [remarkFlat_getElem?] at hv
      cases hu : st.row[k]? with
      | none => rw [hu] at hv; cases hv
      | some u =>
        have hk : k < st.row.length := (List.getElem?_eq_some.1 hu).1
        rw [hu] at hv
        simp only [Option.map_some', Option.some.injEq, zero_add] at hv
        split at hv
        · exact Or.inl hv.symm
        · rename_i hc
          rcases hr.2.1 k u hu with h0 | h1 | h2
          · exact Or.inl (by rw [← hv, h0])
          · exact Or.inr (by rw [← hv, h1])
          · exact absurd ⟨by exact_mod_cast hk.le, h2⟩ hc
    unfold sweepRow
    simp only []
    cases d with
    | nil =>
      obtain ⟨h1, h2⟩ := hst ⟨List.replicate (([] : List ℚ).length - 1) 0,
        List.replicate (([] : List ℚ).length - 1) 0, true⟩ (zeros_rowInv [] _ delta)
      exact ⟨h1, h2, zeros_peakInv [] _ delta _⟩
    | cons d0 rest =>
      obtain ⟨hr, hp⟩ := @sweepLoop_inv (d0 :: rest) (startingSlope + (j : ℚ) * (-1 / delta)) delta
        (if (j : ℤ) = zeroSlopeIndex - 1 then 0 else if (j : ℤ) = zeroSlopeIndex then 1
          else if (j : ℤ) = zeroSlopeIndex + 1 then 2 else -1) hd rest d0 1
        { row := List.replicate ((d0 :: rest).length - 1) 0,
          peakRow := List.replicate ((d0 :: rest).length - 1) 0, signFlag := true }
        rfl (by simp) (le_refl 1) (zeros_rowInv _ _ _) (zeros_peakInv _ _ _ _)
      obtain ⟨h1, h2⟩ := hst _ hr
      exact ⟨h1, h2, hp⟩

theorem columnMax_length (rows : List (List ℚ)) :
    ∀ base : List ℚ, (∀ r ∈ rows, r.length = base.length) →
      (columnMax base rows).length = base.length := by
  induction rows with
  | nil => intro base _; rfl
  | cons r rs ih =>
    intro base h
    have hr := h r (List.mem_cons_self _ _)
    have hz : (List.zipWith max base r).length = base.length := by
      rw [List.length_zipWith, hr, min_self]
    show (columnMax (List.zipWith max base r) rs).length = base.length
    rw [ih _ (fun x hx => by rw [hz]; exact h x (List.mem_cons_of_mem _ hx)), hz]

/-- An entry of the column-wise maximum is the largest of the entries of its
column. -/
theorem columnMax_getElem? (rows : List (List ℚ)) :
    ∀ (base : List ℚ) (k : ℕ) (b : ℚ), (∀ r ∈ rows, r.length = base.length) →
      base[k]? = some b →
      ∃ v, (columnMax base rows)[k]? = some v ∧ b ≤ v ∧
        (∀ r ∈ rows, ∀ u, r[k]? = some u → u ≤ v) ∧ (v = b ∨ ∃ r ∈ rows, r[k]? = some v) := by
  induction rows with
  | nil =>
    intro base k b _ hb
    exact ⟨b, hb, le_refl b, fun r hr => absurd hr (List.not_mem_nil r), Or.inl rfl⟩
  | cons r rs ih =>
    intro base k b h hb
    have hr := h r (List.mem_cons_self _ _)
    have hk : k < base.length := (List.getElem?_eq_some.1 hb).1
    obtain ⟨u, hu⟩ : ∃ u, r[k]? = some u := ⟨r[k], List.getElem?_eq_getElem (by omega)⟩
    have hz : (List.zipWith max base r).length = base.length := by
      rw [List.length_zipWith, hr, min_self]
    have hzk : (List.zipWith max base r)[k]? = some (max b u) := by
      rw [List.getElem?_zipWith, hb, hu]
    obtain ⟨v, hv, h1, h2, h3⟩ := ih (List.zipWith max base r) k (max b u)
      (fun x hx => by rw [hz]; exact h x (List.mem_cons_of_mem _ hx)) hzk
    refine ⟨v, hv, le_trans (le_max_left b u) h1, ?_, ?_⟩
    · intro x hx w hw
      rcases List.mem_cons.1 hx with rfl | hx
      · rw [hu] at hw
        simp only [Option.some.injEq] at hw
        subst hw
        exact le_trans (le_max_right b u) h1
      · exact h2 x hx w hw
    · rcases h3 with h3 | ⟨x, hx, hxv⟩
      · rcases max_choice b u with hc | hc
        · left; rw [h3, hc]
        · right; exact ⟨r, List.mem_cons_self _ _, by rw [h3, hc]; exact hu⟩
      · right; exact ⟨x, List.mem_cons_of_mem _ hx, hxv⟩

theorem ctrunc_mono {a b : ℚ} (h : a ≤ b) : ctrunc a ≤ ctrunc b := by
  unfold ctrunc
  by_cases ha : 0 ≤ a
  · rw [if_pos ha, if_pos (le_trans ha h)]
    exact Int.floor_mono h
  · rw [if_neg ha]
    by_cases hb : 0 ≤ b
    · rw [if_pos hb]
      have h1 : ⌈a⌉ ≤ 0 := Int.ceil_le.2 (by push_neg at ha; exact_mod_cast ha.le)
      have h2 : 0 ≤ ⌊b⌋ := Int.floor_nonneg.2 hb
      omega
    · rw [if_neg hb]
      exact Int.ceil_mono h

/-- The number of threshold rows is the distance of the two truncated extreme
slopes, plus one. -/
theorem numberSlope_eq (dmax dmin delta : ℚ) (hd : delta ≠ 0) :
    ctrunc (((ctrunc (dmax * delta) : ℚ) / delta - (ctrunc (dmin * delta) : ℚ) / delta) * delta + 1)
      = ctrunc (dmax * delta) - ctrunc (dmin * delta) + 1 := by
  have e : ((ctrunc (dmax * delta) : ℚ) / delta - (ctrunc (dmin * delta) : ℚ) / delta) * delta + 1
      = ((ctrunc (dmax * delta) - ctrunc (dmin * delta) + 1 : ℤ) : ℚ) := by
    push_cast
    field_simp
  rw [e, ctrunc_intCast]

theorem zeroSlopeIndex_eq (dmax delta : ℚ) (hd : delta ≠ 0) :
    ctrunc ((ctrunc (dmax * delta) : ℚ) / delta * delta) = ctrunc (dmax * delta) := by
  have e : (ctrunc (dmax * delta) : ℚ) / delta * delta = ((ctrunc (dmax * delta) : ℤ) : ℚ) := by
    field_simp
  rw [e, ctrunc_intCast]

theorem sweepRows_length (d : List ℚ) (dmax dmin delta : ℚ) (hd : delta ≠ 0) :
    ((sweepRows d dmax dmin delta).length : ℤ) =
      max 0 (ctrunc (dmax * delta) - ctrunc (dmin * delta) + 1) := by
  unfold sweepRows
  simp only [List.length_map, List.length_range, numberSlope_eq dmax dmin delta hd]
  omega

/-- Every row of the sweep: the finished row of `movedZeroCrossingPage` holds
only 0 and 1, and a flagged column of its row of `peakCandidates` lies at a
crossing, within one step, of one of the thresholds `1/δ`, `0`, `-1/δ`. -/
theorem sweepRows_spec (d : List ℚ) (dmax dmin delta : ℚ) (hd : 0 < delta) :
    ∀ r ∈ sweepRows d dmax dmin delta,
      r.1.length = d.length - 1 ∧ (∀ (k : ℕ) (v : ℚ), r.1[k]? = some v → v = 0 ∨ v = 1) ∧
      r.2.length = d.length - 1 ∧ (∀ (k : ℕ) (v : ℚ), r.2[k]? = some v → v = 0 ∨ v = 1) ∧
      (∀ (k : ℕ) (v : ℚ), r.2[k]? = some v → v ≠ 0 →
        ∃ t : ℚ, (t = 1 / delta ∨ t = 0 ∨ t = -1 / delta) ∧ NearCrossing d t delta k) := by
  intro r hr
  unfold sweepRows at hr
  simp only [List.mem_map, List.mem_range] at hr
  obtain ⟨j, _, rfl⟩ := hr
  obtain ⟨t, jz, ht, hjz, h1, h2, hp⟩ := sweepRow_inv d ((ctrunc (dmax * delta) : ℚ) / delta) delta
    (ctrunc ((ctrunc (dmax * delta) : ℚ) / delta * delta)) j hd
  refine ⟨h1, h2, hp.1, hp.2.1, ?_⟩
  intro k v hv hne
  obtain ⟨hj, hnear⟩ := hp.2.2 k v hv hne
  refine ⟨t, ?_, hnear⟩
  have hz := hjz hj
  rw [zeroSlopeIndex_eq dmax delta hd.ne'] at hz
  have hdn : delta ≠ 0 := hd.ne'
  rcases hz with hz | hz | hz
  · left
    have : (j : ℚ) = (ctrunc (dmax * delta) : ℚ) - 1 := by exact_mod_cast hz
    rw [ht, this]
    field_simp
  · right; left
    have : (j : ℚ) = (ctrunc (dmax * delta) : ℚ) := by exact_mod_cast hz
    rw [ht, this]
    field_simp
  · right; right
    have : (j : ℚ) = (ctrunc (dmax * delta) : ℚ) + 1 := by exact_mod_cast hz
    rw [ht, this]
    field_simp

/-- The result of `candidateFinder` in terms of the rows of its sweep. -/
theorem candidateFinder_eq (wave d : List ℚ) (delta dmax dmin : ℚ) (hmax : vecMax d = some dmax)
    (hmin : vecMin d = some dmin) (hd : delta ≠ 0)
    (hns : 0 < ctrunc (dmax * delta) - ctrunc (dmin * delta) + 1) :
    candidateFinder wave d delta =
      (span wave 1 ((wave.length : ℤ) - 2)).bind (fun w =>
        (schur (columnMax (List.replicate (d.length - 1) 0)
          ((sweepRows d dmax dmin delta).map (fun r => r.1))) w).bind (fun amp =>
            some (amp, indicesWhere (fun v => decide (v > 0))
              (columnMax (List.replicate (d.length - 1) 0)
                ((sweepRows d dmax dmin delta).map (fun r => r.2)))))) := by
  have hcond : ¬ (delta = 0 ∨ ctrunc (((ctrunc (dmax * delta) : ℚ) / delta -
      (ctrunc (dmin * delta) : ℚ) / delta) * delta + 1) ≤ 0) := by
    rw [numberSlope_eq dmax dmin delta hd]
    push_neg
    exact ⟨hd, hns⟩
  simp only [candidateFinder, hmax, hmin, Option.bind_eq_bind, Option.some_bind, if_neg hcond,
    sweepRows]

theorem span_getElem? {v w : List ℚ} {a b : ℤ} (h : span v a b = some w) (i : ℕ)
    (hi : i < w.length) : w[i]? = v[a.toNat + i]? := by
  have hs := span_eq_some h
  have := span_vecAt h (i : ℤ) (by omega) (by exact_mod_cast hi)
  rw [vecAt_natCast] at this
  rw [this]
  have e : a + (i : ℤ) = ((a.toNat + i : ℕ) : ℤ) := by push_cast; omega
  rw [e, vecAt_natCast]

/-- C24: for every wave of length `≥ 3` in mode 1 (with its derivative, one
sample shorter, and a positive `deltaStepSlope`), `candidateFinder` returns; the
crossing-amplitude vector has length `wave.length - 2`; entry `i` is
`wave[i+1]` when at least one threshold row flagged an intersection at `i` and
`0` otherwise; and no finished row holds the flat marker 2. -/
theorem candidateFinder_amplitudes (wave derivative : List ℚ) (deltaStepSlope : ℚ)
    (hn : 3 ≤ wave.length) (hlen : derivative.length + 1 = wave.length)
    (hdelta : 0 < deltaStepSlope) :
    ∃ (dmax dmin : ℚ) (amp : List ℚ) (peaks : List ℤ),
      vecMax derivative = some dmax ∧ vecMin derivative = some dmin ∧
      candidateFinder wave derivative deltaStepSlope = some (amp, peaks) ∧
      amp.length = wave.length - 2 ∧
      sweepRows derivative dmax dmin deltaStepSlope ≠ [] ∧
      (∀ r ∈ sweepRows derivative dmax dmin deltaStepSlope,
        r.1.length = wave.length - 2 ∧ ∀ v ∈ r.1, v = 0 ∨ v = 1) ∧
      (∀ (i : ℕ) (w : ℚ), wave[i + 1]? = some w → i < wave.length - 2 →
        ((∃ r ∈ sweepRows derivative dmax dmin deltaStepSlope, r.1[i]? = some 1) →
          amp[i]? = some w) ∧
        ((¬ ∃ r ∈ sweepRows derivative dmax dmin deltaStepSlope, r.1[i]? = some 1) →
          amp[i]? = some 0)) := by
  have hne : derivative ≠ [] := by
    intro h0; rw [h0] at hlen; simp at hlen; omega
  obtain ⟨dmax, hmax⟩ := vecMax_isSome hne
  obtain ⟨dmin, hmin⟩ : ∃ d, vecMin derivative = some d := by
    cases derivative with
    | nil => exact absurd rfl hne
    | cons a as => exact ⟨_, rfl⟩
  have hle : dmin ≤ dmax := (vecMin_spec hmin).2 dmax (vecMax_spec hmax).1
  have hns : 0 < ctrunc (dmax * deltaStepSlope) - ctrunc (dmin * deltaStepSlope) + 1 := by
    have := ctrunc_mono (mul_le_mul_of_nonneg_right hle hdelta.le)
    omega
  have hspec := sweepRows_spec derivative dmax dmin deltaStepSlope hdelta
  have hN : derivative.length - 1 = wave.length - 2 := by omega
  obtain ⟨w, hw⟩ : ∃ w, span wave 1 ((wave.length : ℤ) - 2) = some w := by
    unfold span
    rw [if_pos ⟨by norm_num, by omega, by omega⟩]
    exact ⟨_, rfl⟩
  have hwlen : w.length = wave.length - 2 := by
    have := (span_eq_some hw).2.2.2
    omega
  have hrowlen : ∀ r ∈ (sweepRows derivative dmax dmin deltaStepSlope).map (fun r => r.1),
      r.length = (List.replicate (derivative.length - 1) (0 : ℚ)).length := by
    intro r hr
    obtain ⟨x, hx, rfl⟩ := List.mem_map.1 hr
    rw [List.length_replicate]
    exact (hspec x hx).1
  have hpm := columnMax_length _ _ hrowlen
  rw [List.length_replicate] at hpm
  have hschur : schur (columnMax (List.replicate (derivative.length - 1) 0)
      ((sweepRows derivative dmax dmin deltaStepSlope).map (fun r => r.1))) w =
      some (List.zipWith (fun a b => a * b) (columnMax (List.replicate (derivative.length - 1) 0)
        ((sweepRows derivative dmax dmin deltaStepSlope).map (fun r => r.1))) w) := by
    unfold schur
    rw [if_pos (by rw [hpm, hwlen, hN])]
  refine ⟨dmax, dmin, List.zipWith (fun a b => a * b)
    (columnMax (List.replicate (derivative.length - 1) 0)
      ((sweepRows derivative dmax dmin deltaStepSlope).map (fun r => r.1))) w,
    indicesWhere (fun v => decide (v > 0)) (columnMax (List.replicate (derivative.length - 1) 0)
      ((sweepRows derivative dmax dmin deltaStepSlope).map (fun r => r.2))),
    hmax, hmin, ?_, ?_, ?_, ?_, ?_⟩
  · rw [candidateFinder_eq wave derivative deltaStepSlope dmax dmin hmax hmin hdelta.ne' hns, hw,
      Option.some_bind, hschur, Option.some_bind]
  · rw [List.length_zipWith, hpm, hwlen, hN, min_self]
  · intro h0
    have := sweepRows_length derivative dmax dmin deltaStepSlope hdelta.ne'
    rw [h0] at this
    simp only [List.length_nil, Nat.cast_zero] at this
    omega
  · intro r hr
    obtain ⟨h1, h2, _⟩ := hspec r hr
    refine ⟨by rw [h1, hN], ?_⟩
    intro v hv
    obtain ⟨k, hk⟩ := List.getElem?_of_mem hv
    exact h2 k v hk
  · intro i wv hwv hi
    have hbase : (List.replicate (derivative.length - 1) (0 : ℚ))[i]? = some 0 := by
      rw [List.getElem?_replicate, if_pos (by omega)]
    obtain ⟨v, hv, h1, h2, h3⟩ := columnMax_getElem? _ _ i 0 hrowlen hbase
    have hwi : w[i]? = some wv := by
      rw [span_getElem? hw i (by omega)]
      simpa [add_comm] using hwv
    have hamp : (List.zipWith (fun a b => a * b) (columnMax (List.replicate (derivative.length - 1) 0)
        ((sweepRows derivative dmax dmin deltaStepSlope).map (fun r => r.1))) w)[i]? =
        some (v * wv) := by
      rw [List.getElem?_zipWith, hv, hwi]
    have hv01 : v = 0 ∨ v = 1 := by
      rcases h3 with h3 | ⟨r, hr, hrv⟩
      · exact Or.inl h3
      · obtain ⟨x, hx, rfl⟩ := List.mem_map.1 hr
        exact (hspec x hx).2.1 i v hrv
    constructor
    · rintro ⟨r, hr, hr1⟩
      have : (1 : ℚ) ≤ v := h2 r.1 (List.mem_map.2 ⟨r, hr, rfl⟩) 1 hr1
      have hv1 : v = 1 := by
        rcases hv01 with h | h
        · rw [h] at this; norm_num at this
        · exact h
      rw [hamp, hv1, one_mul]
    · intro hno
      have hv0 : v = 0 := by
        rcases h3 with h3 | ⟨r, hr, hrv⟩
        · exact h3
        · obtain ⟨x, hx, rfl⟩ := List.mem_map.1 hr
          rcases hv01 with h | h
          · exact h
          · exact absurd ⟨x, hx, by rw [← h]; exact hrv⟩ hno
      rw [hamp, hv0, zero_mul]

set_option maxRecDepth 100000 in
theorem candidateFinder_amplitudes_witness :
    ∃ (dmax dmin : ℚ) (amp : List ℚ) (peaks : List ℤ),
      vecMax [1, 2, -3] = some dmax ∧ vecMin [1, 2, -3] = some dmin ∧
      candidateFinder [0, 1, 3, 0] [1, 2, -3] 10 = some (amp, peaks) ∧
      amp.length = ([0, 1, 3, 0] : List ℚ).length - 2 ∧
      sweepRows [1, 2, -3] dmax dmin 10 ≠ [] ∧
      (∀ r ∈ sweepRows [1, 2, -3] dmax dmin 10,
        r.1.length = ([0, 1, 3, 0] : List ℚ).length - 2 ∧ ∀ v ∈ r.1, v = 0 ∨ v = 1) ∧
      (∀ (i : ℕ) (w : ℚ), ([0, 1, 3, 0] : List ℚ)[i + 1]? = some w →
        i < ([0, 1, 3, 0] : List ℚ).length - 2 →
        ((∃ r ∈ sweepRows [1, 2, -3] dmax dmin 10, r.1[i]? = some 1) → amp[i]? = some w) ∧
        ((¬ ∃ r ∈ sweepRows [1, 2, -3] dmax dmin 10, r.1[i]? = some 1) → amp[i]? = some 0)) :=
  candidateFinder_amplitudes [0, 1, 3, 0] [1, 2, -3] 10 (by decide) (by decide) (by norm_num)

set_option maxRecDepth 100000 in
/-- C26 (counterexample): on the wave `[0, 1/2, 7/20, 0]` with the default
`deltaStepSlope = 10`, `candidateFinder` puts the index 1 in
`candidatePeaksPosition` although the wave decreases from sample 1 to sample 2
(`derivative[1] = -3/20 < 0`). -/
theorem candidateFinder_peak_counterexample :
    firstDifference [0, 1 / 2, 7 / 20, 0] = some [1 / 2, -3 / 20, -7 / 20] ∧
    candidateFinder [0, 1 / 2, 7 / 20, 0] [1 / 2, -3 / 20, -7 / 20] 10 =
      some ([1 / 2, 7 / 20], [0, 1]) ∧
    vecAt ([1 / 2, -3 / 20, -7 / 20] : List ℚ) 1 = some (-3 / 20) := by
  refine ⟨by decide!, by decide!, by decide!⟩

/-- C26 (amended): every index `p` that `candidateFinder` puts in
`candidatePeaksPosition` lies at a crossing, within one threshold step
`1/deltaStepSlope`, of one of the three thresholds `t ∈ {1/δ, 0, -1/δ}`:
`derivative[p] > t - 1/δ` and `derivative[p+1] < t + 1/δ`. -/
theorem candidateFinder_peak_slopes (wave derivative : List ℚ) (deltaStepSlope : ℚ)
    (hdelta : 0 < deltaStepSlope) (amp : List ℚ) (peaks : List ℤ)
    (h : candidateFinder wave derivative deltaStepSlope = some (amp, peaks)) (p : ℤ)
    (hp : p ∈ peaks) :
    ∃ a b t : ℚ, vecAt derivative p = some a ∧ vecAt derivative (p + 1) = some b ∧
      (t = 1 / deltaStepSlope ∨ t = 0 ∨ t = -1 / deltaStepSlope) ∧
      t - 1 / deltaStepSlope < a ∧ b < t + 1 / deltaStepSlope := by
  cases hmax : vecMax derivative with
  | none => simp [candidateFinder, hmax] at h
  | some dmax =>
    cases hmin : vecMin derivative with
    | none => simp [candidateFinder, hmax, hmin] at h
    | some dmin =>
      have hle : dmin ≤ dmax := (vecMin_spec hmin).2 dmax (vecMax_spec hmax).1
      have hns : 0 < ctrunc (dmax * deltaStepSlope) - ctrunc (dmin * deltaStepSlope) + 1 := by
        have := ctrunc_mono (mul_le_mul_of_nonneg_right hle hdelta.le)
        omega
      rw [candidateFinder_eq wave derivative deltaStepSlope dmax dmin hmax hmin hdelta.ne' hns] at h
      simp only [Option.bind_eq_some, Option.some.injEq, Prod.mk.injEq] at h
      obtain ⟨w, _, amp1, _, _, hpk⟩ := h
      subst hpk
      have hspec := sweepRows_spec derivative dmax dmin deltaStepSlope hdelta
      have hrowlen : ∀ r ∈ (sweepRows derivative dmax dmin deltaStepSlope).map (fun r => r.2),
          r.length = (List.replicate (derivative.length - 1) (0 : ℚ)).length := by
        intro r hr
        obtain ⟨x, hx, rfl⟩ := List.mem_map.1 hr
        rw [List.length_replicate]
        exact (hspec x hx).2.2.1
      obtain ⟨v, hv, hpos⟩ := indicesFrom_mem _ _ 0 p hp
      simp only [Nat.cast_zero, sub_zero, gt_iff_lt, decide_eq_true_eq] at hv hpos
      obtain ⟨hp0, hp1, hget⟩ := vecAt_eq_some hv
      rw [List.get?_eq_getElem?] at hget
      have hpm := columnMax_length _ _ hrowlen
      rw [List.length_replicate] at hpm
      have hbase : (List.replicate (derivative.length - 1) (0 : ℚ))[p.toNat]? = some 0 := by
        rw [List.getElem?_replicate, if_pos (by omega)]
      obtain ⟨v', hv', _, _, h3⟩ := columnMax_getElem? _ _ p.toNat 0 hrowlen hbase
      rw [hget] at hv'
      simp only [Option.some.injEq] at hv'
      subst hv'
      rcases h3 with h3 | ⟨r, hr, hrv⟩
      · rw [h3] at hpos; exact absurd hpos (lt_irrefl 0)
      · obtain ⟨x, hx, rfl⟩ := List.mem_map.1 hr
        obtain ⟨t, ht, a, b, ha, hb, h1, h2⟩ := (hspec x hx).2.2.2.2 p.toNat v hrv hpos.ne'
        refine ⟨a, b, t, ?_, ?_, ht, h1, h2⟩
        · rw [← ha, ← vecAt_natCast, Int.toNat_of_nonneg hp0]
        · rw [← hb, ← vecAt_natCast]
          congr 1
          push_cast
          rw [Int.toNat_of_nonneg hp0]

set_option maxRecDepth 100000 in
theorem candidateFinder_peak_slopes_witness :
    ∃ a b t : ℚ, vecAt ([1 / 2, -3 / 20, -7 / 20] : List ℚ) 1 = some a ∧
      vecAt ([1 / 2, -3 / 20, -7 / 20] : List ℚ) (1 + 1) = some b ∧
      (t = 1 / 10 ∨ t = 0 ∨ t = -1 / 10) ∧ t - 1 / 10 < a ∧ b < t + 1 / 10 :=
  candidateFinder_peak_slopes [0, 1 / 2, 7 / 20, 0] [1 / 2, -3 / 20, -7 / 20] 10 (by norm_num)
    [1 / 2, 7 / 20] [0, 1] (by decide!) 1 (by decide)

theorem ctrunc_sub_self (x : ℚ) : ctrunc (x - (ctrunc x : ℚ)) = 0 := by
  by_cases hx : 0 ≤ x
  · have h1 := ctrunc_le hx
    have h2 := ctrunc_lt_add_one hx
    unfold ctrunc
    rw [if_pos (by unfold ctrunc at h1; linarith), if_pos hx, Int.floor_eq_iff]
    unfold ctrunc at h1 h2
    rw [if_pos hx] at h1 h2
    constructor
    · push_cast; linarith
    · push_cast; linarith
  · have h1 : x ≤ (⌈x⌉ : ℚ) := Int.le_ceil x
    have h2 : (⌈x⌉ : ℚ) < x + 1 := Int.ceil_lt_add_one x
    unfold ctrunc
    rw [if_neg hx]
    by_cases h0 : 0 ≤ x - (⌈x⌉ : ℚ)
    · rw [if_pos h0, Int.floor_eq_iff]
      constructor
      · push_cast; linarith
      · push_cast; linarith
    · rw [if_neg h0, Int.ceil_eq_iff]
      constructor
      · push_cast; linarith
      · push_cast; linarith

/-- With every sign equal to 0 the sweep only writes flat markers: the peak row
is untouched and every cell of the row keeps its value or becomes 2. -/
theorem sweepLoop_flat (t delta : ℚ) (jz : ℤ) :
    ∀ (rest : List ℚ) (prev : ℚ) (i : ℕ) (st : SweepState),
      (∀ c ∈ rest, sign3 (ctrunc ((c - t) * delta)) = 0) →
      sign3 (ctrunc ((prev - t) * delta)) = 0 →
      (sweepLoop t delta jz rest prev i st).peakRow = st.peakRow ∧
      (sweepLoop t delta jz rest prev i st).row.length = st.row.length ∧
      ∀ (k : ℕ) (v : ℚ), (sweepLoop t delta jz rest prev i st).row[k]? = some v →
        v = 2 ∨ st.row[k]? = some v := by
  intro rest
  induction rest with
  | nil => intro prev i st _ _; exact ⟨rfl, rfl, fun k v hv => Or.inr hv⟩
  | cons cur rest ih =>
    intro prev i st hall hprev
    have hcur := hall cur (List.mem_cons_self _ _)
    obtain ⟨h1, h2, h3⟩ := ih cur (i + 1) (sweepStep t delta jz i prev cur st)
      (fun c hc => hall c (List.mem_cons_of_mem _ hc)) hcur
    have hstep : (sweepStep t delta jz i prev cur st).peakRow = st.peakRow ∧
        (sweepStep t delta jz i prev cur st).row.length = st.row.length ∧
        ∀ (k : ℕ) (v : ℚ), (sweepStep t delta jz i prev cur st).row[k]? = some v →
          v = 2 ∨ st.row[k]? = some v := by
      unfold sweepStep
      simp only [hcur, hprev, zero_ne_one, if_false, if_true]
      split
      · refine ⟨rfl, by simp, ?_⟩
        intro k v hv
        simp only [List.getElem?_set] at hv
        split at hv
        · split at hv
          · simp only [Option.some.injEq] at hv; exact Or.inl hv.symm
          · cases hv
        · exact Or.inr hv
      · exact ⟨rfl, rfl, fun k v hv => Or.inr hv⟩
    show (sweepLoop t delta jz rest cur (i + 1) (sweepStep t delta jz i prev cur st)).peakRow =
        st.peakRow ∧ _
    refine ⟨h1.trans hstep.1, h2.trans hstep.2.1, ?_⟩
    intro k v hv
    rcases h3 k v hv with h | h
    · exact Or.inl h
    · exact hstep.2.2 k v h

theorem sweepRow_flat (d : List ℚ) (startingSlope delta : ℚ) (zeroSlopeIndex : ℤ) (j : ℕ)
    (hsign : ∀ v ∈ d,
      sign3 (ctrunc ((v - (startingSlope + (j : ℚ) * (-1 / delta))) * delta)) = 0) :
    sweepRow d startingSlope delta zeroSlopeIndex j =
      (List.replicate (d.length - 1) 0, List.replicate (d.length - 1) 0) := by
  unfold sweepRow
  simp only []
  generalize (if (j : ℤ) = zeroSlopeIndex - 1 then (0 : ℤ) else if (j : ℤ) = zeroSlopeIndex then 1
    else if (j : ℤ) = zeroSlopeIndex + 1 then 2 else -1) = jz
  have hfin : ∀ st : SweepState, st.row.length = d.length - 1 →
      (∀ (k : ℕ) (v : ℚ), st.row[k]? = some v → v = 2 ∨ v = 0) →
      remarkFlat 0 st.row 0 (st.row.length : ℤ) = List.replicate (d.length - 1) 0 := by
    intro st hl hv
    rw [List.eq_replicate_iff]
    refine ⟨by rw [remarkFlat_length, hl], ?_⟩
    intro b hb
    obtain ⟨k, hk⟩ := List.getElem?_of_mem hb
    rw [remarkFlat_getElem?] at hk
    cases hu : st.row[k]? with
    | none => rw [hu] at hk; cases hk
    | some u =>
      have hklt := (List.getElem?_eq_some.1 hu).1
      rw [hu] at hk
      simp only [Option.map_some', Option.some.injEq, zero_add] at hk
      rcases hv k u hu with h | h
      · rw [if_pos ⟨by exact_mod_cast hklt.le, h⟩] at hk
        exact hk.symm
      · rw [h] at hk
        rw [← hk]
        split <;> rfl
  cases d with
  | nil =>
    simp only [List.length_nil, Nat.zero_sub, List.replicate_zero]
    rfl
  | cons d0 rest =>
    obtain ⟨h1, h2, h3⟩ := sweepLoop_flat (startingSlope + (j : ℚ) * (-1 / delta)) delta jz
      rest d0 1
      ⟨List.replicate ((d0 :: rest).length - 1) 0, List.replicate ((d0 :: rest).length - 1) 0, true⟩
      (fun x hx => hsign x (List.mem_cons_of_mem _ hx)) (hsign d0 (List.mem_cons_self _ _))
    simp only [] at h1 h2 h3 ⊢
    rw [h1, hfin _ (by rw [h2, List.length_replicate])]
    intro k v hv
    rcases h3 k v hv with h | h
    · exact Or.inl h
    · rw [List.getElem?_replicate] at h
      split at h
      · simp only [Option.some.injEq] at h
        exact Or.inr h.symm
      · cases h

/-- C25: for every wave (of length `≥ 3`) whose first derivative is constant,
`candidateFinder` in mode 1 flags no intersection and no peak: the
crossing-amplitude vector is all zero and `candidatePeaksPosition` is empty. -/
theorem candidateFinder_straight_line (wave derivative : List ℚ) (deltaStepSlope c : ℚ)
    (hn : 3 ≤ wave.length) (hfd : firstDifference wave = some derivative)
    (hconst : ∀ v ∈ derivative, v = c) (hdelta : deltaStepSlope ≠ 0) :
    candidateFinder wave derivative deltaStepSlope =
      some (List.replicate (wave.length - 2) 0, []) := by
  have hlen := firstDifference_length hfd
  have hne : derivative ≠ [] := by
    intro h0; rw [h0] at hlen; simp at hlen; omega
  obtain ⟨dmax, hmax⟩ := vecMax_isSome hne
  obtain ⟨dmin, hmin⟩ : ∃ d, vecMin derivative = some d := by
    cases derivative with
    | nil => exact absurd rfl hne
    | cons a as => exact ⟨_, rfl⟩
  have e1 : dmax = c := hconst _ (vecMax_spec hmax).1
  have e2 : dmin = c := hconst _ (vecMin_spec hmin).1
  rw [e1] at hmax
  rw [e2] at hmin
  have hN : derivative.length - 1 = wave.length - 2 := by omega
  obtain ⟨w, hw⟩ : ∃ w, span wave 1 ((wave.length : ℤ) - 2) = some w := by
    unfold span
    rw [if_pos ⟨by norm_num, by omega, by omega⟩]
    exact ⟨_, rfl⟩
  have hwlen : w.length = wave.length - 2 := by
    have := (span_eq_some hw).2.2.2
    omega
  have hrow : sweepRow derivative ((ctrunc (c * deltaStepSlope) : ℚ) / deltaStepSlope)
      deltaStepSlope (ctrunc ((ctrunc (c * deltaStepSlope) : ℚ) / deltaStepSlope * deltaStepSlope))
      0 = (List.replicate (derivative.length - 1) 0, List.replicate (derivative.length - 1) 0) := by
    apply sweepRow_flat
    intro v hv
    rw [hconst v hv]
    have e : (c - ((ctrunc (c * deltaStepSlope) : ℚ) / deltaStepSlope +
        ((0 : ℕ) : ℚ) * (-1 / deltaStepSlope))) * deltaStepSlope =
        c * deltaStepSlope - (ctrunc (c * deltaStepSlope) : ℚ) := by
      push_cast
      field_simp
    rw [e, ctrunc_sub_self]
    rfl
  have hrows : sweepRows derivative c c deltaStepSlope =
      [(List.replicate (derivative.length - 1) 0, List.replicate (derivative.length - 1) 0)] := by
    unfold sweepRows
    simp only [numberSlope_eq c c deltaStepSlope hdelta]
    rw [← hrow]
    have h1 : (ctrunc (c * deltaStepSlope) - ctrunc (c * deltaStepSlope) + 1).toNat = 1 := by
      rw [sub_self]; rfl
    rw [h1]
    rfl
  have hcm : columnMax (List.replicate (derivative.length - 1) (0 : ℚ))
      [List.replicate (derivative.length - 1) (0 : ℚ)] = List.replicate (derivative.length - 1) 0 := by
    show List.zipWith max _ _ = _
    rw [List.zipWith_replicate]
    simp
  rw [candidateFinder_eq wave derivative deltaStepSlope c c hmax hmin hdelta (by omega), hw,
    hrows]
  simp only [List.map_cons, List.map_nil, hcm, Option.some_bind]
  have hs : schur (List.replicate (derivative.length - 1) (0 : ℚ)) w =
      some (List.replicate (wave.length - 2) 0) := by
    unfold schur
    rw [if_pos (by rw [List.length_replicate, hwlen, hN])]
    congr 1
    rw [List.eq_replicate_iff]
    refine ⟨by rw [List.length_zipWith, List.length_replicate, hwlen, hN, min_self], ?_⟩
    intro b hb
    obtain ⟨k, hk⟩ := List.getElem?_of_mem hb
    rw [List.getElem?_zipWith_eq_some] at hk
    obtain ⟨x, y, hx, _, hxy⟩ := hk
    rw [List.getElem?_replicate] at hx
    split at hx
    · simp only [Option.some.injEq] at hx
      rw [← hxy, ← hx, zero_mul]
    · cases hx
  rw [hs, Option.some_bind]
  congr 2
  exact indicesFrom_eq_nil _ _ 0 (by
    intro a ha
    rw [List.eq_of_mem_replicate ha]
    simp)

set_option maxRecDepth 100000 in
theorem candidateFinder_straight_line_witness :
    candidateFinder [1, 3, 5, 7] [2, 2, 2] 10 =
      some (List.replicate (([1, 3, 5, 7] : List ℚ).length - 2) 0, []) :=
  candidateFinder_straight_line [1, 3, 5, 7] [2, 2, 2] 10 2 (by decide) (by decide!)
    (by intro v hv; simp at hv; exact hv) (by norm_num)

theorem sorted_getElem_le {l : List ℕ} (h : l.Sorted (fun a b => a ≤ b)) {i j : ℕ} (hij : i ≤ j)
    (hj : j < l.length) (hi : i < l.length) : l[i] ≤ l[j] := by
  rcases Nat.eq_or_lt_of_le hij with e | hlt
  · subst e; exact le_refl _
  · exact (List.pairwise_iff_getElem.1 h) i j (by omega) hj hlt

/-- With the index `n` clamped to `n - 1`, `mglobalizer` at the effective
percentile 1 returns the largest value. -/
theorem mglobalizer_full (direction : ℤ) (perc : ℚ) (vals : List ℕ) (hv : vals ≠ [])
    (h : (if direction = -1 then 1 - perc else perc) = 1) :
    ∃ v, mglobalizer direction perc vals = some v ∧ v ∈ vals ∧ ∀ u ∈ vals, u ≤ v := by
  have hperm := List.perm_insertionSort (fun a b : ℕ => a ≤ b) vals
  have hsort := List.sorted_insertionSort (fun a b : ℕ => a ≤ b) vals
  have hlen := hperm.length_eq
  have hpos : 0 < vals.length := List.length_pos.2 hv
  have hr : cround (1 * ((vals.insertionSort (fun a b => a ≤ b)).length : ℚ)) =
      ((vals.insertionSort (fun a b => a ≤ b)).length : ℤ) := by
    rw [one_mul, show (((vals.insertionSort (fun a b => a ≤ b)).length : ℕ) : ℚ) =
      (((vals.insertionSort (fun a b => a ≤ b)).length : ℤ) : ℚ) by push_cast; rfl]
    unfold cround
    rw [if_pos (by positivity)]
    rw [Int.floor_eq_iff]
    constructor
    · linarith
    · norm_num
  have hlt : (vals.insertionSort (fun a b => a ≤ b)).length - 1 <
      (vals.insertionSort (fun a b => a ≤ b)).length := by omega
  refine ⟨(vals.insertionSort (fun a b => a ≤ b))[(vals.insertionSort
    (fun a b => a ≤ b)).length - 1], ?_, ?_, ?_⟩
  · unfold mglobalizer
    simp only [h, hr, if_true]
    rw [if_neg (by omega)]
    unfold vecAt
    rw [if_pos (by omega)]
    have e : (((vals.insertionSort (fun a b => a ≤ b)).length : ℤ) - 1).toNat =
        (vals.insertionSort (fun a b => a ≤ b)).length - 1 := by omega
    rw [e, List.get?_eq_getElem?, List.getElem?_eq_getElem hlt]
  · exact hperm.subset (List.getElem_mem _)
  · intro u hu
    obtain ⟨i, hi, rfl⟩ := List.getElem_of_mem (hperm.symm.subset hu)
    exact sorted_getElem_le hsort (by omega) hlt hi

/-- C31: for every non-empty vector, `mglobalizer` with direction -1 and
percentile 0 returns the largest value (the claim and the class documentation
say the earliest), and `mglobalizer` with direction 1 and percentile 1 returns
the largest value (the latest, as claimed). -/
theorem mglobalizer_extremes (vals : List ℕ) (hv : vals ≠ []) :
    (∃ v, mglobalizer (-1) 0 vals = some v ∧ v ∈ vals ∧ ∀ u ∈ vals, u ≤ v) ∧
      (∃ v, mglobalizer 1 1 vals = some v ∧ v ∈ vals ∧ ∀ u ∈ vals, u ≤ v) :=
  ⟨mglobalizer_full (-1) 0 vals hv (by norm_num), mglobalizer_full 1 1 vals hv (by norm_num)⟩

/-- Witness of C31 on the locations 20, 10, 30. -/
theorem mglobalizer_extremes_witness :
    [20, 10, 30] ≠ [] ∧
      (∃ v, mglobalizer (-1) 0 [20, 10, 30] = some v ∧ v ∈ [20, 10, 30] ∧
        ∀ u ∈ [20, 10, 30], u ≤ v) ∧
      (∃ v, mglobalizer 1 1 [20, 10, 30] = some v ∧ v ∈ [20, 10, 30] ∧
        ∀ u ∈ [20, 10, 30], u ≤ v) :=
  ⟨by decide, mglobalizer_extremes [20, 10, 30] (by decide)⟩

/-- The failing input of C31: direction -1 with percentile 0 on the locations
20, 10, 30 gives 30, the latest; direction 1 with percentile 0 gives the
earliest. -/
theorem mglobalizer_left_zero :
    mglobalizer (-1) 0 [20, 10, 30] = some 30 ∧ mglobalizer 1 1 [20, 10, 30] = some 30 ∧
      mglobalizer 1 0 [20, 10, 30] = some 10 ∧ mglobalizer (-1) 1 [20, 10, 30] = some 10 := by
  refine ⟨?_, ?_, ?_, ?_⟩ <;> decide!

theorem make_globalSet_spec (nleads : ℕ) (anntyp : annotation_type) (lead : ℤ) :
    ∀ (s : annotationset) (st : List ℕ × pointmap),
      st.1.length + ((s.filter (fun p => decide (p.2.type = anntyp))).map Prod.fst).length ≤
        nleads →
      ∃ pmo, make_globalSet nleads anntyp lead s st =
        some (st.1 ++ (s.filter (fun p => decide (p.2.type = anntyp))).map Prod.fst, pmo) := by
  intro s
  induction s with
  | nil => intro st _; exact ⟨st.2, by simp [make_globalSet]⟩
  | cons e rest ih =>
    intro st h
    by_cases ht : e.2.type = anntyp
    · simp only [List.filter_cons, ht, decide_True, if_true, List.map_cons,
        List.length_cons] at h ⊢
      obtain ⟨pmo, hp⟩ := ih (st.1 ++ [e.1], pointmapSet st.2 lead e.1 e.2)
        (by simp only [List.length_append, List.length_singleton]; omega)
      refine ⟨pmo, ?_⟩
      unfold make_globalSet
      rw [if_pos ht, if_neg (by omega), hp]
      simp
    · simp only [List.filter_cons, ht, decide_False, Bool.false_eq_true, if_false] at h ⊢
      obtain ⟨pmo, hp⟩ := ih (st.1, pointmapSet st.2 lead e.1 e.2) h
      refine ⟨pmo, ?_⟩
      unfold make_globalSet
      rw [if_neg ht, hp]

theorem make_globalLeads_spec (nleads : ℕ) (anntyp : annotation_type) :
    ∀ (pm : pointmap) (st : List ℕ × pointmap),
      st.1.length + (typedLocations pm anntyp).length ≤ nleads →
      ∃ pmo, make_globalLeads nleads anntyp pm st =
        some (st.1 ++ typedLocations pm anntyp, pmo) := by
  intro pm
  induction pm with
  | nil => intro st _; exact ⟨st.2, by simp [make_globalLeads, typedLocations]⟩
  | cons e rest ih =>
    intro st h
    by_cases hg : e.1 = GLOBAL_LEAD
    · have ht : typedLocations (e :: rest) anntyp = typedLocations rest anntyp := by
        simp [typedLocations, List.filter_cons, hg]
      rw [ht] at h ⊢
      obtain ⟨pmo, hp⟩ := ih st h
      refine ⟨pmo, ?_⟩
      unfold make_globalLeads
      rw [if_pos hg, hp]
    · have ht : typedLocations (e :: rest) anntyp =
          (e.2.filter (fun p => decide (p.2.type = anntyp))).map Prod.fst ++
            typedLocations rest anntyp := by
        simp [typedLocations, List.filter_cons, hg]
      rw [ht] at h ⊢
      rw [List.length_append] at h
      obtain ⟨pmo1, hp1⟩ := make_globalSet_spec nleads anntyp e.1 e.2 st (by omega)
      obtain ⟨pmo, hp⟩ := ih (st.1 ++ (e.2.filter (fun p => decide (p.2.type = anntyp))).map
        Prod.fst, pmo1) (by simp only [List.length_append]; omega)
      refine ⟨pmo, ?_⟩
      unfold make_globalLeads
      rw [if_neg hg, hp1]
      simp only [hp, List.append_assoc]

/-- C32: on a pointmap with more than one and at most `nleads` non-global
annotations of the type, `make_global` collects all their locations and adds a
`GLOBAL_LEAD` annotation located at `f` applied to all of them but the last. -/
theorem make_global_drops_last (pm : pointmap) (nleads : ℕ) (anntyp : annotation_type)
    (f : List ℕ → Option ℕ) (hn : (typedLocations pm anntyp).length ≤ nleads)
    (h1 : 1 < (typedLocations pm anntyp).length) :
    ∃ pmo, make_globalLeads nleads anntyp pm ([], []) =
        some (typedLocations pm anntyp, pmo) ∧
      make_global pm nleads anntyp f =
        (f ((typedLocations pm anntyp).take ((typedLocations pm anntyp).length - 1))).map
          (fun newloc => pointmapSet pmo GLOBAL_LEAD newloc
            { location := newloc, type := anntyp, lead := GLOBAL_LEAD }) := by
  obtain ⟨pmo, hp⟩ := make_globalLeads_spec nleads anntyp pm ([], []) (by simpa using hn)
  simp only [List.nil_append] at hp
  refine ⟨pmo, hp, ?_⟩
  unfold make_global
  rw [hp]
  simp only [gt_iff_lt, h1, if_true]
  cases f ((typedLocations pm anntyp).take ((typedLocations pm anntyp).length - 1)) <;> rfl

set_option maxRecDepth 100000 in
theorem typedLocations_twoLeads :
    typedLocations (twoLeads annotation_type.TPEAK) annotation_type.TPEAK = [300, 310] := by
  decide!

/-- Witness of C32 on `twoLeads`. -/
theorem make_global_drops_last_witness :
    ∃ pmo, make_globalLeads 2 annotation_type.TPEAK (twoLeads annotation_type.TPEAK) ([], []) =
        some (typedLocations (twoLeads annotation_type.TPEAK) annotation_type.TPEAK, pmo) ∧
      make_global (twoLeads annotation_type.TPEAK) 2 annotation_type.TPEAK (mglobalizer 1 1) =
        (mglobalizer 1 1 ((typedLocations (twoLeads annotation_type.TPEAK)
          annotation_type.TPEAK).take ((typedLocations (twoLeads annotation_type.TPEAK)
            annotation_type.TPEAK).length - 1))).map
          (fun newloc => pointmapSet pmo GLOBAL_LEAD newloc
            { location := newloc, type := annotation_type.TPEAK, lead := GLOBAL_LEAD }) :=
  make_global_drops_last (twoLeads annotation_type.TPEAK) 2 annotation_type.TPEAK
    (mglobalizer 1 1) (by rw [typedLocations_twoLeads]; decide)
    (by rw [typedLocations_twoLeads]; decide)

set_option maxRecDepth 100000 in
/-- The failing input of C32: two leads with one TPEAK annotation each, at 300
and 310; with the globalizer "latest" the global annotation is put at 300,
the latest of the first location alone, while the latest of the two is 310.
Both annotations of the input are kept. -/
theorem make_global_twoLeads :
    make_global (twoLeads annotation_type.TPEAK) 2 annotation_type.TPEAK (mglobalizer 1 1) =
        some ((GLOBAL_LEAD, [(300, ⟨300, annotation_type.TPEAK, 1, GLOBAL_LEAD⟩)]) ::
          twoLeads annotation_type.TPEAK) ∧
      mglobalizer 1 1 [300, 310] = some 310 := by
  constructor <;> decide!

/-- C36: when the pointmap does not hold exactly one global RPEAK
annotation (and holds an RPEAK annotation at all), the R-peak position
`twaveDelineators` passes on does not depend on the RPEAK annotations: it is
`nsamples - precut` when the ECG has the property "precut", and 250 when not. -/
theorem twaveDelineators_rpeak_fallback (pmin : pointmap) (nsamples : ℕ) (precut : Option ℚ)
    (hglobal : (get_annotations_lead pmin GLOBAL_LEAD annotation_type.RPEAK []).length ≠ 1)
    (hsome : get_annotations pmin annotation_type.RPEAK [] ≠ []) :
    twaveDelineators_rpeak pmin nsamples precut =
      some (match precut with
        | some p => ctrunc ((nsamples : ℚ) - p)
        | none => 250) := by
  unfold twaveDelineators_rpeak
  have hr : (match get_annotations_lead pmin GLOBAL_LEAD annotation_type.RPEAK [] with
      | [a] => (a.location : ℤ)
      | _ => -1) = -1 := by
    split
    · rename_i a heq
      rw [heq] at hglobal
      simp at hglobal
    · rfl
  simp only [hr, if_true, List.length_map]
  rw [if_neg (by simpa using hsome)]
  cases precut <;> rfl

set_option maxRecDepth 100000 in
theorem twoLeads_rpeak :
    (get_annotations_lead (twoLeads annotation_type.RPEAK) GLOBAL_LEAD annotation_type.RPEAK
        []).length = 0 ∧
      (get_annotations (twoLeads annotation_type.RPEAK) annotation_type.RPEAK []).map
        (fun a => a.location) = [300, 310] := by
  constructor <;> decide!

/-- Witness of C36 on `twoLeads`. -/
theorem twaveDelineators_rpeak_fallback_witness :
    twaveDelineators_rpeak (twoLeads annotation_type.RPEAK) 1000 none =
      some (match (none : Option ℚ) with
        | some p => ctrunc (((1000 : ℕ) : ℚ) - p)
        | none => 250) :=
  twaveDelineators_rpeak_fallback (twoLeads annotation_type.RPEAK) 1000 none
    (by rw [twoLeads_rpeak.1]; decide)
    (by intro h; have := twoLeads_rpeak.2; rw [h] at this; simp at this)

set_option maxRecDepth 100000 in
/-- The failing input of C36: RPEAK annotations at 300 and 310 in two leads, no
global RPEAK: the R-peak position is 250 without the property "precut" and
`nsamples - precut` with it, not the mean 305; the seed point computed from QOFF
annotations at the same places is their mean 305. -/
theorem twaveDelineators_rpeak_twoLeads :
    twaveDelineators_rpeak (twoLeads annotation_type.RPEAK) 1000 none = some 250 ∧
      twaveDelineators_rpeak (twoLeads annotation_type.RPEAK) 1000 (some 350) = some 650 ∧
      twaveDelineators_seedoff (twoLeads annotation_type.QOFF) = some 305 := by
  refine ⟨?_, ?_, ?_⟩ <;> decide!

/-- The second maximum with its amplitude: on a list of at least two
candidates `candidateSecondMax` returns a position other than the one of the
maximum, the amplitude of the candidate there, and that candidate is the
highest of the others. -/
theorem candidateSecondMax_amplitude (T : List candidate) (h : 2 ≤ T.length) (amp : ℚ)
    (index : ℤ) :
    ∃ (s : ℕ) (v : candidate), candidateSecondMax T amp index = some (v.y, (s : ℤ)) ∧
      s ≠ max_element cmp T ∧ T[s]? = some v ∧
      ∀ (t : ℕ) (b : candidate), t ≠ max_element cmp T → T[t]? = some b → b.y ≤ v.y := by
  obtain ⟨vm, hvm, hlt, hall⟩ := max_element_spec T (by omega)
  generalize hm : max_element cmp T = m at hvm hlt
  -- the part before the maximum
  have hp1 : m ≠ 0 → ∃ v1, T[max_element cmp (T.take m)]? = some v1 ∧
      max_element cmp (T.take m) < m ∧ ∀ (t : ℕ) (b : candidate), t < m → T[t]? = some b → b.y ≤ v1.y := by
    intro hm0
    have hl : (T.take m).length = m := by rw [List.length_take]; omega
    obtain ⟨v1, hv1, hlt1, hall1⟩ := max_element_spec (T.take m) (by omega)
    rw [hl] at hlt1
    rw [List.getElem?_take_of_lt hlt1] at hv1
    refine ⟨v1, hv1, hlt1, ?_⟩
    intro t b ht hb
    apply hall1
    rw [List.mem_iff_getElem?]
    exact ⟨t, by rw [List.getElem?_take_of_lt ht]; exact hb⟩
  -- the part after the maximum
  have hp2 : m + 1 < T.length → ∃ v2, T[m + 1 + max_element cmp (T.drop (m + 1))]? = some v2 ∧
      m + 1 + max_element cmp (T.drop (m + 1)) < T.length ∧
      ∀ (t : ℕ) (b : candidate), m < t → T[t]? = some b → b.y ≤ v2.y := by
    intro hm1
    have hl : (T.drop (m + 1)).length = T.length - (m + 1) := List.length_drop _ _
    obtain ⟨v2, hv2, hlt2, hall2⟩ := max_element_spec (T.drop (m + 1)) (by omega)
    rw [List.getElem?_drop] at hv2
    refine ⟨v2, hv2, by omega, ?_⟩
    intro t b ht hb
    apply hall2
    rw [List.mem_iff_getElem?]
    refine ⟨t - (m + 1), ?_⟩
    rw [List.getElem?_drop, show m + 1 + (t - (m + 1)) = t by omega]
    exact hb
  have hcast1 : ((max_element cmp (T.take ((m : ℤ)).toNat) : ℕ) : ℤ) =
      ((max_element cmp (T.take m) : ℕ) : ℤ) := by rw [Int.toNat_ofNat]
  have hcast2 : (m : ℤ) + 1 + ((max_element cmp (T.drop ((m : ℤ).toNat + 1)) : ℕ) : ℤ) =
      ((m + 1 + max_element cmp (T.drop (m + 1)) : ℕ) : ℤ) := by
    rw [Int.toNat_ofNat]; push_cast; ring
  unfold candidateSecondMax
  rw [if_pos (by omega)]
  simp only [hm, hcast1, hcast2, Option.bind_eq_bind]
  by_cases hm0 : m = 0
  · -- the maximum is the first candidate
    obtain ⟨v2, hv2, hlt2, hall2⟩ := hp2 (by omega)
    have h1 : ¬ ((m : ℤ) ≠ 0) := by simp [hm0]
    have h2 : (m : ℤ) < (T.length : ℤ) - 1 := by omega
    refine ⟨m + 1 + max_element cmp (T.drop (m + 1)), v2, ?_, by omega, hv2, ?_⟩
    · have hne : ((m + 1 + max_element cmp (T.drop (m + 1)) : ℕ) : ℤ) ≠ -1 := by omega
      have hne2 : ((m + 1 + max_element cmp (T.drop (m + 1)) : ℕ) : ℤ) ≠
          ((max_element cmp (T.take m) : ℕ) : ℤ) := by
        have : max_element cmp (T.take m) = 0 := by subst hm0; simp [max_element]
        rw [this]; push_cast; omega
      simp only [if_neg h1, if_pos h2, Option.some_bind, if_pos hne, if_pos hne2, vecAt_natCast, hv2]
    · intro t b ht hb
      exact hall2 t b (by omega) hb
  · obtain ⟨v1, hv1, hlt1, hall1⟩ := hp1 hm0
    have h1 : (m : ℤ) ≠ 0 := by omega
    by_cases hm1 : m + 1 < T.length
    · obtain ⟨v2, hv2, hlt2, hall2⟩ := hp2 hm1
      have h2 : (m : ℤ) < (T.length : ℤ) - 1 := by omega
      simp only [if_pos h1, if_pos h2, vecAt_natCast, hv1, hv2, Option.some_bind]
      by_cases hgt : v1.y > v2.y
      · refine ⟨max_element cmp (T.take m), v1, ?_, by omega, hv1, ?_⟩
        · have hne : ((max_element cmp (T.take m) : ℕ) : ℤ) ≠ -1 := by omega
          simp only [if_pos hgt, if_pos hne, ne_eq, not_true_eq_false, if_false, vecAt_natCast, hv1,
            Option.some_bind]
        · intro t b ht hb
          rcases Nat.lt_or_gt_of_ne ht with h3 | h3
          · exact hall1 t b h3 hb
          · exact le_trans (hall2 t b h3 hb) (le_of_lt hgt)
      · refine ⟨m + 1 + max_element cmp (T.drop (m + 1)), v2, ?_, by omega, hv2, ?_⟩
        · have hne : ((m + 1 + max_element cmp (T.drop (m + 1)) : ℕ) : ℤ) ≠ -1 := by omega
          have hne2 : ((m + 1 + max_element cmp (T.drop (m + 1)) : ℕ) : ℤ) ≠
              ((max_element cmp (T.take m) : ℕ) : ℤ) := by omega
          simp only [if_neg hgt, if_pos hne, if_pos hne2, vecAt_natCast, hv2, Option.some_bind]
        · intro t b ht hb
          rcases Nat.lt_or_gt_of_ne ht with h3 | h3
          · exact le_trans (hall1 t b h3 hb) (not_lt.1 hgt)
          · exact hall2 t b h3 hb
    · have h2 : ¬ (m : ℤ) < (T.length : ℤ) - 1 := by omega
      refine ⟨max_element cmp (T.take m), v1, ?_, by omega, hv1, ?_⟩
      · have hne : ((max_element cmp (T.take m) : ℕ) : ℤ) ≠ -1 := by omega
        simp only [if_pos h1, if_neg h2, Option.some_bind, if_pos hne, ne_eq, not_true_eq_false,
          if_false, vecAt_natCast, hv1]
      · intro t b ht hb
        have : t < T.length := by
          by_contra hcon
          rw [List.getElem?_eq_none (by omega)] at hb
          simp at hb
        exact hall1 t b (by omega) hb

/-- C35: for every list of at least two candidates, `candidateSecondMax`
returns an index different from the index `candidateMax` returns, whose
amplitude is the maximum over all candidates other than that main one, together
with that amplitude; for a one-element list it returns index `-1` and amplitude
0. -/
theorem candidateSecondMax_runner_up (T : List candidate) (amp amp2 : ℚ) (index index2 : ℤ) :
    (2 ≤ T.length →
      ∃ (mainIndex s : ℕ) (vmain v : candidate),
        candidateMax T amp index = some (vmain.y, (mainIndex : ℤ)) ∧
        candidateSecondMax T amp2 index2 = some (v.y, (s : ℤ)) ∧
        s ≠ mainIndex ∧ T[s]? = some v ∧
        ∀ (t : ℕ) (b : candidate), t ≠ mainIndex → T[t]? = some b → b.y ≤ v.y) ∧
    (T.length = 1 → candidateSecondMax T amp2 index2 = some (0, -1)) := by
  constructor
  · intro h
    obtain ⟨vmain, hmax, _, _, _⟩ := candidateMax_spec T (by omega) amp index
    obtain ⟨s, v, h2, hne, hv, hall⟩ := candidateSecondMax_amplitude T h amp2 index2
    exact ⟨max_element cmp T, s, vmain, v, hmax, h2, hne, hv, hall⟩
  · intro h
    exact candidateSecondMax_single T h amp2 index2

/-- C39: the index `intersectionTwoCandidates` returns is the computed
intersection when that lies in `[c1.risingRange[1], c2.risingRange[1]]` and 0
otherwise, so it is either 0 or in the interval; when the slopes admit no
intersection (`ac <= 1e-10`, sentinel `-1`) and `c1.risingRange[1]` is a sample
index (not negative), the result is 0. -/
theorem intersectionTwoCandidates_range (c1 c2 : candidate) :
    (intersectionTwoCandidates c1 c2 = 0 ∨
      (c1.risingRangeInfo1 ≤ intersectionTwoCandidates c1 c2 ∧
        intersectionTwoCandidates c1 c2 ≤ c2.risingRangeInfo1)) ∧
    ((c1.risingRangeInfo1 ≤ slopeIntersection c1 c2 ∧ slopeIntersection c1 c2 ≤ c2.risingRangeInfo1) →
      intersectionTwoCandidates c1 c2 = slopeIntersection c1 c2) ∧
    (¬ (c1.risingRangeInfo1 ≤ slopeIntersection c1 c2 ∧
        slopeIntersection c1 c2 ≤ c2.risingRangeInfo1) →
      intersectionTwoCandidates c1 c2 = 0) ∧
    (¬ ((if c2.x > c1.x then c2.a0 - c1.a1 else c1.a0 - c2.a1) > 1 / 10000000000) →
      0 ≤ c1.risingRangeInfo1 → intersectionTwoCandidates c1 c2 = 0) := by
  have hzero : ∀ z : ℤ, cceil ((Int.tdiv (if z > c2.get_risingRangeInfo 1 then 1 else 0) 2 : ℤ) : ℚ)
      = 0 := by
    intro z
    have e1 : Int.tdiv 1 2 = 0 := by decide
    have e0 : Int.tdiv 0 2 = 0 := by decide
    split <;> simp [cceil, e1, e0]
  have hg2 : c1.get_risingRangeInfo 2 = c1.risingRangeInfo1 := by
    simp [candidate.get_risingRangeInfo]
  have hg1 : c2.get_risingRangeInfo 1 = c2.risingRangeInfo1 := by
    simp [candidate.get_risingRangeInfo]
  have hdef : intersectionTwoCandidates c1 c2 =
      if slopeIntersection c1 c2 < c1.risingRangeInfo1 ∨
        slopeIntersection c1 c2 > c2.risingRangeInfo1 then 0 else slopeIntersection c1 c2 := by
    have hdef0 : intersectionTwoCandidates c1 c2 =
        if slopeIntersection c1 c2 < c1.get_risingRangeInfo 2 ∨
          slopeIntersection c1 c2 > c2.get_risingRangeInfo 1 then
          cceil ((Int.tdiv
            (if c1.get_risingRangeInfo 2 + slopeIntersection c1 c2 > c2.get_risingRangeInfo 1
              then 1 else 0) 2 : ℤ) : ℚ)
        else slopeIntersection c1 c2 := rfl
    rw [hdef0, hzero, hg1, hg2]
  refine ⟨?_, ?_, ?_, ?_⟩
  · rw [hdef]
    split
    · exact Or.inl rfl
    · rename_i h
      push_neg at h
      exact Or.inr ⟨h.1, h.2⟩
  · rintro ⟨h1, h2⟩
    rw [hdef, if_neg (by push_neg; exact ⟨h1, h2⟩)]
  · intro h
    rw [hdef, if_pos (by
      by_contra hc
      push_neg at hc
      exact h ⟨hc.1, hc.2⟩)]
  · intro hac h0
    have hs : slopeIntersection c1 c2 = -1 := by
      unfold slopeIntersection
      simp only [hac, if_false]
    rw [hdef, hs, if_pos (Or.inl (by omega))]

theorem mem_dropIndices {α : Type} (idx : List ℤ) (l : List α) (k i : ℕ) (c : α)
    (hc : l[i]? = some c) (hi : ((k + i : ℕ) : ℤ) ∉ idx) : c ∈ dropIndices idx k l := by
  induction l generalizing k i with
  | nil => simp at hc
  | cons a as ih =>
    unfold dropIndices
    cases i with
    | zero =>
      simp only [List.getElem?_cons_zero, Option.some.injEq] at hc
      subst hc
      rw [if_neg (by simpa using hi)]
      exact List.mem_cons_self _ _
    | succ i =>
      have hrec := ih (k + 1) i (by simpa using hc)
        (by rw [show k + 1 + i = k + (i + 1) by omega]; exact hi)
      split
      · exact hrec
      · exact List.mem_cons_of_mem _ hrec

theorem dropIndices_sublist {α : Type} (idx : List ℤ) (l : List α) (k : ℕ) :
    (dropIndices idx k l).Sublist l := by
  induction l generalizing k with
  | nil => exact List.Sublist.refl _
  | cons a as ih =>
    unfold dropIndices
    split
    · exact (ih (k + 1)).cons a
    · exact (ih (k + 1)).cons₂ a

theorem toInt_eq_two_iff (l : candidateLabel) : l.toInt = 2 ↔ l = candidateLabel.peak := by
  cases l <;> simp [candidateLabel.toInt]

/-- `mainPeak` on a list with a peak returns the highest peak amplitude, and its
index points, through the peak index list, at a peak with that amplitude. -/
theorem mainPeak_spec (candids : List candidate) (i : ℤ) (a : ℚ)
    (hpeak : peakCandidates candids ≠ []) :
    ∃ (M : ℚ) (k : ℕ) (mainIndex : ℤ) (v : candidate),
      mainPeak candids (peakCandidates candids) i a = some (M, (k : ℤ)) ∧
      (peakCandidates candids)[k]? = some mainIndex ∧ vecAt candids mainIndex = some v ∧
      v.label = candidateLabel.peak ∧ v.y = M ∧ TopPeak candids M := by
  obtain ⟨T, hT, hlen⟩ := pickCandidates_peak candids
  have hTeq := pickCandidates_peak_eq candids
  rw [hT] at hTeq
  simp only [Option.some.injEq] at hTeq
  have hpos : 0 < T.length := by
    rw [hlen]
    exact List.length_pos.2 hpeak
  obtain ⟨v, hmax, hv, hlt, hall⟩ := candidateMax_spec T hpos a i
  have hget := (mapOpt_getElem _ _ _ hT).2 (max_element cmp T)
  rw [hv] at hget
  cases hidx : (peakCandidates candids)[max_element cmp T]? with
  | none => rw [hidx] at hget; simp at hget
  | some mainIndex =>
    rw [hidx] at hget
    simp only [Option.some_bind] at hget
    have hvmem : v ∈ T := List.getElem?_mem hv
    rw [hTeq, List.mem_filter] at hvmem
    have hlab : v.label = candidateLabel.peak :=
      (toInt_eq_two_iff _).1 (by simpa using hvmem.2)
    refine ⟨v.y, max_element cmp T, mainIndex, v, ?_, hidx, hget.symm, hlab, rfl, ?_, ?_⟩
    · simp only [mainPeak, hT, Option.bind_eq_bind, Option.some_bind, hmax]
    · exact ⟨v, hvmem.1, hlab, rfl⟩
    · intro c hc hcl
      apply hall
      rw [hTeq, List.mem_filter]
      exact ⟨hc, by simpa using (toInt_eq_two_iff _).2 hcl⟩

theorem peakCandidates_ne_nil_of_topPeak {candids : List candidate} {M : ℚ}
    (h : TopPeak candids M) : peakCandidates candids ≠ [] := by
  obtain ⟨⟨c, hc, hl, _⟩, _⟩ := h
  exact indicesFrom_ne_nil _ candids 0 ⟨c, hc, by simpa using (toInt_eq_two_iff _).2 hl⟩

theorem mainPeak_of_topPeak {candids : List candidate} {M : ℚ} (h : TopPeak candids M) (i : ℤ)
    (a : ℚ) : ∃ k, mainPeak candids (peakCandidates candids) i a = some (M, k) := by
  obtain ⟨M1, k, _, v, hm, _, _, _, _, ht⟩ :=
    mainPeak_spec candids i a (peakCandidates_ne_nil_of_topPeak h)
  obtain ⟨⟨c, hc, hl, hy⟩, hle⟩ := h
  obtain ⟨⟨c1, hc1, hl1, hy1⟩, hle1⟩ := ht
  have e : M1 = M := le_antisymm (by rw [← hy1]; exact hle c1 hc1 hl1)
    (by rw [← hy]; exact hle1 c hc hl)
  rw [e] at hm
  exact ⟨k, hm⟩

theorem filterIndices_mem (candids : List candidate) (p : candidate → Bool) :
    ∀ (index out : List ℤ), filterIndices candids p index = some out →
      ∀ j ∈ out, ∃ c, vecAt candids j = some c ∧ p c = true := by
  intro index
  induction index with
  | nil =>
    intro out h j hj
    simp only [filterIndices, Option.some.injEq] at h
    subst h
    simp at hj
  | cons i rest ih =>
    intro out h j hj
    simp only [filterIndices, Option.bind_eq_bind, Option.bind_eq_some, Option.some.injEq] at h
    obtain ⟨c, hc, out1, ho1, h⟩ := h
    subst h
    by_cases hp : p c = true
    · rw [if_pos hp] at hj
      rcases List.mem_cons.1 hj with rfl | hj
      · exact ⟨c, hc, hp⟩
      · exact ih out1 ho1 j hj
    · rw [if_neg hp] at hj
      exact ih out1 ho1 j hj

/-- None of the three amplitude rules returns the position of a peak of the
highest amplitude. -/
theorem amplitudeRules_keep_top (candids : List candidate) (M : ℚ) (ht : TopPeak candids M)
    (hM : 0 ≤ M) (minMain pMain minV pPeak maxDelta : ℚ) (hp1 : pMain ≤ 1)
    (hp2 : 0 ≤ pPeak ∧ pPeak ≤ 1) (hd : 0 ≤ maxDelta) :
    ∃ bad6 bad7 bad8, lowAmplitudeMainPeak candids minMain pMain = some bad6 ∧
      lowAmplitudePeaks candids minV pPeak = some bad7 ∧
      inconsistentPeaks candids maxDelta = some bad8 ∧
      ∀ j, j ∈ bad6 ∨ j ∈ bad7 ∨ j ∈ bad8 → ∀ c, vecAt candids j = some c →
        ¬ (c.label = candidateLabel.peak ∧ c.y = M) := by
  obtain ⟨k, hk⟩ := mainPeak_of_topPeak ht (-1) 0
  obtain ⟨bad6, h6, _⟩ := lowAmplitudeMainPeak_removable candids minMain pMain
  obtain ⟨bad7, h7, _⟩ := lowAmplitudePeaks_removable candids minV pPeak
  obtain ⟨bad8, h8, _⟩ := inconsistentPeaks_removable candids maxDelta
  refine ⟨bad6, bad7, bad8, h6, h7, h8, ?_⟩
  intro j hj c hc ⟨_, hy⟩
  rcases hj with hj | hj | hj
  · simp only [lowAmplitudeMainPeak, hk, Option.bind_eq_bind, Option.some_bind] at h6
    split at h6
    · simp only [Option.some.injEq] at h6
      subst h6
      obtain ⟨c1, hc1, hp⟩ := indicesFrom_mem _ candids 0 j hj
      simp only [Nat.cast_zero, sub_zero] at hc1
      rw [hc] at hc1
      simp only [Option.some.injEq] at hc1
      subst hc1
      simp only [decide_eq_true_eq] at hp
      rw [hy] at hp
      nlinarith
    · simp only [Option.some.injEq] at h6
      subst h6
      simp at hj
  · simp only [lowAmplitudePeaks, hk, Option.bind_eq_bind, Option.some_bind] at h7
    obtain ⟨c1, hc1, hp⟩ := filterIndices_mem candids _ _ _ h7 j hj
    rw [hc] at hc1
    simp only [Option.some.injEq] at hc1
    subst hc1
    simp only [decide_eq_true_eq] at hp
    unfold peakMostlySlur at hp
    rw [hy] at hp
    split at hp
    · rename_i hgt
      nlinarith
    · nlinarith
  · simp only [inconsistentPeaks, hk, Option.bind_eq_bind, Option.some_bind] at h8
    obtain ⟨c1, hc1, hp⟩ := filterIndices_mem candids _ _ _ h8 j hj
    rw [hc] at hc1
    simp only [Option.some.injEq] at hc1
    subst hc1
    simp only [decide_eq_true_eq] at hp
    rw [hy] at hp
    linarith

/-- Removing positions that hold no peak of the highest amplitude keeps the
highest peak amplitude. -/
theorem removalStep_topPeak (name : String) (bad : List ℤ) (w : Work) (M : ℚ)
    (ht : TopPeak w.1 M) (hr : Removable bad 0 w.1.length)
    (hkeep : ∀ j ∈ bad, ∀ c, vecAt w.1 j = some c → ¬ (c.label = candidateLabel.peak ∧ c.y = M)) :
    ∃ w1, removalStep name bad w = some w1 ∧ TopPeak w1.1 M := by
  have h := cleanUpLoop_dropIndices bad 0 [] w.1 hr.1
    (by intro a ha; have := hr.2 a ha; simp only [List.length_nil, zero_add]; push_cast at this ⊢; omega)
  simp only [List.nil_append, List.length_nil, add_zero] at h
  refine ⟨(dropIndices bad 0 w.1, (name, bad.length) :: w.2), ?_, ?_, ?_⟩
  · simp only [removalStep, cleanUpCandidates, h]
  · obtain ⟨⟨c, hc, hl, hy⟩, _⟩ := ht
    obtain ⟨i, hi⟩ := List.getElem?_of_mem hc
    refine ⟨c, mem_dropIndices bad w.1 0 i c hi ?_, hl, hy⟩
    intro hmem
    rw [zero_add] at hmem
    exact hkeep _ hmem c (by rw [vecAt_natCast]; exact hi) ⟨hl, hy⟩
  · intro c hc hl
    exact ht.2 c ((dropIndices_sublist bad w.1 0).subset hc) hl

theorem twoPeaks_main : peakCandidates twoPeaks ≠ [] ∧
    mainPeak twoPeaks (peakCandidates twoPeaks) (-1) 0 = some (200, 1) := by
  constructor <;> decide!

/-- C38: on a candidate list with a peak whose highest peak amplitude `M`
is non-negative, with both percentages in `[0, 1]` and a non-negative
`maxDelatAplitudeNotches`, each of `lowAmplitudeMainPeak`, `lowAmplitudePeaks`
and `inconsistentPeaks` returns an index list without the position of the main
peak, and the three stages run in sequence return with a list that still holds
a peak of amplitude `M`. -/
theorem mainPeak_survives (candids : List candidate) (P : Params) (hits : List (String × ℕ))
    (M : ℚ) (k : ℤ) (hpeak : peakCandidates candids ≠ [])
    (hmain : mainPeak candids (peakCandidates candids) (-1) 0 = some (M, k)) (hM : 0 ≤ M)
    (hp1 : 0 ≤ P.percentMainePeak ∧ P.percentMainePeak ≤ 1)
    (hp2 : 0 ≤ P.percentPeak ∧ P.percentPeak ≤ 1) (hd : 0 ≤ P.maxDelatAplitudeNotches) :
    ∃ (mainIndex : ℤ) (c : candidate) (bad6 bad7 bad8 : List ℤ) (w6 w7 w8 : Work),
      vecAt (peakCandidates candids) k = some mainIndex ∧ vecAt candids mainIndex = some c ∧
      c.label = candidateLabel.peak ∧ c.y = M ∧
      lowAmplitudeMainPeak candids P.minVoltageMainPeak P.percentMainePeak = some bad6 ∧
      mainIndex ∉ bad6 ∧
      lowAmplitudePeaks candids P.minVoltage P.percentPeak = some bad7 ∧ mainIndex ∉ bad7 ∧
      inconsistentPeaks candids P.maxDelatAplitudeNotches = some bad8 ∧ mainIndex ∉ bad8 ∧
      step06 P (candids, hits) = some w6 ∧ step07 P w6 = some w7 ∧ step08 P w7 = some w8 ∧
      (∃ c8 ∈ w8.1, c8.label = candidateLabel.peak ∧ c8.y = M) ∧ peakCandidates w8.1 ≠ [] := by
  obtain ⟨M1, k1, mainIndex, v, hm, hidx, hv, hlab, hy, ht⟩ := mainPeak_spec candids (-1) 0 hpeak
  rw [hm] at hmain
  simp only [Option.some.injEq, Prod.mk.injEq] at hmain
  obtain ⟨e1, e2⟩ := hmain
  subst e1
  subst e2
  obtain ⟨bad6, bad7, bad8, h6, h7, h8, hkeep⟩ := amplitudeRules_keep_top candids M1 ht hM
    P.minVoltageMainPeak P.percentMainePeak P.minVoltage P.percentPeak P.maxDelatAplitudeNotches
    hp1.2 hp2 hd
  -- the three stages in sequence
  obtain ⟨_, hb6, hr6⟩ := lowAmplitudeMainPeak_removable candids P.minVoltageMainPeak
    P.percentMainePeak
  rw [h6] at hb6
  simp only [Option.some.injEq] at hb6
  subst hb6
  obtain ⟨w6, hw6, ht6⟩ := removalStep_topPeak "lowAmplitudeMainPeak" bad6 (candids, hits) M1 ht
    hr6 (fun j hj => hkeep j (Or.inl hj))
  obtain ⟨b7, b8, b9, hb7, hb8, _, hkeep6⟩ := amplitudeRules_keep_top w6.1 M1 ht6 hM
    P.minVoltageMainPeak P.percentMainePeak P.minVoltage P.percentPeak P.maxDelatAplitudeNotches
    hp1.2 hp2 hd
  obtain ⟨_, hc7, hr7⟩ := lowAmplitudePeaks_removable w6.1 P.minVoltage P.percentPeak
  rw [hb8] at hc7
  simp only [Option.some.injEq] at hc7
  subst hc7
  obtain ⟨w7, hw7, ht7⟩ := removalStep_topPeak "lowAmplitudePeaks" b8 w6 M1 ht6 hr7
    (fun j hj => hkeep6 j (Or.inr (Or.inl hj)))
  obtain ⟨c7, c8, c9, _, _, hc9, hkeep7⟩ := amplitudeRules_keep_top w7.1 M1 ht7 hM
    P.minVoltageMainPeak P.percentMainePeak P.minVoltage P.percentPeak P.maxDelatAplitudeNotches
    hp1.2 hp2 hd
  obtain ⟨_, hd9, hr8⟩ := inconsistentPeaks_removable w7.1 P.maxDelatAplitudeNotches
  rw [hc9] at hd9
  simp only [Option.some.injEq] at hd9
  subst hd9
  obtain ⟨w8, hw8, ht8⟩ := removalStep_topPeak "inconsistentPeaks" c9 w7 M1 ht7 hr8
    (fun j hj => hkeep7 j (Or.inr (Or.inr hj)))
  refine ⟨mainIndex, v, bad6, bad7, bad8, w6, w7, w8, ?_, hv, hlab, hy, h6, ?_, h7, ?_, h8, ?_,
    ?_, ?_, ?_, ht8.1, peakCandidates_ne_nil_of_topPeak ht8⟩
  · rw [vecAt_natCast]; exact hidx
  · exact fun hj => hkeep mainIndex (Or.inl hj) v hv ⟨hlab, hy⟩
  · exact fun hj => hkeep mainIndex (Or.inr (Or.inl hj)) v hv ⟨hlab, hy⟩
  · exact fun hj => hkeep mainIndex (Or.inr (Or.inr hj)) v hv ⟨hlab, hy⟩
  · simp only [step06, h6, Option.bind_eq_bind, Option.some_bind, hw6]
  · simp only [step07, hb8, Option.bind_eq_bind, Option.some_bind, hw7]
  · simp only [step08, hc9, Option.bind_eq_bind, Option.some_bind, hw8]

theorem mainPeak_survives_witness :
    ∃ (mainIndex : ℤ) (c : candidate) (bad6 bad7 bad8 : List ℤ) (w6 w7 w8 : Work),
      vecAt (peakCandidates twoPeaks) 1 = some mainIndex ∧ vecAt twoPeaks mainIndex = some c ∧
      c.label = candidateLabel.peak ∧ c.y = 200 ∧
      lowAmplitudeMainPeak twoPeaks ({} : Params).minVoltageMainPeak
        ({} : Params).percentMainePeak = some bad6 ∧
      mainIndex ∉ bad6 ∧
      lowAmplitudePeaks twoPeaks ({} : Params).minVoltage ({} : Params).percentPeak = some bad7 ∧
      mainIndex ∉ bad7 ∧
      inconsistentPeaks twoPeaks ({} : Params).maxDelatAplitudeNotches = some bad8 ∧
      mainIndex ∉ bad8 ∧
      step06 {} (twoPeaks, []) = some w6 ∧ step07 {} w6 = some w7 ∧ step08 {} w7 = some w8 ∧
      (∃ c8 ∈ w8.1, c8.label = candidateLabel.peak ∧ c8.y = 200) ∧ peakCandidates w8.1 ≠ [] :=
  mainPeak_survives twoPeaks {} [] 200 1 twoPeaks_main.1 twoPeaks_main.2 (by norm_num)
    (by constructor <;> norm_num [Params.percentMainePeak])
    (by constructor <;> norm_num [Params.percentPeak])
    (by norm_num [Params.maxDelatAplitudeNotches])

theorem rulesHitAt_cons_ne (name other : String) (n : ℕ) (hits : List (String × ℕ))
    (h : other ≠ name) : rulesHitAt ((other, n) :: hits) name = rulesHitAt hits name := by
  have e : (other == name) = false := by simpa using h
  simp [rulesHitAt, List.find?, e]

/-- The counter `delineator` leaves under `meargingCandidates` is the one step
11 wrote. -/
theorem postProcessing_merge_hits {m : Libm} {twave : List ℚ} {P : Params} {w w15 : Work}
    (h : postProcessing m twave P w = some w15) :
    ∃ w6 w7 w8 c9 w10 out idx, step06 P w = some w6 ∧ step07 P w6 = some w7 ∧
      step08 P w7 = some w8 ∧ reLabellingSlurs w8.1 = some c9 ∧
      step10 (c9, w8.2) = some w10 ∧
      meargingCandidates m twave w10.1 P.minAmplitudeFlatness = some (out, idx) ∧
      rulesHitAt w15.2 "meargingCandidates" = idx.length / 2 := by
  obtain ⟨w6, w7, w8, c9, w10, w11, w12, w13, w14, h6, h7, h8, h9, h10, h11, h12, h13, h14, h15⟩ :=
    (postProcessing_eq_some m twave P w w15).1 h
  simp only [step11, step12, step13, step14, step15,
    Option.bind_eq_bind, Option.bind_eq_some] at h11 h12 h13 h14 h15
  obtain ⟨r11, hr11, r11b, _, h11⟩ := h11
  obtain ⟨b12, _, h12⟩ := h12
  obtain ⟨b13, _, c13, _, h13⟩ := h13
  obtain ⟨b14, _, c14, _, h14⟩ := h14
  obtain ⟨b15, _, h15⟩ := h15
  have e12 := removalStep_hits h12
  simp only [Option.some.injEq] at h11 h13 h14 h15
  refine ⟨w6, w7, w8, c9, w10, r11.1, r11.2, h6, h7, h8, h9, h10, hr11, ?_⟩
  rw [← h15, ← h14, ← h13]
  simp only [e12, ← h11]
  rw [rulesHitAt_cons_ne _ _ _ _ (by decide), rulesHitAt_cons_ne _ _ _ _ (by decide),
    rulesHitAt_cons_ne _ _ _ _ (by decide), rulesHitAt_cons_ne _ _ _ _ (by decide),
    rulesHitAt_cons]

set_option maxRecDepth 1000000 in
theorem discovery_humpsWave :
    discovery libm0 humpsWave {} = some ([humpA, humpB], [("fewPointsCandidates", 0)]) := by
  decide!

set_option maxRecDepth 1000000 in
theorem postProcessing_humpsWave :
    postProcessing libm0 humpsWave {} ([humpA, humpB], [("fewPointsCandidates", 0)]) =
      some ([humpMerged], [("non-measurable", 0), ("convertPeakToSlur", 0),
        ("keepJustTwoPeaks", 0), ("slurClassifier", 0), ("meargingCandidates", 1),
        ("unrelatedSlure", 0), ("inconsistentPeaks", 0), ("lowAmplitudePeaks", 0),
        ("lowAmplitudeMainPeak", 0), ("fewPointsCandidates", 0)]) := by
  decide!

set_option maxRecDepth 1000000 in
theorem stages_humpsWave :
    step06 {} ([humpA, humpB], [("fewPointsCandidates", 0)]) =
        some ([humpA, humpB], [("lowAmplitudeMainPeak", 0), ("fewPointsCandidates", 0)]) ∧
      step07 {} ([humpA, humpB], [("lowAmplitudeMainPeak", 0), ("fewPointsCandidates", 0)]) =
        some ([humpA, humpB], [("lowAmplitudePeaks", 0), ("lowAmplitudeMainPeak", 0),
          ("fewPointsCandidates", 0)]) ∧
      step08 {} ([humpA, humpB], [("lowAmplitudePeaks", 0), ("lowAmplitudeMainPeak", 0),
          ("fewPointsCandidates", 0)]) =
        some ([humpA, humpB], [("inconsistentPeaks", 0), ("lowAmplitudePeaks", 0),
          ("lowAmplitudeMainPeak", 0), ("fewPointsCandidates", 0)]) ∧
      reLabellingSlurs [humpA, humpB] = some [humpA, humpB] ∧
      step10 ([humpA, humpB], [("inconsistentPeaks", 0), ("lowAmplitudePeaks", 0),
          ("lowAmplitudeMainPeak", 0), ("fewPointsCandidates", 0)]) =
        some ([humpA, humpB], [("unrelatedSlure", 0), ("inconsistentPeaks", 0),
          ("lowAmplitudePeaks", 0), ("lowAmplitudeMainPeak", 0), ("fewPointsCandidates", 0)]) := by
  refine ⟨?_, ?_, ?_, ?_, ?_⟩ <;> decide!

set_option maxRecDepth 1000000 in
/-- The merge of the two candidates of `humpsWave`. -/
theorem meargingCandidates_humps :
    meargingCandidates libm0 humpsWave [humpA, humpB] ({} : Params).minAmplitudeFlatness =
      some ([humpA, humpB, humpMerged], [0, 1]) := by
  decide!

theorem survivors_humpsWave :
    survivors libm0 humpsWave {} =
      some ([humpMerged], [("non-measurable", 0), ("convertPeakToSlur", 0),
        ("keepJustTwoPeaks", 0), ("slurClassifier", 0), ("meargingCandidates", 1),
        ("unrelatedSlure", 0), ("inconsistentPeaks", 0), ("lowAmplitudePeaks", 0),
        ("lowAmplitudeMainPeak", 0), ("fewPointsCandidates", 0)]) := by
  simp only [survivors, discovery_humpsWave, Option.bind_eq_bind, Option.some_bind,
    postProcessing_humpsWave]

set_option maxRecDepth 1000000 in
theorem delineator_humpsWave :
    ∃ anns, delineator libm0 humpsWave {} = some anns ∧
      anns.rulesHit = [("non-measurable", 0), ("convertPeakToSlur", 0),
        ("keepJustTwoPeaks", 0), ("slurClassifier", 0), ("meargingCandidates", 1),
        ("unrelatedSlure", 0), ("inconsistentPeaks", 0), ("lowAmplitudePeaks", 0),
        ("lowAmplitudeMainPeak", 0), ("fewPointsCandidates", 0)] := by
  rw [delineator_of_survivors survivors_humpsWave]
  have h : (outputPreparation ({} : Params).pointStart ([humpMerged],
      [("non-measurable", 0), ("convertPeakToSlur", 0),
        ("keepJustTwoPeaks", 0), ("slurClassifier", 0), ("meargingCandidates", 1),
        ("unrelatedSlure", 0), ("inconsistentPeaks", 0), ("lowAmplitudePeaks", 0),
        ("lowAmplitudeMainPeak", 0), ("fewPointsCandidates", 0)])).isSome = true := by decide!
  obtain ⟨anns, ha⟩ := Option.isSome_iff_exists.1 h
  exact ⟨anns, ha, outputPreparation_hits ha⟩

/-- C33 (amended): when `delineator` returns, the counter
`rulesHit["meargingCandidates"]` is the number of merges `meargingCandidates`
performed on the candidates of step 10, each merge counted once: the index list
the rule returns holds two indices per merge, the candidate list grew by one
merged candidate per merge, and the counter is half the length of the index
list. -/
theorem delineator_merge_counter (m : Libm) (twave : List ℚ) (P : Params) (anns : annotation)
    (h : delineator m twave P = some anns) :
    ∃ (w5 w6 w7 w8 : Work) (c9 : List candidate) (w10 : Work) (out : List candidate)
      (idx merges : List ℤ),
      discovery m twave P = some w5 ∧ step06 P w5 = some w6 ∧ step07 P w6 = some w7 ∧
      step08 P w7 = some w8 ∧ reLabellingSlurs w8.1 = some c9 ∧
      step10 (c9, w8.2) = some w10 ∧
      meargingCandidates m twave w10.1 P.minAmplitudeFlatness = some (out, idx) ∧
      idx = pairIndices merges ∧ out.length = w10.1.length + merges.length ∧
      idx.length = 2 * merges.length ∧
      rulesHitAt anns.rulesHit "meargingCandidates" = merges.length := by
  obtain ⟨w5, w15, hd, hp, _, ho⟩ := delineator_eq_some h
  obtain ⟨w6, w7, w8, c9, w10, out, idx, h6, h7, h8, h9, h10, hm, hc⟩ :=
    postProcessing_merge_hits hp
  obtain ⟨qs, hq, _, _, hl, _⟩ := meargingCandidates_spec hm
  have hlen : idx.length = 2 * qs.length := by rw [hq, pairIndices_length]
  refine ⟨w5, w6, w7, w8, c9, w10, out, idx, qs, hd, h6, h7, h8, h9, h10, hm, hq, hl, hlen, ?_⟩
  rw [outputPreparation_hits ho, hc, hlen]
  omega

/-- Witness of C33 (amended) on `humpsWave`. -/
theorem delineator_merge_counter_witness :
    ∃ anns, delineator libm0 humpsWave {} = some anns ∧
      ∃ (w5 w6 w7 w8 : Work) (c9 : List candidate) (w10 : Work) (out : List candidate)
        (idx merges : List ℤ),
        discovery libm0 humpsWave {} = some w5 ∧ step06 {} w5 = some w6 ∧
        step07 {} w6 = some w7 ∧ step08 {} w7 = some w8 ∧ reLabellingSlurs w8.1 = some c9 ∧
        step10 (c9, w8.2) = some w10 ∧
        meargingCandidates libm0 humpsWave w10.1 ({} : Params).minAmplitudeFlatness =
          some (out, idx) ∧
        idx = pairIndices merges ∧ out.length = w10.1.length + merges.length ∧
        idx.length = 2 * merges.length ∧
        rulesHitAt anns.rulesHit "meargingCandidates" = merges.length := by
  obtain ⟨anns, ha, _⟩ := delineator_humpsWave
  exact ⟨anns, ha, delineator_merge_counter libm0 humpsWave {} anns ha⟩

/-- C33 (counterexample): on `humpsWave` steps 01 to 10 leave the two
candidates `humpA` and `humpB`, `meargingCandidates` performs one merge
(it appends `humpMerged` and returns the two indices 0 and 1), and the counter
`delineator` returns is 1, not twice the number of merges. -/
theorem delineator_merge_counter_counterexample :
    ∃ anns, delineator libm0 humpsWave {} = some anns ∧
      discovery libm0 humpsWave {} = some ([humpA, humpB], [("fewPointsCandidates", 0)]) ∧
      step06 {} ([humpA, humpB], [("fewPointsCandidates", 0)]) =
        some ([humpA, humpB], [("lowAmplitudeMainPeak", 0), ("fewPointsCandidates", 0)]) ∧
      step07 {} ([humpA, humpB], [("lowAmplitudeMainPeak", 0), ("fewPointsCandidates", 0)]) =
        some ([humpA, humpB], [("lowAmplitudePeaks", 0), ("lowAmplitudeMainPeak", 0),
          ("fewPointsCandidates", 0)]) ∧
      step08 {} ([humpA, humpB], [("lowAmplitudePeaks", 0), ("lowAmplitudeMainPeak", 0),
          ("fewPointsCandidates", 0)]) =
        some ([humpA, humpB], [("inconsistentPeaks", 0), ("lowAmplitudePeaks", 0),
          ("lowAmplitudeMainPeak", 0), ("fewPointsCandidates", 0)]) ∧
      reLabellingSlurs [humpA, humpB] = some [humpA, humpB] ∧
      step10 ([humpA, humpB], [("inconsistentPeaks", 0), ("lowAmplitudePeaks", 0),
          ("lowAmplitudeMainPeak", 0), ("fewPointsCandidates", 0)]) =
        some ([humpA, humpB], [("unrelatedSlure", 0), ("inconsistentPeaks", 0),
          ("lowAmplitudePeaks", 0), ("lowAmplitudeMainPeak", 0), ("fewPointsCandidates", 0)]) ∧
      meargingCandidates libm0 humpsWave [humpA, humpB] ({} : Params).minAmplitudeFlatness =
        some ([humpA, humpB, humpMerged], [0, 1]) ∧
      rulesHitAt anns.rulesHit "meargingCandidates" = 1 ∧
      rulesHitAt anns.rulesHit "meargingCandidates" ≠ 2 * 1 := by
  obtain ⟨anns, ha, hh⟩ := delineator_humpsWave
  have hc : rulesHitAt anns.rulesHit "meargingCandidates" = 1 := by rw [hh]; decide
  exact ⟨anns, ha, discovery_humpsWave, stages_humpsWave.1, stages_humpsWave.2.1,
    stages_humpsWave.2.2.1, stages_humpsWave.2.2.2.1, stages_humpsWave.2.2.2.2,
    meargingCandidates_humps, hc, by rw [hc]; decide⟩

set_option maxRecDepth 1000000 in
theorem discovery_slurWave :
    discovery libm0 slurWave {} =
      some ([slurShoulder, slurPeak], [("fewPointsCandidates", 0)]) := by
  decide!

set_option maxRecDepth 1000000 in
theorem stagesWith_slurWave :
    (stagesWith slurStagesRelabelFirst libm0 slurWave {}
        ([slurShoulder, slurPeak], [("fewPointsCandidates", 0)])).map
        (fun a => rulesHitAt a.rulesHit "unrelatedSlure") = some 0 ∧
      (stagesWith slurStagesRemoveFirst libm0 slurWave {}
        ([slurShoulder, slurPeak], [("fewPointsCandidates", 0)])).map
        (fun a => rulesHitAt a.rulesHit "unrelatedSlure") = some 1 := by
  constructor <;> decide!

set_option maxRecDepth 1000000 in
theorem slurStages_slurWave :
    (reLabellingSlurs [slurShoulder, slurPeak]).map (List.map (fun c => c.label)) =
        some [candidateLabel.slurRising, candidateLabel.peak] ∧
      unrelatedSlure [slurShoulder, slurPeak] = [0] ∧
      unrelatedSlure [slurShoulder.set_label candidateLabel.slurRising, slurPeak] = [] := by
  refine ⟨?_, ?_, ?_⟩ <;> decide!

theorem pipelineWith_relabelFirst (m : Libm) (twave : List ℚ) (P : Params) :
    pipelineWith slurStagesRelabelFirst m twave P = delineator m twave P := by
  simp only [pipelineWith, stagesWith, slurStagesRelabelFirst, delineator, survivors,
    postProcessing, Option.bind_eq_bind, Option.bind_assoc]

theorem pipelineWith_of_discovery {slurStages : Work → Option Work} {m : Libm} {twave : List ℚ}
    {P : Params} {w5 : Work} (h : discovery m twave P = some w5) :
    pipelineWith slurStages m twave P = stagesWith slurStages m twave P w5 := by
  simp only [pipelineWith, h, Option.bind_eq_bind, Option.some_bind]

/-- C34 (amended): `delineator` runs `reLabellingSlurs` before the removal
of the `slurUnrelated` candidates: for every input its result is that of the
pipeline with the stages in the listed order except that the slurs are
re-labelled first and the candidates still labelled `slurUnrelated` are removed
afterwards. -/
theorem delineator_stage_order (m : Libm) (twave : List ℚ) (P : Params) :
    delineator m twave P = pipelineWith slurStagesRelabelFirst m twave P ∧
      ∀ w8 : Work, slurStagesRelabelFirst w8 =
        (reLabellingSlurs w8.1).bind (fun candids9 =>
          removalStep "unrelatedSlure" (unrelatedSlure candids9) (candids9, w8.2)) :=
  ⟨(pipelineWith_relabelFirst m twave P).symm, fun _ => rfl⟩

/-- C34 (counterexample): on `slurWave` steps 01 to 05 find a shoulder
labelled `slurUnrelated` before the peak. `delineator` re-labels it `slurRising`
and the removal of the `slurUnrelated` candidates then removes nothing, counter
0; the pipeline that removes the `slurUnrelated` candidates first removes the
shoulder, counter 1. The two results differ. -/
theorem delineator_stage_order_counterexample :
    ∃ a b, delineator libm0 slurWave {} = some a ∧
      pipelineWith slurStagesRemoveFirst libm0 slurWave {} = some b ∧
      discovery libm0 slurWave {} =
        some ([slurShoulder, slurPeak], [("fewPointsCandidates", 0)]) ∧
      (reLabellingSlurs [slurShoulder, slurPeak]).map (List.map (fun c => c.label)) =
        some [candidateLabel.slurRising, candidateLabel.peak] ∧
      unrelatedSlure [slurShoulder, slurPeak] = [0] ∧
      unrelatedSlure [slurShoulder.set_label candidateLabel.slurRising, slurPeak] = [] ∧
      rulesHitAt a.rulesHit "unrelatedSlure" = 0 ∧
      rulesHitAt b.rulesHit "unrelatedSlure" = 1 ∧
      delineator libm0 slurWave {} ≠ pipelineWith slurStagesRemoveFirst libm0 slurWave {} := by
  have h1 := stagesWith_slurWave.1
  have h2 := stagesWith_slurWave.2
  have e1 : delineator libm0 slurWave {} = stagesWith slurStagesRelabelFirst libm0 slurWave {}
      ([slurShoulder, slurPeak], [("fewPointsCandidates", 0)]) := by
    rw [← pipelineWith_relabelFirst]
    exact pipelineWith_of_discovery discovery_slurWave
  have e2 : pipelineWith slurStagesRemoveFirst libm0 slurWave {} =
      stagesWith slurStagesRemoveFirst libm0 slurWave {}
      ([slurShoulder, slurPeak], [("fewPointsCandidates", 0)]) :=
    pipelineWith_of_discovery discovery_slurWave
  rw [← e1] at h1
  rw [← e2] at h2
  obtain ⟨a, ha, ha0⟩ := Option.map_eq_some'.1 h1
  obtain ⟨b, hb, hb1⟩ := Option.map_eq_some'.1 h2
  refine ⟨a, b, ha, hb, discovery_slurWave, slurStages_slurWave.1, slurStages_slurWave.2.1,
    slurStages_slurWave.2.2, ha0, hb1, ?_⟩
  intro h
  rw [ha, hb] at h
  simp only [Option.some.injEq] at h
  rw [h, hb1] at ha0
  exact absurd ha0 (by decide)

set_option maxRecDepth 1000000 in
theorem discovery_valleyWave :
    discovery libm0 valleyWave {} = some ([valleyCandidate], [("fewPointsCandidates", 0)]) := by
  decide!

set_option maxRecDepth 1000000 in
theorem postProcessing_valleyWave :
    postProcessing libm0 valleyWave {} ([valleyCandidate], [("fewPointsCandidates", 0)]) =
      some ([valleyCandidate], [("non-measurable", 0), ("convertPeakToSlur", 0),
        ("keepJustTwoPeaks", 0), ("slurClassifier", 0), ("meargingCandidates", 0),
        ("unrelatedSlure", 0), ("inconsistentPeaks", 0), ("lowAmplitudePeaks", 0),
        ("lowAmplitudeMainPeak", 0), ("fewPointsCandidates", 0)]) := by
  decide!

theorem survivors_valleyWave :
    survivors libm0 valleyWave {} =
      some ([valleyCandidate], [("non-measurable", 0), ("convertPeakToSlur", 0),
        ("keepJustTwoPeaks", 0), ("slurClassifier", 0), ("meargingCandidates", 0),
        ("unrelatedSlure", 0), ("inconsistentPeaks", 0), ("lowAmplitudePeaks", 0),
        ("lowAmplitudeMainPeak", 0), ("fewPointsCandidates", 0)]) := by
  simp only [survivors, discovery_valleyWave, Option.bind_eq_bind, Option.some_bind,
    postProcessing_valleyWave]

/-- C37 (failing input): on `valleyWave` one candidate survives all rules,
it is labelled peak, and its rising slope `a0` is 0 while `b0` is not: the
quotient `b0 / a0` of the output assembly is a division by zero. -/
theorem delineator_zero_rising_slope :
    ∃ w first, survivors libm0 valleyWave {} = some w ∧ peakCandidates w.1 = [0] ∧
      vecAt w.1 0 = some first ∧ first.label = candidateLabel.peak ∧ first.a0 = 0 ∧
      first.b0 = 4351 / 22 :=
  ⟨_, valleyCandidate, survivors_valleyWave, by decide!, by decide!, rfl, rfl, rfl⟩

theorem le_of_sign3_neg {d t delta : ℚ} (hd : 0 < delta)
    (h : sign3 (ctrunc ((d - t) * delta)) = -1) : d ≤ t - 1 / delta := by
  have hc : ctrunc ((d - t) * delta) < 0 := by
    unfold sign3 at h
    split at h
    · norm_num at h
    · split at h
      · assumption
      · norm_num at h
  have hx : (d - t) * delta ≤ -1 := by
    unfold ctrunc at hc
    split at hc
    · rename_i h0
      have := Int.floor_nonneg.2 h0
      omega
    · have h1 : ⌈(d - t) * delta⌉ ≤ -1 := by omega
      have h2 := Int.le_ceil ((d - t) * delta)
      have h3 : ((⌈(d - t) * delta⌉ : ℤ) : ℚ) ≤ -1 := by exact_mod_cast h1
      linarith
  have e : (d - t) * delta / delta = d - t := by field_simp
  have h2 := div_le_div_of_nonneg_right hx hd.le
  rw [e] at h2
  have e2 : (-1 : ℚ) / delta = -(1 / delta) := by ring
  rw [e2] at h2
  linarith

theorem DescInv.remark_zero {d row : List ℚ} (h : DescInv d row) (upto : ℤ) :
    DescInv d (remarkFlat 0 row 0 upto) := by
  intro k hk
  rw [remarkFlat_getElem?] at hk
  cases hu : row[k]? with
  | none => rw [hu] at hk; cases hk
  | some u =>
    rw [hu] at hk
    simp only [Option.map_some', Option.some.injEq] at hk
    split at hk
    · norm_num at hk
    · rw [hk] at hu; exact h k hu

theorem DescInv.mark_flat {d row : List ℚ} (h : DescInv d row) (p : ℕ) :
    DescInv d (row.set p 2) := by
  intro k hk
  rw [List.getElem?_set] at hk
  split at hk
  · split at hk
    · simp only [Option.some.injEq] at hk; norm_num at hk
    · cases hk
  · exact h k hk

theorem DescInv.mark_one {d row : List ℚ} (h : DescInv d row) (p : ℕ) (hp : Descends d p) :
    DescInv d (row.set p 1) := by
  intro k hk
  rw [List.getElem?_set] at hk
  split at hk
  · rename_i hpk
    subst hpk
    exact hp
  · exact h k hk

theorem DescInv.remark_one {d row : List ℚ} {t delta : ℚ} (h : DescInv d row)
    (hr : RowInv d t delta row) (upto : ℤ)
    (hflat : ∀ k : ℕ, (k : ℤ) ≤ upto → NearCrossing d t delta k → Descends d k) :
    DescInv d (remarkFlat 1 row 0 upto) := by
  intro k hk
  rw [remarkFlat_getElem?] at hk
  cases hu : row[k]? with
  | none => rw [hu] at hk; cases hk
  | some u =>
    rw [hu] at hk
    simp only [Option.map_some', Option.some.injEq, zero_add] at hk
    split at hk
    · rename_i hc
      rw [hc.2] at hu
      exact hflat k hc.1 (hr.2.2 k hu)
    · rw [hk] at hu; exact h k hu

theorem sweepStep_desc {d : List ℚ} {t delta : ℚ} {jz : ℤ} (hd : 0 < delta) {i : ℕ} {prev cur : ℚ}
    (hprev : d[i - 1]? = some prev) (hcur : d[i]? = some cur) (hi : 1 ≤ i) {st : SweepState}
    (hr : RowInv d t delta st.row) (hdesc : DescInv d st.row) :
    DescInv d (sweepStep t delta jz i prev cur st).row := by
  have hD1 : sign3 (ctrunc ((cur - t) * delta)) = -1 →
      sign3 (ctrunc ((prev - t) * delta)) ≠ -1 → Descends d (i - 1) := by
    intro h1 h2
    exact ⟨i, prev, cur, by omega, hprev, hcur,
      lt_of_le_of_lt (le_of_sign3_neg hd h1) (gt_of_sign3 hd h2)⟩
  have hD2 : sign3 (ctrunc ((cur - t) * delta)) = -1 →
      ∀ k : ℕ, (k : ℤ) ≤ ((i : ℤ) - 1) - 1 → NearCrossing d t delta k → Descends d k := by
    intro h1 k hk hn
    obtain ⟨a, b, ha, _, hab, _⟩ := hn
    exact ⟨i, a, cur, by omega, ha, hcur, lt_of_le_of_lt (le_of_sign3_neg hd h1) hab⟩
  unfold sweepStep
  simp only []
  split_ifs
  all_goals first
    | exact hdesc
    | exact hdesc.remark_zero _
    | exact (hdesc.remark_zero _).remark_zero _
    | exact hdesc.mark_flat _
    | exact (hdesc.mark_one _ (hD1 (by assumption) (by simp [*]))).remark_zero _
    | exact ((hdesc.mark_one _ (hD1 (by assumption) (by simp [*]))).remark_one (hr.set_one _) _
        (hD2 (by assumption))).remark_zero _

theorem sweepLoop_desc {d : List ℚ} {t delta : ℚ} {jz : ℤ} (hd : 0 < delta) :
    ∀ (rest : List ℚ) (prev : ℚ) (i : ℕ) (st : SweepState), d.drop i = rest →
      d[i - 1]? = some prev → 1 ≤ i → RowInv d t delta st.row → PeakInv d t delta jz st.peakRow →
      DescInv d st.row →
      RowInv d t delta (sweepLoop t delta jz rest prev i st).row ∧
        DescInv d (sweepLoop t delta jz rest prev i st).row := by
  intro rest
  induction rest with
  | nil => intro prev i st _ _ _ hr _ hdesc; exact ⟨hr, hdesc⟩
  | cons cur rest ih =>
    intro prev i st hdrop hprev hi hr hp hdesc
    have hcur : d[i]? = some cur := by
      have := congrArg List.head? hdrop
      rw [List.head?_drop] at this
      simpa using this
    have hdrop2 : d.drop (i + 1) = rest := by
      have := congrArg List.tail hdrop
      rw [List.tail_drop] at this
      simpa using this
    obtain ⟨hr2, hp2⟩ := sweepStep_inv hd hprev hcur hi hr hp
    exact ih cur (i + 1) _ hdrop2 (by simpa using hcur) (by omega) hr2 hp2
      (sweepStep_desc hd hprev hcur hi hr hdesc)

theorem zeros_descInv (d : List ℚ) (n : ℕ) : DescInv d (List.replicate n 0) := by
  intro k hk
  rw [List.getElem?_replicate] at hk
  split at hk
  · simp only [Option.some.injEq] at hk; norm_num at hk
  · cases hk

theorem sweepRow_desc (d : List ℚ) (startingSlope delta : ℚ) (zeroSlopeIndex : ℤ) (j : ℕ)
    (hd : 0 < delta) : DescInv d (sweepRow d startingSlope delta zeroSlopeIndex j).1 := by
  unfold sweepRow
  simp only []
  cases d with
  | nil => exact (zeros_descInv [] _).remark_zero _
  | cons d0 rest =>
    obtain ⟨_, hdesc⟩ := @sweepLoop_desc (d0 :: rest) (startingSlope + (j : ℚ) * (-1 / delta)) delta
      (if (j : ℤ) = zeroSlopeIndex - 1 then 0 else if (j : ℤ) = zeroSlopeIndex then 1
        else if (j : ℤ) = zeroSlopeIndex + 1 then 2 else -1) hd rest d0 1
      { row := List.replicate ((d0 :: rest).length - 1) 0,
        peakRow := List.replicate ((d0 :: rest).length - 1) 0, signFlag := true }
      rfl (by simp) (le_refl 1) (zeros_rowInv _ _ _) (zeros_peakInv _ _ _ _) (zeros_descInv _ _)
    exact hdesc.remark_zero _

theorem sweepRows_desc (d : List ℚ) (dmax dmin delta : ℚ) (hd : 0 < delta) :
    ∀ r ∈ sweepRows d dmax dmin delta, DescInv d r.1 := by
  intro r hr
  unfold sweepRows at hr
  simp only [List.mem_map, List.mem_range] at hr
  obtain ⟨j, _, rfl⟩ := hr
  exact sweepRow_desc d _ delta _ j hd

/-- Every finished row of the sweep, for every step: its length, its values, and
the derivative descends after every marked column. With a negative step the
page has at most one row, which has no mark. -/
theorem sweepRows_marks (d : List ℚ) (dmax dmin delta : ℚ) (hmax : vecMax d = some dmax)
    (hmin : vecMin d = some dmin) (hd : delta ≠ 0) :
    ∀ r ∈ sweepRows d dmax dmin delta,
      r.1.length = d.length - 1 ∧ (∀ (k : ℕ) (v : ℚ), r.1[k]? = some v → v = 0 ∨ v = 1) ∧
      DescInv d r.1 := by
  rcases lt_or_gt_of_ne hd with hneg | hpos
  · intro r hr
    have hle : dmin ≤ dmax := (vecMin_spec hmin).2 dmax (vecMax_spec hmax).1
    have hlen := sweepRows_length d dmax dmin delta hd
    have hmono := ctrunc_mono (mul_le_mul_of_nonpos_right hle hneg.le)
    have hne : sweepRows d dmax dmin delta ≠ [] := List.ne_nil_of_mem hr
    have hpos : 0 < (sweepRows d dmax dmin delta).length := List.length_pos.2 hne
    have heq : ctrunc (dmax * delta) = ctrunc (dmin * delta) := by omega
    have hall : ∀ v ∈ d, ctrunc (v * delta) = ctrunc (dmax * delta) := by
      intro v hv
      have h1 := ctrunc_mono (mul_le_mul_of_nonpos_right ((vecMax_spec hmax).2 v hv) hneg.le)
      have h2 := ctrunc_mono (mul_le_mul_of_nonpos_right ((vecMin_spec hmin).2 v hv) hneg.le)
      omega
    unfold sweepRows at hr
    simp only [numberSlope_eq dmax dmin delta hd, List.mem_map, List.mem_range] at hr
    obtain ⟨j, hj, rfl⟩ := hr
    have hj0 : j = 0 := by omega
    subst hj0
    have hflat := sweepRow_flat d ((ctrunc (dmax * delta) : ℚ) / delta) delta
      (ctrunc ((ctrunc (dmax * delta) : ℚ) / delta * delta)) 0 (by
        intro v hv
        have e : (v - ((ctrunc (dmax * delta) : ℚ) / delta +
            ((0 : ℕ) : ℚ) * (-1 / delta))) * delta =
            v * delta - (ctrunc (v * delta) : ℚ) := by
          rw [hall v hv]
          push_cast
          field_simp
        rw [e, ctrunc_sub_self]
        rfl)
    rw [hflat]
    refine ⟨by simp, ?_, zeros_descInv d _⟩
    intro k v hv
    rw [List.getElem?_replicate] at hv
    split at hv
    · simp only [Option.some.injEq] at hv; exact Or.inl hv.symm
    · cases hv
  · intro r hr
    obtain ⟨h1, h2, _⟩ := sweepRows_spec d dmax dmin delta hpos r hr
    exact ⟨h1, h2, sweepRows_desc d dmax dmin delta hpos r hr⟩

/-- The derivative descends after every crossing point `candidateFinder`
returns. -/
theorem candidateFinder_descends (wave d : List ℚ) (delta : ℚ) (amp : List ℚ) (peaks : List ℤ)
    (h : candidateFinder wave d delta = some (amp, peaks)) :
    ∀ p ∈ indicesWhere (fun v => decide (v ≠ 0)) amp, ∃ k : ℕ, p = (k : ℤ) ∧ Descends d k := by
  cases hmax : vecMax d with
  | none => simp [candidateFinder, hmax] at h
  | some dmax =>
    cases hmin : vecMin d with
    | none => simp [candidateFinder, hmax, hmin] at h
    | some dmin =>
      have hcond : delta ≠ 0 ∧
          0 < ctrunc (dmax * delta) - ctrunc (dmin * delta) + 1 := by
        by_contra hc
        have : delta = 0 ∨ ctrunc (((ctrunc (dmax * delta) : ℚ) / delta -
            (ctrunc (dmin * delta) : ℚ) / delta) * delta + 1) ≤ 0 := by
          by_cases h0 : delta = 0
          · exact Or.inl h0
          · right
            rw [numberSlope_eq dmax dmin delta h0]
            by_contra hc2
            exact hc ⟨h0, by omega⟩
        simp only [candidateFinder, hmax, hmin, Option.bind_eq_bind, Option.some_bind,
          if_pos this] at h
        cases h
      rw [candidateFinder_eq wave d delta dmax dmin hmax hmin hcond.1 hcond.2] at h
      simp only [Option.bind_eq_some, Option.some.injEq, Prod.mk.injEq] at h
      obtain ⟨w, _, amp1, hamp, hamp1, _⟩ := h
      subst hamp1
      have hmarks := sweepRows_marks d dmax dmin delta hmax hmin hcond.1
      have hrowlen : ∀ r ∈ (sweepRows d dmax dmin delta).map (fun r => r.1),
          r.length = (List.replicate (d.length - 1) (0 : ℚ)).length := by
        intro r hr
        obtain ⟨x, hx, rfl⟩ := List.mem_map.1 hr
        rw [List.length_replicate]
        exact (hmarks x hx).1
      have hpm := columnMax_length _ _ hrowlen
      rw [List.length_replicate] at hpm
      unfold schur at hamp
      split at hamp
      · simp only [Option.some.injEq] at hamp
        subst hamp
        intro p hp
        obtain ⟨a, ha, hpa⟩ := indicesFrom_mem _ _ 0 p hp
        simp only [Nat.cast_zero, sub_zero, decide_eq_true_eq] at ha hpa
        obtain ⟨hp0, _, _⟩ := vecAt_eq_some ha
        have hak := vecAt_getElem ha
        refine ⟨p.toNat, by omega, ?_⟩
        rw [List.getElem?_zipWith_eq_some] at hak
        obtain ⟨x, y, hx, _, hxy⟩ := hak
        have hklt : p.toNat < d.length - 1 := by
          rw [← hpm]
          exact (List.getElem?_eq_some.1 hx).1
        have hbase : (List.replicate (d.length - 1) (0 : ℚ))[p.toNat]? = some 0 := by
          rw [List.getElem?_replicate, if_pos hklt]
        obtain ⟨v, hv, _, _, h3⟩ := columnMax_getElem? _ _ p.toNat 0 hrowlen hbase
        rw [hx] at hv
        simp only [Option.some.injEq] at hv
        subst hv
        have hx0 : x ≠ 0 := by
          intro h0
          apply hpa
          rw [← hxy, h0, zero_mul]
        rcases h3 with h3 | ⟨r, hr, hrv⟩
        · exact absurd h3 hx0
        · obtain ⟨r0, hr0, rfl⟩ := List.mem_map.1 hr
          obtain ⟨_, h01, hdesc⟩ := hmarks r0 hr0
          rcases h01 p.toNat x hrv with h0 | h1
          · exact absurd h0 hx0
          · rw [h1] at hrv
            exact hdesc p.toNat hrv
      · cases hamp

theorem closeLast_spec {candids out : List candidate} {cr1 rr1 : ℤ}
    (h : closeLast candids cr1 rr1 = some out) :
    ∃ l c, candids = l ++ [c] ∧
      out = l ++ [{ c with candidateRangeInfo1 := cr1, risingRangeInfo1 := rr1 }] := by
  have hne : candids ≠ [] := by
    intro h0
    subst h0
    simp [closeLast, vecAt] at h
  refine ⟨candids.dropLast, candids.getLast hne, (List.dropLast_append_getLast hne).symm, ?_⟩
  have e := closeLast_append candids.dropLast (candids.getLast hne) cr1 rr1
  rw [List.dropLast_append_getLast hne, h, Option.some.injEq] at e
  exact e

theorem rangeLoop_start_nonneg (derivative : List ℚ) (points : List ℤ) (L : ℤ) :
    ∀ (fuel : ℕ) (i : ℤ) (candids : List candidate) (tmp : candidate) (r : ℤ × List candidate),
      (∀ c ∈ candids, 0 ≤ c.candidateRangeInfo0) →
      rangeLoop derivative points L fuel i candids tmp = some r →
      ∀ c ∈ r.2, 0 ≤ c.candidateRangeInfo0 := by
  intro fuel
  induction fuel with
  | zero =>
    intro i candids tmp r hall h
    unfold rangeLoop at h
    split at h
    · simp at h
    · simp only [Option.some.injEq] at h
      subst h
      exact hall
  | succ fuel ih =>
    intro i candids tmp r hall h
    unfold rangeLoop at h
    split at h
    · simp only [Option.bind_eq_bind, Option.bind_eq_some] at h
      obtain ⟨window, _, pi, _, h⟩ := h
      split at h
      · simp only [Option.bind_eq_bind, Option.bind_eq_some] at h
        obtain ⟨fraction, _, p, _, pnext, _, dd, hd, ims, hims, candids1, hclose, last, hlast, h⟩ := h
        obtain ⟨l, c, hl, hout⟩ := closeLast_spec hclose
        subst hl
        subst hout
        rw [vecAt_last, Option.some.injEq] at hlast
        subst hlast
        obtain ⟨hims0, _, _⟩ := lastIndexOfMin_spec hims
        have hsd := span_eq_some hd
        refine ih _ _ _ _ ?_ h
        intro x hx
        rcases List.mem_append.1 hx with hx | hx
        · rcases List.mem_append.1 hx with hx | hx
          · exact hall x (List.mem_append_left _ hx)
          · simp only [List.mem_singleton] at hx
            subst hx
            exact hall c (List.mem_append_right _ (List.mem_singleton_self c))
        · simp only [List.mem_singleton] at hx
          subst hx
          show 0 ≤ ims + p + 1
          omega
      · exact ih _ _ _ r hall h
    · simp only [Option.some.injEq] at h
      subst h
      exact hall

theorem chain_succ {R : candidate → candidate → Prop} :
    ∀ (l : List candidate) (x : candidate), List.Chain' R (l ++ [x]) → ∀ c ∈ l, ∃ b, R c b := by
  intro l
  induction l with
  | nil => intro x _ c hc; simp at hc
  | cons a as ih =>
    intro x h c hc
    rcases List.mem_cons.1 hc with rfl | hc
    · cases as with
      | nil =>
        simp only [List.singleton_append, List.chain'_cons, List.chain'_singleton, and_true] at h
        exact ⟨x, h⟩
      | cons b bs =>
        simp only [List.cons_append, List.chain'_cons] at h
        exact ⟨b, h.1⟩
    · have h2 : List.Chain' R (as ++ [x]) := by
        simp only [List.cons_append] at h
        exact h.tail
      exact ih x h2 c hc

theorem span_of_bounds {α : Type} (v : List α) (a b : ℤ) (h0 : 0 ≤ a) (h1 : a ≤ b)
    (h2 : b < v.length) : ∃ w, span v a b = some w ∧ (w.length : ℤ) = b - a + 1 ∧ w ≠ [] := by
  have h : span v a b = some ((v.drop a.toNat).take (b - a + 1).toNat) := by
    unfold span
    rw [if_pos ⟨h0, h1, h2⟩]
  have hl := (span_eq_some h).2.2.2
  refine ⟨_, h, hl, ?_⟩
  intro hnil
  rw [hnil] at hl
  simp only [List.length_nil, Nat.cast_zero] at hl
  omega

/-- The ranges of the candidates `candidateRangeInfoFinder` builds from crossing
points after each of which the derivative descends. -/
theorem candidateRangeInfoFinder_strict {derivative page : List ℚ} {out : List candidate}
    {L : ℤ}
    (hdesc : ∀ p ∈ indicesWhere (fun v => decide (v ≠ 0)) page,
      ∃ k : ℕ, p = (k : ℤ) ∧ Descends derivative k)
    (h : candidateRangeInfoFinder derivative page [] L = some out) :
    ∀ c ∈ out, 0 ≤ c.candidateRangeInfo0 ∧ c.candidateRangeInfo0 ≤ c.risingRangeInfo0 ∧
      c.risingRangeInfo0 ≤ c.risingRangeInfo1 ∧ c.risingRangeInfo1 < c.candidateRangeInfo1 ∧
      c.candidateRangeInfo1 ≤ (derivative.length : ℤ) - 1 := by
  have hp : (indicesWhere (fun v => decide (v ≠ 0)) page).Pairwise (fun a b => a < b) :=
    (indicesWhere_removable _ page).1
  unfold candidateRangeInfoFinder at h
  simp only [] at h
  generalize indicesWhere (fun v => decide (v ≠ 0)) page = points at h hdesc hp
  by_cases hlen : points.length = 0
  · rw [if_pos hlen, Option.some.injEq] at h
    subst h
    intro c hc
    simp at hc
  rw [if_neg hlen] at h
  simp only [Option.bind_eq_bind, Option.bind_eq_some] at h
  obtain ⟨p0, hp0, d0, hd0, index, hidx, r, hr, plast, hplast, dlast, hdlast, indexLast, hil, h⟩ := h
  obtain ⟨hi0, hi1, _⟩ := lastIndexOfMin_spec hidx
  obtain ⟨hl0, hl1, vmin, hvmin, hminall⟩ := lastIndexOfMin_spec hil
  have hs0 := span_eq_some hd0
  have hsl := span_eq_some hdlast
  have hc0 : ((((({} : candidate).set_candidateRangeInfo index 0).set_candidateRangeInfo p0 1).set_risingRangeInfo
      p0 0)).candidateRangeInfo0 = index := rfl
  have hr0 : ((((({} : candidate).set_candidateRangeInfo index 0).set_candidateRangeInfo p0 1).set_risingRangeInfo
      p0 0)).risingRangeInfo0 = p0 := rfl
  generalize ((({} : candidate).set_candidateRangeInfo index 0).set_candidateRangeInfo p0 1).set_risingRangeInfo
      p0 0 = tmp at hr hc0 hr0
  have hnn := rangeLoop_start_nonneg derivative points L points.length 1 ([] ++ [tmp]) tmp r
    (by intro c hc; simp only [List.nil_append, List.mem_singleton] at hc; subst hc; omega) hr
  have hspec := rangeLoop_spec derivative points L hp [] points.length 1 [] tmp tmp r
    ⟨0, by omega, by rw [hr0]; exact hp0⟩ (by rw [hc0, hr0]; omega)
    (List.chain'_singleton _) (by simp) (by simpa using hr)
  obtain ⟨done1, open1, hr2, ⟨j1, hj1, hj1v⟩, hop, hch, hdone⟩ := hspec
  obtain ⟨i, candids1⟩ := r
  simp only [List.nil_append] at hr2 hj1 hplast h hnn
  subst hr2
  rw [closeLast_append, Option.some.injEq] at h
  subst h
  intro c hc
  rcases List.mem_append.1 hc with hc | hc
  · obtain ⟨b, hb⟩ := chain_succ done1 open1 hch c hc
    obtain ⟨_, _, hmb⟩ := hb
    obtain ⟨hlo, _, v, hv, _⟩ := hmb
    obtain ⟨_, hlt, _⟩ := vecAt_eq_some hv
    obtain ⟨h1, h2, _⟩ := hdone c hc
    exact ⟨hnn c (List.mem_append_left _ hc), h1, h2, hlo, by omega⟩
  · simp only [List.mem_singleton] at hc
    subst hc
    have hrr : open1.risingRangeInfo0 ≤ plast := vecAt_mono hp hj1v hplast hj1
    obtain ⟨k, hk, q, a, b, hkq, hka, hqb, hba⟩ := hdesc plast (vecAt_mem hplast)
    have hqlt : q < derivative.length := (List.getElem?_eq_some.1 hqb).1
    have hpos : 1 ≤ indexLast := by
      by_contra hc0'
      have hz : indexLast = 0 := by omega
      have h1 := span_vecAt hdlast 0 (le_refl 0) (by omega)
      rw [hz] at hvmin
      rw [hvmin, add_zero, hk, vecAt_natCast, hka, Option.some.injEq] at h1
      have hbmem : b ∈ dlast := vecAt_mem_span hdlast (q : ℤ) (by omega) (by omega)
        (by rw [vecAt_natCast]; exact hqb)
      have := hminall b hbmem
      rw [h1] at this
      linarith
    refine ⟨hnn open1 (List.mem_append_right _ (List.mem_singleton_self _)), hop, hrr, ?_, ?_⟩
    · show plast < indexLast + plast
      omega
    · show indexLast + plast ≤ (derivative.length : ℤ) - 1
      omega

set_option maxRecDepth 100000 in
theorem dipWave_ranges :
    firstDifference dipWave = some [1 / 2, -3 / 20, -7 / 20] ∧
      candidateFinder dipWave [1 / 2, -3 / 20, -7 / 20] 10 = some ([1 / 2, 7 / 20], [0, 1]) ∧
      candidateRangeInfoFinder [1 / 2, -3 / 20, -7 / 20] [1 / 2, 7 / 20] [] 10 =
        some [dipCandidate] := by
  refine ⟨?_, ?_, ?_⟩ <;> decide!

/-- C40: for a wave processed in mode 1 (`candidateFinder` returns only
for waves of length at least 3), every candidate `candidateRangeInfoFinder` builds from the output of `candidateFinder`
has `candidateRange[0] < candidateRange[1]`, `risingRange[1] <
candidateRange[1]` and `candidateRange[1] <= derivative.length - 1`; the spans
`delineatorsInfo` takes of the wave and of the derivative for the candidate, and
the sub-spans of these for the rising part, the falling part and the peak
search, are within bounds and non-empty. -/
theorem candidateRangeInfoFinder_within (wave derivative : List ℚ) (deltaStepSlope : ℚ)
    (looseWindow : ℤ) (amp : List ℚ) (peaks : List ℤ) (out : List candidate)
    (hfd : firstDifference wave = some derivative)
    (hcf : candidateFinder wave derivative deltaStepSlope = some (amp, peaks))
    (hr : candidateRangeInfoFinder derivative amp [] looseWindow = some out)
    (c : candidate) (hc : c ∈ out) :
    c.candidateRangeInfo0 < c.candidateRangeInfo1 ∧
      c.risingRangeInfo1 < c.candidateRangeInfo1 ∧
      c.candidateRangeInfo1 ≤ (derivative.length : ℤ) - 1 ∧
      ∃ waveCandidate derivativeCandidate dRise dFall wPeak,
        span wave (c.get_candidateRangeInfo 0) (c.get_candidateRangeInfo 1) =
          some waveCandidate ∧
        span derivative (c.get_candidateRangeInfo 0) (c.get_candidateRangeInfo 1 - 1) =
          some derivativeCandidate ∧
        span derivativeCandidate 0 (c.get_risingRangeInfo 1 - c.get_candidateRangeInfo 0) =
          some dRise ∧
        span derivativeCandidate (c.get_risingRangeInfo 1 - c.get_candidateRangeInfo 0)
          ((derivativeCandidate.length : ℤ) - 1) = some dFall ∧
        span waveCandidate (c.get_risingRangeInfo 0 - c.get_candidateRangeInfo 0)
          (c.get_risingRangeInfo 1 - c.get_candidateRangeInfo 0) = some wPeak ∧
        waveCandidate ≠ [] ∧ derivativeCandidate ≠ [] ∧ dRise ≠ [] ∧ dFall ≠ [] ∧
        wPeak ≠ [] := by
  have hlen := firstDifference_length hfd
  obtain ⟨h0, h1, h2, h3, h4⟩ := candidateRangeInfoFinder_strict
    (candidateFinder_descends wave derivative deltaStepSlope amp peaks hcf) hr c hc
  have g0 : c.get_candidateRangeInfo 0 = c.candidateRangeInfo0 := rfl
  have g1 : c.get_candidateRangeInfo 1 = c.candidateRangeInfo1 := rfl
  have g2 : c.get_risingRangeInfo 0 = c.risingRangeInfo0 := rfl
  have g3 : c.get_risingRangeInfo 1 = c.risingRangeInfo1 := rfl
  rw [g0, g1, g2, g3]
  obtain ⟨wc, hwc, hwl, hwne⟩ := span_of_bounds wave c.candidateRangeInfo0 c.candidateRangeInfo1
    h0 (by omega) (by omega)
  obtain ⟨dc, hdc, hdl, hdne⟩ := span_of_bounds derivative c.candidateRangeInfo0
    (c.candidateRangeInfo1 - 1) h0 (by omega) (by omega)
  obtain ⟨dRise, hdr, _, hdrne⟩ := span_of_bounds dc 0
    (c.risingRangeInfo1 - c.candidateRangeInfo0) (le_refl 0) (by omega) (by omega)
  obtain ⟨dFall, hdf, _, hdfne⟩ := span_of_bounds dc
    (c.risingRangeInfo1 - c.candidateRangeInfo0) ((dc.length : ℤ) - 1) (by omega) (by omega)
    (by omega)
  obtain ⟨wPeak, hwp, _, hwpne⟩ := span_of_bounds wc
    (c.risingRangeInfo0 - c.candidateRangeInfo0) (c.risingRangeInfo1 - c.candidateRangeInfo0)
    (by omega) (by omega) (by omega)
  exact ⟨by omega, h3, h4, wc, dc, dRise, dFall, wPeak, hwc, hdc, hdr, hdf, hwp, hwne, hdne,
    hdrne, hdfne, hwpne⟩

/-- Witness of C40 on `dipWave`. -/
theorem candidateRangeInfoFinder_within_witness :
    dipCandidate.candidateRangeInfo0 < dipCandidate.candidateRangeInfo1 ∧
      dipCandidate.risingRangeInfo1 < dipCandidate.candidateRangeInfo1 ∧
      dipCandidate.candidateRangeInfo1 ≤ (([1 / 2, -3 / 20, -7 / 20] : List ℚ).length : ℤ) - 1 ∧
      ∃ waveCandidate derivativeCandidate dRise dFall wPeak,
        span dipWave (dipCandidate.get_candidateRangeInfo 0)
          (dipCandidate.get_candidateRangeInfo 1) = some waveCandidate ∧
        span ([1 / 2, -3 / 20, -7 / 20] : List ℚ) (dipCandidate.get_candidateRangeInfo 0)
          (dipCandidate.get_candidateRangeInfo 1 - 1) = some derivativeCandidate ∧
        span derivativeCandidate 0
          (dipCandidate.get_risingRangeInfo 1 - dipCandidate.get_candidateRangeInfo 0) =
          some dRise ∧
        span derivativeCandidate
          (dipCandidate.get_risingRangeInfo 1 - dipCandidate.get_candidateRangeInfo 0)
          ((derivativeCandidate.length : ℤ) - 1) = some dFall ∧
        span waveCandidate
          (dipCandidate.get_risingRangeInfo 0 - dipCandidate.get_candidateRangeInfo 0)
          (dipCandidate.get_risingRangeInfo 1 - dipCandidate.get_candidateRangeInfo 0) =
          some wPeak ∧
        waveCandidate ≠ [] ∧ derivativeCandidate ≠ [] ∧ dRise ≠ [] ∧ dFall ≠ [] ∧
        wPeak ≠ [] :=
  candidateRangeInfoFinder_within dipWave [1 / 2, -3 / 20, -7 / 20] 10 10 [1 / 2, 7 / 20] [0, 1]
    [dipCandidate] dipWave_ranges.1 dipWave_ranges.2.1 dipWave_ranges.2.2
    dipCandidate (List.mem_singleton_self _)

/-! ## A concave hump through the pipeline -/

theorem sweepStep_lengths (t δ : ℚ) (jz : ℤ) (i : ℕ) (prev cur : ℚ) (st : SweepState) :
    (sweepStep t δ jz i prev cur st).row.length = st.row.length ∧
      (sweepStep t δ jz i prev cur st).peakRow.length = st.peakRow.length := by
  unfold sweepStep
  simp only
  split_ifs <;> simp [remarkFlat_length, markPeakFlat_length, List.length_set]

theorem sweepLoop_lengths (t δ : ℚ) (jz : ℤ) : ∀ (rest : List ℚ) (prev : ℚ) (i : ℕ)
    (st : SweepState),
    (sweepLoop t δ jz rest prev i st).row.length = st.row.length ∧
      (sweepLoop t δ jz rest prev i st).peakRow.length = st.peakRow.length := by
  intro rest
  induction rest with
  | nil => intro prev i st; exact ⟨rfl, rfl⟩
  | cons cur rest ih =>
    intro prev i st
    have h := ih cur (i + 1) (sweepStep t δ jz i prev cur st)
    have h2 := sweepStep_lengths t δ jz i prev cur st
    simp only [sweepLoop]
    exact ⟨h.1.trans h2.1, h.2.trans h2.2⟩

end Ecglib
